import Mathlib

/-! # Sliding-tile best-first search (`seq/astar.c`, `parallel/mpi_threads_astar.c`)

A shallow embedding of the 4x4 sliding-tile solver.

* C `int` values are modelled by `Int`; the only place where a sum of board
  dependent size is accumulated is `manhattan_distance`, whose accumulator is
  reduced with `wrap32` (two's complement, 32 bit) after each addition.
* `int board[ROWS][COLS]` is a total function `Fin 4 → Fin 4 → Int`; an access
  with an index outside `0..3` is a memory fault (`none`).
* `struct Board* parent` is followed only through records that are never
  written after they were created, so the chain of ancestors is held by value
  (`BoardPtr`).
* `Node`s live in an arena (`Mem`); a `Node*` is an address into the arena, so
  the sharing of one node between the open and the closed list is kept.
-/

namespace AStar

/-! ## Machine integers -/

/-- The constant `INT_MAX` of `limits.h` for a 32 bit `int`. -/
def INT_MAX : Int := 2147483647

/-- Reduction of a mathematical integer to the 32 bit two's-complement range. -/
def wrap32 (x : Int) : Int := (x + 2147483648) % 4294967296 - 2147483648

/-- The library function `abs` on an `int` whose negation is representable. -/
def c_abs (x : Int) : Int := if x < 0 then -x else x

/-! ## Data model -/

/-- The array `int board[ROWS][COLS]` with `ROWS = COLS = 4`. -/
abbrev Grid := Fin 4 → Fin 4 → Int

/-- A value of type `struct Board*`: `NULL`, or the record it points to. -/
inductive BoardPtr where
  | NULL : BoardPtr
  | ptr (board : Grid) (h_score : Int) (parent : BoardPtr) : BoardPtr

/-- The record `struct Board`. -/
structure Board where
  board : Grid
  h_score : Int
  parent : BoardPtr

/-- The address of a board record (`&b`), by value. -/
def Board.addr (b : Board) : BoardPtr := BoardPtr.ptr b.board b.h_score b.parent

/-- Dereference of a `struct Board*`. -/
def BoardPtr.deref : BoardPtr → Option Board
  | BoardPtr.NULL => none
  | BoardPtr.ptr g h p => some ⟨g, h, p⟩

/-- The record `struct Action`; `direction` is `NULL` or a C string. -/
structure Action where
  direction : Option String
  row : Int
  col : Int
  value : Int
deriving DecidableEq

/-- The row and column indices `0, 1, 2, 3` in loop order. -/
def idx4 : List (Fin 4) := [0, 1, 2, 3]

/-- Conversion of an `int` index to an in-range array index. -/
def toIdx (x : Int) : Option (Fin 4) :=
  if h : 0 ≤ x ∧ x < 4 then some ⟨x.toNat, by omega⟩ else none

/-- The assignment `g[i][j] = v`. -/
def Grid.set (g : Grid) (i j : Fin 4) (v : Int) : Grid :=
  fun a b => if a = i ∧ b = j then v else g a b

/-! ## Boards -/

/-- The function `make_empty_board`. -/
def make_empty_board : Board :=
  { board := fun _ _ => 0, h_score := 0, parent := BoardPtr.NULL }

/-- The function `compare_boards`: `0` when all cells agree, `-1` otherwise. -/
def compare_boards (x y : Grid) : Int :=
  if idx4.all (fun i => idx4.all (fun j => decide (x i j = y i j))) then 0 else -1

/-- The function `copy_board a b`: the contents of `b` afterwards. -/
def copy_board (a : Board) (_b : Board) : Board :=
  { board := fun i j => a.board i j, h_score := a.h_score, parent := a.parent }

/-- The function `make_action`. -/
def make_action (direction : Option String) (row col value : Int) : Action :=
  { direction := direction, row := row, col := col, value := value }

/-! ## Heuristic -/

/-- The body of the inner loop of `manhattan_distance` at cell `(i, j)`. -/
def md_cell (g : Grid) (i j : Fin 4) (sum : Int) : Int :=
  let value := g i j
  if value ≠ 0 then
    let goal_x := Int.tdiv value 4
    let goal_y := Int.tmod value 4
    let dx := (i.val : Int) - goal_x
    let dy := (j.val : Int) - goal_y
    wrap32 (sum + (c_abs dx + c_abs dy))
  else sum

/-- The function `manhattan_distance`. -/
def manhattan_distance (brd : Board) : Int :=
  idx4.foldl (fun sum i => idx4.foldl (fun sum j => md_cell brd.board i j sum) sum) 0

/-- The distance of one tile from its goal cell, as the specification words it:
`|i - v/4| + |j - v%4|` for a non-zero value `v`, nothing for the blank. -/
def tile_distance (i j : Fin 4) (v : Int) : Int :=
  if v = 0 then 0 else |(i.val : Int) - Int.tdiv v 4| + |(j.val : Int) - Int.tmod v 4|

/-- The sum of the tile distances over all cells, as the specification words it. -/
def manhattan_sum (g : Grid) : Int :=
  ∑ i : Fin 4, ∑ j : Fin 4, tile_distance i j (g i j)

/-! ## Moves -/

/-- The array `poss_actions` of `possible_actions` with the counter `index`. -/
structure ActBuf where
  slots : List Action
  index : Nat

/-- The statements `poss_actions[index] = act; index++`; a store past the four
allocated slots is a memory fault. -/
def ActBuf.store (buf : ActBuf) (act : Action) : Option ActBuf :=
  if buf.index < 4 then some ⟨buf.slots.set buf.index act, buf.index + 1⟩ else none

/-- The body of the inner loop of `possible_actions` at cell `(i, j)`: the four
tests in the order right, left, up, down.  A neighbour index `j + 1`, `j - 1`,
`i - 1`, `i + 1` is only formed under the guard that keeps it inside `0..3`. -/
def scan_cell (g : Grid) (i j : Fin 4) (buf : ActBuf) : Option ActBuf :=
  (if j ≠ 3 then
    (if g i j ≠ 0 ∧ g i (j + 1) = 0 then
      buf.store (make_action (some "RIGHT") i.val j.val (g i j))
     else some buf)
   else some buf).bind fun buf =>
  (if j ≠ 0 then
    (if g i j ≠ 0 ∧ g i (j - 1) = 0 then
      buf.store (make_action (some "LEFT") i.val j.val (g i j))
     else some buf)
   else some buf).bind fun buf =>
  (if i ≠ 0 then
    (if g i j ≠ 0 ∧ g (i - 1) j = 0 then
      buf.store (make_action (some "UP") i.val j.val (g i j))
     else some buf)
   else some buf).bind fun buf =>
  (if i ≠ 3 then
    (if g i j ≠ 0 ∧ g (i + 1) j = 0 then
      buf.store (make_action (some "DOWN") i.val j.val (g i j))
     else some buf)
   else some buf)

/-- The function `possible_actions`: the four-slot array it returns, or `none`
when a store goes past the end of the array. -/
def possible_actions (brd : Board) : Option (List Action) :=
  let init : ActBuf := ⟨List.replicate 4 (make_action none (-1) (-1) (-1)), 0⟩
  (idx4.foldlM (fun buf i => idx4.foldlM (fun buf j => scan_cell brd.board i j buf) buf) init).map
    (fun buf => buf.slots)

/-- The exchange of `g[r][c]` with `g[r2][c2]` through the temporary `move`, as
in each branch of `result`. -/
def swap_cells (g : Grid) (r c r2 c2 : Int) : Option Grid := do
  let i ← toIdx r
  let j ← toIdx c
  let i2 ← toIdx r2
  let j2 ← toIdx c2
  let move := g i j
  let g1 := g.set i j (g i2 j2)
  pure (g1.set i2 j2 move)

/-- The branches of `result` on the direction string: the grid after the
exchange of the tile with its neighbour in that direction. -/
def moved_grid (act : Action) (dir : String) (copy : Grid) : Option Grid :=
  if dir = "RIGHT" then swap_cells copy act.row act.col act.row (act.col + 1)
  else if dir = "LEFT" then swap_cells copy act.row act.col act.row (act.col - 1)
  else if dir = "UP" then swap_cells copy act.row act.col (act.row - 1) act.col
  else swap_cells copy act.row act.col (act.row + 1) act.col

/-- The function `result`: the successor board, with `brd` as its parent and
the Manhattan distance as its score.  A `NULL` direction or an index outside
the grid is a memory fault. -/
def result (act : Action) (brd : Board) : Option Board :=
  act.direction.bind fun dir =>
  (moved_grid act dir (fun i j => brd.board i j)).bind fun g =>
  some { board := g,
         h_score := manhattan_distance { board := g, h_score := 0, parent := brd.addr },
         parent := brd.addr }

/-- The loop of `expand` over the action array: stop at the first `NULL`
direction or after four entries. -/
def expand_loop (brd : Board) : List Action → Option (List Board)
  | [] => some []
  | act :: rest =>
    match act.direction with
    | none => some []
    | some _ => do
      let tmp ← result act brd
      let more ← expand_loop brd rest
      pure (tmp :: more)

/-- The function `expand`: the successor boards in the order of the actions.
The list it builds is fresh and is only appended to, so it is held as a list. -/
def expand (brd : Board) : Option (List Board) := do
  let acts ← possible_actions brd
  expand_loop brd (acts.take 4)

/-! ## Linked lists -/

/-- The two ways in which a call fails to return: a memory fault (use of a
`NULL` or indeterminate pointer, an index outside an array) and a loop that
never ends. -/
inductive Fail where
  | fault : Fail
  | diverge : Fail
deriving DecidableEq

/-- A memory fault for an absent value. -/
def orFault {α : Type} : Option α → Except Fail α
  | some a => Except.ok a
  | none => Except.error Fail.fault

/-- The record `struct Node`: the board it holds and the address of the next node. -/
structure Node where
  board : Board
  next : Option Nat

/-- The allocated nodes; the address of a node is its position. -/
abbrev Mem := List Node

/-- The record `struct LinkedList`. -/
structure LinkedList where
  size : Int
  head : Option Nat
  tail : Option Nat
deriving DecidableEq

/-- Dereference of a `Node*`. -/
def rd (mem : Mem) (p : Option Nat) : Except Fail Node :=
  match p with
  | none => Except.error Fail.fault
  | some a => orFault (mem.get? a)

/-- The assignment `p->next = nx`. -/
def set_next (mem : Mem) (p : Option Nat) (nx : Option Nat) : Except Fail Mem := do
  let nd ← rd mem p
  match p with
  | none => Except.error Fail.fault
  | some a => pure (mem.set a { nd with next := nx })

/-- The function `make_node`: the new memory and the address of the node. -/
def make_node (mem : Mem) (brd : Board) : Mem × Option Nat :=
  (mem ++ [{ board := brd, next := none }], some mem.length)

/-- The function `make_list`. -/
def make_list : LinkedList := { size := 0, head := none, tail := none }

/-- The function `push`. -/
def push (mem : Mem) (ll : LinkedList) (node : Option Nat) : Except Fail (Mem × LinkedList) :=
  if ll.size = 0 then
    pure (mem, { size := ll.size + 1, head := node, tail := node })
  else if ll.size = 1 then do
    let mem ← set_next mem ll.head node
    pure (mem, { size := ll.size + 1, head := ll.head, tail := node })
  else do
    let mem ← set_next mem ll.tail node
    pure (mem, { size := ll.size + 1, head := ll.head, tail := node })

/-- The loop `while(prev->next->next != NULL) prev = prev->next;` of
`remove_node`.  The loop only reads memory, so when it has not stopped after
one test per allocated node it never stops. -/
def find_tail_prev (mem : Mem) : Nat → Option Nat → Except Fail (Option Nat)
  | 0, _ => Except.error Fail.diverge
  | n + 1, prev => do
    let p ← rd mem prev
    let q ← rd mem p.next
    if q.next ≠ none then find_tail_prev mem n p.next else pure prev

/-- The loop `while(prev->next != node && prev->next != NULL) prev = prev->next;`
of `remove_node`. -/
def find_prev (mem : Mem) (node : Option Nat) : Nat → Option Nat → Except Fail (Option Nat)
  | 0, _ => Except.error Fail.diverge
  | n + 1, prev => do
    let p ← rd mem prev
    if p.next ≠ node ∧ p.next ≠ none then find_prev mem node n p.next else pure prev

/-- The body of `remove_node` (the whole function in the parallel file). -/
def remove_node_body (mem : Mem) (list : LinkedList) (node : Option Nat) :
    Except Fail (Mem × LinkedList) :=
  if list.size = 1 then
    pure (mem, { size := list.size - 1, head := none, tail := none })
  else if list.size = 2 then
    if list.head = node then
      pure (mem, { size := list.size - 1, head := list.tail, tail := list.tail })
    else
      pure (mem, { size := list.size - 1, head := list.head, tail := list.head })
  else
    if list.head = node then do
      let h ← rd mem list.head
      pure (mem, { size := list.size - 1, head := h.next, tail := list.tail })
    else if list.tail = node then do
      let prev ← find_tail_prev mem (mem.length + 1) list.head
      pure (mem, { size := list.size - 1, head := list.head, tail := prev })
    else do
      let prev ← find_prev mem node (mem.length + 1) list.head
      let p ← rd mem prev
      let q ← rd mem p.next
      let mem ← set_next mem prev q.next
      pure (mem, { size := list.size - 1, head := list.head, tail := list.tail })

/-- The function `remove_node` of the sequential file. -/
def remove_node (mem : Mem) (list : LinkedList) (node : Option Nat) :
    Except Fail (Mem × LinkedList) :=
  if node ≠ none then remove_node_body mem list node else pure (mem, list)

/-- The loop `while(tmp != list->tail)` of `find_min_h`, returning `min` and
`result`; `result` is `none` while it is not assigned. -/
def find_min_loop (mem : Mem) (tail : Option Nat) :
    Nat → Option Nat → Int → Option Nat → Except Fail (Int × Option Nat)
  | 0, _, _, _ => Except.error Fail.diverge
  | n + 1, tmp, min, res =>
    if tmp ≠ tail then do
      let t ← rd mem tmp
      if min > t.board.h_score then find_min_loop mem tail n t.next t.board.h_score tmp
      else find_min_loop mem tail n t.next min res
    else pure (min, res)

/-- The function `find_min_h`; the value is `none` when `result` is returned
without having been assigned. -/
def find_min_h (mem : Mem) (list : LinkedList) : Except Fail (Option Nat) := do
  let (min, res) ← find_min_loop mem list.tail (mem.length + 1) list.head INT_MAX none
  let t ← rd mem list.tail
  if min > t.board.h_score then pure list.tail else pure res

/-- The loop `while(tmp != list->tail)` of `in_list`: `true` when a node with
an equal board was met before the tail. -/
def in_list_loop (mem : Mem) (tail : Option Nat) (g : Grid) :
    Nat → Option Nat → Except Fail Bool
  | 0, _ => Except.error Fail.diverge
  | n + 1, tmp =>
    if tmp ≠ tail then do
      let t ← rd mem tmp
      if compare_boards t.board.board g = 0 then pure true
      else in_list_loop mem tail g n t.next
    else pure false

/-- The function `in_list`: `0` when a node of the list has a board equal to
the board of `node`, `-1` otherwise. -/
def in_list (mem : Mem) (list : LinkedList) (node : Option Nat) : Except Fail Int :=
  if list.head = none then pure (-1)
  else do
    let nd ← rd mem node
    let hit ← in_list_loop mem list.tail nd.board.board (mem.length + 1) list.head
    if hit then pure 0
    else do
      let t ← rd mem list.tail
      if compare_boards t.board.board nd.board.board = 0 then pure 0 else pure (-1)

/-- The number of boards printed by `print_parents`, its counter `steps`. -/
def BoardPtr.links : BoardPtr → Nat
  | BoardPtr.NULL => 0
  | BoardPtr.ptr _ _ p => p.links + 1

/-- The boards printed by `print_parents` for a node holding `b`: `b` and its
ancestors, as long as the board has a parent. -/
def print_parents_boards (b : Board) : List Grid :=
  match b.parent with
  | BoardPtr.NULL => []
  | BoardPtr.ptr g _ p => b.board :: go g p
where
  /-- The boards printed from the record with grid `g` and parent `p` on. -/
  go (g : Grid) : BoardPtr → List Grid
    | BoardPtr.NULL => []
    | BoardPtr.ptr g2 _ p2 => g :: go g2 p2

/-- The counter `steps` of `print_parents`: the number of ancestor links. -/
def print_parents (b : Board) : Nat := b.parent.links

/-- The record reached from the record with grid `g`, score `h` and parent `p`
by the assignments `node->board = node->board->parent` of `print_parents`: the
ancestor without parent. -/
def BoardPtr.last (g : Grid) (h : Int) : BoardPtr → Board
  | BoardPtr.NULL => { board := g, h_score := h, parent := BoardPtr.NULL }
  | BoardPtr.ptr g2 h2 p2 => BoardPtr.last g2 h2 p2

/-- The record that `node->board` points to when `print_parents(node)` returns,
for a node that held `b`. -/
def board_after_print (b : Board) : Board := BoardPtr.last b.board b.h_score b.parent

/-! ## Sequential driver -/

/-- The variables of `a_star_search` that live across loop iterations. -/
structure State where
  mem : Mem
  closed_list : LinkedList
  open_list : LinkedList
  iters : Int

/-- The ways in which `a_star_search` returns. -/
inductive Outcome where
  | initial : Outcome
  | found (iters : Int) (current : Board) : Outcome
  | not_found (iters : Int) : Outcome

/-- The value returned by `a_star_search`. -/
def Outcome.code : Outcome → Int
  | Outcome.initial => 0
  | Outcome.found _ _ => 0
  | Outcome.not_found _ => -1

/-- The loop `while(tmp != NULL)` of the driver that looks for the node of the
open list with the board `g`. -/
def find_match (mem : Mem) (g : Grid) : Nat → Option Nat → Except Fail (Option Nat)
  | 0, _ => Except.error Fail.diverge
  | n + 1, tmp =>
    match tmp with
    | none => pure none
    | some a => do
      let t ← rd mem (some a)
      if compare_boards t.board.board g = 0 then pure (some a)
      else find_match mem g n t.next

/-- The statements `tmp->board->parent = ...; tmp->board->h_score = ...`. -/
def set_parent_score (mem : Mem) (tmp : Option Nat) (parent : BoardPtr) (h : Int) :
    Except Fail Mem := do
  let t ← rd mem tmp
  match tmp with
  | none => Except.error Fail.fault
  | some a => pure (mem.set a { t with board := { t.board with parent := parent, h_score := h } })

/-- The body of the loop `while(check != NULL)` of the sequential driver for
one successor `check`. -/
def merge_one (s : State) (check : Board) : Except Fail State := do
  let x := copy_board check make_empty_board
  let (mem, copy) := make_node s.mem x
  if (← in_list mem s.closed_list copy) = 0 then
    pure { s with mem := mem }
  else if (← in_list mem s.open_list copy) = 0 then do
    let tmp ← find_match mem x.board (mem.length + 1) s.open_list.head
    let t ← rd mem tmp
    if t.board.h_score > x.h_score then do
      let mem ← set_parent_score mem tmp x.parent x.h_score
      pure { s with mem := mem }
    else pure { s with mem := mem }
  else do
    let (mem, ol) ← push mem s.open_list copy
    pure { s with mem := mem, open_list := ol }

/-- One iteration of the loop `while(open_list->size != 0)` of the sequential
driver: the state for the next iteration, or the outcome of a `return`. -/
def iteration (goal : Board) (s : State) : Except Fail (State ⊕ Outcome) := do
  let remove ← find_min_h s.mem s.open_list
  let r ← rd s.mem remove
  let b := copy_board r.board make_empty_board
  let (mem, cl) ← push s.mem s.closed_list remove
  let (mem, ol) ← remove_node mem s.open_list remove
  let check_list ← orFault (expand b)
  if compare_boards b.board goal.board = 0 then
    pure (Sum.inr (Outcome.found s.iters b))
  else do
    let s2 ← check_list.foldlM merge_one
      { mem := mem, closed_list := cl, open_list := ol, iters := s.iters }
    pure (Sum.inl { s2 with iters := s2.iters + 1 })

/-- The loop `while(open_list->size != 0)` run for at most `n` iterations;
`none` when the loop is still running after them. -/
def search_loop (goal : Board) : Nat → State → Except Fail (Option Outcome)
  | 0, s => if s.open_list.size ≠ 0 then pure none else pure (some (Outcome.not_found s.iters))
  | n + 1, s =>
    if s.open_list.size ≠ 0 then do
      match ← iteration goal s with
      | Sum.inl s2 => search_loop goal n s2
      | Sum.inr o => pure (some o)
    else pure (some (Outcome.not_found s.iters))

/-- The state of the sequential driver when it first tests the loop condition. -/
def init_state (start : Board) : Except Fail State := do
  let start2 : Board := { start with h_score := manhattan_distance start }
  let (mem, first) := make_node [] start2
  let (mem, ol) ← push mem make_list first
  pure { mem := mem, closed_list := make_list, open_list := ol, iters := 0 }

/-- The sequential function `a_star_search`, with a bound `n` on the number
of iterations of its main loop. -/
def a_star_search (start goal : Board) (n : Nat) : Except Fail (Option Outcome) := do
  let s ← init_state start
  if compare_boards start.board goal.board = 0 then pure (some Outcome.initial)
  else search_loop goal n s

/-! ## Parallel driver -/

/-- The global `first_proc_finished`: the rank from which the flag is broadcast. -/
def first_proc_finished : Int := 1

/-- The variables of the parallel `a_star_search` that live across loop
iterations, and `printed`: the boards of the nodes handed to `print_parents`
so far, the latest first. -/
structure PState where
  mem : Mem
  closed_list : LinkedList
  open_list : LinkedList
  iters : Int
  solution_found : Int
  printed : List Board

/-- The function `find_parents`: the number of ancestor links of a board. -/
def find_parents (brd : Board) : Int := (brd.parent.links : Int)

/-- The division of two `int`s; a zero divisor is a fault. -/
def c_div (a b : Int) : Except Fail Int :=
  if b = 0 then Except.error Fail.fault else pure (wrap32 (Int.tdiv a b))

/-- The loop `while(first != NULL && count != start)` of `find_min_h_parallel`.
The counter takes every `int` value within `2^32` steps, so the loop ends
within that many steps. -/
def skip_loop (mem : Mem) (start : Int) :
    Nat → Option Nat → Int → Except Fail (Option Nat × Int)
  | 0, _, _ => Except.error Fail.diverge
  | n + 1, first, count =>
    if first ≠ none ∧ count ≠ start then do
      let f ← rd mem first
      skip_loop mem start n f.next (wrap32 (count + 1))
    else pure (first, count)

/-- The loop `while(first != NULL && count != stop)` of `find_min_h_parallel`. -/
def scan_loop (mem : Mem) (stop : Int) :
    Nat → Option Nat → Int → Int → Option Nat → Except Fail (Option Nat)
  | 0, _, _, _, _ => Except.error Fail.diverge
  | n + 1, first, count, min, res =>
    if first ≠ none ∧ count ≠ stop then do
      let f ← rd mem first
      if min > f.board.h_score then
        scan_loop mem stop n f.next (wrap32 (count + 1)) f.board.h_score first
      else scan_loop mem stop n f.next (wrap32 (count + 1)) min res
    else pure res

/-- The function `find_min_h_parallel`; the value is `none` when `result` is
returned without having been assigned. -/
def find_min_h_parallel (mem : Mem) (list : LinkedList) (start stop : Int) :
    Except Fail (Option Nat) := do
  let (first, count) ← skip_loop mem start 4294967297 list.head 0
  scan_loop mem stop 4294967297 first count INT_MAX none

/-- The statements of the parallel driver that choose the node `remove`. -/
def extract_min (mem : Mem) (list : LinkedList) (rank nprocs : Int) :
    Except Fail (Option Nat) := do
  let first ← c_div (wrap32 (rank * list.size)) nprocs
  let stop ← c_div (wrap32 (wrap32 (rank + 1) * list.size)) nprocs
  let _ ← find_min_h mem list
  if list.size < wrap32 (nprocs * 2) then find_min_h mem list
  else find_min_h_parallel mem list first stop

/-- The body of the loop `while(check != NULL)` of the parallel driver for one
successor `check`. -/
def par_merge_one (s : PState) (check : Board) : Except Fail PState := do
  let x := copy_board check make_empty_board
  let (mem, copy) := make_node s.mem x
  if (← in_list mem s.closed_list copy) = 0 then
    pure { s with mem := mem }
  else if (← in_list mem s.open_list copy) = 0 then do
    let tmp ← find_match mem x.board (mem.length + 1) s.open_list.head
    let t ← rd mem tmp
    if find_parents t.board > find_parents x then do
      let mem ← set_parent_score mem tmp x.parent x.h_score
      pure { s with mem := mem }
    else pure { s with mem := mem }
  else do
    let (mem, ol) ← push mem s.open_list copy
    pure { s with mem := mem, open_list := ol }

/-- The call of `MPI_Bcast` with root `first_proc_finished`: the root keeps its
own value, every other rank receives the value `root_flag` held by the root. -/
def bcast (rank own root_flag : Int) : Int :=
  if rank = first_proc_finished then own else root_flag

/-- One iteration of the loop of the parallel driver, where `root_flag` is the
value of `solution_found` held by the root of the broadcast: the state
afterwards and the value returned, if the function returns.  After a goal hit
`print_parents(current)` has left `current->board` at the ancestor without
parent, and that is the board `expand(current->board)` is called on. -/
def par_iteration (goal : Board) (rank nprocs root_flag : Int) (s : PState) :
    Except Fail (PState × Option Int) := do
  let remove ← extract_min s.mem s.open_list rank nprocs
  let r ← rd s.mem remove
  let b := copy_board r.board make_empty_board
  let (mem, cl) ← push s.mem s.closed_list remove
  let (mem, ol) ← remove_node_body mem s.open_list remove
  let hit : Bool := compare_boards b.board goal.board = 0
  let printed := if hit then b :: s.printed else s.printed
  let own := if hit then 1 else s.solution_found
  let flag := bcast rank own root_flag
  let current := if hit then board_after_print b else b
  let check_list ← orFault (expand current)
  let s1 : PState :=
    { mem := mem, closed_list := cl, open_list := ol, iters := s.iters,
      solution_found := flag, printed := printed }
  if flag = 1 then pure (s1, some 0)
  else do
    let s2 ← check_list.foldlM par_merge_one s1
    pure ({ s2 with iters := s2.iters + 1 }, none)

/-- The loop of the parallel driver, run for one iteration per given value of
the root's flag; the return value is `none` when the loop is still running. -/
def par_search_loop (goal : Board) (rank nprocs : Int) :
    List Int → PState → Except Fail (PState × Option Int)
  | [], s => if s.open_list.size ≠ 0 then pure (s, none) else pure (s, some (-1))
  | f :: fs, s =>
    if s.open_list.size ≠ 0 then do
      let (s2, rc) ← par_iteration goal rank nprocs f s
      match rc with
      | some c => pure (s2, some c)
      | none => par_search_loop goal rank nprocs fs s2
    else pure (s, some (-1))

/-- The state of the parallel driver when it first tests the loop condition. -/
def par_init_state (start : Board) : Except Fail PState := do
  let start2 : Board := { start with h_score := manhattan_distance start }
  let (mem, first) := make_node [] start2
  let (mem, ol) ← push mem make_list first
  pure { mem := mem, closed_list := make_list, open_list := ol, iters := 1,
         solution_found := 0, printed := [] }

/-- The parallel function `a_star_search` of one worker, given the values of
the root's flag at the successive broadcasts. -/
def par_a_star_search (start goal : Board) (rank nprocs : Int) (flags : List Int) :
    Except Fail (PState × Option Int) := do
  let s ← par_init_state start
  if compare_boards start.board goal.board = 0 then pure (s, some 0)
  else par_search_loop goal rank nprocs flags s

/-! ## Fixtures -/

/-- The board `GOAL` of `main`: cell `(i, j)` holds `4 * i + j`. -/
def GOAL : Board :=
  { board := fun i j => 4 * (i.val : Int) + (j.val : Int), h_score := 0,
    parent := BoardPtr.NULL }

/-- A grid given by its sixteen values in row-major order. -/
def gridOf (l : List Int) : Grid := fun i j => l.getD (4 * i.val + j.val) 0

/-- A board with the given grid, score `0` and no parent, as `main` builds them. -/
def boardOf (l : List Int) : Board :=
  { board := gridOf l, h_score := 0, parent := BoardPtr.NULL }

/-- The board `TEST` of `main`. -/
def TEST : Board :=
  boardOf [15, 11, 13, 12, 14, 10, 8, 9, 7, 2, 5, 1, 3, 6, 4, 0]


/-! ## Auxiliary definitions for the statements -/

/-- The sixteen cells in the order in which the loops visit them. -/
def cells : List (Fin 4 × Fin 4) :=
  [(0, 0), (0, 1), (0, 2), (0, 3), (1, 0), (1, 1), (1, 2), (1, 3),
   (2, 0), (2, 1), (2, 2), (2, 3), (3, 0), (3, 1), (3, 2), (3, 3)]

/-- A board with one blank and fifteen tiles of value `INT_MAX`. -/
def bigBoard : Board :=
  boardOf [0, 2147483647, 2147483647, 2147483647, 2147483647, 2147483647, 2147483647,
    2147483647, 2147483647, 2147483647, 2147483647, 2147483647, 2147483647, 2147483647,
    2147483647, 2147483647]

/-- Exactly one cell of the grid holds the blank (value `0`). -/
def OneBlank (g : Grid) : Prop :=
  ∃ bi bj : Fin 4, g bi bj = 0 ∧ ∀ i j : Fin 4, g i j = 0 → i = bi ∧ j = bj

instance (g : Grid) : Decidable (OneBlank g) := by unfold OneBlank; infer_instance

/-- The entries that the scan of `possible_actions` stores for cell `(i, j)`,
in the order of the four tests. -/
def cell_moves (g : Grid) (i j : Fin 4) : List Action :=
  (if j ≠ 3 ∧ g i j ≠ 0 ∧ g i (j + 1) = 0 then
    [make_action (some "RIGHT") i.val j.val (g i j)] else []) ++
  (if j ≠ 0 ∧ g i j ≠ 0 ∧ g i (j - 1) = 0 then
    [make_action (some "LEFT") i.val j.val (g i j)] else []) ++
  (if i ≠ 0 ∧ g i j ≠ 0 ∧ g (i - 1) j = 0 then
    [make_action (some "UP") i.val j.val (g i j)] else []) ++
  (if i ≠ 3 ∧ g i j ≠ 0 ∧ g (i + 1) j = 0 then
    [make_action (some "DOWN") i.val j.val (g i j)] else [])

/-- All entries stored by the scan, in scan order. -/
def all_moves (g : Grid) : List Action :=
  cells.foldr (fun c acc => cell_moves g c.1 c.2 ++ acc) []

/-- Successive stores of a list of entries. -/
def store_all (buf : ActBuf) : List Action → Option ActBuf
  | [] => some buf
  | a :: rest => (buf.store a).bind (fun b => store_all b rest)

/-- The entry with which `possible_actions` fills the array before the scan. -/
def null_action : Action := make_action none (-1) (-1) (-1)

/-- The entries of the returned array that hold a move: those with a direction. -/
def moves_of (acts : List Action) : List Action :=
  acts.filter (fun a => a.direction.isSome)

/-- The moves of a board whose blank is at `(bi, bj)`, by increasing row-major
position of the moved tile: the tile above the blank moves down, the tile left
of it moves right, the tile right of it moves left, the tile below it moves up. -/
def blank_moves (g : Grid) (bi bj : Fin 4) : List Action :=
  (if bi ≠ 0 then
    [make_action (some "DOWN") (bi - 1).val bj.val (g (bi - 1) bj)] else []) ++
  (if bj ≠ 0 then
    [make_action (some "RIGHT") bi.val (bj - 1).val (g bi (bj - 1))] else []) ++
  (if bj ≠ 3 then
    [make_action (some "LEFT") bi.val (bj + 1).val (g bi (bj + 1))] else []) ++
  (if bi ≠ 3 then
    [make_action (some "UP") (bi + 1).val bj.val (g (bi + 1) bj)] else [])

/-- The entry `a` names a tile next to a blank of `g`: its row, column and
(non-zero) value, and the direction from the tile towards the blank. -/
def IsMove (g : Grid) (a : Action) : Prop :=
  ∃ i j bi bj : Fin 4, g bi bj = 0 ∧ g i j ≠ 0 ∧
    a.row = i.val ∧ a.col = j.val ∧ a.value = g i j ∧
    ((a.direction = some "RIGHT" ∧ bi = i ∧ bj.val = j.val + 1) ∨
     (a.direction = some "LEFT" ∧ bi = i ∧ bj.val + 1 = j.val) ∨
     (a.direction = some "UP" ∧ bi.val + 1 = i.val ∧ bj = j) ∨
     (a.direction = some "DOWN" ∧ bi.val = i.val + 1 ∧ bj = j))

/-- The successive application, with `result`, of moves each of which is among
the moves that `possible_actions` returns for the board it is applied to. -/
def apply_moves : List Action → Board → Option Board
  | [], b => some b
  | m :: ms, b =>
    (possible_actions b).bind fun acts =>
      if m ∈ moves_of acts then (result m b).bind (apply_moves ms) else none

/-- A board with one blank whose sum of tile distances is exactly `INT_MAX`. -/
def edgeBoard : Board :=
  boardOf [0, 1, 2, 3, 4, 5, 6, 7, 68, 9, 10, 11,
    2147483644, 2147483645, 2147483646, 2147483647]

/-- The grid after the tile at `(i, j)` and the blank at `(bi, bj)` changed places. -/
def slid (g : Grid) (i j bi bj : Fin 4) : Grid :=
  fun a b => if a = i ∧ b = j then 0 else if a = bi ∧ b = bj then g i j else g a b

/-- The cells `(i, j)` and `(bi, bj)` are orthogonal neighbours. -/
def Adjacent (i j bi bj : Fin 4) : Prop :=
  (bi = i ∧ (bj.val = j.val + 1 ∨ bj.val + 1 = j.val)) ∨
  (bj = j ∧ (bi.val + 1 = i.val ∨ bi.val = i.val + 1))

/-- The move of tile 1 from cell `(0, 1)` to the left. -/
def leftOne : Action := make_action (some "LEFT") 0 1 1

/-- The array that `possible_actions` returns for the goal board. -/
def goalActs : List Action :=
  [leftOne, make_action (some "UP") 1 0 4, null_action, null_action]

/-- The board one move away from the goal: tile 1 in cell `(0, 0)`, the blank
in cell `(0, 1)`. -/
def oneAway : Board :=
  boardOf [1, 0, 2, 3, 4, 5, 6, 7, 8, 9, 10, 11, 12, 13, 14, 15]

/-- The move of tile 1 from cell `(0, 0)` to the right. -/
def rightOne : Action := make_action (some "RIGHT") 0 0 1

/-- The ancestor chain of a record with grid `g` and parent pointer `p` is a
path from the grid `sg` read backwards: the record without parent holds `sg`,
and every other record is obtained from its parent by `result` with a move
that `possible_actions` returns for the parent. -/
def Chain (sg : Grid) : Grid → BoardPtr → Prop
  | g, BoardPtr.NULL => g = sg
  | g, BoardPtr.ptr g2 h2 p2 =>
    (∃ acts m r, possible_actions ⟨g2, h2, p2⟩ = some acts ∧ m ∈ moves_of acts ∧
      result m ⟨g2, h2, p2⟩ = some r ∧ r.board = g) ∧ Chain sg g2 p2

/-- The node board `b` ends a valid solution path: it holds the goal grid and
its ancestor chain leads back to the start grid by legal moves. -/
def Solution (start goal : Grid) (b : Board) : Prop :=
  b.board = goal ∧ Chain start b.board b.parent

/-- Every node in memory holds a board with a valid ancestor chain. -/
def AllGood (sg : Grid) (mem : Mem) : Prop :=
  ∀ nd ∈ mem, Chain sg nd.board.board nd.board.parent

/-- The invariant of the parallel driver for the solution paths: the boards in
memory have valid ancestor chains and every board handed to `print_parents`
ends a valid solution path. -/
def ParGood (sg goal : Grid) (s : PState) : Prop :=
  AllGood sg s.mem ∧ ∀ b ∈ s.printed, Solution sg goal b

/-- The board of the node at which a run reported the goal, if it did. -/
def found_board : Except Fail (Option Outcome) → Option Board
  | Except.ok (some (Outcome.found _ b)) => some b
  | _ => none

/-- The boards handed to `print_parents` in a run of the parallel driver. -/
def printed_boards : Except Fail (PState × Option Int) → List Board
  | Except.ok (s, _) => s.printed
  | _ => []

/-- A board eight moves away from the goal. -/
def detourBoard : Board :=
  boardOf [1, 2, 6, 3, 8, 0, 5, 7, 9, 4, 10, 11, 12, 13, 14, 15]

/-- Eight legal moves that lead from `detourBoard` to the goal board. -/
def shortPath : List Action :=
  [make_action (some "UP") 2 1 4, make_action (some "RIGHT") 2 0 9,
   make_action (some "DOWN") 1 0 8, make_action (some "LEFT") 1 1 4,
   make_action (some "LEFT") 1 2 5, make_action (some "DOWN") 0 2 6,
   make_action (some "RIGHT") 0 1 2, make_action (some "RIGHT") 0 0 1]

/-- A board with one blank, at cell `(2, 1)`, and fifteen tiles of value 1. -/
def hangBoard : Board :=
  boardOf [1, 1, 1, 1, 1, 1, 1, 1, 1, 0, 1, 1, 1, 1, 1, 1]

/-- The run ended in a loop that never stops. -/
def diverged : Except Fail (Option Outcome) → Bool
  | Except.error Fail.diverge => true
  | _ => false

/-- The inverse of a move, as the specification words it: the same tile value
at the cell the tile was moved to, with the opposite direction. -/
def inverse_move (m : Action) : Action :=
  if m.direction = some "RIGHT" then make_action (some "LEFT") m.row (m.col + 1) m.value
  else if m.direction = some "LEFT" then make_action (some "RIGHT") m.row (m.col - 1) m.value
  else if m.direction = some "UP" then make_action (some "DOWN") (m.row - 1) m.col m.value
  else make_action (some "UP") (m.row + 1) m.col m.value

/-- An action that is not a legal move of the goal board: tile 5 in cell
`(1, 1)` to the right, where tile 6 is. -/
def illegalAct : Action := make_action (some "RIGHT") 1 1 5

/-- The board one move away from the goal with tile 4 in cell `(0, 0)` and the
blank in cell `(1, 0)`. -/
def fourAway : Board :=
  boardOf [4, 1, 2, 3, 0, 5, 6, 7, 8, 9, 10, 11, 12, 13, 14, 15]

/-- The grid holds every value of `0..15` in exactly one cell. -/
def IsPerm (g : Grid) : Prop :=
  ∀ v : Fin 16, ∃ p : Fin 4 × Fin 4, g p.1 p.2 = (v.val : Int) ∧
    ∀ q : Fin 4 × Fin 4, g q.1 q.2 = (v.val : Int) → q = p

/-- What a run reported when it found the goal: the iteration counter, the
number of ancestor links of the node, and `compare_boards` of its board with
the given grid. -/
def found_report (goal : Grid) : Except Fail (Option Outcome) → Option (Int × Nat × Int)
  | Except.ok (some (Outcome.found it b)) => some (it, print_parents b, compare_boards b.board goal)
  | _ => none

/-- The loop is still running after the given number of iterations. -/
def still_running : Except Fail (Option Outcome) → Bool
  | Except.ok none => true
  | _ => false

/-- The nodes at the addresses of the list are allocated, and the `next` field
of each one but the last is the address after it (nothing is said of the
`next` field of the last one). -/
def Linked (mem : Mem) : List Nat → Prop
  | [] => True
  | [a] => a < mem.length
  | a :: b :: r => (mem.get? a).map (fun nd => nd.next) = some (some b) ∧ Linked mem (b :: r)

/-- The list record holds the nodes at the addresses `l`, in this order from
`head` to `tail`; both pointers are `NULL` when `l` is empty. -/
def Holds (mem : Mem) (ll : LinkedList) (l : List Nat) : Prop :=
  ll.head = l.head? ∧ ll.tail = l.getLast? ∧ Linked mem l ∧ l.Nodup

/-- The cached score of the board of the node at an address. -/
def score_at (mem : Mem) (a : Nat) : Int :=
  ((mem.get? a).map fun nd => nd.board.h_score).getD 0

/-- The grid of the board of the node at an address. -/
def grid_at (mem : Mem) (a : Nat) : Grid :=
  ((mem.get? a).map fun nd => nd.board.board).getD (fun _ _ => 0)

/-- The minimum and the node that the scan of `find_min_h` has after the nodes
of the list, from the minimum and the node it had before them. -/
def scan_min (mem : Mem) : List Nat → Int → Option Nat → Int × Option Nat
  | [], min, res => (min, res)
  | a :: r, min, res =>
    if min > score_at mem a then scan_min mem r (score_at mem a) (some a)
    else scan_min mem r min res

/-- The addresses met from `tmp` by following `next` up to and including the
address `tail`. -/
def traverse (mem : Mem) (tail : Option Nat) : Nat → Option Nat → List Nat
  | 0, _ => []
  | n + 1, tmp =>
    match tmp with
    | none => []
    | some a =>
      if tmp = tail then [a]
      else a :: traverse mem tail n ((mem.get? a).bind fun nd => nd.next)

/-- The nodes of a list as the loops of `find_min_h` and `in_list` meet them:
from `head` along `next` up to `tail`. -/
def contents (mem : Mem) (ll : LinkedList) : List Nat :=
  if ll.head = none then [] else traverse mem ll.tail (mem.length + 1) ll.head

/-- The two memories hold, address by address, nodes with the same grid and
the same `next` field; scores and parents may differ. -/
def SameGrids (mem1 mem2 : Mem) : Prop :=
  mem1.map (fun nd => (nd.board.board, nd.next)) = mem2.map (fun nd => (nd.board.board, nd.next))

/-- A node holding the given board with the given `next` field. -/
@[reducible]
def node_of (b : Board) (nx : Option Nat) : Node := { board := b, next := nx }

/-- Three nodes with scores 2, 1 and 1, linked in this order. -/
def threeNodes : Mem :=
  [node_of { board := TEST.board, h_score := 2, parent := BoardPtr.NULL } (some 1),
   node_of { board := oneAway.board, h_score := 1, parent := BoardPtr.NULL } (some 2),
   node_of { board := fourAway.board, h_score := 1, parent := BoardPtr.NULL } none]

/-- The list record of the three nodes. -/
def threeList : LinkedList := { size := 3, head := some 0, tail := some 2 }

/-- An operation at the interface of a list: `push` of the node at an address,
`remove_node` of the node at an address, and the extraction of the minimum,
`find_min_h` followed by `remove_node` of the node it returned. -/
inductive ListOp where
  | push : Nat → ListOp
  | remove : Nat → ListOp
  | extract_min : ListOp

/-- One operation on a list in memory. -/
def apply_op (s : Mem × LinkedList) : ListOp → Except Fail (Mem × LinkedList)
  | ListOp.push a => push s.1 s.2 (some a)
  | ListOp.remove a => remove_node s.1 s.2 (some a)
  | ListOp.extract_min => (find_min_h s.1 s.2).bind fun m => remove_node s.1 s.2 m

/-- A sequence of operations on the list that `make_list` returns. -/
def run_ops (mem : Mem) (ops : List ListOp) : Except Fail (Mem × LinkedList) :=
  ops.foldlM apply_op (mem, make_list)

/-- The list record and the nodes it holds after a sequence of operations. -/
def list_after (mem : Mem) (ops : List ListOp) : Option (LinkedList × List Nat) :=
  match run_ops mem ops with
  | Except.ok s => some (s.2, contents s.1 s.2)
  | Except.error _ => none

/-- Four nodes as `make_node` returns them, with four different boards. -/
def fourNodes : Mem :=
  [node_of { board := TEST.board, h_score := 2, parent := BoardPtr.NULL } none,
   node_of { board := oneAway.board, h_score := 1, parent := BoardPtr.NULL } none,
   node_of { board := fourAway.board, h_score := 1, parent := BoardPtr.NULL } none,
   node_of GOAL none]

/-- The memory after the first three of the four nodes were pushed on a list. -/
def threeOfFour : Mem := threeNodes ++ [node_of GOAL none]

/-- Two nodes as `make_node` returns them, both with the goal board. -/
def twoEqual : Mem := [node_of GOAL none, node_of GOAL none]

/-- The `next` field of the node at an address (`none` for an address that is
not allocated). -/
def next_at (mem : Mem) (a : Nat) : Option (Option Nat) :=
  (mem.get? a).map fun nd => nd.next

/-- The state of the `next` field of the last node of the open list: `NULL`,
as `make_node` left it, or the address of a node of the closed list, as a
removal of the tail leaves it. -/
def TailOK (mem : Mem) (lo lc : List Nat) : Prop :=
  ∀ t, lo.getLast? = some t → next_at mem t = some none ∨ ∃ r ∈ lc, next_at mem t = some (some r)

/-- A board record with the given grid. -/
def grid_board (g : Grid) : Board := { board := g, h_score := 0, parent := BoardPtr.NULL }

/-- The goal grid is reached from the start board by a sequence of moves each
of which is among those `possible_actions` returns. -/
def Reachable (start : Board) (goal : Grid) : Prop :=
  ∃ ms r, apply_moves ms start = some r ∧ compare_boards r.board goal = 0

/-- The layout of the two lists of the sequential driver in memory: the open
list holds the nodes `lo`, the closed list the nodes `lc`, no node is in both,
and the last node of the open list has a `next` field as `TailOK` says. -/
structure Layout (s : State) (lo lc : List Nat) : Prop where
  ho : Holds s.mem s.open_list lo
  so : s.open_list.size = lo.length
  hc : Holds s.mem s.closed_list lc
  sc : s.closed_list.size = lc.length
  disj : ∀ a ∈ lo, a ∉ lc
  tail : TailOK s.mem lo lc

/-- What the two lists hold, between two iterations of the sequential driver:
the grid of the start board is in one of them, every successor of a grid of
the closed list is in one of them, and no grid of the closed list is the goal. -/
structure Explored (start goal : Board) (mem : Mem) (lo lc : List Nat) : Prop where
  start_in : ∃ a ∈ lo ++ lc, grid_at mem a = start.board
  succ_in : ∀ a ∈ lc, ∀ m r, apply_moves [m] (grid_board (grid_at mem a)) = some r →
    ∃ c ∈ lo ++ lc, grid_at mem c = r.board
  no_goal : ∀ a ∈ lc, compare_boards (grid_at mem a) goal.board ≠ 0

/-- A board with the blank in cell `(0, 0)` and fifteen tiles of value 1: the
sixteen positions of the blank are all the grids reached from it. -/
def cornerBoard : Board :=
  boardOf [0, 1, 1, 1, 1, 1, 1, 1, 1, 1, 1, 1, 1, 1, 1, 1]

/-- The run stopped with the open list exhausted. -/
def exhausted : Except Fail (Option Outcome) → Option Int
  | Except.ok (some (Outcome.not_found it)) => some it
  | _ => none

/-- The loop `while(open_list->size != 0)` of the sequential driver, followed
for `n` iterations: the state when the loop condition is tested after them,
`none` when the function has returned before. -/
def loop_state (goal : Board) : Nat → State → Except Fail (Option State)
  | 0, s => pure (some s)
  | n + 1, s =>
    if s.open_list.size ≠ 0 then do
      match ← iteration goal s with
      | Sum.inl s2 => loop_state goal n s2
      | Sum.inr _ => pure none
    else pure none

/-- The state of the sequential `a_star_search` when it tests the loop
condition after `n` iterations. -/
def state_at (start goal : Board) (n : Nat) : Except Fail (Option State) := do
  let s ← init_state start
  if compare_boards start.board goal.board = 0 then pure none
  else loop_state goal n s

/-- The loop of the parallel driver, followed for one iteration per given value
of the root's flag: the state when the loop condition is tested after them,
`none` when the function has returned before. -/
def par_loop_state (goal : Board) (rank nprocs : Int) :
    List Int → PState → Except Fail (Option PState)
  | [], s => pure (some s)
  | f :: fs, s =>
    if s.open_list.size ≠ 0 then do
      let (s2, rc) ← par_iteration goal rank nprocs f s
      match rc with
      | some _ => pure none
      | none => par_loop_state goal rank nprocs fs s2
    else pure none

/-- The state of the parallel `a_star_search` of one worker when it tests the
loop condition after one iteration per given flag. -/
def par_state_at (start goal : Board) (rank nprocs : Int) (flags : List Int) :
    Except Fail (Option PState) := do
  let s ← par_init_state start
  if compare_boards start.board goal.board = 0 then pure none
  else par_loop_state goal rank nprocs flags s

/-- The variables that the two drivers have in common. -/
def PState.core (s : PState) : State :=
  { mem := s.mem, closed_list := s.closed_list, open_list := s.open_list, iters := s.iters }

/-- Every node in memory holds a board whose cached score is the
`manhattan_distance` of that board. -/
def AllScored (mem : Mem) : Prop :=
  ∀ nd ∈ mem, nd.board.h_score = manhattan_distance nd.board

/-- The board record of the node at an address. -/
def board_at (mem : Mem) (a : Nat) : Option Board :=
  (mem.get? a).map fun nd => nd.board

/-- The state, if the run has reached one. -/
def reached {σ : Type} : Except Fail (Option σ) → Option σ
  | Except.ok (some s) => some s
  | _ => none

set_option maxRecDepth 100000 in
/-- The state of the sequential driver after one iteration from the board one
move away from the goal. -/
def seqState : State :=
  (reached (state_at oneAway GOAL 1)).get (by decide)

set_option maxRecDepth 100000 in
/-- The state of the worker of rank 0 of two after one iteration from the board
one move away from the goal, the root's flag being 0. -/
def parState : PState :=
  (reached (par_state_at oneAway GOAL 0 2 [0])).get (by decide)

set_option maxRecDepth 100000 in
/-- The second iteration of the worker of rank 0 of two from the board one move
away from the goal, the root's flag being 0 again: the state afterwards and the
value returned, if any. -/
def parNext : PState × Option Int :=
  (par_iteration GOAL 0 2 0 parState).toOption.get (by decide)

set_option maxRecDepth 100000 in
/-- The state of the worker of rank 0 of two after two iterations from the
board one move away from the goal, the root's flag being 0 both times: in the
second iteration the worker extracts the goal, hands it to `print_parents` and
goes on with the successors of the start board. -/
def parAfterHit : PState :=
  (reached (par_state_at oneAway GOAL 0 2 [0, 0])).get (by decide)

/-- The node `te` after the statements `tmp->board->parent = copy->board->parent;
tmp->board->h_score = copy->board->h_score;` for a successor `c`. -/
@[reducible]
def overwrite (te : Node) (c : Board) : Node :=
  { te with board := { te.board with parent := c.parent, h_score := c.h_score } }

/-- The number of ancestor links of the board of the node at an address. -/
def links_at (mem : Mem) (a : Nat) : Option Nat :=
  (board_at mem a).map fun b => b.parent.links

/-- A start board from which the sequential driver meets, in its fifteenth
iteration, a successor whose board is already in the open list with a longer
ancestor chain. -/
def rediscoverBoard : Board :=
  boardOf [5, 10, 2, 3, 1, 9, 6, 7, 8, 0, 14, 11, 12, 13, 4, 15]

set_option maxRecDepth 100000 in
/-- The node at address 1 in the state `seqState`: the first successor of the
start board, which holds the goal board. -/
def seqNode : Node := (seqState.mem.get? 1).get (by decide)

set_option maxRecDepth 100000 in
/-- The node at address 1 in the state `parState`. -/
def parNode : Node := (parState.mem.get? 1).get (by decide)

/-- The statements `int first = (rank * open_list->size) / nprocs;` and
`int stop = (((rank+1) * open_list->size) / nprocs);` of the parallel driver. -/
def scan_range (rank nprocs size : Int) : Except Fail (Int × Int) := do
  let first ← c_div (wrap32 (rank * size)) nprocs
  let stop ← c_div (wrap32 (wrap32 (rank + 1) * size)) nprocs
  pure (first, stop)

/-- A memory of `n` nodes, all holding the goal board, each linked to the next
and the last one with a `NULL` `next`: a list built by `n` pushes of fresh
nodes. -/
def chainMem (n : Nat) : Mem :=
  (List.range n).map fun i => node_of GOAL (if i + 1 < n then some (i + 1) else none)

/-- The list record of the list that `chainMem n` holds. -/
def chainList (n : Nat) : LinkedList :=
  { size := n, head := some 0, tail := some (n - 1) }

/-- Four linked nodes with the scores `1, 3, 2, 2`, in the order of insertion. -/
def fourChain : Mem :=
  [node_of { board := TEST.board, h_score := 1, parent := BoardPtr.NULL } (some 1),
   node_of { board := oneAway.board, h_score := 3, parent := BoardPtr.NULL } (some 2),
   node_of { board := fourAway.board, h_score := 2, parent := BoardPtr.NULL } (some 3),
   node_of { board := GOAL.board, h_score := 2, parent := BoardPtr.NULL } none]

/-- The list record of the four linked nodes. -/
def fourList : LinkedList := { size := 4, head := some 0, tail := some 3 }

/-- The nodes of a list at the insertion-order indices `i` with
`first ≤ i < stop`. -/
def index_range (l : List Nat) (first stop : Int) : List Nat :=
  (l.take stop.toNat).drop first.toNat

/-- No two of the nodes at the addresses `l` hold cell-wise equal grids. -/
def Distinct (mem : Mem) (l : List Nat) : Prop :=
  l.Pairwise fun x y => compare_boards (grid_at mem x) (grid_at mem y) ≠ 0

/-- The three ways in which the body of the loop `while(check != NULL)` of
either driver, run for the successor `c` on memory `mem` with closed list `cl`
and open list `ol`, leaves the memory `mem2` and the open list `ol2`: the copy
of `c` is only allocated; the copy is allocated and a node has its parent and
score overwritten; or neither call of `in_list` returns `0` and the copy is
pushed on the open list. -/
def MergeStep (mem : Mem) (cl ol : LinkedList) (c : Board) (mem2 : Mem) (ol2 : LinkedList) :
    Prop :=
  (ol2 = ol ∧ mem2 = mem ++ [node_of (copy_board c make_empty_board) none]) ∨
  (ol2 = ol ∧ ∃ tmp par sc, set_parent_score
      (mem ++ [node_of (copy_board c make_empty_board) none]) tmp par sc = Except.ok mem2) ∨
  (∃ r1 r2, r1 ≠ 0 ∧ r2 ≠ 0 ∧
    in_list (mem ++ [node_of (copy_board c make_empty_board) none]) cl (some mem.length) =
      Except.ok r1 ∧
    in_list (mem ++ [node_of (copy_board c make_empty_board) none]) ol (some mem.length) =
      Except.ok r2 ∧
    push (mem ++ [node_of (copy_board c make_empty_board) none]) ol (some mem.length) =
      Except.ok (mem2, ol2))

/-- The uniqueness of boards in a state of a driver: each list record holds
the nodes that a walk from `head` to `tail` meets, no two nodes of the open
list hold equal grids, no two nodes of the closed list hold equal grids, and no
node of the open list holds the grid of a node of the closed list. -/
def UniqueBoards (mem : Mem) (ol cl : LinkedList) : Prop :=
  Holds mem ol (contents mem ol) ∧ Holds mem cl (contents mem cl) ∧
  Distinct mem (contents mem ol) ∧ Distinct mem (contents mem cl) ∧
  ∀ a ∈ contents mem ol, ∀ b ∈ contents mem cl,
    compare_boards (grid_at mem a) (grid_at mem b) ≠ 0

/-- The products of the range computation of the parallel driver, for an open
list of the given size, and the product `nprocs * 2` of its size test are
within the range of `int`. -/
def RangeFits (rank nprocs size : Int) : Prop :=
  (rank + 1) * size ≤ INT_MAX ∧ nprocs * 2 ≤ INT_MAX

instance (rank nprocs size : Int) : Decidable (RangeFits rank nprocs size) := by
  unfold RangeFits; infer_instance

/-! # Theorems -/

/-! ## Arithmetic of the accumulator -/

theorem wrap32_of_range (x : Int) (h0 : 0 ≤ x) (h1 : x ≤ INT_MAX) : wrap32 x = x := by
  unfold wrap32; unfold INT_MAX at h1; omega

theorem wrap32_le (x : Int) : wrap32 x ≤ INT_MAX := by
  unfold wrap32 INT_MAX; omega

theorem c_abs_eq (x : Int) : c_abs x = |x| := by
  unfold c_abs
  split
  · rename_i h; exact (abs_of_neg h).symm
  · rename_i h; exact (abs_of_nonneg (not_lt.mp h)).symm

theorem tile_distance_nonneg (i j : Fin 4) (v : Int) : 0 ≤ tile_distance i j v := by
  unfold tile_distance
  split
  · exact le_rfl
  · positivity

theorem manhattan_distance_cells (brd : Board) :
    manhattan_distance brd = cells.foldl (fun sum c => md_cell brd.board c.1 c.2 sum) 0 := rfl

theorem manhattan_sum_cells (g : Grid) :
    manhattan_sum g = (cells.map (fun c => tile_distance c.1 c.2 (g c.1 c.2))).sum := by
  simp [manhattan_sum, cells, Fin.sum_univ_four]
  ring

theorem md_cell_exact (g : Grid) (i j : Fin 4) (s : Int) (hs : 0 ≤ s)
    (h : s + tile_distance i j (g i j) ≤ INT_MAX) :
    md_cell g i j s = s + tile_distance i j (g i j) := by
  unfold md_cell tile_distance at *
  by_cases hv : g i j = 0
  · simp [hv]
  · simp only [hv, if_false, ne_eq, not_false_eq_true, if_true, c_abs_eq] at h ⊢
    apply wrap32_of_range _ _ h
    positivity

theorem fold_exact (g : Grid) (l : List (Fin 4 × Fin 4)) (s : Int) (hs : 0 ≤ s)
    (h : s + (l.map (fun c => tile_distance c.1 c.2 (g c.1 c.2))).sum ≤ INT_MAX) :
    l.foldl (fun sum c => md_cell g c.1 c.2 sum) s
      = s + (l.map (fun c => tile_distance c.1 c.2 (g c.1 c.2))).sum := by
  induction l generalizing s with
  | nil => simp
  | cons c l ih =>
    simp only [List.foldl_cons, List.map_cons, List.sum_cons] at h ⊢
    have hnn : 0 ≤ (l.map (fun c => tile_distance c.1 c.2 (g c.1 c.2))).sum := by
      apply List.sum_nonneg
      intro x hx
      obtain ⟨c2, _, rfl⟩ := List.mem_map.mp hx
      exact tile_distance_nonneg _ _ _
    have ht := tile_distance_nonneg c.1 c.2 (g c.1 c.2)
    rw [md_cell_exact g c.1 c.2 s hs (by omega)]
    rw [ih _ (by omega) (by omega)]
    ring

theorem manhattan_sum_nonneg (g : Grid) : 0 ≤ manhattan_sum g := by
  unfold manhattan_sum
  exact Finset.sum_nonneg (fun i _ => Finset.sum_nonneg (fun j _ => tile_distance_nonneg _ _ _))

theorem manhattan_distance_exact (brd : Board) (h : manhattan_sum brd.board ≤ INT_MAX) :
    manhattan_distance brd = manhattan_sum brd.board := by
  rw [manhattan_distance_cells, manhattan_sum_cells]
  rw [manhattan_sum_cells] at h
  rw [fold_exact brd.board cells 0 le_rfl (by omega)]
  ring

theorem md_cell_le (g : Grid) (i j : Fin 4) (s : Int) (hs : s ≤ INT_MAX) :
    md_cell g i j s ≤ INT_MAX := by
  unfold md_cell
  simp only
  split
  · exact wrap32_le _
  · exact hs

theorem fold_le (g : Grid) (l : List (Fin 4 × Fin 4)) (s : Int) (hs : s ≤ INT_MAX) :
    l.foldl (fun sum c => md_cell g c.1 c.2 sum) s ≤ INT_MAX := by
  induction l generalizing s with
  | nil => simpa using hs
  | cons c l ih => exact ih _ (md_cell_le g c.1 c.2 s hs)

theorem manhattan_distance_le (brd : Board) : manhattan_distance brd ≤ INT_MAX := by
  rw [manhattan_distance_cells]
  exact fold_le _ _ _ (by decide)

/-- C5 (as amended): for every 4x4 board whose sum of tile distances
`|i - v/4| + |j - v%4|` over the non-zero cells fits a 32 bit `int`,
`manhattan_distance` returns that sum, which is non-negative. -/
theorem manhattan_distance_eq_sum (brd : Board) (h : manhattan_sum brd.board ≤ INT_MAX) :
    0 ≤ manhattan_distance brd ∧ manhattan_distance brd = manhattan_sum brd.board := by
  rw [manhattan_distance_exact brd h]
  exact ⟨manhattan_sum_nonneg _, rfl⟩

theorem manhattan_distance_eq_sum_witness :
    manhattan_sum TEST.board ≤ INT_MAX
    ∧ 0 ≤ manhattan_distance TEST
    ∧ manhattan_distance TEST = manhattan_sum TEST.board :=
  ⟨by rw [manhattan_sum_cells]; decide,
   manhattan_distance_eq_sum TEST (by rw [manhattan_sum_cells]; decide)⟩

/-- C5 (as stated) fails: on a board with one blank and fifteen tiles of value
`INT_MAX` the accumulator overflows and the returned score is negative. -/
theorem manhattan_distance_overflow :
    ¬ (0 ≤ manhattan_distance bigBoard
        ∧ manhattan_distance bigBoard = manhattan_sum bigBoard.board) := by
  have h : manhattan_distance bigBoard < 0 := by decide
  intro hc
  omega

/-- C6: the Manhattan distance of the goal board of `main` (cell `(i, j)` holds
`4 * i + j`) is `0`. -/
theorem manhattan_distance_goal : manhattan_distance GOAL = 0 := by decide

theorem store_all_append (buf : ActBuf) (l1 l2 : List Action) :
    store_all buf (l1 ++ l2) = (store_all buf l1).bind (fun b => store_all b l2) := by
  induction l1 generalizing buf with
  | nil => simp [store_all]
  | cons a l1 ih =>
    simp only [List.cons_append, store_all]
    cases h : buf.store a with
    | none => simp
    | some b => simp [ih]

theorem store_opt (p c : Prop) [Decidable p] [Decidable c] (buf : ActBuf) (a : Action) :
    (if p then (if c then buf.store a else some buf) else some buf)
      = store_all buf (if p ∧ c then [a] else []) := by
  by_cases hp : p
  · by_cases hc : c
    · simp only [hp, hc, and_self, if_true, store_all]
      cases buf.store a <;> rfl
    · simp only [hp, hc, and_false, if_true, if_false, store_all]
  · simp only [hp, false_and, if_false, store_all]

theorem scan_cell_eq (g : Grid) (i j : Fin 4) (buf : ActBuf) :
    scan_cell g i j buf = store_all buf (cell_moves g i j) := by
  unfold scan_cell cell_moves
  simp only [store_all_append, store_opt, Option.bind_assoc]

theorem scan_eq (g : Grid) (buf : ActBuf) :
    idx4.foldlM (fun buf i => idx4.foldlM (fun buf j => scan_cell g i j buf) buf) buf
      = store_all buf (all_moves g) := by
  simp only [idx4, List.foldlM, scan_cell_eq, all_moves, cells, List.foldr, store_all_append,
    List.append_nil, bind, Option.bind_assoc, pure]
  simp [Option.bind_assoc]

theorem store_all_index (buf b : ActBuf) (l : List Action) (h : store_all buf l = some b) :
    b.index = buf.index + l.length ∧ b.index ≤ 4 ∨ (l = [] ∧ b = buf) := by
  induction l generalizing buf with
  | nil => right; simp [store_all] at h; exact ⟨rfl, h.symm⟩
  | cons a l ih =>
    left
    simp only [store_all] at h
    unfold ActBuf.store at h
    split at h
    · rename_i hi
      simp only [Option.some_bind] at h
      rcases ih _ h with h2 | h2
      · simp only [List.length_cons] at h2 ⊢; omega
      · obtain ⟨h3, h4⟩ := h2
        subst h3; subst h4
        simp only [List.length_cons, List.length_nil]
        refine ⟨?_, ?_⟩ <;> dsimp only <;> omega
    · simp at h

/-- The stores of at most four entries into the fresh array succeed and leave
the entries in the first slots. -/
theorem store_all_init (l : List Action) (h : l.length ≤ 4) :
    (store_all ⟨List.replicate 4 null_action, 0⟩ l).map (fun b => b.slots)
      = some (l ++ List.replicate (4 - l.length) null_action) := by
  match l, h with
  | [], _ => rfl
  | [_], _ => rfl
  | [_, _], _ => rfl
  | [_, _, _], _ => rfl
  | [_, _, _, _], _ => rfl
  | _ :: _ :: _ :: _ :: _ :: _, h => simp at h

theorem store_all_overflow (l : List Action) (h : 4 < l.length) :
    store_all ⟨List.replicate 4 null_action, 0⟩ l = none := by
  cases hs : store_all ⟨List.replicate 4 null_action, 0⟩ l with
  | none => rfl
  | some b =>
    rcases store_all_index _ _ _ hs with h2 | h2
    · simp only at h2; omega
    · obtain ⟨h3, _⟩ := h2; subst h3; simp at h

theorem possible_actions_eq (brd : Board) :
    possible_actions brd =
      if (all_moves brd.board).length ≤ 4 then
        some (all_moves brd.board ++
          List.replicate (4 - (all_moves brd.board).length) null_action)
      else none := by
  unfold possible_actions
  simp only [scan_eq]
  split
  · rename_i h; exact store_all_init _ h
  · rename_i h
    have := store_all_overflow (all_moves brd.board) (by omega)
    simp only [null_action] at this
    rw [this]; rfl

theorem oneBlank_iff (g : Grid) (bi bj : Fin 4) (h0 : g bi bj = 0)
    (hu : ∀ i j : Fin 4, g i j = 0 → i = bi ∧ j = bj) (i j : Fin 4) :
    g i j = 0 ↔ (i = bi ∧ j = bj) :=
  ⟨hu i j, fun h => by rw [h.1, h.2]; exact h0⟩

theorem fin4_val_three : ((3 : Fin 4) : Nat) = 3 := rfl

set_option maxHeartbeats 1600000 in
theorem all_moves_blank (g : Grid) (bi bj : Fin 4)
    (hz : ∀ i j : Fin 4, g i j = 0 ↔ (i = bi ∧ j = bj)) :
    all_moves g = blank_moves g bi bj := by
  fin_cases bi <;> fin_cases bj <;>
    simp [all_moves, cells, cell_moves, blank_moves, hz, make_action, fin4_val_three]

theorem blank_moves_length (g : Grid) (bi bj : Fin 4) :
    2 ≤ (blank_moves g bi bj).length ∧ (blank_moves g bi bj).length ≤ 4 := by
  fin_cases bi <;> fin_cases bj <;> simp [blank_moves]

theorem blank_moves_dir (g : Grid) (bi bj : Fin 4) (a : Action) (h : a ∈ blank_moves g bi bj) :
    a.direction.isSome = true := by
  unfold blank_moves at h
  simp only [List.mem_append] at h
  rcases h with ((h | h) | h) | h <;> split at h <;> simp [make_action] at h <;> simp [h]

theorem moves_of_pad (l : List Action) (n : Nat) (h : ∀ a ∈ l, a.direction.isSome = true) :
    moves_of (l ++ List.replicate n null_action) = l := by
  unfold moves_of
  rw [List.filter_append]
  have h1 : l.filter (fun a => a.direction.isSome) = l := List.filter_eq_self.mpr h
  have h2 : (List.replicate n null_action).filter (fun a => a.direction.isSome) = [] := by
    apply List.filter_eq_nil_iff.mpr
    intro a ha
    rw [List.eq_of_mem_replicate ha]
    simp [null_action, make_action]
  rw [h1, h2, List.append_nil]

/-- The array returned for a board with its single blank at `(bi, bj)`. -/
theorem possible_actions_blank (brd : Board) (bi bj : Fin 4)
    (hz : ∀ i j : Fin 4, brd.board i j = 0 ↔ (i = bi ∧ j = bj)) :
    possible_actions brd = some (blank_moves brd.board bi bj ++
      List.replicate (4 - (blank_moves brd.board bi bj).length) null_action) := by
  rw [possible_actions_eq, all_moves_blank brd.board bi bj hz]
  simp [(blank_moves_length brd.board bi bj).2]

theorem isMove_iff (g : Grid) (bi bj : Fin 4)
    (hz : ∀ i j : Fin 4, g i j = 0 ↔ (i = bi ∧ j = bj)) (a : Action) :
    a ∈ blank_moves g bi bj ↔ IsMove g a := by
  have e1 : ∀ b : Fin 4, b ≠ 0 → b - 1 ≠ b ∧ b.val = (b - 1).val + 1 := by decide
  have e2 : ∀ b : Fin 4, b ≠ 3 → b + 1 ≠ b ∧ b.val + 1 = (b + 1).val := by decide
  have e3 : ∀ j b : Fin 4, b.val = j.val + 1 → j = b - 1 ∧ b ≠ 0 := by decide
  have e4 : ∀ j b : Fin 4, b.val + 1 = j.val → j = b + 1 ∧ b ≠ 3 := by decide
  have h0 : g bi bj = 0 := (hz bi bj).mpr ⟨rfl, rfl⟩
  constructor
  · intro h
    unfold blank_moves at h
    simp only [List.mem_append] at h
    rcases h with ((h | h) | h) | h <;> split at h <;>
      simp only [List.mem_singleton, List.not_mem_nil] at h
    · rename_i hb
      subst h
      refine ⟨bi - 1, bj, bi, bj, h0, ?_, rfl, rfl, rfl, ?_⟩
      · intro hc; exact (e1 bi hb).1 ((hz _ _).mp hc).1
      · right; right; right; exact ⟨rfl, (e1 bi hb).2, rfl⟩
    · rename_i hb
      subst h
      refine ⟨bi, bj - 1, bi, bj, h0, ?_, rfl, rfl, rfl, ?_⟩
      · intro hc; exact (e1 bj hb).1 ((hz _ _).mp hc).2
      · left; exact ⟨rfl, rfl, (e1 bj hb).2⟩
    · rename_i hb
      subst h
      refine ⟨bi, bj + 1, bi, bj, h0, ?_, rfl, rfl, rfl, ?_⟩
      · intro hc; exact (e2 bj hb).1 ((hz _ _).mp hc).2
      · right; left; exact ⟨rfl, rfl, (e2 bj hb).2⟩
    · rename_i hb
      subst h
      refine ⟨bi + 1, bj, bi, bj, h0, ?_, rfl, rfl, rfl, ?_⟩
      · intro hc; exact (e2 bi hb).1 ((hz _ _).mp hc).1
      · right; right; left; exact ⟨rfl, (e2 bi hb).2, rfl⟩
  · rintro ⟨i, j, bi2, bj2, hb0, hne, hr, hc, hv, hd⟩
    obtain ⟨rfl, rfl⟩ := (hz _ _).mp hb0
    obtain ⟨d, r, c, v⟩ := a
    simp only at hr hc hv hd
    subst hr hc hv
    unfold blank_moves
    simp only [List.mem_append]
    rcases hd with ⟨hd, h1, h2⟩ | ⟨hd, h1, h2⟩ | ⟨hd, h1, h2⟩ | ⟨hd, h1, h2⟩
    · obtain ⟨rfl, hb⟩ := e3 _ _ h2
      subst hd h1
      left; left; right
      simp [hb, make_action]
    · obtain ⟨rfl, hb⟩ := e4 _ _ h2
      subst hd h1
      left; right
      simp [hb, make_action]
    · obtain ⟨rfl, hb⟩ := e4 _ _ h1
      subst hd h2
      right
      simp [hb, make_action]
    · obtain ⟨rfl, hb⟩ := e3 _ _ h1
      subst hd h2
      left; left; left
      simp [hb, make_action]

theorem blank_moves_nodup (g : Grid) (bi bj : Fin 4) : (blank_moves g bi bj).Nodup := by
  fin_cases bi <;> fin_cases bj <;> simp [blank_moves, make_action]

theorem isMove_unique (g : Grid) (bi bj : Fin 4)
    (hz : ∀ i j : Fin 4, g i j = 0 ↔ (i = bi ∧ j = bj)) (a b : Action)
    (ha : IsMove g a) (hb : IsMove g b) (hr : a.row = b.row) (hc : a.col = b.col) : a = b := by
  obtain ⟨i, j, b1, b2, hb0, -, hr1, hc1, hv1, hd1⟩ := ha
  obtain ⟨i2, j2, b3, b4, hb02, -, hr2, hc2, hv2, hd2⟩ := hb
  obtain ⟨rfl, rfl⟩ := (hz _ _).mp hb0
  obtain ⟨rfl, rfl⟩ := (hz _ _).mp hb02
  have hi : i = i2 := by apply Fin.ext; omega
  have hj : j = j2 := by apply Fin.ext; omega
  subst hi hj
  obtain ⟨d, r, c, v⟩ := a
  obtain ⟨d2, r2, c2, v2⟩ := b
  simp only at hr1 hc1 hv1 hd1 hr2 hc2 hv2 hd2
  subst hr1 hc1 hv1 hr2 hc2 hv2
  have hd : d = d2 := by
    rcases hd1 with ⟨h1, h2, h3⟩ | ⟨h1, h2, h3⟩ | ⟨h1, h2, h3⟩ | ⟨h1, h2, h3⟩ <;>
    rcases hd2 with ⟨k1, k2, k3⟩ | ⟨k1, k2, k3⟩ | ⟨k1, k2, k3⟩ | ⟨k1, k2, k3⟩ <;>
    first
      | (exfalso; omega)
      | (exfalso; subst h2; omega)
      | (exfalso; subst h3; omega)
      | (exfalso; subst k2; omega)
      | (exfalso; subst k3; omega)
      | (rw [h1, k1])
  rw [hd]

/-- C9: for a board with exactly one blank, `possible_actions` returns (without
storing past the fourth slot) an array whose moves are exactly the entries
naming a tile orthogonally adjacent to the blank, with the row, column and
non-zero value of the tile and the direction from the tile towards the blank;
there is one move per such tile, between two and four moves in all, and they
fill the first slots of the four-slot array. -/
theorem possible_actions_one_blank (brd : Board) (h : OneBlank brd.board) :
    ∃ acts, possible_actions brd = some acts ∧ acts.length = 4 ∧
      (∀ a, a ∈ moves_of acts ↔ IsMove brd.board a) ∧
      (moves_of acts).Nodup ∧
      (∀ a b, a ∈ moves_of acts → b ∈ moves_of acts → a.row = b.row → a.col = b.col → a = b) ∧
      2 ≤ (moves_of acts).length ∧ (moves_of acts).length ≤ 4 ∧
      acts = moves_of acts ++ List.replicate (4 - (moves_of acts).length) null_action := by
  obtain ⟨bi, bj, h0, hu⟩ := h
  have hz := oneBlank_iff brd.board bi bj h0 hu
  have hlen := blank_moves_length brd.board bi bj
  have hm : moves_of (blank_moves brd.board bi bj ++
      List.replicate (4 - (blank_moves brd.board bi bj).length) null_action)
      = blank_moves brd.board bi bj :=
    moves_of_pad _ _ (blank_moves_dir brd.board bi bj)
  refine ⟨_, possible_actions_blank brd bi bj hz, ?_, ?_, ?_, ?_, ?_, ?_, ?_⟩
  · simp only [List.length_append, List.length_replicate]; omega
  · intro a; rw [hm]; exact isMove_iff brd.board bi bj hz a
  · rw [hm]; exact blank_moves_nodup _ _ _
  · intro a b ha hb
    rw [hm] at ha hb
    exact isMove_unique brd.board bi bj hz a b
      ((isMove_iff brd.board bi bj hz a).mp ha) ((isMove_iff brd.board bi bj hz b).mp hb)
  · rw [hm]; exact hlen.1
  · rw [hm]; exact hlen.2
  · rw [hm]

theorem possible_actions_one_blank_witness :
    OneBlank GOAL.board ∧
    ∃ acts, possible_actions GOAL = some acts ∧ acts.length = 4 ∧
      (∀ a, a ∈ moves_of acts ↔ IsMove GOAL.board a) ∧
      (moves_of acts).Nodup ∧
      (∀ a b, a ∈ moves_of acts → b ∈ moves_of acts → a.row = b.row → a.col = b.col → a = b) ∧
      2 ≤ (moves_of acts).length ∧ (moves_of acts).length ≤ 4 ∧
      acts = moves_of acts ++ List.replicate (4 - (moves_of acts).length) null_action :=
  ⟨by decide, possible_actions_one_blank GOAL (by decide)⟩

theorem toIdx_cast (i : Fin 4) : toIdx (i.val : Int) = some i := by
  unfold toIdx
  have := i.isLt
  rw [dif_pos (by omega)]
  simp

theorem toIdx_of_eq (x : Int) (k : Fin 4) (h : x = (k.val : Int)) : toIdx x = some k := by
  subst h; exact toIdx_cast k

theorem swap_cells_eq (g : Grid) (r c r2 c2 : Int) (i j i2 j2 : Fin 4)
    (hr : r = (i.val : Int)) (hc : c = (j.val : Int)) (hr2 : r2 = (i2.val : Int))
    (hc2 : c2 = (j2.val : Int)) :
    swap_cells g r c r2 c2 = some ((g.set i j (g i2 j2)).set i2 j2 (g i j)) := by
  unfold swap_cells
  rw [toIdx_of_eq r i hr, toIdx_of_eq c j hc, toIdx_of_eq r2 i2 hr2, toIdx_of_eq c2 j2 hc2]
  rfl

/-- The board that `result` returns for a move of the tile at `(i, j)` into the
blank at `(bi, bj)`. -/
theorem result_of_move (brd : Board) (a : Action) (i j bi bj : Fin 4)
    (hr : a.row = i.val) (hc : a.col = j.val)
    (hd : (a.direction = some "RIGHT" ∧ bi = i ∧ bj.val = j.val + 1) ∨
          (a.direction = some "LEFT" ∧ bi = i ∧ bj.val + 1 = j.val) ∨
          (a.direction = some "UP" ∧ bi.val + 1 = i.val ∧ bj = j) ∨
          (a.direction = some "DOWN" ∧ bi.val = i.val + 1 ∧ bj = j)) :
    ∃ r, result a brd = some r ∧ r.parent = brd.addr ∧ r.h_score = manhattan_distance r ∧
      r.board = (brd.board.set i j (brd.board bi bj)).set bi bj (brd.board i j) := by
  have key : ∀ dir, a.direction = some dir →
      moved_grid a dir (fun i j => brd.board i j)
        = some ((brd.board.set i j (brd.board bi bj)).set bi bj (brd.board i j)) →
      ∃ r, result a brd = some r ∧ r.parent = brd.addr ∧ r.h_score = manhattan_distance r ∧
        r.board = (brd.board.set i j (brd.board bi bj)).set bi bj (brd.board i j) := by
    intro dir h1 h2
    refine ⟨{ board := (brd.board.set i j (brd.board bi bj)).set bi bj (brd.board i j),
              h_score := manhattan_distance
                { board := (brd.board.set i j (brd.board bi bj)).set bi bj (brd.board i j),
                  h_score := 0, parent := brd.addr },
              parent := brd.addr }, ?_, rfl, rfl, rfl⟩
    unfold result
    rw [h1, Option.some_bind, h2, Option.some_bind]
  rcases hd with ⟨h1, h2, h3⟩ | ⟨h1, h2, h3⟩ | ⟨h1, h2, h3⟩ | ⟨h1, h2, h3⟩
  · apply key _ h1
    simp only [moved_grid, if_true]
    exact swap_cells_eq _ _ _ _ _ i j bi bj hr hc (by rw [hr, h2]) (by rw [hc]; omega)
  · apply key _ h1
    simp only [moved_grid, if_true, show ¬ ("LEFT" = "RIGHT") by decide, if_false]
    exact swap_cells_eq _ _ _ _ _ i j bi bj hr hc (by rw [hr, h2]) (by rw [hc]; omega)
  · apply key _ h1
    simp only [moved_grid, if_true, show ¬ ("UP" = "RIGHT") by decide,
      show ¬ ("UP" = "LEFT") by decide, if_false]
    exact swap_cells_eq _ _ _ _ _ i j bi bj hr hc (by rw [hr]; omega) (by rw [hc, h3])
  · apply key _ h1
    simp only [moved_grid, show ¬ ("DOWN" = "RIGHT") by decide,
      show ¬ ("DOWN" = "LEFT") by decide, show ¬ ("DOWN" = "UP") by decide, if_false]
    exact swap_cells_eq _ _ _ _ _ i j bi bj hr hc (by rw [hr]; omega) (by rw [hc, h3])

/-- What `result` does with a move returned for a board whose only blank is at
`(bi, bj)`: the moved tile `(i, j)` is a neighbour of the blank and changes
places with it. -/
theorem step_facts (brd : Board) (bi bj : Fin 4)
    (hz : ∀ i j : Fin 4, brd.board i j = 0 ↔ (i = bi ∧ j = bj))
    (a : Action) (ha : a ∈ blank_moves brd.board bi bj) :
    ∃ r i j, result a brd = some r ∧ r.parent = brd.addr ∧
      r.h_score = manhattan_distance r ∧
      a.row = i.val ∧ a.col = j.val ∧ a.value = brd.board i j ∧ brd.board i j ≠ 0 ∧
      Adjacent i j bi bj ∧ r.board = slid brd.board i j bi bj := by
  obtain ⟨i, j, b1, b2, hb0, hne, hr, hc, hv, hd⟩ := (isMove_iff brd.board bi bj hz a).mp ha
  obtain ⟨rfl, rfl⟩ := (hz _ _).mp hb0
  obtain ⟨r, h1, h2, h3, h4⟩ := result_of_move brd a i j b1 b2 hr hc hd
  refine ⟨r, i, j, h1, h2, h3, hr, hc, hv, hne, ?_, ?_⟩
  · unfold Adjacent
    rcases hd with ⟨_, k2, k3⟩ | ⟨_, k2, k3⟩ | ⟨_, k2, k3⟩ | ⟨_, k2, k3⟩
    · exact Or.inl ⟨k2, Or.inl k3⟩
    · exact Or.inl ⟨k2, Or.inr k3⟩
    · exact Or.inr ⟨k3, Or.inl k2⟩
    · exact Or.inr ⟨k3, Or.inr k2⟩
  · rw [h4]
    funext x y
    have hij : ¬ (b1 = i ∧ b2 = j) := by
      rintro ⟨rfl, rfl⟩; exact hne hb0
    unfold Grid.set slid
    by_cases h5 : x = b1 ∧ y = b2
    · obtain ⟨rfl, rfl⟩ := h5
      simp [hij]
    · by_cases h6 : x = i ∧ y = j
      · obtain ⟨rfl, rfl⟩ := h6
        have h7 : ¬ (x = b1 ∧ y = b2) := h5
        simp [h7, hb0]
      · simp [h5, h6]

theorem slid_oneBlank (g : Grid) (i j bi bj : Fin 4)
    (hz : ∀ i j : Fin 4, g i j = 0 ↔ (i = bi ∧ j = bj)) (hne : g i j ≠ 0) :
    ∀ x y : Fin 4, slid g i j bi bj x y = 0 ↔ (x = i ∧ y = j) := by
  intro x y
  unfold slid
  by_cases h1 : x = i ∧ y = j
  · simp [h1]
  · by_cases h2 : x = bi ∧ y = bj
    · simp [h1, h2, hne]
    · simp only [h1, h2, if_false, iff_false]
      intro hc; exact h2 ((hz _ _).mp hc)

theorem slid_multiset (g : Grid) (i j bi bj : Fin 4) (h0 : g bi bj = 0) :
    Multiset.map (fun p : Fin 4 × Fin 4 => slid g i j bi bj p.1 p.2) Finset.univ.val
      = Multiset.map (fun p : Fin 4 × Fin 4 => g p.1 p.2) Finset.univ.val := by
  have h : (fun p : Fin 4 × Fin 4 => slid g i j bi bj p.1 p.2)
      = (fun p : Fin 4 × Fin 4 => g p.1 p.2) ∘ (Equiv.swap (i, j) (bi, bj)) := by
    funext p
    obtain ⟨x, y⟩ := p
    simp only [Function.comp, slid]
    by_cases h1 : x = i ∧ y = j
    · obtain ⟨rfl, rfl⟩ := h1
      simp [h0]
    · by_cases h2 : x = bi ∧ y = bj
      · obtain ⟨rfl, rfl⟩ := h2
        simp [h1]
      · have e1 : (x, y) ≠ (i, j) := fun hc => h1 (by simpa using hc)
        have e2 : (x, y) ≠ (bi, bj) := fun hc => h2 (by simpa using hc)
        rw [Equiv.swap_apply_of_ne_of_ne e1 e2]
        simp [h1, h2]
  rw [h, ← Multiset.map_map, Multiset.map_univ_val_equiv]

theorem manhattan_sum_prod (g : Grid) :
    manhattan_sum g = ∑ p : Fin 4 × Fin 4, tile_distance p.1 p.2 (g p.1 p.2) := by
  unfold manhattan_sum
  rw [Fintype.sum_prod_type]

theorem tile_distance_zero (i j : Fin 4) : tile_distance i j 0 = 0 := by
  simp [tile_distance]

theorem slid_sum (g : Grid) (i j bi bj : Fin 4) (h0 : g bi bj = 0) (hne : g i j ≠ 0) :
    manhattan_sum (slid g i j bi bj)
      = manhattan_sum g - tile_distance i j (g i j) + tile_distance bi bj (g i j) := by
  have hij : (i, j) ≠ (bi, bj) := by
    intro hc
    have h1 : i = bi := congrArg Prod.fst hc
    have h2 : j = bj := congrArg Prod.snd hc
    rw [h1, h2] at hne; exact hne h0
  rw [manhattan_sum_prod, manhattan_sum_prod]
  have hpt : ∀ p : Fin 4 × Fin 4,
      tile_distance p.1 p.2 (slid g i j bi bj p.1 p.2)
        = tile_distance p.1 p.2 (g p.1 p.2)
          + ((if p = (i, j) then - tile_distance i j (g i j) else 0)
             + (if p = (bi, bj) then tile_distance bi bj (g i j) else 0)) := by
    rintro ⟨x, y⟩
    unfold slid
    by_cases h1 : x = i ∧ y = j
    · obtain ⟨rfl, rfl⟩ := h1
      simp [hij, tile_distance_zero]
    · by_cases h2 : x = bi ∧ y = bj
      · obtain ⟨rfl, rfl⟩ := h2
        simp [h1, hij.symm, h0, tile_distance_zero]
      · have e1 : (x, y) ≠ (i, j) := fun hc => h1 (by simpa using hc)
        have e2 : (x, y) ≠ (bi, bj) := fun hc => h2 (by simpa using hc)
        simp [h1, h2, e1, e2]
  rw [Finset.sum_congr rfl (fun p _ => hpt p), Finset.sum_add_distrib, Finset.sum_add_distrib,
    Finset.sum_ite_eq', Finset.sum_ite_eq']
  simp only [Finset.mem_univ, if_true]
  ring

theorem abs_succ_cases (x : Int) : |x + 1| = |x| + 1 ∨ |x + 1| = |x| - 1 := by
  rcases abs_cases x with ⟨h1, h2⟩ | ⟨h1, h2⟩ <;>
    rcases abs_cases (x + 1) with ⟨h3, h4⟩ | ⟨h3, h4⟩ <;> omega

theorem abs_pred_cases (x : Int) : |x - 1| = |x| + 1 ∨ |x - 1| = |x| - 1 := by
  rcases abs_cases x with ⟨h1, h2⟩ | ⟨h1, h2⟩ <;>
    rcases abs_cases (x - 1) with ⟨h3, h4⟩ | ⟨h3, h4⟩ <;> omega

theorem tile_distance_adjacent (i j bi bj : Fin 4) (v : Int) (hv : v ≠ 0)
    (hadj : Adjacent i j bi bj) :
    tile_distance bi bj v = tile_distance i j v + 1 ∨
    tile_distance bi bj v = tile_distance i j v - 1 := by
  unfold tile_distance
  simp only [hv, if_false]
  rcases hadj with ⟨rfl, h | h⟩ | ⟨rfl, h | h⟩
  · have e : ((bj.val : Int) - v.tmod 4) = ((j.val : Int) - v.tmod 4) + 1 := by omega
    rw [e]; rcases abs_succ_cases ((j.val : Int) - v.tmod 4) with h2 | h2 <;> omega
  · have e : ((bj.val : Int) - v.tmod 4) = ((j.val : Int) - v.tmod 4) - 1 := by omega
    rw [e]; rcases abs_pred_cases ((j.val : Int) - v.tmod 4) with h2 | h2 <;> omega
  · have e : ((bi.val : Int) - v.tdiv 4) = ((i.val : Int) - v.tdiv 4) - 1 := by omega
    rw [e]; rcases abs_pred_cases ((i.val : Int) - v.tdiv 4) with h2 | h2 <;> omega
  · have e : ((bi.val : Int) - v.tdiv 4) = ((i.val : Int) - v.tdiv 4) + 1 := by omega
    rw [e]; rcases abs_succ_cases ((i.val : Int) - v.tdiv 4) with h2 | h2 <;> omega

theorem moves_of_possible (brd : Board) (bi bj : Fin 4)
    (hz : ∀ i j : Fin 4, brd.board i j = 0 ↔ (i = bi ∧ j = bj))
    (acts : List Action) (hp : possible_actions brd = some acts) :
    moves_of acts = blank_moves brd.board bi bj := by
  rw [possible_actions_blank brd bi bj hz] at hp
  rw [← Option.some.inj hp]
  exact moves_of_pad _ _ (blank_moves_dir brd.board bi bj)

theorem oneBlank_of_iff (g : Grid) (bi bj : Fin 4)
    (hz : ∀ i j : Fin 4, g i j = 0 ↔ (i = bi ∧ j = bj)) : OneBlank g :=
  ⟨bi, bj, (hz bi bj).mpr ⟨rfl, rfl⟩, fun i j h => (hz i j).mp h⟩

/-- C10: for a board with exactly one blank and a move returned by
`possible_actions`, `result` returns a board that holds the blank in the cell
of the moved tile and the tile's (non-zero) value in the cell that held the
blank, and agrees with the given board in every other cell; it has again
exactly one blank and the same multiset of values. -/
theorem result_swaps_two_cells (brd : Board) (h : OneBlank brd.board)
    (acts : List Action) (hp : possible_actions brd = some acts)
    (m : Action) (hm : m ∈ moves_of acts) :
    ∃ r i j bi bj, result m brd = some r ∧
      m.row = i.val ∧ m.col = j.val ∧ m.value = brd.board i j ∧ m.value ≠ 0 ∧
      brd.board bi bj = 0 ∧
      r.board i j = 0 ∧ r.board bi bj = m.value ∧
      (∀ a b, ¬ (a = i ∧ b = j) → ¬ (a = bi ∧ b = bj) → r.board a b = brd.board a b) ∧
      r.board i j ≠ brd.board i j ∧ r.board bi bj ≠ brd.board bi bj ∧
      OneBlank r.board ∧
      Multiset.map (fun p : Fin 4 × Fin 4 => r.board p.1 p.2) Finset.univ.val
        = Multiset.map (fun p : Fin 4 × Fin 4 => brd.board p.1 p.2) Finset.univ.val := by
  obtain ⟨bi, bj, h0, hu⟩ := h
  have hz := oneBlank_iff brd.board bi bj h0 hu
  rw [moves_of_possible brd bi bj hz acts hp] at hm
  obtain ⟨r, i, j, h1, -, -, hr, hc, hv, hne, -, hb⟩ := step_facts brd bi bj hz m hm
  have hz2 := slid_oneBlank brd.board i j bi bj hz hne
  have hij : ¬ (bi = i ∧ bj = j) := by
    rintro ⟨rfl, rfl⟩; exact hne h0
  have e1 : r.board i j = 0 := by rw [hb]; exact (hz2 i j).mpr ⟨rfl, rfl⟩
  have e2 : r.board bi bj = brd.board i j := by
    rw [hb]; unfold slid; simp [hij]
  refine ⟨r, i, j, bi, bj, h1, hr, hc, hv, by rw [hv]; exact hne, h0, e1, by rw [e2, hv],
    ?_, ?_, ?_, ?_, ?_⟩
  · intro a b ha hb2
    rw [hb]; unfold slid; simp [ha, hb2]
  · rw [e1]; exact fun hc2 => hne hc2.symm
  · rw [e2, h0]; exact hne
  · rw [hb]; exact oneBlank_of_iff _ i j hz2
  · rw [hb]; exact slid_multiset brd.board i j bi bj h0

theorem result_swaps_two_cells_witness :
    OneBlank GOAL.board ∧
    possible_actions GOAL = some goalActs ∧
    leftOne ∈ moves_of goalActs ∧
    ∃ r i j bi bj, result leftOne GOAL = some r ∧
      leftOne.row = i.val ∧
      leftOne.col = j.val ∧
      leftOne.value = GOAL.board i j ∧
      leftOne.value ≠ 0 ∧
      GOAL.board bi bj = 0 ∧
      r.board i j = 0 ∧ r.board bi bj = leftOne.value ∧
      (∀ a b, ¬ (a = i ∧ b = j) → ¬ (a = bi ∧ b = bj) → r.board a b = GOAL.board a b) ∧
      r.board i j ≠ GOAL.board i j ∧ r.board bi bj ≠ GOAL.board bi bj ∧
      OneBlank r.board ∧
      Multiset.map (fun p : Fin 4 × Fin 4 => r.board p.1 p.2) Finset.univ.val
        = Multiset.map (fun p : Fin 4 × Fin 4 => GOAL.board p.1 p.2) Finset.univ.val :=
  ⟨by decide, by decide, by decide,
   result_swaps_two_cells GOAL (by decide) goalActs (by decide) leftOne (by decide)⟩

/-- The exact sum of tile distances changes by one with every legal move. -/
theorem sum_step (brd : Board) (bi bj : Fin 4)
    (hz : ∀ i j : Fin 4, brd.board i j = 0 ↔ (i = bi ∧ j = bj))
    (m : Action) (hm : m ∈ blank_moves brd.board bi bj) :
    ∃ r, result m brd = some r ∧ r.h_score = manhattan_distance r ∧ OneBlank r.board ∧
      (manhattan_sum r.board = manhattan_sum brd.board + 1 ∨
       manhattan_sum r.board = manhattan_sum brd.board - 1) := by
  obtain ⟨r, i, j, h1, -, h3, -, -, -, hne, hadj, hb⟩ := step_facts brd bi bj hz m hm
  refine ⟨r, h1, h3, ?_, ?_⟩
  · rw [hb]; exact oneBlank_of_iff _ i j (slid_oneBlank brd.board i j bi bj hz hne)
  · rw [hb, slid_sum brd.board i j bi bj ((hz bi bj).mpr ⟨rfl, rfl⟩) hne]
    rcases tile_distance_adjacent i j bi bj (brd.board i j) hne hadj with h | h <;> omega

/-- C8 (as amended): for a board with exactly one blank whose sum of tile
distances is below `INT_MAX`, and a move returned by `possible_actions`, the
score of the successor differs from the score of the board by exactly one, so
the score of the board is at most one more than the score of the successor. -/
theorem score_step (brd : Board) (h : OneBlank brd.board)
    (acts : List Action) (hp : possible_actions brd = some acts)
    (m : Action) (hm : m ∈ moves_of acts) (hs : manhattan_sum brd.board < INT_MAX) :
    ∃ r, result m brd = some r ∧ |r.h_score - manhattan_distance brd| = 1 ∧
      manhattan_distance brd ≤ 1 + r.h_score := by
  obtain ⟨bi, bj, h0, hu⟩ := h
  have hz := oneBlank_iff brd.board bi bj h0 hu
  rw [moves_of_possible brd bi bj hz acts hp] at hm
  obtain ⟨r, h1, h3, -, h4⟩ := sum_step brd bi bj hz m hm
  refine ⟨r, h1, ?_⟩
  rw [h3, manhattan_distance_exact brd (by omega), manhattan_distance_exact r (by omega)]
  rcases h4 with h4 | h4
  · rw [h4]; constructor
    · simp
    · omega
  · rw [h4]; constructor
    · simp
    · omega

theorem score_step_witness :
    OneBlank GOAL.board ∧
    possible_actions GOAL = some goalActs ∧
    leftOne ∈ moves_of goalActs ∧
    manhattan_sum GOAL.board < INT_MAX ∧
    ∃ r, result leftOne GOAL = some r ∧
      |r.h_score - manhattan_distance GOAL| = 1 ∧ manhattan_distance GOAL ≤ 1 + r.h_score :=
  ⟨by decide, by decide, by decide, by rw [manhattan_sum_cells]; decide,
   score_step GOAL (by decide) goalActs (by decide) leftOne (by decide)
     (by rw [manhattan_sum_cells]; decide)⟩

/-- C8 (as stated) fails: on a board with one blank whose score is exactly
`INT_MAX`, the move of tile 1 into the blank gives a successor whose score
wraps around to the most negative `int`. -/
theorem score_step_overflow :
    OneBlank edgeBoard.board ∧
    ¬ (∀ acts m r, possible_actions edgeBoard = some acts → m ∈ moves_of acts →
        result m edgeBoard = some r →
        |r.h_score - manhattan_distance edgeBoard| = 1 ∧
          manhattan_distance edgeBoard ≤ 1 + r.h_score) := by
  refine ⟨by decide, ?_⟩
  intro hall
  have hp : possible_actions edgeBoard = some goalActs := by decide
  have hs : (result leftOne edgeBoard).map (fun r => r.h_score)
      = some (-2147483648) := by decide
  have hd : manhattan_distance edgeBoard = 2147483647 := by decide
  cases hres : result leftOne edgeBoard with
  | none => rw [hres] at hs; simp at hs
  | some r =>
    rw [hres] at hs
    simp only [Option.map_some', Option.some.injEq] at hs
    have := (hall _ _ r hp (by decide) hres).2
    rw [hs, hd] at this
    omega

theorem compare_boards_eq (x y : Grid) : compare_boards x y = 0 ↔ x = y := by
  unfold compare_boards
  constructor
  · intro h
    split at h
    · rename_i hall
      simp only [idx4, List.all_cons, List.all_nil, Bool.and_true, Bool.and_eq_true,
        decide_eq_true_eq] at hall
      funext i j
      fin_cases i <;> fin_cases j <;> simp [hall]
    · simp at h
  · rintro rfl
    simp

theorem compare_boards_ne (x y : Grid) (h : compare_boards x y ≠ 0) : x ≠ y :=
  fun hc => h ((compare_boards_eq x y).mpr hc)

theorem manhattan_sum_goal : manhattan_sum GOAL.board = 0 := by
  rw [manhattan_sum_cells]; decide

/-- Along a run of legal moves the exact sum of tile distances drops by at
most one per move. -/
theorem run_sum (ms : List Action) : ∀ (C r : Board), OneBlank C.board →
    apply_moves ms C = some r →
    manhattan_sum C.board ≤ ms.length + manhattan_sum r.board := by
  induction ms with
  | nil =>
    intro C r _ h
    simp only [apply_moves, Option.some.injEq] at h
    subst h; simp
  | cons m ms ih =>
    intro C r hC h
    obtain ⟨bi, bj, h0, hu⟩ := hC
    have hz := oneBlank_iff C.board bi bj h0 hu
    simp only [apply_moves] at h
    cases hp : possible_actions C with
    | none => rw [hp] at h; simp at h
    | some acts =>
      rw [hp, Option.some_bind] at h
      split at h
      · rename_i hm
        rw [moves_of_possible C bi bj hz acts hp] at hm
        obtain ⟨r1, h1, -, hob, h4⟩ := sum_step C bi bj hz m hm
        rw [h1, Option.some_bind] at h
        have := ih r1 r hob h
        simp only [List.length_cons, Nat.cast_add, Nat.cast_one]
        rcases h4 with h4 | h4 <;> omega
      · simp at h

/-- C7: for a board with exactly one blank and a sequence of legal moves (each
among the moves of `possible_actions` for the current board, applied with
`result`) that ends in a board equal to the goal board, `manhattan_distance`
of the board is at most the number of moves. -/
theorem manhattan_admissible (C : Board) (h : OneBlank C.board) (ms : List Action)
    (hg : (apply_moves ms C).map (fun r => compare_boards r.board GOAL.board) = some 0) :
    manhattan_distance C ≤ ms.length := by
  cases hr : apply_moves ms C with
  | none => rw [hr] at hg; simp at hg
  | some r =>
    rw [hr] at hg
    simp only [Option.map_some', Option.some.injEq] at hg
    have hb := (compare_boards_eq _ _).mp hg
    have hs := run_sum ms C r h hr
    rw [hb, manhattan_sum_goal] at hs
    by_cases hle : manhattan_sum C.board ≤ INT_MAX
    · rw [manhattan_distance_exact C hle]; omega
    · have := manhattan_distance_le C
      omega

theorem manhattan_admissible_witness :
    OneBlank oneAway.board ∧
    (apply_moves [rightOne] oneAway).map (fun r => compare_boards r.board GOAL.board) = some 0 ∧
    manhattan_distance oneAway ≤ ([rightOne] : List Action).length :=
  ⟨by decide, by decide, manhattan_admissible oneAway (by decide) [rightOne] (by decide)⟩

/-! ## Inversion of the monadic definitions -/

theorem bind_ok_iff {α β : Type} (x : Except Fail α) (f : α → Except Fail β) (b : β) :
    (x >>= f) = Except.ok b ↔ ∃ a, x = Except.ok a ∧ f a = Except.ok b := by
  cases x with
  | error e => simp [bind, Except.bind]
  | ok a => simp [bind, Except.bind]

theorem pure_ok_iff {α : Type} (a b : α) : (pure a : Except Fail α) = Except.ok b ↔ a = b := by
  simp [pure, Except.pure]

theorem orFault_ok {α : Type} (o : Option α) (a : α) : orFault o = Except.ok a ↔ o = some a := by
  cases o <;> simp [orFault]

theorem rd_ok (mem : Mem) (p : Option Nat) (nd : Node) :
    rd mem p = Except.ok nd ↔ ∃ a, p = some a ∧ mem.get? a = some nd := by
  cases p with
  | none => simp [rd]
  | some a => simp [rd, orFault_ok]

theorem rd_mem (mem : Mem) (p : Option Nat) (nd : Node) (h : rd mem p = Except.ok nd) :
    nd ∈ mem := by
  obtain ⟨a, -, h2⟩ := (rd_ok mem p nd).mp h
  exact List.get?_mem h2

/-! ## Operations that keep the boards in memory -/

theorem set_next_good (sg : Grid) (mem mem2 : Mem) (p nx : Option Nat)
    (h : set_next mem p nx = Except.ok mem2) (hg : AllGood sg mem) : AllGood sg mem2 := by
  unfold set_next at h
  simp only [bind_ok_iff] at h
  obtain ⟨nd, h1, h2⟩ := h
  cases p with
  | none => simp at h2
  | some a =>
    simp only [pure_ok_iff] at h2
    subst h2
    intro x hx
    rcases List.mem_or_eq_of_mem_set hx with h3 | h3
    · exact hg x h3
    · subst h3
      exact hg nd (rd_mem mem _ nd h1)

theorem push_good (sg : Grid) (mem mem2 : Mem) (ll ll2 : LinkedList) (node : Option Nat)
    (h : push mem ll node = Except.ok (mem2, ll2)) (hg : AllGood sg mem) : AllGood sg mem2 := by
  unfold push at h
  split at h
  · simp only [pure_ok_iff, Prod.mk.injEq] at h
    rw [← h.1]; exact hg
  · split at h
    · simp only [bind_ok_iff, pure_ok_iff, Prod.mk.injEq] at h
      obtain ⟨m, h1, h2, -⟩ := h
      subst h2
      exact set_next_good sg mem m _ _ h1 hg
    · simp only [bind_ok_iff, pure_ok_iff, Prod.mk.injEq] at h
      obtain ⟨m, h1, h2, -⟩ := h
      subst h2
      exact set_next_good sg mem m _ _ h1 hg

theorem remove_node_body_good (sg : Grid) (mem mem2 : Mem) (ll ll2 : LinkedList)
    (node : Option Nat) (h : remove_node_body mem ll node = Except.ok (mem2, ll2))
    (hg : AllGood sg mem) : AllGood sg mem2 := by
  unfold remove_node_body at h
  split at h
  · simp only [pure_ok_iff, Prod.mk.injEq] at h
    rw [← h.1]; exact hg
  · split at h
    · split at h <;>
      · simp only [pure_ok_iff, Prod.mk.injEq] at h
        rw [← h.1]; exact hg
    · split at h
      · simp only [bind_ok_iff, pure_ok_iff, Prod.mk.injEq] at h
        obtain ⟨_, _, h2, -⟩ := h
        rw [← h2]; exact hg
      · split at h
        · simp only [bind_ok_iff, pure_ok_iff, Prod.mk.injEq] at h
          obtain ⟨_, _, h2, -⟩ := h
          rw [← h2]; exact hg
        · simp only [bind_ok_iff, pure_ok_iff, Prod.mk.injEq] at h
          obtain ⟨prev, _, p, _, q, _, m, h1, h2, -⟩ := h
          subst h2
          exact set_next_good sg mem m _ _ h1 hg

theorem remove_node_good (sg : Grid) (mem mem2 : Mem) (ll ll2 : LinkedList)
    (node : Option Nat) (h : remove_node mem ll node = Except.ok (mem2, ll2))
    (hg : AllGood sg mem) : AllGood sg mem2 := by
  unfold remove_node at h
  split at h
  · exact remove_node_body_good sg mem mem2 ll ll2 node h hg
  · simp only [pure_ok_iff, Prod.mk.injEq] at h
    rw [← h.1]; exact hg

theorem make_node_good (sg : Grid) (mem : Mem) (b : Board) (hg : AllGood sg mem)
    (hb : Chain sg b.board b.parent) : AllGood sg (make_node mem b).1 := by
  intro x hx
  simp only [make_node, List.mem_append, List.mem_singleton] at hx
  rcases hx with h | h
  · exact hg x h
  · subst h; exact hb

theorem find_match_ok (mem : Mem) (g : Grid) (n : Nat) (p tmp : Option Nat) (t : Node)
    (h : find_match mem g n p = Except.ok tmp) (ht : rd mem tmp = Except.ok t) :
    t.board.board = g := by
  induction n generalizing p with
  | zero => simp [find_match] at h
  | succ n ih =>
    unfold find_match at h
    cases p with
    | none =>
      simp only [pure_ok_iff] at h
      subst h
      simp [rd] at ht
    | some a =>
      simp only [bind_ok_iff] at h
      obtain ⟨t2, h1, h2⟩ := h
      split at h2
      · rename_i hc
        simp only [pure_ok_iff] at h2
        subst h2
        rw [h1] at ht
        cases ht
        exact (compare_boards_eq _ _).mp hc
      · exact ih _ h2

theorem set_parent_score_good (sg : Grid) (mem mem2 : Mem) (tmp : Option Nat)
    (parent : BoardPtr) (hs : Int) (t : Node) (ht : rd mem tmp = Except.ok t)
    (h : set_parent_score mem tmp parent hs = Except.ok mem2) (hg : AllGood sg mem)
    (hc : Chain sg t.board.board parent) : AllGood sg mem2 := by
  unfold set_parent_score at h
  simp only [bind_ok_iff] at h
  obtain ⟨t2, h1, h2⟩ := h
  rw [ht] at h1
  cases h1
  cases tmp with
  | none => simp at h2
  | some a =>
    simp only [pure_ok_iff] at h2
    subst h2
    intro x hx
    rcases List.mem_or_eq_of_mem_set hx with h3 | h3
    · exact hg x h3
    · subst h3; exact hc

theorem foldlM_inv {σ α : Type} (f : σ → α → Except Fail σ) (I : σ → Prop) (Q : α → Prop)
    (hf : ∀ s c s2, f s c = Except.ok s2 → I s → Q c → I s2) :
    ∀ (l : List α) (s s2 : σ), l.foldlM f s = Except.ok s2 → I s → (∀ c ∈ l, Q c) → I s2 := by
  intro l
  induction l with
  | nil =>
    intro s s2 h hi _
    simp only [List.foldlM_nil, pure_ok_iff] at h
    subst h; exact hi
  | cons c l ih =>
    intro s s2 h hi hq
    simp only [List.foldlM_cons, bind_ok_iff] at h
    obtain ⟨s1, h1, h2⟩ := h
    exact ih s1 s2 h2 (hf s c s1 h1 hi (hq c (List.mem_cons_self _ _)))
      (fun c2 hc2 => hq c2 (List.mem_cons_of_mem _ hc2))

theorem result_parent (m : Action) (b c : Board) (h : result m b = some c) :
    c.parent = b.addr := by
  unfold result at h
  cases hd : m.direction with
  | none => rw [hd] at h; simp at h
  | some dir =>
    rw [hd, Option.some_bind] at h
    cases hg : moved_grid m dir (fun i j => b.board i j) with
    | none => rw [hg] at h; simp at h
    | some g =>
      rw [hg, Option.some_bind] at h
      cases h; rfl

theorem expand_loop_mem (b : Board) (l : List Action) (out : List Board)
    (h : expand_loop b l = some out) :
    ∀ c ∈ out, ∃ m ∈ l, m.direction.isSome = true ∧ result m b = some c := by
  induction l generalizing out with
  | nil =>
    simp only [expand_loop, Option.some.injEq] at h
    subst h; simp
  | cons a l ih =>
    unfold expand_loop at h
    cases hd : a.direction with
    | none =>
      rw [hd] at h
      simp only [Option.some.injEq] at h
      subst h; simp
    | some d =>
      rw [hd] at h
      simp only [bind, Option.bind_eq_some, pure, Option.some.injEq] at h
      obtain ⟨tmp, h1, more, h2, h3⟩ := h
      subst h3
      intro c hc
      rcases List.mem_cons.mp hc with h4 | h4
      · subst h4
        exact ⟨a, List.mem_cons_self _ _, by rw [hd]; rfl, h1⟩
      · obtain ⟨m, hm, hm2, hm3⟩ := ih more h2 c h4
        exact ⟨m, List.mem_cons_of_mem _ hm, hm2, hm3⟩

theorem expand_mem (b : Board) (out : List Board) (h : expand b = some out) :
    ∀ c ∈ out, ∃ acts m, possible_actions b = some acts ∧ m ∈ moves_of acts ∧
      result m b = some c := by
  unfold expand at h
  simp only [bind, Option.bind_eq_some] at h
  obtain ⟨acts, h1, h2⟩ := h
  intro c hc
  obtain ⟨m, hm, hm2, hm3⟩ := expand_loop_mem b _ out h2 c hc
  refine ⟨acts, m, h1, ?_, hm3⟩
  unfold moves_of
  exact List.mem_filter.mpr ⟨List.mem_of_mem_take hm, hm2⟩

theorem expand_good (sg : Grid) (b : Board) (out : List Board) (h : expand b = some out)
    (hb : Chain sg b.board b.parent) : ∀ c ∈ out, Chain sg c.board c.parent := by
  intro c hc
  obtain ⟨acts, m, h1, h2, h3⟩ := expand_mem b out h c hc
  rw [result_parent m b c h3]
  exact ⟨⟨acts, m, c, h1, h2, h3, rfl⟩, hb⟩

theorem merge_one_good (sg : Grid) (s s2 : State) (c : Board)
    (h : merge_one s c = Except.ok s2) (hg : AllGood sg s.mem)
    (hc : Chain sg c.board c.parent) : AllGood sg s2.mem := by
  have hx : AllGood sg (make_node s.mem (copy_board c make_empty_board)).1 :=
    make_node_good sg s.mem _ hg hc
  unfold merge_one at h
  simp only [bind_ok_iff] at h
  obtain ⟨r1, -, h⟩ := h
  split at h
  · simp only [pure_ok_iff] at h
    subst h; exact hx
  · simp only [bind_ok_iff] at h
    obtain ⟨r2, -, h⟩ := h
    split at h
    · simp only [bind_ok_iff] at h
      obtain ⟨tmp, h1, t, h2, h⟩ := h
      split at h
      · simp only [bind_ok_iff, pure_ok_iff] at h
        obtain ⟨m, h3, h4⟩ := h
        subst h4
        have hb := find_match_ok _ _ _ _ tmp t h1 h2
        refine set_parent_score_good sg _ m tmp _ _ t h2 h3 hx ?_
        rw [hb]; exact hc
      · simp only [pure_ok_iff] at h
        subst h; exact hx
    · simp only [bind_ok_iff, pure_ok_iff] at h
      obtain ⟨⟨m, ol⟩, h1, h2⟩ := h
      subst h2
      exact push_good sg _ m _ ol _ h1 hx

theorem iteration_good (sg : Grid) (goal : Board) (s : State) (r : State ⊕ Outcome)
    (h : iteration goal s = Except.ok r) (hg : AllGood sg s.mem) :
    match r with
    | Sum.inl s2 => AllGood sg s2.mem
    | Sum.inr o => ∃ b, o = Outcome.found s.iters b ∧ Solution sg goal.board b := by
  unfold iteration at h
  simp only [bind_ok_iff] at h
  obtain ⟨remove, -, nd, h2, ⟨m1, cl⟩, h3, ⟨m2, ol⟩, h4, out, h5, h⟩ := h
  have hb : Chain sg (copy_board nd.board make_empty_board).board
      (copy_board nd.board make_empty_board).parent := hg nd (rd_mem _ _ _ h2)
  have hg1 := push_good sg _ _ _ _ _ h3 hg
  have hg2 := remove_node_good sg _ _ _ _ _ h4 hg1
  split at h
  · rename_i hc
    simp only [pure_ok_iff] at h
    subst h
    exact ⟨_, rfl, (compare_boards_eq _ _).mp hc, hb⟩
  · simp only [bind_ok_iff, pure_ok_iff] at h
    obtain ⟨s2, h6, h7⟩ := h
    subst h7
    have hexp := expand_good sg _ out ((orFault_ok _ _).mp h5) hb
    exact foldlM_inv merge_one (fun s => AllGood sg s.mem)
      (fun c => Chain sg c.board c.parent)
      (fun s c s2 h hi hq => merge_one_good sg s s2 c h hi hq) out _ s2 h6 hg2 hexp

theorem search_loop_good (sg : Grid) (goal : Board) (n : Nat) :
    ∀ (s : State) (it : Int) (cur : Board),
      search_loop goal n s = Except.ok (some (Outcome.found it cur)) → AllGood sg s.mem →
      Solution sg goal.board cur := by
  induction n with
  | zero =>
    intro s it cur h _
    unfold search_loop at h
    split at h <;> simp [pure, Except.pure] at h
  | succ n ih =>
    intro s it cur h hg
    unfold search_loop at h
    split at h
    · simp only [bind_ok_iff] at h
      obtain ⟨r, h1, h2⟩ := h
      have := iteration_good sg goal s r h1 hg
      cases r with
      | inl s2 => exact ih s2 it cur h2 this
      | inr o =>
        obtain ⟨b, hb1, hb2⟩ := this
        simp only [pure_ok_iff, Option.some.injEq] at h2
        rw [hb1] at h2
        cases h2
        exact hb2
    · simp [pure, Except.pure] at h

theorem init_state_good (start : Board) (s : State) (h : init_state start = Except.ok s)
    (hp : start.parent = BoardPtr.NULL) : AllGood start.board s.mem := by
  unfold init_state at h
  simp only [bind_ok_iff, pure_ok_iff] at h
  obtain ⟨⟨m, ol⟩, h1, h2⟩ := h
  subst h2
  refine push_good start.board _ m _ ol _ h1 ?_
  apply make_node_good start.board [] _ (fun x hx => by simp at hx)
  show Chain start.board start.board start.parent
  rw [hp]; rfl

theorem a_star_search_good (start goal : Board) (n : Nat) (it : Int) (cur : Board)
    (hp : start.parent = BoardPtr.NULL)
    (h : a_star_search start goal n = Except.ok (some (Outcome.found it cur))) :
    Solution start.board goal.board cur := by
  unfold a_star_search at h
  simp only [bind_ok_iff] at h
  obtain ⟨s, h1, h2⟩ := h
  split at h2
  · simp [pure, Except.pure] at h2
  · exact search_loop_good start.board goal n s it cur h2 (init_state_good start s h1 hp)

theorem par_merge_one_good (sg goal : Grid) (s s2 : PState) (c : Board)
    (h : par_merge_one s c = Except.ok s2) (hg : ParGood sg goal s)
    (hc : Chain sg c.board c.parent) : ParGood sg goal s2 := by
  have hx : AllGood sg (make_node s.mem (copy_board c make_empty_board)).1 :=
    make_node_good sg s.mem _ hg.1 hc
  unfold par_merge_one at h
  simp only [bind_ok_iff] at h
  obtain ⟨r1, -, h⟩ := h
  split at h
  · simp only [pure_ok_iff] at h
    subst h; exact ⟨hx, hg.2⟩
  · simp only [bind_ok_iff] at h
    obtain ⟨r2, -, h⟩ := h
    split at h
    · simp only [bind_ok_iff] at h
      obtain ⟨tmp, h1, t, h2, h⟩ := h
      split at h
      · simp only [bind_ok_iff, pure_ok_iff] at h
        obtain ⟨m, h3, h4⟩ := h
        subst h4
        have hb := find_match_ok _ _ _ _ tmp t h1 h2
        refine ⟨set_parent_score_good sg _ m tmp _ _ t h2 h3 hx ?_, hg.2⟩
        rw [hb]; exact hc
      · simp only [pure_ok_iff] at h
        subst h; exact ⟨hx, hg.2⟩
    · simp only [bind_ok_iff, pure_ok_iff] at h
      obtain ⟨⟨m, ol⟩, h1, h2⟩ := h
      subst h2
      exact ⟨push_good sg _ m _ ol _ h1 hx, hg.2⟩

theorem chain_last (sg : Grid) : ∀ (p : BoardPtr) (g : Grid) (h : Int), Chain sg g p →
    Chain sg (BoardPtr.last g h p).board (BoardPtr.last g h p).parent
  | BoardPtr.NULL, _, _, hc => hc
  | BoardPtr.ptr g2 h2 p2, _, _, hc => chain_last sg p2 g2 h2 hc.2

theorem par_iteration_good (sg : Grid) (goal : Board) (rank nprocs flag : Int) (s s2 : PState)
    (rc : Option Int) (h : par_iteration goal rank nprocs flag s = Except.ok (s2, rc))
    (hg : ParGood sg goal.board s) : ParGood sg goal.board s2 := by
  unfold par_iteration at h
  simp only [bind_ok_iff] at h
  obtain ⟨remove, -, nd, h2, ⟨m1, cl⟩, h3, ⟨m2, ol⟩, h4, out, h5, h⟩ := h
  have hb : Chain sg (copy_board nd.board make_empty_board).board
      (copy_board nd.board make_empty_board).parent := hg.1 nd (rd_mem _ _ _ h2)
  have hg1 := push_good sg _ _ _ _ _ h3 hg.1
  have hg2 := remove_node_body_good sg _ _ _ _ _ h4 hg1
  have hcur : Chain sg
      (if decide (compare_boards (copy_board nd.board make_empty_board).board goal.board = 0)
        then board_after_print (copy_board nd.board make_empty_board)
        else copy_board nd.board make_empty_board).board
      (if decide (compare_boards (copy_board nd.board make_empty_board).board goal.board = 0)
        then board_after_print (copy_board nd.board make_empty_board)
        else copy_board nd.board make_empty_board).parent := by
    split
    · exact chain_last sg _ _ _ hb
    · exact hb
  have hexp := expand_good sg _ out ((orFault_ok _ _).mp h5) hcur
  have fin : ∀ (pr : List Board) (own : Int), (∀ b ∈ pr, Solution sg goal.board b) →
      (if bcast rank own flag = 1 then
        (pure (({ mem := m2, closed_list := cl, open_list := ol, iters := s.iters,
                  solution_found := bcast rank own flag, printed := pr } : PState), some 0)
          : Except Fail (PState × Option Int))
       else do
        let s2 ← List.foldlM par_merge_one
          ({ mem := m2, closed_list := cl, open_list := ol, iters := s.iters,
             solution_found := bcast rank own flag, printed := pr } : PState) out
        pure ({ s2 with iters := s2.iters + 1 }, none)) = Except.ok (s2, rc) →
      ParGood sg goal.board s2 := by
    intro pr own hpr h
    split at h
    · simp only [pure_ok_iff, Prod.mk.injEq] at h
      rw [← h.1]
      exact ⟨hg2, hpr⟩
    · simp only [bind_ok_iff, pure_ok_iff, Prod.mk.injEq] at h
      obtain ⟨s3, h6, h7, -⟩ := h
      subst h7
      exact foldlM_inv par_merge_one (ParGood sg goal.board)
        (fun c => Chain sg c.board c.parent)
        (fun s c s2 h hi hq => par_merge_one_good sg goal.board s s2 c h hi hq) out _ s3 h6
        ⟨hg2, hpr⟩ hexp
  by_cases hc : compare_boards (copy_board nd.board make_empty_board).board goal.board = 0
  · simp only [hc, decide_True, if_true] at h
    refine fin _ _ ?_ h
    intro b hb2
    rcases List.mem_cons.mp hb2 with h6 | h6
    · subst h6
      exact ⟨(compare_boards_eq _ _).mp hc, hb⟩
    · exact hg.2 b h6
  · simp only [hc, decide_False, if_false] at h
    exact fin _ _ hg.2 h

theorem par_search_loop_good (sg : Grid) (goal : Board) (rank nprocs : Int)
    (flags : List Int) :
    ∀ (s s2 : PState) (rc : Option Int),
      par_search_loop goal rank nprocs flags s = Except.ok (s2, rc) → ParGood sg goal.board s →
      ParGood sg goal.board s2 := by
  induction flags with
  | nil =>
    intro s s2 rc h hg
    unfold par_search_loop at h
    split at h <;>
    · simp only [pure_ok_iff, Prod.mk.injEq] at h
      rw [← h.1]; exact hg
  | cons f fs ih =>
    intro s s2 rc h hg
    unfold par_search_loop at h
    split at h
    · simp only [bind_ok_iff] at h
      obtain ⟨⟨s3, rc3⟩, h1, h2⟩ := h
      have hg3 := par_iteration_good sg goal rank nprocs f s s3 rc3 h1 hg
      cases rc3 with
      | none => exact ih s3 s2 rc h2 hg3
      | some c =>
        simp only [pure_ok_iff, Prod.mk.injEq] at h2
        rw [← h2.1]; exact hg3
    · simp only [pure_ok_iff, Prod.mk.injEq] at h
      rw [← h.1]; exact hg

theorem par_init_state_good (start goal : Board) (s : PState)
    (h : par_init_state start = Except.ok s) (hp : start.parent = BoardPtr.NULL) :
    ParGood start.board goal.board s := by
  unfold par_init_state at h
  simp only [bind_ok_iff, pure_ok_iff] at h
  obtain ⟨⟨m, ol⟩, h1, h2⟩ := h
  subst h2
  refine ⟨push_good start.board _ m _ ol _ h1 ?_, fun b hb => by simp at hb⟩
  apply make_node_good start.board [] _ (fun x hx => by simp at hx)
  show Chain start.board start.board start.parent
  rw [hp]; rfl

theorem par_a_star_search_good (start goal : Board) (rank nprocs : Int) (flags : List Int)
    (s : PState) (rc : Option Int) (hp : start.parent = BoardPtr.NULL)
    (h : par_a_star_search start goal rank nprocs flags = Except.ok (s, rc)) :
    ∀ b ∈ s.printed, Solution start.board goal.board b := by
  unfold par_a_star_search at h
  simp only [bind_ok_iff] at h
  obtain ⟨s0, h1, h2⟩ := h
  have h0 := par_init_state_good start goal s0 h1 hp
  split at h2
  · simp only [pure_ok_iff, Prod.mk.injEq] at h2
    rw [← h2.1]; exact h0.2
  · exact (par_search_loop_good start.board goal rank nprocs flags s0 s rc h2 h0).2

theorem found_board_good (start goal : Board) (hp : start.parent = BoardPtr.NULL) (n : Nat) :
    ∀ cur ∈ found_board (a_star_search start goal n), Solution start.board goal.board cur := by
  intro cur hc
  cases h : a_star_search start goal n with
  | error e => rw [h] at hc; simp [found_board] at hc
  | ok o =>
    rw [h] at hc
    cases o with
    | none => simp [found_board] at hc
    | some oc =>
      cases oc with
      | initial => simp [found_board] at hc
      | not_found it => simp [found_board] at hc
      | found it b =>
        simp only [found_board, Option.mem_def, Option.some.injEq] at hc
        subst hc
        exact a_star_search_good start goal n it b hp h

/-- C1: when a run of `a_star_search` reports the goal at an extracted node,
the board of that node equals the goal board and its ancestor chain leads back
to the start board, each board being obtained from its parent by `result` with
a move that `possible_actions` returns for the parent.  This holds for the
sequential driver and, for every rank, worker count and sequence of broadcast
flags, for every node that the parallel driver hands to `print_parents`, for
every start board without parent. -/
theorem solution_path_valid (start goal : Board) (hp : start.parent = BoardPtr.NULL) :
    (∀ n, ∀ cur ∈ found_board (a_star_search start goal n),
      Solution start.board goal.board cur) ∧
    (∀ rank nprocs flags, ∀ b ∈ printed_boards (par_a_star_search start goal rank nprocs flags),
      Solution start.board goal.board b) := by
  constructor
  · exact found_board_good start goal hp
  · intro rank nprocs flags b hb
    cases h : par_a_star_search start goal rank nprocs flags with
    | error e => rw [h] at hb; simp [printed_boards] at hb
    | ok o =>
      obtain ⟨s, rc⟩ := o
      rw [h] at hb
      exact par_a_star_search_good start goal rank nprocs flags s rc hp h b hb

set_option maxRecDepth 100000 in
theorem solution_path_valid_witness :
    oneAway.parent = BoardPtr.NULL ∧
    (found_board (a_star_search oneAway GOAL 2)).isSome = true ∧
    (printed_boards (par_a_star_search oneAway GOAL 0 2 [0, 0])).length = 1 ∧
    parAfterHit.printed.length = 1 ∧ parAfterHit.mem.length = 7 ∧
    contents parAfterHit.mem parAfterHit.open_list = [2, 3] ∧
    (∀ n, ∀ cur ∈ found_board (a_star_search oneAway GOAL n),
      Solution oneAway.board GOAL.board cur) ∧
    (∀ rank nprocs flags, ∀ b ∈ printed_boards (par_a_star_search oneAway GOAL rank nprocs flags),
      Solution oneAway.board GOAL.board b) :=
  ⟨rfl, by decide, by decide, by decide, by decide, by decide,
   solution_path_valid oneAway GOAL rfl⟩

theorem possible_actions_congr (b1 b2 : Board) (h : b1.board = b2.board) :
    possible_actions b1 = possible_actions b2 := by
  unfold possible_actions; rw [h]

theorem result_congr (m : Action) (b1 b2 r1 : Board) (h : b1.board = b2.board)
    (hr : result m b1 = some r1) : ∃ r2, result m b2 = some r2 ∧ r2.board = r1.board := by
  unfold result at hr ⊢
  cases hd : m.direction with
  | none => rw [hd] at hr; simp at hr
  | some dir =>
    rw [hd] at hr
    rw [Option.some_bind] at hr ⊢
    rw [h] at hr
    cases hg : moved_grid m dir (fun i j => b2.board i j) with
    | none => rw [hg] at hr; simp at hr
    | some g =>
      rw [hg] at hr
      rw [Option.some_bind] at hr ⊢
      cases hr
      exact ⟨_, rfl, rfl⟩

theorem apply_moves_append (ms1 ms2 : List Action) (b : Board) :
    apply_moves (ms1 ++ ms2) b = (apply_moves ms1 b).bind (apply_moves ms2) := by
  induction ms1 generalizing b with
  | nil => simp [apply_moves]
  | cons m ms ih =>
    simp only [List.cons_append, apply_moves]
    cases possible_actions b with
    | none => simp
    | some acts =>
      simp only [Option.some_bind]
      split
      · cases result m b with
        | none => simp
        | some r => simp [ih]
      · simp

/-- A valid ancestor chain with `k` links gives `k` legal moves from the start. -/
theorem chain_path (sg : Grid) (b0 : Board) (h0 : b0.board = sg) (p : BoardPtr) :
    ∀ g, Chain sg g p →
      ∃ ms r, ms.length = p.links ∧ apply_moves ms b0 = some r ∧ r.board = g := by
  induction p with
  | NULL =>
    intro g hc
    exact ⟨[], b0, rfl, rfl, by rw [h0]; exact hc.symm⟩
  | ptr g2 h2 p2 ih =>
    intro g hc
    obtain ⟨⟨acts, m, r1, ha, hm, hr, hb⟩, hc2⟩ := hc
    obtain ⟨ms, r, hl, hrun, hrb⟩ := ih g2 hc2
    have hb2 : (⟨g2, h2, p2⟩ : Board).board = r.board := hrb.symm
    obtain ⟨r2, hr2, hrb2⟩ := result_congr m _ r r1 hb2 hr
    refine ⟨ms ++ [m], r2, ?_, ?_, ?_⟩
    · simp [BoardPtr.links, hl]
    · rw [apply_moves_append, hrun, Option.some_bind]
      simp only [apply_moves]
      rw [← possible_actions_congr _ r hb2, ha, Option.some_bind, if_pos hm, hr2]
      rfl
    · rw [hrb2, hb]

/-- C4 (as amended): the path length that the sequential `a_star_search`
reports (the number of ancestor links of the goal node it finds) is the length
of a sequence of legal moves that transforms the start board into the goal
board; it is therefore at least the minimal number of such moves. -/
theorem path_length_is_path (start goal : Board) (hp : start.parent = BoardPtr.NULL) (n : Nat) :
    ∀ cur ∈ found_board (a_star_search start goal n),
      ∃ ms : List Action, ms.length = print_parents cur ∧
        (apply_moves ms start).map (fun r => compare_boards r.board goal.board) = some 0 := by
  intro cur hc
  have hs := found_board_good start goal hp n cur hc
  obtain ⟨ms, r, hl, hrun, hrb⟩ := chain_path start.board start rfl cur.parent cur.board hs.2
  refine ⟨ms, hl, ?_⟩
  rw [hrun, Option.map_some', hrb, hs.1]
  exact congrArg some ((compare_boards_eq _ _).mpr rfl)

set_option maxRecDepth 100000 in
theorem path_length_is_path_witness :
    oneAway.parent = BoardPtr.NULL ∧
    (found_board (a_star_search oneAway GOAL 2)).isSome = true ∧
    ∀ cur ∈ found_board (a_star_search oneAway GOAL 2),
      ∃ ms : List Action, ms.length = print_parents cur ∧
        (apply_moves ms oneAway).map (fun r => compare_boards r.board GOAL.board) = some 0 :=
  ⟨rfl, by decide, path_length_is_path oneAway GOAL rfl 2⟩

set_option maxRecDepth 1000000 in
/-- C4 (as stated) fails: from a board eight legal moves away from the goal the
sequential search, which orders the frontier by the heuristic alone, reports a
path of ten moves. -/
theorem greedy_detour :
    (found_board (a_star_search detourBoard GOAL 13)).map print_parents = some 10 ∧
    (apply_moves shortPath detourBoard).map (fun r => compare_boards r.board GOAL.board)
      = some 0 ∧
    shortPath.length = 8 := by
  refine ⟨by decide, by decide, rfl⟩

theorem search_loop_error_mono (goal : Board) (e : Fail) (k : Nat) (n : Nat) :
    ∀ s, search_loop goal n s = Except.error e → search_loop goal (n + k) s = Except.error e := by
  induction n with
  | zero =>
    intro s h
    unfold search_loop at h
    split at h <;> simp [pure, Except.pure] at h
  | succ n ih =>
    intro s h
    rw [Nat.succ_add]
    unfold search_loop at h ⊢
    split
    · rename_i hs
      rw [if_pos hs] at h
      cases hi : iteration goal s with
      | error e2 =>
        rw [hi] at h
        simpa [bind, Except.bind] using h
      | ok r =>
        rw [hi] at h
        cases r with
        | inl s2 =>
          simp only [bind, Except.bind] at h ⊢
          exact ih s2 h
        | inr o => simp [bind, Except.bind, pure, Except.pure] at h
    · rename_i hs
      rw [if_neg hs] at h
      simp [pure, Except.pure] at h

theorem search_loop_ok_mono (goal : Board) (o : Outcome) (k : Nat) (n : Nat) :
    ∀ s, search_loop goal n s = Except.ok (some o) →
      search_loop goal (n + k) s = Except.ok (some o) := by
  induction n with
  | zero =>
    intro s h
    unfold search_loop at h
    split at h
    · simp [pure, Except.pure] at h
    · rename_i hs
      cases k with
      | zero => unfold search_loop; rw [if_neg hs]; exact h
      | succ k =>
        rw [Nat.zero_add]
        unfold search_loop; rw [if_neg hs]; exact h
  | succ n ih =>
    intro s h
    rw [Nat.succ_add]
    unfold search_loop at h ⊢
    split
    · rename_i hs
      rw [if_pos hs] at h
      cases hi : iteration goal s with
      | error e2 =>
        rw [hi] at h
        simp [bind, Except.bind] at h
      | ok r =>
        rw [hi] at h
        cases r with
        | inl s2 =>
          simp only [bind, Except.bind] at h ⊢
          exact ih s2 h
        | inr o2 => simpa [bind, Except.bind] using h
    · rename_i hs
      rw [if_neg hs] at h
      exact h

theorem a_star_search_error_mono (start goal : Board) (e : Fail) (n k : Nat)
    (h : a_star_search start goal n = Except.error e) :
    a_star_search start goal (n + k) = Except.error e := by
  unfold a_star_search at h ⊢
  cases hi : init_state start with
  | error e2 => rw [hi] at h; exact h
  | ok s =>
    rw [hi] at h
    simp only [bind, Except.bind] at h ⊢
    split
    · rename_i hc; rw [if_pos hc] at h; exact h
    · rename_i hc; rw [if_neg hc] at h
      exact search_loop_error_mono goal e k n s h

theorem a_star_search_ok_mono (start goal : Board) (o : Outcome) (n k : Nat)
    (h : a_star_search start goal n = Except.ok (some o)) :
    a_star_search start goal (n + k) = Except.ok (some o) := by
  unfold a_star_search at h ⊢
  cases hi : init_state start with
  | error e2 => rw [hi] at h; exact h
  | ok s =>
    rw [hi] at h
    simp only [bind, Except.bind] at h ⊢
    split
    · rename_i hc; rw [if_pos hc] at h; exact h
    · rename_i hc; rw [if_neg hc] at h
      exact search_loop_ok_mono goal o k n s h

theorem diverged_eq (r : Except Fail (Option Outcome)) (h : diverged r = true) :
    r = Except.error Fail.diverge := by
  cases r with
  | ok o => simp [diverged] at h
  | error e => cases e <;> simp [diverged] at h ⊢

set_option maxRecDepth 100000 in
/-- C3 fails on the code: for the start board with the blank at cell `(2, 1)`
and fifteen tiles of value 1 and the goal board of `main`, the ninth iteration
of the sequential `a_star_search` enters the loop of `remove_node` that looks
for the node before the tail and never leaves it, so the call does not return. -/
theorem a_star_search_hangs :
    OneBlank hangBoard.board ∧ OneBlank GOAL.board ∧
    (∀ k, a_star_search hangBoard GOAL (9 + k) = Except.error Fail.diverge) ∧
    (∀ n o, a_star_search hangBoard GOAL n ≠ Except.ok (some o)) := by
  have h9 : a_star_search hangBoard GOAL 9 = Except.error Fail.diverge :=
    diverged_eq _ (by decide)
  refine ⟨by decide, by decide, fun k => a_star_search_error_mono _ _ _ 9 k h9, ?_⟩
  intro n o h
  rcases Nat.lt_or_ge n 9 with hn | hn
  · have := a_star_search_ok_mono hangBoard GOAL o n (9 - n) h
    rw [show n + (9 - n) = 9 by omega, h9] at this
    cases this
  · have := a_star_search_error_mono hangBoard GOAL Fail.diverge 9 (n - 9) h9
    rw [show 9 + (n - 9) = n by omega, h] at this
    cases this

theorem slid_slid (g : Grid) (i j bi bj : Fin 4) (h0 : g bi bj = 0) :
    ((slid g i j bi bj).set bi bj ((slid g i j bi bj) i j)).set i j ((slid g i j bi bj) bi bj)
      = g := by
  funext x y
  unfold Grid.set slid
  by_cases h1 : x = i ∧ y = j
  · obtain ⟨rfl, rfl⟩ := h1
    by_cases h2 : x = bi ∧ y = bj
    · obtain ⟨rfl, rfl⟩ := h2
      simp [h0]
    · have h3 : ¬ (bi = x ∧ bj = y) := fun hc => h2 ⟨hc.1.symm, hc.2.symm⟩
      simp [h2, h3]
  · by_cases h2 : x = bi ∧ y = bj
    · obtain ⟨rfl, rfl⟩ := h2
      simp [h1, h0]
    · simp [h1, h2]

/-- C11: for a board with exactly one blank and a move returned by
`possible_actions`, the inverse move (the same tile value at its new cell, with
the opposite direction) is among the moves that `possible_actions` returns for
the successor, and `result` with it gives a board cell-wise equal to the
board. -/
theorem inverse_move_round_trip (brd : Board) (h : OneBlank brd.board)
    (acts : List Action) (hp : possible_actions brd = some acts)
    (m : Action) (hm : m ∈ moves_of acts) :
    ∃ r acts2 r2, result m brd = some r ∧ possible_actions r = some acts2 ∧
      inverse_move m ∈ moves_of acts2 ∧ result (inverse_move m) r = some r2 ∧
      compare_boards r2.board brd.board = 0 := by
  obtain ⟨bi, bj, h0, hu⟩ := h
  have hz := oneBlank_iff brd.board bi bj h0 hu
  rw [moves_of_possible brd bi bj hz acts hp] at hm
  obtain ⟨i, j, b1, b2, hb0, hne, hr, hc, hv, hd⟩ := (isMove_iff brd.board bi bj hz m).mp hm
  obtain ⟨rfl, rfl⟩ := (hz _ _).mp hb0
  obtain ⟨r, i2, j2, h1, -, -, hr2, hc2, -, -, -, hb⟩ := step_facts brd b1 b2 hz m hm
  have hi : i2 = i := by apply Fin.ext; omega
  have hj : j2 = j := by apply Fin.ext; omega
  subst hi hj
  have hz2 : ∀ x y : Fin 4, r.board x y = 0 ↔ (x = i2 ∧ y = j2) := by
    rw [hb]; exact slid_oneBlank brd.board i2 j2 b1 b2 hz hne
  have hij : ¬ (b1 = i2 ∧ b2 = j2) := by
    rintro ⟨rfl, rfl⟩; exact hne hb0
  have hrb : r.board b1 b2 = brd.board i2 j2 := by
    rw [hb]; unfold slid; simp [hij]
  have hri : r.board i2 j2 = 0 := (hz2 i2 j2).mpr ⟨rfl, rfl⟩
  -- the inverse move, cell by cell
  have hinv : (inverse_move m).row = b1.val ∧ (inverse_move m).col = b2.val ∧
      (inverse_move m).value = r.board b1 b2 ∧
      (((inverse_move m).direction = some "RIGHT" ∧ i2 = b1 ∧ j2.val = b2.val + 1) ∨
       ((inverse_move m).direction = some "LEFT" ∧ i2 = b1 ∧ j2.val + 1 = b2.val) ∨
       ((inverse_move m).direction = some "UP" ∧ i2.val + 1 = b1.val ∧ j2 = b2) ∨
       ((inverse_move m).direction = some "DOWN" ∧ i2.val = b1.val + 1 ∧ j2 = b2)) := by
    rw [hrb, ← hv]
    rcases hd with ⟨k1, k2, k3⟩ | ⟨k1, k2, k3⟩ | ⟨k1, k2, k3⟩ | ⟨k1, k2, k3⟩
    · refine ⟨?_, ?_, ?_, Or.inr (Or.inl ⟨?_, k2.symm, by omega⟩)⟩ <;>
        simp [inverse_move, k1, make_action, hr, hc, k2] <;> omega
    · refine ⟨?_, ?_, ?_, Or.inl ⟨?_, k2.symm, by omega⟩⟩ <;>
        simp [inverse_move, k1, make_action, hr, hc, k2] <;> omega
    · refine ⟨?_, ?_, ?_, Or.inr (Or.inr (Or.inr ⟨?_, by omega, k3.symm⟩))⟩ <;>
        simp [inverse_move, k1, make_action, hr, hc, k3] <;> omega
    · refine ⟨?_, ?_, ?_, Or.inr (Or.inr (Or.inl ⟨?_, by omega, k3.symm⟩))⟩ <;>
        simp [inverse_move, k1, make_action, hr, hc, k3] <;> omega
  obtain ⟨hir, hic, hiv, hid⟩ := hinv
  have hmove : IsMove r.board (inverse_move m) :=
    ⟨b1, b2, i2, j2, hri, by rw [hrb]; exact hne, hir, hic, hiv, hid⟩
  obtain ⟨r2, h2, -, -, hb2⟩ := result_of_move r (inverse_move m) b1 b2 i2 j2 hir hic hid
  refine ⟨r, _, r2, h1, possible_actions_blank r i2 j2 hz2, ?_, h2, ?_⟩
  · rw [moves_of_pad _ _ (blank_moves_dir r.board i2 j2)]
    exact (isMove_iff r.board i2 j2 hz2 _).mpr hmove
  · apply (compare_boards_eq _ _).mpr
    rw [hb2, hb]
    exact slid_slid brd.board i2 j2 b1 b2 hb0

theorem inverse_move_round_trip_witness :
    OneBlank GOAL.board ∧ possible_actions GOAL = some goalActs ∧ leftOne ∈ moves_of goalActs ∧
    ∃ r acts2 r2, result leftOne GOAL = some r ∧ possible_actions r = some acts2 ∧
      inverse_move leftOne ∈ moves_of acts2 ∧ result (inverse_move leftOne) r = some r2 ∧
      compare_boards r2.board GOAL.board = 0 :=
  ⟨by decide, by decide, by decide,
   inverse_move_round_trip GOAL (by decide) goalActs (by decide) leftOne (by decide)⟩

theorem blank_moves_sorted (g : Grid) (bi bj : Fin 4) :
    (blank_moves g bi bj).Pairwise (fun a b => 4 * a.row + a.col < 4 * b.row + b.col) := by
  fin_cases bi <;> fin_cases bj <;> simp [blank_moves, make_action, fin4_val_three]

theorem expand_loop_moves (brd : Board) (n : Nat) (l : List Action)
    (h : ∀ m ∈ l, m.direction.isSome = true ∧ ∃ c, result m brd = some c) :
    ∃ out, expand_loop brd (l ++ List.replicate n null_action) = some out ∧
      List.Forall₂ (fun m c => result m brd = some c) l out := by
  induction l with
  | nil =>
    refine ⟨[], ?_, List.Forall₂.nil⟩
    cases n with
    | zero => rfl
    | succ n => rfl
  | cons a l ih =>
    obtain ⟨out, h1, h2⟩ := ih (fun m hm => h m (List.mem_cons_of_mem _ hm))
    obtain ⟨hd, c, hc⟩ := h a (List.mem_cons_self _ _)
    refine ⟨c :: out, ?_, List.Forall₂.cons hc h2⟩
    simp only [List.cons_append, expand_loop]
    cases hdir : a.direction with
    | none => rw [hdir] at hd; simp at hd
    | some d =>
      have h1b : expand_loop brd (l.append (List.replicate n null_action)) = some out := h1
      simp only [hc, bind, Option.bind, pure]
      rw [h1b]

/-- C12: `possible_actions` stores its moves in scan order (cells row-major,
for each cell the tests right, left, up, down).  For a board with exactly one
blank, at `(bi, bj)`, the moves are therefore the tile above the blank moving
down, the tile left of it moving right, the tile right of it moving left and
the tile below it moving up (those that exist), by increasing row-major
position of the moved tile, and `expand` returns their successors in the same
order. -/
theorem moves_in_scan_order (brd : Board) (h : OneBlank brd.board) :
    (possible_actions brd =
      if (all_moves brd.board).length ≤ 4 then
        some (all_moves brd.board ++
          List.replicate (4 - (all_moves brd.board).length) null_action)
      else none) ∧
    ∃ bi bj acts out, brd.board bi bj = 0 ∧ possible_actions brd = some acts ∧
      moves_of acts = blank_moves brd.board bi bj ∧
      acts = blank_moves brd.board bi bj ++
        List.replicate (4 - (blank_moves brd.board bi bj).length) null_action ∧
      (moves_of acts).Pairwise (fun a b => 4 * a.row + a.col < 4 * b.row + b.col) ∧
      expand brd = some out ∧
      List.Forall₂ (fun m c => result m brd = some c) (moves_of acts) out := by
  refine ⟨possible_actions_eq brd, ?_⟩
  obtain ⟨bi, bj, h0, hu⟩ := h
  have hz := oneBlank_iff brd.board bi bj h0 hu
  have hp := possible_actions_blank brd bi bj hz
  have hm := moves_of_possible brd bi bj hz _ hp
  have hlen := blank_moves_length brd.board bi bj
  obtain ⟨out, h1, h2⟩ := expand_loop_moves brd (4 - (blank_moves brd.board bi bj).length)
    (blank_moves brd.board bi bj) (fun m hm2 => by
      obtain ⟨r, _, _, hr, _⟩ := step_facts brd bi bj hz m hm2
      exact ⟨blank_moves_dir brd.board bi bj m hm2, r, hr⟩)
  refine ⟨bi, bj, _, out, h0, hp, hm, rfl, ?_, ?_, ?_⟩
  · rw [hm]; exact blank_moves_sorted _ _ _
  · unfold expand
    rw [hp]
    simp only [bind, Option.bind]
    rw [List.take_of_length_le (by simp only [List.length_append, List.length_replicate]; omega)]
    exact h1
  · rw [hm]; exact h2

theorem moves_in_scan_order_witness :
    OneBlank TEST.board ∧
    (possible_actions TEST =
      if (all_moves TEST.board).length ≤ 4 then
        some (all_moves TEST.board ++
          List.replicate (4 - (all_moves TEST.board).length) null_action)
      else none) ∧
    ∃ bi bj acts out, TEST.board bi bj = 0 ∧ possible_actions TEST = some acts ∧
      moves_of acts = blank_moves TEST.board bi bj ∧
      acts = blank_moves TEST.board bi bj ++
        List.replicate (4 - (blank_moves TEST.board bi bj).length) null_action ∧
      (moves_of acts).Pairwise (fun a b => 4 * a.row + a.col < 4 * b.row + b.col) ∧
      expand TEST = some out ∧
      List.Forall₂ (fun m c => result m TEST = some c) (moves_of acts) out :=
  ⟨by decide, moves_in_scan_order TEST (by decide)⟩

/-- C13 (as amended): `result` makes no test of legality.  For every action
with a direction `RIGHT`, `LEFT`, `UP` or `DOWN` that names a cell `(i, j)` of
the grid whose neighbour `(bi, bj)` in that direction is in the grid, `result`
returns the board in which these two cells have changed places, whatever they
hold and whatever value the action names. -/
theorem result_exchanges_cells (brd : Board) (a : Action) (i j bi bj : Fin 4)
    (hr : a.row = i.val) (hc : a.col = j.val)
    (hd : (a.direction = some "RIGHT" ∧ bi = i ∧ bj.val = j.val + 1) ∨
          (a.direction = some "LEFT" ∧ bi = i ∧ bj.val + 1 = j.val) ∨
          (a.direction = some "UP" ∧ bi.val + 1 = i.val ∧ bj = j) ∨
          (a.direction = some "DOWN" ∧ bi.val = i.val + 1 ∧ bj = j)) :
    ∃ r, result a brd = some r ∧ r.board i j = brd.board bi bj ∧
      r.board bi bj = brd.board i j ∧
      ∀ x y, ¬ (x = i ∧ y = j) → ¬ (x = bi ∧ y = bj) → r.board x y = brd.board x y := by
  obtain ⟨r, h1, -, -, hb⟩ := result_of_move brd a i j bi bj hr hc hd
  have hne : ¬ (i = bi ∧ j = bj) := by
    rintro ⟨rfl, rfl⟩
    rcases hd with ⟨_, _, k⟩ | ⟨_, _, k⟩ | ⟨_, k, _⟩ | ⟨_, k, _⟩ <;> omega
  refine ⟨r, h1, ?_, ?_, ?_⟩
  · rw [hb]; unfold Grid.set; simp [hne]
  · rw [hb]; unfold Grid.set; simp
  · intro x y h2 h3
    rw [hb]; unfold Grid.set; simp [h2, h3]

theorem result_exchanges_cells_witness :
    illegalAct.row = ((1 : Fin 4).val : Int) ∧ illegalAct.col = ((1 : Fin 4).val : Int) ∧
    ((illegalAct.direction = some "RIGHT" ∧ (1 : Fin 4) = 1 ∧ (2 : Fin 4).val = (1 : Fin 4).val + 1) ∨
     (illegalAct.direction = some "LEFT" ∧ (1 : Fin 4) = 1 ∧ (2 : Fin 4).val + 1 = (1 : Fin 4).val) ∨
     (illegalAct.direction = some "UP" ∧ (1 : Fin 4).val + 1 = (1 : Fin 4).val ∧ (2 : Fin 4) = 1) ∨
     (illegalAct.direction = some "DOWN" ∧ (1 : Fin 4).val = (1 : Fin 4).val + 1 ∧ (2 : Fin 4) = 1)) ∧
    ∃ r, result illegalAct GOAL = some r ∧ r.board 1 1 = GOAL.board 1 2 ∧
      r.board 1 2 = GOAL.board 1 1 ∧
      ∀ x y, ¬ (x = (1 : Fin 4) ∧ y = (1 : Fin 4)) → ¬ (x = (1 : Fin 4) ∧ y = (2 : Fin 4)) →
        r.board x y = GOAL.board x y :=
  ⟨by decide, by decide, by decide,
   result_exchanges_cells GOAL illegalAct 1 1 1 2 (by decide) (by decide) (by decide)⟩

/-- C13 (as stated) fails: the action "tile 5 in cell (1, 1) to the right" is
not a legal move of the goal board (the cell to the right holds tile 6), yet
`result` returns a board, with tiles 5 and 6 exchanged. -/
theorem result_accepts_illegal_move :
    possible_actions GOAL = some goalActs ∧ illegalAct ∉ moves_of goalActs ∧
    (result illegalAct GOAL).map (fun r => (r.board 1 1, r.board 1 2)) = some (6, 5) := by
  refine ⟨by decide, by decide, by decide⟩

theorem init_state_ok (start : Board) :
    init_state start = Except.ok
      { mem := [{ board := { start with h_score := manhattan_distance start }, next := none }],
        closed_list := make_list,
        open_list := { size := 1, head := some 0, tail := some 0 },
        iters := 0 } := by
  unfold init_state
  simp [make_node, push, make_list, bind, Except.bind, pure, Except.pure]

theorem par_init_state_ok (start : Board) :
    par_init_state start = Except.ok
      { mem := [{ board := { start with h_score := manhattan_distance start }, next := none }],
        closed_list := make_list,
        open_list := { size := 1, head := some 0, tail := some 0 },
        iters := 1, solution_found := 0, printed := [] } := by
  unfold par_init_state
  simp [make_node, push, make_list, bind, Except.bind, pure, Except.pure]

/-- C18: for every board `S` and every goal board cell-wise equal to `S`,
`a_star_search` returns 0 before its loop runs a single iteration: no node is
extracted and no path is printed (the parallel driver included, which hands no
node to `print_parents`). -/
theorem start_equals_goal (S goal : Board) (h : compare_boards S.board goal.board = 0) :
    (∀ n, a_star_search S goal n = Except.ok (some Outcome.initial)) ∧
    Outcome.initial.code = 0 ∧
    (∀ rank nprocs flags, ∃ s, par_a_star_search S goal rank nprocs flags = Except.ok (s, some 0)
      ∧ s.printed = [] ∧ s.closed_list.size = 0) := by
  refine ⟨?_, rfl, ?_⟩
  · intro n
    unfold a_star_search
    rw [init_state_ok]
    simp [bind, Except.bind, h, pure, Except.pure]
  · intro rank nprocs flags
    refine ⟨{ mem := [{ board := { S with h_score := manhattan_distance S }, next := none }],
              closed_list := make_list,
              open_list := { size := 1, head := some 0, tail := some 0 },
              iters := 1, solution_found := 0, printed := [] }, ?_, rfl, rfl⟩
    unfold par_a_star_search
    rw [par_init_state_ok]
    simp only [bind, Except.bind, h, if_true, pure, Except.pure]

theorem start_equals_goal_witness :
    compare_boards TEST.board TEST.board = 0 ∧
    (∀ n, a_star_search TEST TEST n = Except.ok (some Outcome.initial)) ∧
    Outcome.initial.code = 0 ∧
    (∀ rank nprocs flags, ∃ s, par_a_star_search TEST TEST rank nprocs flags = Except.ok (s, some 0)
      ∧ s.printed = [] ∧ s.closed_list.size = 0) :=
  ⟨by decide, start_equals_goal TEST TEST (by decide)⟩

theorem isPerm_oneBlank (g : Grid) (h : IsPerm g) : OneBlank g := by
  obtain ⟨p, hp, hu⟩ := h 0
  refine ⟨p.1, p.2, by simpa using hp, ?_⟩
  intro i j hij
  have := hu (i, j) (by simpa using hij)
  rw [← this]; exact ⟨rfl, rfl⟩

theorem a_star_search_congr (S1 S2 goal : Board) (n : Nat) (hb : S1.board = S2.board)
    (hp : S1.parent = S2.parent) : a_star_search S1 goal n = a_star_search S2 goal n := by
  obtain ⟨g1, h1, p1⟩ := S1
  obtain ⟨g2, h2, p2⟩ := S2
  simp only at hb hp
  subst hb hp
  rfl

theorem goal_oneAway_cells : ∀ x y : Fin 4, ¬ (x = 0 ∧ y = 0) → ¬ (x = 0 ∧ y = 1) →
    GOAL.board x y = oneAway.board x y := by decide

theorem goal_fourAway_cells : ∀ x y : Fin 4, ¬ (x = 0 ∧ y = 0) → ¬ (x = 1 ∧ y = 0) →
    GOAL.board x y = fourAway.board x y := by decide

/-- The two boards from which the goal board of `main` is one legal move away. -/
theorem one_move_from_goal (S : Board) (h : OneBlank S.board)
    (acts : List Action) (hp : possible_actions S = some acts)
    (m : Action) (hm : m ∈ moves_of acts) (r : Board) (hr : result m S = some r)
    (hg : compare_boards r.board GOAL.board = 0) :
    S.board = oneAway.board ∨ S.board = fourAway.board := by
  obtain ⟨bi, bj, h0, hu⟩ := h
  have hz := oneBlank_iff S.board bi bj h0 hu
  rw [moves_of_possible S bi bj hz acts hp] at hm
  obtain ⟨r1, i, j, h1, -, -, -, -, -, hne, hadj, hb⟩ := step_facts S bi bj hz m hm
  rw [hr] at h1
  cases h1
  have hslid : slid S.board i j bi bj = GOAL.board := by
    rw [← hb]; exact (compare_boards_eq _ _).mp hg
  have e0 := congrFun (congrFun hslid i) j
  simp only [slid, and_self, if_true, GOAL] at e0
  have hi : i = 0 := by apply Fin.ext; simp only [Fin.val_zero]; omega
  have hj : j = 0 := by apply Fin.ext; simp only [Fin.val_zero]; omega
  subst hi hj
  have cell : ∀ x y : Fin 4, ¬ (x = 0 ∧ y = 0) → ¬ (x = bi ∧ y = bj) →
      S.board x y = GOAL.board x y := by
    intro x y h2 h3
    have e := congrFun (congrFun hslid x) y
    simpa [slid, h2, h3] using e
  have hb00 : ¬ (bi = 0 ∧ bj = 0) := by
    rintro ⟨rfl, rfl⟩; exact hne h0
  have e00 : S.board 0 0 = GOAL.board bi bj := by
    have e := congrFun (congrFun hslid bi) bj
    simpa [slid, hb00] using e
  unfold Adjacent at hadj
  have hcases : (bi = 0 ∧ bj = 1) ∨ (bi = 1 ∧ bj = 0) := by
    rcases hadj with ⟨k1, k2 | k2⟩ | ⟨k1, k2 | k2⟩
    · left; exact ⟨k1, by apply Fin.ext; simpa using k2⟩
    · simp at k2
    · simp at k2
    · right; exact ⟨by apply Fin.ext; simpa using k2, k1⟩
  rcases hcases with ⟨rfl, rfl⟩ | ⟨rfl, rfl⟩
  · left
    funext x y
    by_cases h2 : x = 0 ∧ y = 0
    · obtain ⟨rfl, rfl⟩ := h2
      rw [e00]; rfl
    · by_cases h3 : x = 0 ∧ y = 1
      · obtain ⟨rfl, rfl⟩ := h3
        rw [h0]; rfl
      · rw [cell x y h2 h3]
        exact goal_oneAway_cells x y h2 h3
  · right
    funext x y
    by_cases h2 : x = 0 ∧ y = 0
    · obtain ⟨rfl, rfl⟩ := h2
      rw [e00]; rfl
    · by_cases h3 : x = 1 ∧ y = 0
      · obtain ⟨rfl, rfl⟩ := h3
        rw [h0]; rfl
      · rw [cell x y h2 h3]
        exact goal_fourAway_cells x y h2 h3

theorem found_report_eq (goal : Grid) (r : Except Fail (Option Outcome)) (it : Int) (k : Nat)
    (c : Int) (h : found_report goal r = some (it, k, c)) :
    ∃ cur, r = Except.ok (some (Outcome.found it cur)) ∧ print_parents cur = k ∧
      compare_boards cur.board goal = c := by
  cases r with
  | error e => simp [found_report] at h
  | ok o =>
    cases o with
    | none => simp [found_report] at h
    | some oc =>
      cases oc with
      | initial => simp [found_report] at h
      | not_found it => simp [found_report] at h
      | found it2 b =>
        simp only [found_report, Option.some.injEq, Prod.mk.injEq] at h
        obtain ⟨rfl, rfl, rfl⟩ := h
        exact ⟨b, rfl, rfl, rfl⟩

set_option maxRecDepth 100000 in
theorem one_move_runs :
    found_report GOAL.board (a_star_search oneAway GOAL 2) = some (1, 1, 0) ∧
    found_report GOAL.board (a_star_search fourAway GOAL 2) = some (1, 1, 0) ∧
    still_running (a_star_search oneAway GOAL 1) = true ∧
    still_running (a_star_search fourAway GOAL 1) = true := by
  refine ⟨by decide, by decide, by decide, by decide⟩

theorem one_move_runs_from (S : Board) (hperm : IsPerm S.board) (hpar : S.parent = BoardPtr.NULL)
    (acts : List Action) (hp : possible_actions S = some acts)
    (m : Action) (hm : m ∈ moves_of acts) (r : Board) (hr : result m S = some r)
    (hg : compare_boards r.board GOAL.board = 0) :
    still_running (a_star_search S GOAL 1) = true ∧
    ∀ k, ∃ cur, a_star_search S GOAL (2 + k) = Except.ok (some (Outcome.found 1 cur)) ∧
      print_parents cur = 1 ∧ compare_boards cur.board GOAL.board = 0 := by
  have hruns := one_move_runs
  rcases one_move_from_goal S (isPerm_oneBlank _ hperm) acts hp m hm r hr hg with hb | hb
  · have e : ∀ n, a_star_search S GOAL n = a_star_search oneAway GOAL n :=
      fun n => a_star_search_congr S oneAway GOAL n hb hpar
    refine ⟨by rw [e]; exact hruns.2.2.1, fun k => ?_⟩
    obtain ⟨cur, h1, h2, h3⟩ := found_report_eq _ _ _ _ _ hruns.1
    exact ⟨cur, by rw [e]; exact a_star_search_ok_mono _ _ _ 2 k h1, h2, h3⟩
  · have e : ∀ n, a_star_search S GOAL n = a_star_search fourAway GOAL n :=
      fun n => a_star_search_congr S fourAway GOAL n hb hpar
    refine ⟨by rw [e]; exact hruns.2.2.2, fun k => ?_⟩
    obtain ⟨cur, h1, h2, h3⟩ := found_report_eq _ _ _ _ _ hruns.2.1
    exact ⟨cur, by rw [e]; exact a_star_search_ok_mono _ _ _ 2 k h1, h2, h3⟩

/-- C19 (amended): for every start board that is a permutation of `0..15`, has no
parent, and from which the goal board of `main` is obtained by one move `m`
among those `possible_actions` returns for it, the sequential `a_star_search`
is still running after its first iteration and reports the goal in its second
one, whatever larger number of iterations it is allowed: the node it stops at
holds the goal board and has exactly one ancestor link, so the path length it
reports is 1. -/
theorem one_move_away (S : Board) (hperm : IsPerm S.board) (hpar : S.parent = BoardPtr.NULL)
    (m : Action)
    (hm : (apply_moves [m] S).map (fun r => compare_boards r.board GOAL.board) = some 0) :
    still_running (a_star_search S GOAL 1) = true ∧
    ∀ k, ∃ cur, a_star_search S GOAL (2 + k) = Except.ok (some (Outcome.found 1 cur)) ∧
      print_parents cur = 1 ∧ compare_boards cur.board GOAL.board = 0 := by
  unfold apply_moves at hm
  cases hp : possible_actions S with
  | none => rw [hp] at hm; simp at hm
  | some acts =>
    rw [hp] at hm
    simp only [Option.some_bind] at hm
    by_cases hmem : m ∈ moves_of acts
    · rw [if_pos hmem] at hm
      cases hr : result m S with
      | none => rw [hr] at hm; simp at hm
      | some r =>
        rw [hr] at hm
        simp only [Option.some_bind, apply_moves, Option.map_some', Option.some.injEq] at hm
        exact one_move_runs_from S hperm hpar acts hp m hmem r hr hm
    · rw [if_neg hmem] at hm; simp at hm

theorem one_move_away_witness :
    IsPerm oneAway.board ∧ oneAway.parent = BoardPtr.NULL ∧
    (apply_moves [rightOne] oneAway).map (fun r => compare_boards r.board GOAL.board) = some 0 ∧
    still_running (a_star_search oneAway GOAL 1) = true ∧
    ∀ k, ∃ cur, a_star_search oneAway GOAL (2 + k) = Except.ok (some (Outcome.found 1 cur)) ∧
      print_parents cur = 1 ∧ compare_boards cur.board GOAL.board = 0 :=
  ⟨by unfold IsPerm; decide, rfl, by decide,
   one_move_away oneAway (by unfold IsPerm; decide) rfl rightOne (by decide)⟩

set_option maxRecDepth 100000 in
/-- C19 (as stated) fails for a goal other than the board the heuristic
measures the distance to: from the start board `GOAL`, which is a permutation
of `0..15` with no parent, the board `fourAway` is obtained by the one legal
move of tile 4 upwards, yet the search for `fourAway` is still running after
two iterations, because the second extraction takes the other successor, of
the same score and pushed first; the goal is reported in the third iteration,
with one ancestor link. -/
theorem goal_on_third_extraction :
    IsPerm GOAL.board ∧ GOAL.parent = BoardPtr.NULL ∧
    (apply_moves [make_action (some "UP") 1 0 4] GOAL).map
      (fun r => compare_boards r.board fourAway.board) = some 0 ∧
    still_running (a_star_search GOAL fourAway 2) = true ∧
    found_report fourAway.board (a_star_search GOAL fourAway 3) = some (2, 1, 0) := by
  refine ⟨by unfold IsPerm; decide, rfl, by decide, by decide, by decide⟩

theorem linked_lt (mem : Mem) : ∀ l : List Nat, Linked mem l → ∀ a ∈ l, a < mem.length
  | [], _, a, ha => by simp at ha
  | [x], h, a, ha => by
    simp only [List.mem_singleton] at ha
    subst ha
    exact h
  | x :: y :: r, h, a, ha => by
    rcases List.mem_cons.mp ha with rfl | ha
    · have h1 := h.1
      by_contra hc
      rw [List.get?_eq_none.mpr (by omega)] at h1
      simp at h1
    · exact linked_lt mem (y :: r) h.2 a ha

theorem nodup_length_le (l : List Nat) (n : Nat) (hd : l.Nodup) (hl : ∀ a ∈ l, a < n) :
    l.length ≤ n := by
  have h := (List.subperm_of_subset hd (fun a ha => List.mem_range.mpr (hl a ha))).length_le
  simpa using h

theorem holds_length (mem : Mem) (ll : LinkedList) (l : List Nat) (h : Holds mem ll l) :
    l.length ≤ mem.length :=
  nodup_length_le l mem.length h.2.2.2 (linked_lt mem l h.2.2.1)

theorem rd_some (mem : Mem) (a : Nat) (nd : Node) (h : mem.get? a = some nd) :
    rd mem (some a) = Except.ok nd := by
  simp only [rd, h, orFault]

theorem score_at_eq (mem : Mem) (a : Nat) (nd : Node) (h : mem.get? a = some nd) :
    score_at mem a = nd.board.h_score := by
  simp only [score_at, h, Option.map_some', Option.getD_some]

theorem grid_at_eq (mem : Mem) (a : Nat) (nd : Node) (h : mem.get? a = some nd) :
    grid_at mem a = nd.board.board := by
  simp only [grid_at, h, Option.map_some', Option.getD_some]

theorem linked_head (mem : Mem) (x y : Nat) (r : List Nat) (h : Linked mem (x :: y :: r)) :
    ∃ nd, mem.get? x = some nd ∧ nd.next = some y := by
  have h1 := h.1
  cases hx : mem.get? x with
  | none => rw [hx] at h1; simp at h1
  | some nd =>
    rw [hx] at h1
    simp only [Option.map_some', Option.some.injEq] at h1
    exact ⟨nd, rfl, h1⟩

theorem head_ne_last (x y : Nat) (r : List Nat) (hd : (x :: y :: r).Nodup) :
    (some x : Option Nat) ≠ (y :: r).getLast? := by
  intro h
  have hm : x ∈ y :: r := List.mem_of_getLast?_eq_some h.symm
  exact (List.nodup_cons.mp hd).1 hm

theorem find_min_loop_eq (mem : Mem) : ∀ (l : List Nat) (x : Nat),
    Linked mem (x :: l) → (x :: l).Nodup → ∀ (fuel : Nat), l.length < fuel →
    ∀ (min : Int) (res : Option Nat),
      find_min_loop mem (x :: l).getLast? fuel (some x) min res =
        Except.ok (scan_min mem (x :: l).dropLast min res)
  | [], x, _, _, fuel, hf, min, res => by
    obtain ⟨n, rfl⟩ : ∃ n, fuel = n + 1 := ⟨fuel - 1, by simp at hf; omega⟩
    simp [find_min_loop, scan_min]
    rfl
  | y :: r, x, hl, hd, fuel, hf, min, res => by
    obtain ⟨n, rfl⟩ : ∃ n, fuel = n + 1 := ⟨fuel - 1, by omega⟩
    obtain ⟨nd, hx, hnx⟩ := linked_head mem x y r hl
    have hne := head_ne_last x y r hd
    have ih := find_min_loop_eq mem r y hl.2 (List.nodup_cons.mp hd).2 n
      (by simp only [List.length_cons] at hf; omega)
    have e1 : (x :: y :: r).getLast? = (y :: r).getLast? := by simp [List.getLast?_cons_cons]
    have e2 : (x :: y :: r).dropLast = x :: (y :: r).dropLast := by simp [List.dropLast]
    rw [e1, e2]
    unfold find_min_loop
    rw [if_pos hne, rd_some mem x nd hx]
    simp only [scan_min, score_at_eq mem x nd hx]
    show (if min > nd.board.h_score then _ else _) = _
    rw [hnx]
    split
    · exact ih _ _
    · exact ih _ _

theorem scan_min_append (mem : Mem) (t : Nat) : ∀ (l : List Nat) (min : Int) (res : Option Nat),
    scan_min mem (l ++ [t]) min res =
      if (scan_min mem l min res).1 > score_at mem t then (score_at mem t, some t)
      else scan_min mem l min res
  | [], min, res => by simp [scan_min]
  | a :: r, min, res => by
    simp only [List.cons_append, scan_min]
    split
    · exact scan_min_append mem t r _ _
    · exact scan_min_append mem t r _ _

theorem scan_min_spec (mem : Mem) : ∀ (l : List Nat) (min : Int) (res : Option Nat),
    ((∀ a ∈ l, min ≤ score_at mem a) ∧ scan_min mem l min res = (min, res)) ∨
    ∃ pre a post, l = pre ++ a :: post ∧ scan_min mem l min res = (score_at mem a, some a) ∧
      score_at mem a < min ∧ (∀ b ∈ pre, score_at mem a < score_at mem b) ∧
      ∀ b ∈ post, score_at mem a ≤ score_at mem b
  | [], min, res => Or.inl ⟨by simp, rfl⟩
  | x :: r, min, res => by
    by_cases hx : min > score_at mem x
    · rcases scan_min_spec mem r (score_at mem x) (some x) with ⟨h1, h2⟩ | ⟨pre, a, post, h1, h2, h3, h4, h5⟩
      · right
        refine ⟨[], x, r, rfl, ?_, hx, by simp, h1⟩
        simp only [scan_min, if_pos hx, h2]
      · right
        refine ⟨x :: pre, a, post, by rw [h1]; rfl, ?_, by omega, ?_, h5⟩
        · simp only [scan_min, if_pos hx, h2]
        · intro b hb
          rcases List.mem_cons.mp hb with rfl | hb
          · exact h3
          · exact h4 b hb
    · rcases scan_min_spec mem r min res with ⟨h1, h2⟩ | ⟨pre, a, post, h1, h2, h3, h4, h5⟩
      · left
        refine ⟨?_, by simp only [scan_min, if_neg hx, h2]⟩
        intro b hb
        rcases List.mem_cons.mp hb with rfl | hb
        · omega
        · exact h1 b hb
      · right
        refine ⟨x :: pre, a, post, by rw [h1]; rfl, ?_, h3, ?_, h5⟩
        · simp only [scan_min, if_neg hx, h2]
        · intro b hb
          rcases List.mem_cons.mp hb with rfl | hb
          · omega
          · exact h4 b hb

theorem find_min_h_eq (mem : Mem) (ll : LinkedList) (x : Nat) (r : List Nat)
    (h : Holds mem ll (x :: r)) :
    find_min_h mem ll = Except.ok (scan_min mem (x :: r) INT_MAX none).2 := by
  obtain ⟨hh, ht, hl, hd⟩ := h
  have hlen := holds_length mem ll (x :: r) ⟨hh, ht, hl, hd⟩
  have hloop := find_min_loop_eq mem r x hl hd (mem.length + 1)
    (by simp only [List.length_cons] at hlen; omega) INT_MAX none
  obtain ⟨t, htl⟩ : ∃ t, (x :: r).getLast? = some t := by
    cases hq : (x :: r).getLast? with
    | none => simp at hq
    | some t => exact ⟨t, rfl⟩
  have htm : t ∈ x :: r := List.mem_of_getLast?_eq_some htl
  have hta := linked_lt mem _ hl t htm
  obtain ⟨nd, hnd⟩ : ∃ nd, mem.get? t = some nd := by
    cases hq : mem.get? t with
    | none => rw [List.get?_eq_none] at hq; omega
    | some nd => exact ⟨nd, rfl⟩
  have hsplit : (x :: r).dropLast ++ [t] = x :: r := List.dropLast_append_getLast? t htl
  have happ := scan_min_append mem t (x :: r).dropLast INT_MAX none
  rw [hsplit] at happ
  rw [happ]
  unfold find_min_h
  rw [hh, ht]
  simp only [List.head?_cons]
  rw [hloop]
  cases hsc : scan_min mem (x :: r).dropLast INT_MAX none with
  | mk m rs =>
    rw [htl]
    show (do
      let tn ← rd mem (some t)
      if m > tn.board.h_score then pure (some t) else pure rs) = _
    rw [rd_some mem t nd hnd, score_at_eq mem t nd hnd]
    show (if m > nd.board.h_score then pure (some t) else pure rs) = _
    split <;> rfl

/-- C14: for every non-empty list, held as the nodes `l` from head to tail,
whose cached scores are all below `INT_MAX`, `find_min_h` returns a node `a` of
the list whose score is at most the score of every node of the list and
strictly below the score of every node before it: the earliest of the nodes of
minimal score. -/
theorem find_min_h_earliest_minimum (mem : Mem) (ll : LinkedList) (l : List Nat)
    (hne : l ≠ []) (h : Holds mem ll l) (hs : ∀ a ∈ l, score_at mem a < INT_MAX) :
    ∃ pre a post, l = pre ++ a :: post ∧ find_min_h mem ll = Except.ok (some a) ∧
      (∀ b ∈ l, score_at mem a ≤ score_at mem b) ∧
      (∀ b ∈ pre, score_at mem a < score_at mem b) := by
  cases l with
  | nil => exact absurd rfl hne
  | cons x r =>
    rw [find_min_h_eq mem ll x r h]
    rcases scan_min_spec mem (x :: r) INT_MAX none with ⟨h1, -⟩ | ⟨pre, a, post, h1, h2, -, h4, h5⟩
    · have := h1 x (List.mem_cons_self x r)
      have := hs x (List.mem_cons_self x r)
      omega
    · refine ⟨pre, a, post, h1, by rw [h2], ?_, h4⟩
      intro b hb
      rw [h1] at hb
      rcases List.mem_append.mp hb with hb | hb
      · exact le_of_lt (h4 b hb)
      · rcases List.mem_cons.mp hb with rfl | hb
        · exact le_refl _
        · exact h5 b hb

theorem holds_three : Holds threeNodes threeList [0, 1, 2] :=
  ⟨rfl, rfl, ⟨rfl, rfl, by unfold Linked; decide⟩, by decide⟩

theorem find_min_h_earliest_minimum_witness :
    Holds threeNodes threeList [0, 1, 2] ∧ (∀ a ∈ [0, 1, 2], score_at threeNodes a < INT_MAX) ∧
    find_min_h threeNodes threeList = Except.ok (some 1) ∧
    ∃ pre a post, [0, 1, 2] = pre ++ a :: post ∧
      find_min_h threeNodes threeList = Except.ok (some a) ∧
      (∀ b ∈ [0, 1, 2], score_at threeNodes a ≤ score_at threeNodes b) ∧
      (∀ b ∈ pre, score_at threeNodes a < score_at threeNodes b) :=
  ⟨holds_three, by decide, rfl,
   find_min_h_earliest_minimum threeNodes threeList [0, 1, 2] (by decide) holds_three
     (by decide)⟩

theorem in_list_loop_eq (mem : Mem) (g : Grid) : ∀ (l : List Nat) (x : Nat),
    Linked mem (x :: l) → (x :: l).Nodup → ∀ (fuel : Nat), l.length < fuel →
      in_list_loop mem (x :: l).getLast? g fuel (some x) =
        Except.ok ((x :: l).dropLast.any fun b => decide (compare_boards (grid_at mem b) g = 0))
  | [], x, _, _, fuel, hf => by
    obtain ⟨n, rfl⟩ : ∃ n, fuel = n + 1 := ⟨fuel - 1, by simp at hf; omega⟩
    simp [in_list_loop]
    rfl
  | y :: r, x, hl, hd, fuel, hf => by
    obtain ⟨n, rfl⟩ : ∃ n, fuel = n + 1 := ⟨fuel - 1, by omega⟩
    obtain ⟨nd, hx, hnx⟩ := linked_head mem x y r hl
    have hne := head_ne_last x y r hd
    have ih := in_list_loop_eq mem g r y hl.2 (List.nodup_cons.mp hd).2 n
      (by simp only [List.length_cons] at hf; omega)
    have e1 : (x :: y :: r).getLast? = (y :: r).getLast? := by simp [List.getLast?_cons_cons]
    have e2 : (x :: y :: r).dropLast = x :: (y :: r).dropLast := by simp [List.dropLast]
    rw [e1, e2]
    unfold in_list_loop
    rw [if_pos hne, rd_some mem x nd hx]
    simp only [List.any_cons, grid_at_eq mem x nd hx]
    show (if compare_boards nd.board.board g = 0 then _ else _) = _
    rw [hnx]
    by_cases hc : compare_boards nd.board.board g = 0
    · rw [if_pos hc]
      simp only [hc, decide_True, Bool.true_or]
      rfl
    · rw [if_neg hc, ih]
      simp only [hc, decide_False, Bool.false_or]

theorem in_list_eq (mem : Mem) (ll : LinkedList) (x : Nat) (r : List Nat)
    (h : Holds mem ll (x :: r)) (a : Nat) (nd : Node) (hn : mem.get? a = some nd) :
    in_list mem ll (some a) = Except.ok
      (if (x :: r).any (fun b => decide (compare_boards (grid_at mem b) nd.board.board = 0))
       then 0 else -1) := by
  obtain ⟨hh, ht, hl, hd⟩ := h
  have hlen := holds_length mem ll (x :: r) ⟨hh, ht, hl, hd⟩
  have hloop := in_list_loop_eq mem nd.board.board r x hl hd (mem.length + 1)
    (by simp only [List.length_cons] at hlen; omega)
  obtain ⟨t, htl⟩ : ∃ t, (x :: r).getLast? = some t := by
    cases hq : (x :: r).getLast? with
    | none => simp at hq
    | some t => exact ⟨t, rfl⟩
  have htm : t ∈ x :: r := List.mem_of_getLast?_eq_some htl
  have hta := linked_lt mem _ hl t htm
  obtain ⟨tn, htn⟩ : ∃ tn, mem.get? t = some tn := by
    cases hq : mem.get? t with
    | none => rw [List.get?_eq_none] at hq; omega
    | some tn => exact ⟨tn, rfl⟩
  have hsplit : (x :: r).dropLast ++ [t] = x :: r := List.dropLast_append_getLast? t htl
  have hany : (x :: r).any (fun b => decide (compare_boards (grid_at mem b) nd.board.board = 0)) =
      ((x :: r).dropLast.any (fun b => decide (compare_boards (grid_at mem b) nd.board.board = 0))
        || decide (compare_boards tn.board.board nd.board.board = 0)) := by
    conv_lhs => rw [← hsplit]
    rw [List.any_append]
    simp only [List.any_cons, List.any_nil, Bool.or_false, grid_at_eq mem t tn htn]
  rw [hany]
  unfold in_list
  rw [hh, ht]
  simp only [List.head?_cons]
  rw [if_neg (by simp), rd_some mem a nd hn]
  show (do
    let hit ← in_list_loop mem (x :: r).getLast? nd.board.board (mem.length + 1) (some x)
    if hit = true then pure 0
    else do
      let t ← rd mem (x :: r).getLast?
      if compare_boards t.board.board nd.board.board = 0 then pure 0 else pure (-1)) = _
  rw [hloop, htl]
  cases hb : (x :: r).dropLast.any
      (fun b => decide (compare_boards (grid_at mem b) nd.board.board = 0)) with
  | true => rfl
  | false =>
    show (do
      let t ← rd mem (some t)
      if compare_boards t.board.board nd.board.board = 0 then pure 0 else pure (-1)) = _
    rw [rd_some mem t tn htn]
    show (if compare_boards tn.board.board nd.board.board = 0 then pure 0 else pure (-1)) = _
    by_cases hc : compare_boards tn.board.board nd.board.board = 0
    · simp only [hc, decide_True, Bool.or_true, if_true]
      rfl
    · simp only [hc, decide_False, Bool.or_false, if_false]
      rfl

theorem sameGrids_get (m1 m2 : Mem) (h : SameGrids m1 m2) (a : Nat) :
    (m1.get? a).map (fun nd => (nd.board.board, nd.next)) =
      (m2.get? a).map (fun nd => (nd.board.board, nd.next)) := by
  rw [← List.get?_map, ← List.get?_map, h]

theorem sameGrids_length (m1 m2 : Mem) (h : SameGrids m1 m2) : m1.length = m2.length := by
  have := congrArg List.length h
  simpa using this

theorem sameGrids_grid (m1 m2 : Mem) (h : SameGrids m1 m2) (a : Nat) :
    grid_at m1 a = grid_at m2 a := by
  have := sameGrids_get m1 m2 h a
  unfold grid_at
  cases h1 : m1.get? a <;> cases h2 : m2.get? a <;> rw [h1, h2] at this <;>
    simp only [Option.map_some', Option.map_none', Option.some.injEq, Prod.mk.injEq] at this ⊢
  · cases this
  · cases this
  · simp only [Option.getD_some]; exact this.1

theorem sameGrids_next (m1 m2 : Mem) (h : SameGrids m1 m2) (a : Nat) :
    (m1.get? a).map (fun nd => nd.next) = (m2.get? a).map (fun nd => nd.next) := by
  have := sameGrids_get m1 m2 h a
  cases h1 : m1.get? a <;> cases h2 : m2.get? a <;> rw [h1, h2] at this <;>
    simp only [Option.map_some', Option.map_none', Option.some.injEq, Prod.mk.injEq] at this ⊢
  · cases this
  · cases this
  · exact this.2

theorem sameGrids_linked (m1 m2 : Mem) (h : SameGrids m1 m2) :
    ∀ l : List Nat, Linked m1 l → Linked m2 l
  | [], _ => trivial
  | [a], hl => by
    have := sameGrids_length m1 m2 h
    unfold Linked at hl ⊢
    omega
  | a :: b :: r, hl => by
    refine ⟨?_, sameGrids_linked m1 m2 h (b :: r) hl.2⟩
    rw [← sameGrids_next m1 m2 h a]
    exact hl.1

theorem in_list_empty (mem : Mem) (ll : LinkedList) (h : ll.head = none) (node : Option Nat) :
    in_list mem ll node = Except.ok (-1) := by
  unfold in_list
  rw [if_pos h]
  rfl

/-- C15: for every list, held as the nodes `l` from head to tail, and every
allocated node, `in_list` returns 0 or -1, and it returns 0 exactly when some
node of the list has a grid that `compare_boards` finds equal to the grid of
the given node; on the empty list it returns -1 for every node pointer; and
the answer is the same in every memory whose nodes have the same grids and
`next` fields, whatever their scores and parents. -/
theorem in_list_iff_equal_board (mem : Mem) (ll : LinkedList) (l : List Nat)
    (h : Holds mem ll l) (a : Nat) (nd : Node) (hn : mem.get? a = some nd) :
    (∃ r, in_list mem ll (some a) = Except.ok r ∧ (r = 0 ∨ r = -1) ∧
      (r = 0 ↔ ∃ b ∈ l, compare_boards (grid_at mem b) nd.board.board = 0)) ∧
    (ll.head = none → ∀ node, in_list mem ll node = Except.ok (-1)) ∧
    (∀ mem2, SameGrids mem mem2 → in_list mem2 ll (some a) = in_list mem ll (some a)) := by
  refine ⟨?_, fun h0 node => in_list_empty mem ll h0 node, ?_⟩
  · cases l with
    | nil =>
      refine ⟨-1, in_list_empty mem ll h.1 _, Or.inr rfl, ?_⟩
      simp
    | cons x r =>
      rw [in_list_eq mem ll x r h a nd hn]
      cases hb : (x :: r).any
          (fun b => decide (compare_boards (grid_at mem b) nd.board.board = 0)) with
      | true =>
        refine ⟨0, rfl, Or.inl rfl, ?_⟩
        rw [List.any_eq_true] at hb
        obtain ⟨b, hb1, hb2⟩ := hb
        exact ⟨fun _ => ⟨b, hb1, of_decide_eq_true hb2⟩, fun _ => rfl⟩
      | false =>
        refine ⟨-1, rfl, Or.inr rfl, ?_⟩
        constructor
        · intro hc; exact absurd hc (by decide)
        · rintro ⟨b, hb1, hb2⟩
          have : (x :: r).any
              (fun b => decide (compare_boards (grid_at mem b) nd.board.board = 0)) = true :=
            List.any_eq_true.mpr ⟨b, hb1, decide_eq_true hb2⟩
          rw [hb] at this
          cases this
  · intro mem2 hs
    cases l with
    | nil => rw [in_list_empty mem ll h.1, in_list_empty mem2 ll h.1]
    | cons x r =>
      have h2 : Holds mem2 ll (x :: r) := ⟨h.1, h.2.1, sameGrids_linked mem mem2 hs _ h.2.2.1, h.2.2.2⟩
      have hg := sameGrids_grid mem mem2 hs a
      obtain ⟨nd2, hn2⟩ : ∃ nd2, mem2.get? a = some nd2 := by
        cases hq : mem2.get? a with
        | none =>
          have h1 := List.get?_eq_none.mp hq
          have h3 := sameGrids_length mem mem2 hs
          have h4 : mem.get? a = none := List.get?_eq_none.mpr (by omega)
          rw [h4] at hn
          cases hn
        | some nd2 => exact ⟨nd2, rfl⟩
      rw [grid_at_eq mem a nd hn, grid_at_eq mem2 a nd2 hn2] at hg
      rw [in_list_eq mem ll x r h a nd hn, in_list_eq mem2 ll x r h2 a nd2 hn2, ← hg]
      have : (fun b => decide (compare_boards (grid_at mem2 b) nd.board.board = 0)) =
          (fun b => decide (compare_boards (grid_at mem b) nd.board.board = 0)) := by
        funext b
        rw [sameGrids_grid mem mem2 hs b]
      rw [this]

theorem in_list_iff_equal_board_witness :
    Holds threeNodes threeList [0, 1, 2] ∧ threeNodes.get? 1 = some (node_of
      { board := oneAway.board, h_score := 1, parent := BoardPtr.NULL } (some 2)) ∧
    in_list threeNodes threeList (some 1) = Except.ok 0 ∧
    (∃ r, in_list threeNodes threeList (some 1) = Except.ok r ∧ (r = 0 ∨ r = -1) ∧
      (r = 0 ↔ ∃ b ∈ [0, 1, 2], compare_boards (grid_at threeNodes b) oneAway.board = 0)) ∧
    (threeList.head = none → ∀ node, in_list threeNodes threeList node = Except.ok (-1)) ∧
    (∀ mem2, SameGrids threeNodes mem2 →
      in_list mem2 threeList (some 1) = in_list threeNodes threeList (some 1)) :=
  ⟨holds_three, rfl, rfl,
   in_list_iff_equal_board threeNodes threeList [0, 1, 2] holds_three 1
     (node_of { board := oneAway.board, h_score := 1, parent := BoardPtr.NULL } (some 2)) rfl⟩

theorem set_next_some (mem : Mem) (p : Nat) (nd : Node) (nx : Option Nat)
    (h : mem.get? p = some nd) :
    set_next mem (some p) nx = Except.ok (mem.set p { nd with next := nx }) := by
  unfold set_next
  rw [rd_some mem p nd h]
  rfl

theorem get_set_ne (mem : Mem) (p b : Nat) (v : Node) (h : b ≠ p) :
    (mem.set p v).get? b = mem.get? b := by
  simp only [List.get?_eq_getElem?]
  exact List.getElem?_set_ne (Ne.symm h)

theorem get_set_eq (mem : Mem) (p : Nat) (v : Node) (h : p < mem.length) :
    (mem.set p v).get? p = some v := by
  simp only [List.get?_eq_getElem?]
  rw [List.getElem?_set_eq h]

theorem linked_set (mem : Mem) (p : Nat) (v : Node) :
    ∀ l : List Nat, Linked mem l → p ∉ l.dropLast → Linked (mem.set p v) l
  | [], _, _ => trivial
  | [a], h, _ => by
    unfold Linked at h ⊢
    rw [List.length_set]
    exact h
  | a :: b :: r, h, hp => by
    have e2 : (a :: b :: r).dropLast = a :: (b :: r).dropLast := by simp [List.dropLast]
    rw [e2] at hp
    have hne : a ≠ p := fun e => hp (by rw [e]; exact List.mem_cons_self _ _)
    refine ⟨?_, linked_set mem p v (b :: r) h.2 (fun hm => hp (List.mem_cons_of_mem _ hm))⟩
    rw [get_set_ne mem p a v hne]
    exact h.1

theorem linked_snoc (mem : Mem) (a t : Nat) (ha : a < mem.length)
    (ht : (mem.get? t).map (fun nd => nd.next) = some (some a)) :
    ∀ l : List Nat, Linked mem l → l.getLast? = some t → Linked mem (l ++ [a])
  | [], _, hl => by simp at hl
  | [x], _, hl => by
    simp only [List.getLast?_singleton, Option.some.injEq] at hl
    subst hl
    exact ⟨ht, ha⟩
  | x :: y :: r, h, hl => by
    rw [List.getLast?_cons_cons] at hl
    exact ⟨h.1, linked_snoc mem a t ha ht (y :: r) h.2 hl⟩

theorem last_not_mem_dropLast (l : List Nat) (t : Nat) (hd : l.Nodup) (hl : l.getLast? = some t) :
    t ∉ l.dropLast := by
  have hsplit : l.dropLast ++ [t] = l := List.dropLast_append_getLast? t hl
  rw [← hsplit] at hd
  intro hm
  exact (List.nodup_append.mp hd).2.2 hm (List.mem_singleton_self t)

theorem grid_at_set (mem : Mem) (p : Nat) (nd : Node) (nx : Option Nat)
    (h : mem.get? p = some nd) (b : Nat) :
    grid_at (mem.set p { nd with next := nx }) b = grid_at mem b := by
  have hp : p < mem.length := by
    by_contra hc
    rw [List.get?_eq_none.mpr (by omega)] at h
    cases h
  by_cases hb : b = p
  · subst hb
    rw [grid_at_eq _ b _ (get_set_eq mem b _ hp), grid_at_eq mem b nd h]
  · unfold grid_at
    rw [get_set_ne mem p b _ hb]

theorem score_at_set (mem : Mem) (p : Nat) (nd : Node) (nx : Option Nat)
    (h : mem.get? p = some nd) (b : Nat) :
    score_at (mem.set p { nd with next := nx }) b = score_at mem b := by
  have hp : p < mem.length := by
    by_contra hc
    rw [List.get?_eq_none.mpr (by omega)] at h
    cases h
  by_cases hb : b = p
  · subst hb
    rw [score_at_eq _ b _ (get_set_eq mem b _ hp), score_at_eq mem b nd h]
  · unfold score_at
    rw [get_set_ne mem p b _ hb]

theorem get_of_lt (mem : Mem) (a : Nat) (h : a < mem.length) : ∃ nd, mem.get? a = some nd := by
  cases hq : mem.get? a with
  | none => rw [List.get?_eq_none] at hq; omega
  | some nd => exact ⟨nd, rfl⟩

theorem push_holds (mem : Mem) (ll : LinkedList) (l : List Nat) (a : Nat)
    (h : Holds mem ll l) (hsz : ll.size = l.length) (ha : a < mem.length) (hnew : a ∉ l) :
    ∃ mem2 ll2, push mem ll (some a) = Except.ok (mem2, ll2) ∧ Holds mem2 ll2 (l ++ [a]) ∧
      ll2.size = (l ++ [a]).length ∧ (∀ b, grid_at mem2 b = grid_at mem b) ∧
      (∀ b, score_at mem2 b = score_at mem b) ∧ mem2.length = mem.length := by
  obtain ⟨hh, ht, hl, hd⟩ := h
  cases l with
  | nil =>
    have h0 : ll.size = 0 := by simpa using hsz
    refine ⟨mem, { size := ll.size + 1, head := some a, tail := some a }, ?_, ?_, ?_,
      fun _ => rfl, fun _ => rfl, rfl⟩
    · unfold push
      rw [if_pos h0]
      rfl
    · exact ⟨rfl, rfl, ha, by simp⟩
    · simp [h0]
  | cons x r =>
    obtain ⟨t, htl⟩ : ∃ t, (x :: r).getLast? = some t := by
      cases hq : (x :: r).getLast? with
      | none => simp at hq
      | some t => exact ⟨t, rfl⟩
    have htm : t ∈ x :: r := List.mem_of_getLast?_eq_some htl
    have hta := linked_lt mem _ hl t htm
    obtain ⟨tn, htn⟩ := get_of_lt mem t hta
    have hndl := last_not_mem_dropLast (x :: r) t hd htl
    have hlen : ((mem.set t { tn with next := some a })).length = mem.length := List.length_set _ _ _
    have hlk : Linked (mem.set t { tn with next := some a }) ((x :: r) ++ [a]) := by
      apply linked_snoc _ a t (by rw [hlen]; exact ha) _ _ (linked_set mem t _ _ hl hndl) htl
      rw [get_set_eq mem t _ hta]
      rfl
    have hnd : ((x :: r) ++ [a]).Nodup := by
      rw [List.nodup_append]
      refine ⟨hd, by simp, ?_⟩
      intro b hb1 hb2
      rw [List.mem_singleton] at hb2
      subst hb2
      exact hnew hb1
    have hsz0 : ll.size ≠ 0 := by
      rw [hsz]; simp only [List.length_cons]; omega
    refine ⟨mem.set t { tn with next := some a },
      { size := ll.size + 1, head := ll.head, tail := some a }, ?_,
      ⟨by rw [hh]; rfl, (List.getLast?_concat (x :: r)).symm, hlk, hnd⟩, ?_, grid_at_set mem t tn _ htn,
      score_at_set mem t tn _ htn, hlen⟩
    · unfold push
      rw [if_neg hsz0]
      by_cases h1 : ll.size = 1
      · rw [if_pos h1]
        have hr : r = [] := by
          rw [hsz] at h1
          simp only [List.length_cons] at h1
          have : r.length = 0 := by omega
          exact List.length_eq_zero.mp this
        subst hr
        simp only [List.getLast?_singleton, Option.some.injEq] at htl
        subst htl
        simp only [List.head?_cons] at hh
        rw [hh, set_next_some mem x tn _ htn]
        rfl
      · rw [if_neg h1, ht, htl, set_next_some mem t tn _ htn]
        rfl
    · simp only [List.length_append, List.length_cons, List.length_nil]
      rw [hsz]
      simp

theorem in_list_neg (mem : Mem) (ll : LinkedList) (l : List Nat) (h : Holds mem ll l)
    (a : Nat) (nd : Node) (hn : mem.get? a = some nd)
    (hin : in_list mem ll (some a) = Except.ok (-1)) :
    ∀ b ∈ l, compare_boards (grid_at mem b) nd.board.board ≠ 0 := by
  cases l with
  | nil => intro b hb; simp at hb
  | cons x r =>
    rw [in_list_eq mem ll x r h a nd hn] at hin
    intro b hb hc
    have : (x :: r).any
        (fun b => decide (compare_boards (grid_at mem b) nd.board.board = 0)) = true :=
      List.any_eq_true.mpr ⟨b, hb, decide_eq_true hc⟩
    rw [this] at hin
    simp only [if_true] at hin
    cases hin

/-- C17 (amended): `push` does not look at the nodes the list holds; what
keeps a list free of repeated configurations is the test the callers make
before it.  For every list, held as the nodes `l`, in which no two nodes have
equal grids, and every allocated node for which `in_list` returns -1, `push`
returns, the list then holds the nodes of `l` followed by the new node, and
still no two of its nodes have equal grids. -/
theorem push_after_in_list (mem : Mem) (ll : LinkedList) (l : List Nat) (a : Nat) (nd : Node)
    (h : Holds mem ll l) (hsz : ll.size = l.length) (hn : mem.get? a = some nd)
    (huniq : l.Pairwise fun x y => compare_boards (grid_at mem x) (grid_at mem y) ≠ 0)
    (hin : in_list mem ll (some a) = Except.ok (-1)) :
    ∃ mem2 ll2, push mem ll (some a) = Except.ok (mem2, ll2) ∧ Holds mem2 ll2 (l ++ [a]) ∧
      ll2.size = (l ++ [a]).length ∧
      (l ++ [a]).Pairwise fun x y => compare_boards (grid_at mem2 x) (grid_at mem2 y) ≠ 0 := by
  have hneg := in_list_neg mem ll l h a nd hn hin
  have ha : a < mem.length := by
    by_contra hc
    rw [List.get?_eq_none.mpr (by omega)] at hn
    cases hn
  have hnew : a ∉ l := by
    intro hm
    apply hneg a hm
    rw [grid_at_eq mem a nd hn]
    exact (compare_boards_eq _ _).mpr rfl
  obtain ⟨mem2, ll2, h1, h2, h3, h4, -, -⟩ := push_holds mem ll l a h hsz ha hnew
  refine ⟨mem2, ll2, h1, h2, h3, ?_⟩
  rw [List.pairwise_append]
  refine ⟨?_, by simp, ?_⟩
  · simpa only [h4] using huniq
  · intro x hx y hy
    rw [List.mem_singleton] at hy
    subst hy
    rw [h4, h4, grid_at_eq mem y nd hn]
    exact hneg x hx

theorem holds_three_of_four : Holds threeOfFour threeList [0, 1, 2] :=
  ⟨rfl, rfl, ⟨rfl, rfl, by unfold Linked; decide⟩, by decide⟩

set_option maxRecDepth 100000 in
theorem push_after_in_list_witness :
    Holds threeOfFour threeList [0, 1, 2] ∧ threeList.size = ([0, 1, 2] : List Nat).length ∧
    threeOfFour.get? 3 = some (node_of GOAL none) ∧
    ([0, 1, 2].Pairwise fun x y =>
      compare_boards (grid_at threeOfFour x) (grid_at threeOfFour y) ≠ 0) ∧
    in_list threeOfFour threeList (some 3) = Except.ok (-1) ∧
    ∃ mem2 ll2, push threeOfFour threeList (some 3) = Except.ok (mem2, ll2) ∧
      Holds mem2 ll2 ([0, 1, 2] ++ [3]) ∧ ll2.size = (([0, 1, 2] : List Nat) ++ [3]).length ∧
      ([0, 1, 2] ++ [3]).Pairwise fun x y =>
        compare_boards (grid_at mem2 x) (grid_at mem2 y) ≠ 0 :=
  ⟨holds_three_of_four, rfl, rfl, by decide, rfl,
   push_after_in_list threeOfFour threeList [0, 1, 2] 3 (node_of GOAL none)
     holds_three_of_four rfl rfl (by decide) rfl⟩

set_option maxRecDepth 100000 in
/-- C17 (as stated) fails: two pushes of two nodes that both hold the goal
board, on the list `make_list` returns, give a list that holds both nodes, so
the same configuration twice. -/
theorem push_twice_same_board :
    list_after twoEqual [ListOp.push 0, ListOp.push 1] =
      some ({ size := 2, head := some 0, tail := some 1 }, [0, 1]) ∧
    compare_boards (grid_at twoEqual 0) (grid_at twoEqual 1) = 0 := by
  decide

set_option maxRecDepth 100000 in
/-- C16: `remove_node` does not remove the tail of a list of three or more
nodes whose previous tail was removed just before.  After the pushes of four
nodes and the removal of the last one the list holds nodes 0, 1, 2 with tail
2 and size 3; the removal of node 2, a member and the tail, returns with size
2 and with head 0 and tail 2 as before, so the list still holds the three
nodes 0, 1, 2, not the two nodes 0, 1 with tail 1. -/
theorem remove_node_keeps_tail :
    list_after fourNodes [ListOp.push 0, ListOp.push 1, ListOp.push 2, ListOp.push 3,
        ListOp.remove 3] =
      some ({ size := 3, head := some 0, tail := some 2 }, [0, 1, 2]) ∧
    list_after fourNodes [ListOp.push 0, ListOp.push 1, ListOp.push 2, ListOp.push 3,
        ListOp.remove 3, ListOp.remove 2] =
      some ({ size := 2, head := some 0, tail := some 2 }, [0, 1, 2]) := by
  decide

theorem next_at_eq (mem : Mem) (a : Nat) (nd : Node) (h : mem.get? a = some nd) :
    next_at mem a = some nd.next := by
  simp only [next_at, h, Option.map_some']

theorem next_at_some (mem : Mem) (a : Nat) (o : Option Nat) (h : next_at mem a = some o) :
    ∃ nd, mem.get? a = some nd ∧ nd.next = o := by
  unfold next_at at h
  cases hq : mem.get? a with
  | none => rw [hq] at h; cases h
  | some nd =>
    rw [hq] at h
    simp only [Option.map_some', Option.some.injEq] at h
    exact ⟨nd, rfl, h⟩

theorem linked_frame (mem mem2 : Mem) (hlen : mem.length ≤ mem2.length) :
    ∀ l : List Nat, Linked mem l → (∀ a ∈ l.dropLast, next_at mem2 a = next_at mem a) →
      Linked mem2 l
  | [], _, _ => trivial
  | [a], h, _ => by
    unfold Linked at h ⊢
    omega
  | a :: b :: r, h, hf => by
    have e2 : (a :: b :: r).dropLast = a :: (b :: r).dropLast := by simp [List.dropLast]
    rw [e2] at hf
    refine ⟨?_, linked_frame mem mem2 hlen (b :: r) h.2
      (fun x hx => hf x (List.mem_cons_of_mem _ hx))⟩
    have := hf a (List.mem_cons_self _ _)
    unfold next_at at this
    rw [this]
    exact h.1

theorem linked_append (mem : Mem) (x : Nat) (l2 : List Nat) :
    ∀ l1 : List Nat, Linked mem (l1 ++ x :: l2) ↔ Linked mem (l1 ++ [x]) ∧ Linked mem (x :: l2)
  | [] => by
    simp only [List.nil_append]
    constructor
    · intro h
      exact ⟨linked_lt mem _ h x (List.mem_cons_self _ _), h⟩
    · intro h; exact h.2
  | [a] => by
    simp only [List.singleton_append]
    constructor
    · intro h
      exact ⟨⟨h.1, linked_lt mem _ h.2 x (List.mem_cons_self _ _)⟩, h.2⟩
    · intro h
      exact ⟨h.1.1, h.2⟩
  | a :: b :: r => by
    have ih := linked_append mem x l2 (b :: r)
    simp only [List.cons_append] at ih ⊢
    constructor
    · intro h
      have := ih.mp h.2
      exact ⟨⟨h.1, this.1⟩, this.2⟩
    · intro h
      exact ⟨h.1.1, ih.mpr ⟨h.1.2, h.2⟩⟩

theorem linked_next (mem : Mem) (x y : Nat) (l1 l2 : List Nat)
    (h : Linked mem (l1 ++ x :: y :: l2)) : next_at mem x = some (some y) :=
  ((linked_append mem x (y :: l2) l1).mp h).2.1

theorem next_at_set_ne (mem : Mem) (p b : Nat) (v : Node) (h : b ≠ p) :
    next_at (mem.set p v) b = next_at mem b := by
  unfold next_at
  rw [get_set_ne mem p b v h]

theorem holds_frame (mem mem2 : Mem) (ll : LinkedList) (l : List Nat)
    (hlen : mem.length ≤ mem2.length) (h : Holds mem ll l)
    (hf : ∀ a ∈ l.dropLast, next_at mem2 a = next_at mem a) : Holds mem2 ll l :=
  ⟨h.1, h.2.1, linked_frame mem mem2 hlen l h.2.2.1 hf, h.2.2.2⟩

theorem find_tail_prev_cycle (mem : Mem) (S : List Nat)
    (hS : ∀ x ∈ S, ∃ y ∈ S, next_at mem x = some (some y)) :
    ∀ (fuel p : Nat), p ∈ S → find_tail_prev mem fuel (some p) = Except.error Fail.diverge
  | 0, _, _ => rfl
  | n + 1, p, hp => by
    obtain ⟨q, hq, hpq⟩ := hS p hp
    obtain ⟨z, _, hqz⟩ := hS q hq
    obtain ⟨nd, hnd, hnx⟩ := next_at_some mem p _ hpq
    obtain ⟨nq, hnq, hqx⟩ := next_at_some mem q _ hqz
    unfold find_tail_prev
    rw [rd_some mem p nd hnd]
    show (do
      let q2 ← rd mem nd.next
      if q2.next ≠ none then find_tail_prev mem n nd.next else pure (some p)) = _
    rw [hnx, rd_some mem q nq hnq]
    show (if nq.next ≠ none then find_tail_prev mem n (some q) else pure (some p)) = _
    rw [hqx, if_pos (by simp)]
    exact find_tail_prev_cycle mem S hS n q hq

theorem find_tail_prev_clean (mem : Mem) (p t : Nat) (ht : next_at mem t = some none) :
    ∀ (pre : List Nat) (x : Nat) (rest : List Nat), x :: rest = pre ++ [p, t] →
      Linked mem (x :: rest) → ∀ fuel, rest.length ≤ fuel →
      find_tail_prev mem fuel (some x) = Except.ok (some p)
  | [], x, rest, e, hl, fuel, hf => by
    simp only [List.nil_append, List.cons.injEq] at e
    obtain ⟨rfl, rfl⟩ := e
    obtain ⟨n, rfl⟩ : ∃ n, fuel = n + 1 := ⟨fuel - 1, by simp at hf; omega⟩
    obtain ⟨nd, hnd, hnx⟩ := next_at_some mem x _ hl.1
    obtain ⟨nt, hnt, htx⟩ := next_at_some mem t _ ht
    unfold find_tail_prev
    rw [rd_some mem x nd hnd]
    show (do
      let q2 ← rd mem nd.next
      if q2.next ≠ none then find_tail_prev mem n nd.next else pure (some x)) = _
    rw [hnx, rd_some mem t nt hnt]
    show (if nt.next ≠ none then find_tail_prev mem n (some t) else pure (some x)) = _
    rw [htx, if_neg (by simp)]
    rfl
  | y :: pre, x, rest, e, hl, fuel, hf => by
    simp only [List.cons_append, List.cons.injEq] at e
    obtain ⟨rfl, rfl⟩ := e
    obtain ⟨z, rest2, hz⟩ : ∃ z rest2, pre ++ [p, t] = z :: rest2 := by
      cases pre with
      | nil => exact ⟨p, [t], rfl⟩
      | cons a b => exact ⟨a, b ++ [p, t], rfl⟩
    obtain ⟨w, rest3, hw⟩ : ∃ w rest3, rest2 = w :: rest3 := by
      cases pre with
      | nil =>
        simp only [List.nil_append, List.cons.injEq] at hz
        exact ⟨t, [], hz.2.symm⟩
      | cons a b =>
        simp only [List.cons_append, List.cons.injEq] at hz
        cases b with
        | nil => exact ⟨p, [t], hz.2.symm⟩
        | cons c d => exact ⟨c, d ++ [p, t], hz.2.symm⟩
    rw [hz] at hl hf
    have hf2 : rest2.length + 1 ≤ fuel := by simpa using hf
    obtain ⟨n, rfl⟩ : ∃ n, fuel = n + 1 := ⟨fuel - 1, by omega⟩
    obtain ⟨nd, hnd, hnx⟩ := next_at_some mem x _ hl.1
    have hl2 : Linked mem (z :: w :: rest3) := by rw [← hw]; exact hl.2
    obtain ⟨nz, hnz, hzx⟩ := next_at_some mem z _ hl2.1
    unfold find_tail_prev
    rw [rd_some mem x nd hnd]
    show (do
      let q2 ← rd mem nd.next
      if q2.next ≠ none then find_tail_prev mem n nd.next else pure (some x)) = _
    rw [hnx, rd_some mem z nz hnz]
    show (if nz.next ≠ none then find_tail_prev mem n (some z) else pure (some x)) = _
    rw [hzx, if_pos (by simp)]
    exact find_tail_prev_clean mem p t ht pre z rest2 hz.symm hl.2 n (by omega)

theorem find_prev_mid (mem : Mem) (p a : Nat) (post : List Nat) :
    ∀ (pre : List Nat) (x : Nat) (rest : List Nat), x :: rest = pre ++ p :: a :: post →
      Linked mem (x :: rest) → (x :: rest).Nodup → ∀ fuel, rest.length ≤ fuel →
      find_prev mem (some a) fuel (some x) = Except.ok (some p)
  | [], x, rest, e, hl, _, fuel, hf => by
    simp only [List.nil_append, List.cons.injEq] at e
    obtain ⟨rfl, rfl⟩ := e
    obtain ⟨n, rfl⟩ : ∃ n, fuel = n + 1 := ⟨fuel - 1, by simp at hf; omega⟩
    obtain ⟨nd, hnd, hnx⟩ := next_at_some mem x _ hl.1
    unfold find_prev
    rw [rd_some mem x nd hnd]
    show (if nd.next ≠ some a ∧ nd.next ≠ none then find_prev mem (some a) n nd.next
      else pure (some x)) = _
    rw [hnx, if_neg (by simp)]
    rfl
  | y :: pre, x, rest, e, hl, hd, fuel, hf => by
    simp only [List.cons_append, List.cons.injEq] at e
    obtain ⟨rfl, rfl⟩ := e
    obtain ⟨z, rest2, hz⟩ : ∃ z rest2, pre ++ p :: a :: post = z :: rest2 := by
      cases pre with
      | nil => exact ⟨p, a :: post, rfl⟩
      | cons c b => exact ⟨c, b ++ p :: a :: post, rfl⟩
    have hza : z ≠ a := by
      have hd2 : (pre ++ p :: a :: post).Nodup := (List.nodup_cons.mp hd).2
      intro hza
      cases pre with
      | nil =>
        simp only [List.nil_append, List.cons.injEq] at hz
        rw [← hz.1] at hza
        have := (List.nodup_cons.mp hd2).1
        exact this (by rw [hza]; exact List.mem_cons_self _ _)
      | cons c b =>
        simp only [List.cons_append, List.cons.injEq] at hz
        rw [← hz.1] at hza
        have := (List.nodup_cons.mp hd2).1
        apply this
        rw [hza]
        simp
    rw [hz] at hl hf hd
    have hf2 : rest2.length + 1 ≤ fuel := by simpa using hf
    obtain ⟨n, rfl⟩ : ∃ n, fuel = n + 1 := ⟨fuel - 1, by omega⟩
    obtain ⟨nd, hnd, hnx⟩ := next_at_some mem x _ hl.1
    unfold find_prev
    rw [rd_some mem x nd hnd]
    show (if nd.next ≠ some a ∧ nd.next ≠ none then find_prev mem (some a) n nd.next
      else pure (some x)) = _
    rw [hnx, if_pos ⟨by simpa using hza, by simp⟩]
    exact find_prev_mid mem p a post pre z rest2 hz.symm hl.2 (List.nodup_cons.mp hd).2 n (by omega)

theorem erase_mid (s t : List Nat) (a : Nat) (hs : a ∉ s) : (s ++ a :: t).erase a = s ++ t := by
  rw [List.erase_append_right _ hs, List.erase_cons_head]

theorem getLast_mid (s t : List Nat) (a z : Nat) :
    (s ++ a :: z :: t).getLast? = (z :: t).getLast? := by
  rw [show s ++ a :: z :: t = (s ++ [a]) ++ (z :: t) by simp]
  rw [List.getLast?_append_of_ne_nil _ (by simp)]

theorem head_mid (s t : List Nat) (p a : Nat) :
    (s ++ p :: t).head? = (s ++ p :: a :: t).head? := by
  cases s <;> rfl

theorem remove_holds (mem : Mem) (ll : LinkedList) (l : List Nat) (a : Nat)
    (h : Holds mem ll l) (hsz : ll.size = l.length) (ha : a ∈ l)
    (hcond : l.getLast? = some a → 3 ≤ l.length → next_at mem a = some none ∨
      ∃ S : List Nat, (∀ x ∈ l, x ∈ S) ∧ ∀ x ∈ S, ∃ y ∈ S, next_at mem x = some (some y))
    (mem2 : Mem) (ll2 : LinkedList) (hr : remove_node mem ll (some a) = Except.ok (mem2, ll2)) :
    Holds mem2 ll2 (l.erase a) ∧ ll2.size = (l.erase a).length ∧ mem2.length = mem.length ∧
      (∀ b, grid_at mem2 b = grid_at mem b) ∧ (∀ b, b ∉ l → next_at mem2 b = next_at mem b) ∧
      (∀ t, (l.erase a).getLast? = some t → next_at mem2 t = next_at mem t) := by
  obtain ⟨hh, ht, hl, hd⟩ := h
  obtain ⟨s, t, rfl⟩ := List.append_of_mem ha
  have hs : a ∉ s := fun hm => (List.nodup_append.mp hd).2.2 hm (List.mem_cons_self _ _)
  have hta : a ∉ t := (List.nodup_cons.mp (List.nodup_append.mp hd).2.1).1
  have hlen : ll.size = (s.length : Int) + 1 + t.length := by
    rw [hsz]; simp only [List.length_append, List.length_cons]; push_cast; ring
  rw [erase_mid s t a hs]
  unfold remove_node at hr
  rw [if_pos (by simp)] at hr
  unfold remove_node_body at hr
  rcases List.eq_nil_or_concat s with rfl | ⟨s1, p, hsp⟩
  · -- the node is the head
    simp only [List.nil_append] at hh ht hl hd hcond ⊢
    simp only [List.length_nil, Nat.cast_zero, zero_add] at hlen
    cases t with
    | nil =>
      have h1 : ll.size = 1 := by simpa using hlen
      rw [if_pos h1] at hr
      simp only [pure_ok_iff, Prod.mk.injEq] at hr
      obtain ⟨rfl, rfl⟩ := hr
      refine ⟨⟨rfl, rfl, trivial, List.nodup_nil⟩, by simp [h1], rfl, fun _ => rfl,
        fun _ _ => rfl, fun _ _ => rfl⟩
    | cons z t1 =>
      have h1 : ll.size ≠ 1 := by
        rw [hlen]; simp only [List.length_cons]; push_cast; omega
      rw [if_neg h1] at hr
      have hhead : ll.head = some a := hh
      by_cases h2 : ll.size = 2
      · rw [if_pos h2, if_pos hhead] at hr
        simp only [pure_ok_iff, Prod.mk.injEq] at hr
        obtain ⟨rfl, rfl⟩ := hr
        have ht1 : t1 = [] := by
          rw [hlen] at h2
          simp only [List.length_cons] at h2
          push_cast at h2
          have : t1.length = 0 := by omega
          exact List.length_eq_zero.mp this
        subst ht1
        refine ⟨⟨?_, ?_, ?_, by simp⟩, by simp [h2], rfl, fun _ => rfl, fun _ _ => rfl,
          fun _ _ => rfl⟩
        · simpa using ht
        · simpa using ht
        · exact linked_lt mem _ hl z (by simp)
      · rw [if_neg h2, if_pos hhead] at hr
        simp only [bind_ok_iff, pure_ok_iff, Prod.mk.injEq] at hr
        obtain ⟨nd, hrd, rfl, rfl⟩ := hr
        obtain ⟨a2, ha2, hnd⟩ := (rd_ok _ _ _).mp hrd
        rw [hhead] at ha2
        cases ha2
        have hnx : next_at mem a = some (some z) := hl.1
        rw [next_at_eq mem a nd hnd] at hnx
        simp only [Option.some.injEq] at hnx
        refine ⟨⟨?_, ?_, hl.2, (List.nodup_cons.mp hd).2⟩, ?_, rfl, fun _ => rfl,
          fun _ _ => rfl, fun _ _ => rfl⟩
        · simpa using hnx
        · simpa using ht
        · simp only [hlen, List.length_cons]; push_cast; ring
  · -- the node has a predecessor `p`
    rw [List.concat_eq_append] at hsp
    subst hsp
    have hhead : ll.head ≠ some a := by
      rw [hh]
      intro e
      have : a ∈ s1 ++ [p] := by
        cases s1 with
        | nil => simp at e; simp [e]
        | cons c d => simp at e; simp [e]
      exact hs this
    have h1 : ll.size ≠ 1 := by
      rw [hlen]; simp only [List.length_append, List.length_singleton]; push_cast; omega
    rw [if_neg h1] at hr
    by_cases h2 : ll.size = 2
    · rw [if_pos h2, if_neg hhead] at hr
      simp only [pure_ok_iff, Prod.mk.injEq] at hr
      obtain ⟨rfl, rfl⟩ := hr
      have hs1 : s1 = [] := by
        rw [hlen] at h2
        simp only [List.length_append, List.length_singleton] at h2
        push_cast at h2
        have : s1.length = 0 := by omega
        exact List.length_eq_zero.mp this
      have ht0 : t = [] := by
        rw [hlen] at h2
        simp only [List.length_append, List.length_singleton] at h2
        push_cast at h2
        have : t.length = 0 := by omega
        exact List.length_eq_zero.mp this
      subst hs1 ht0
      simp only [List.nil_append, List.append_nil] at hh ht hl hd
      rw [List.nil_append, List.append_nil]
      refine ⟨⟨?_, ?_, ?_, by simp⟩, by simp [h2], rfl, fun _ => rfl, fun _ _ => rfl,
        fun _ _ => rfl⟩
      · simpa using hh
      · simpa using hh
      · exact linked_lt mem _ hl p (by simp)
    · rw [if_neg h2, if_neg hhead] at hr
      cases t with
      | nil =>
        -- the node is the tail of a list of three or more nodes
        have htail : ll.tail = some a := by
          rw [ht]; simp
        rw [if_pos htail] at hr
        simp only [bind_ok_iff, pure_ok_iff, Prod.mk.injEq] at hr
        obtain ⟨prev, hprev, rfl, rfl⟩ := hr
        have hlen3 : 3 ≤ ((s1 ++ [p]) ++ [a]).length := by
          have : (2 : Int) < ll.size := by
            have h0 : (0 : Int) ≤ s1.length := Int.natCast_nonneg _
            rw [hlen] at h1 h2 ⊢
            simp only [List.length_append, List.length_singleton, List.length_nil] at h1 h2 ⊢
            push_cast at h1 h2 ⊢
            omega
          rw [hsz] at this
          omega
        obtain ⟨x, rest, hx⟩ : ∃ x rest, (s1 ++ [p]) ++ [a] = x :: rest := by
          cases s1 with
          | nil => exact ⟨p, [a], rfl⟩
          | cons c d => exact ⟨c, d ++ [p] ++ [a], rfl⟩
        have hhx : ll.head = some x := by rw [hh, hx]; rfl
        have hfuel : rest.length ≤ mem.length + 1 := by
          have := holds_length mem ll _ ⟨hh, ht, hl, hd⟩
          rw [hx] at this
          simp only [List.length_cons] at this
          omega
        rw [hhx] at hprev
        rcases hcond (by simp) hlen3 with hclean | ⟨S, hS1, hS2⟩
        · have hx2 : x :: rest = s1 ++ [p, a] := by rw [← hx]; simp
          rw [find_tail_prev_clean mem p a hclean s1 x rest hx2 (by rw [← hx]; exact hl)
            (mem.length + 1) hfuel] at hprev
          cases hprev
          rw [List.append_nil]
          have hl2 : Linked mem (s1 ++ [p]) :=
            ((linked_append mem p [a] s1).mp (by simpa using hl)).1
          refine ⟨⟨?_, by simp, hl2, (List.nodup_append.mp hd).1⟩, ?_, rfl, fun _ => rfl,
            fun _ _ => rfl, fun _ _ => rfl⟩
          · rw [hh]
            cases s1 <;> rfl
          · simp only [hlen, List.length_append, List.length_singleton, List.length_nil]
            push_cast; ring
        · rw [find_tail_prev_cycle mem S hS2 (mem.length + 1) x
            (hS1 x (by rw [hx]; exact List.mem_cons_self _ _))] at hprev
          cases hprev
      | cons z t1 =>
        -- the node is in the middle
        have htail : ll.tail ≠ some a := by
          rw [ht, getLast_mid]
          intro e
          exact hta (List.mem_of_getLast?_eq_some e)
        rw [if_neg htail] at hr
        simp only [bind_ok_iff, pure_ok_iff, Prod.mk.injEq] at hr
        obtain ⟨prev, hprev, np, hnp, nq, hnq, m3, hset, rfl, rfl⟩ := hr
        obtain ⟨x, rest, hx⟩ : ∃ x rest, (s1 ++ [p]) ++ a :: z :: t1 = x :: rest := by
          cases s1 with
          | nil => exact ⟨p, a :: z :: t1, rfl⟩
          | cons c d => exact ⟨c, d ++ [p] ++ a :: z :: t1, rfl⟩
        have hhx : ll.head = some x := by rw [hh, hx]; rfl
        have hfuel : rest.length ≤ mem.length + 1 := by
          have := holds_length mem ll _ ⟨hh, ht, hl, hd⟩
          rw [hx] at this
          simp only [List.length_cons] at this
          omega
        have hx2 : x :: rest = s1 ++ p :: a :: z :: t1 := by rw [← hx]; simp
        rw [hhx, find_prev_mid mem p a (z :: t1) s1 x rest hx2 (by rw [← hx]; exact hl)
          (by rw [← hx]; exact hd) (mem.length + 1) hfuel] at hprev
        cases hprev
        have hl0 : Linked mem (s1 ++ p :: a :: z :: t1) := by simpa using hl
        have hd0 : (s1 ++ p :: a :: z :: t1).Nodup := by simpa using hd
        obtain ⟨hA, hB⟩ := (linked_append mem p (a :: z :: t1) s1).mp hl0
        obtain ⟨p2, hp2, hnp2⟩ := (rd_ok _ _ _).mp hnp
        cases hp2
        have hpa : np.next = some a := by
          have := hB.1
          rw [show (mem.get? p).map (fun nd => nd.next) = next_at mem p from rfl,
            next_at_eq mem p np hnp2] at this
          simpa using this
        rw [hpa] at hnq
        obtain ⟨a2, ha2, hnq2⟩ := (rd_ok _ _ _).mp hnq
        cases ha2
        have haz : nq.next = some z := by
          have := hB.2.1
          rw [show (mem.get? a).map (fun nd => nd.next) = next_at mem a from rfl,
            next_at_eq mem a nq hnq2] at this
          simpa using this
        rw [set_next_some mem p np _ hnp2] at hset
        cases hset
        rw [haz]
        have hplt : p < mem.length := linked_lt mem _ hA p (by simp)
        have hp_s1 : p ∉ s1 := by
          intro hm
          have := (List.nodup_append.mp hd0).2.2 hm (List.mem_cons_self _ _)
          exact this
        have hp_t : p ∉ z :: t1 := by
          have := (List.nodup_cons.mp (List.nodup_append.mp hd0).2.1).1
          intro hm
          exact this (List.mem_cons_of_mem _ hm)
        have hlenset : (mem.set p { np with next := some z }).length = mem.length :=
          List.length_set _ _ _
        have hA2 : Linked (mem.set p { np with next := some z }) (s1 ++ [p]) := by
          apply linked_frame mem _ (by rw [hlenset]) _ hA
          intro b hb
          rw [List.dropLast_concat] at hb
          exact next_at_set_ne mem p b _ (fun e => hp_s1 (e ▸ hb))
        have hB2 : Linked (mem.set p { np with next := some z }) (z :: t1) := by
          apply linked_frame mem _ (by rw [hlenset]) _ hB.2.2
          intro b hb
          exact next_at_set_ne mem p b _
            (fun e => hp_t (e ▸ List.mem_of_mem_dropLast hb))
        have hC2 : Linked (mem.set p { np with next := some z }) (p :: z :: t1) := by
          refine ⟨?_, hB2⟩
          rw [get_set_eq mem p _ hplt]
          rfl
        refine ⟨⟨?_, ?_, ?_, ?_⟩, ?_, hlenset, grid_at_set mem p np _ hnp2, ?_, ?_⟩
        · rw [hh]
          simp only [List.append_assoc, List.singleton_append]
          exact (head_mid s1 (z :: t1) p a).symm
        · rw [ht]
          simp only [List.append_assoc, List.singleton_append]
          rw [getLast_mid, getLast_mid]
          exact List.getLast?_cons_cons
        · simp only [List.append_assoc, List.singleton_append]
          exact (linked_append _ p (z :: t1) s1).mpr ⟨hA2, hC2⟩
        · simp only [List.append_assoc, List.singleton_append]
          have := hd0
          rw [List.nodup_append] at this ⊢
          refine ⟨this.1, ?_, fun u hu hv => this.2.2 hu ?_⟩
          · have h3 := this.2.1
            rw [List.nodup_cons] at h3 ⊢
            refine ⟨fun hm => h3.1 (List.mem_cons_of_mem _ hm), (List.nodup_cons.mp h3.2).2⟩
          · rcases List.mem_cons.mp hv with e | hv
            · rw [e]; exact List.mem_cons_self _ _
            · exact List.mem_cons_of_mem _ (List.mem_cons_of_mem _ hv)
        · simp only [hlen, List.length_append, List.length_singleton, List.length_cons]
          push_cast; ring
        · intro b hb
          exact next_at_set_ne mem p b _ (fun e => hb (by rw [e]; simp))
        · intro t0 ht0
          apply next_at_set_ne
          intro e
          subst e
          simp only [List.append_assoc, List.singleton_append] at ht0
          rw [getLast_mid] at ht0
          exact hp_t (List.mem_of_getLast?_eq_some ht0)

theorem set_next_ok (mem mem2 : Mem) (p nx : Option Nat) (h : set_next mem p nx = Except.ok mem2) :
    ∃ t nd, p = some t ∧ mem.get? t = some nd ∧ mem2 = mem.set t { nd with next := nx } := by
  unfold set_next at h
  simp only [bind_ok_iff] at h
  obtain ⟨nd, hrd, h⟩ := h
  obtain ⟨t, rfl, hnd⟩ := (rd_ok _ _ _).mp hrd
  simp only [pure_ok_iff] at h
  exact ⟨t, nd, rfl, hnd, h.symm⟩

theorem push_frame (mem : Mem) (ll : LinkedList) (l : List Nat) (a : Nat)
    (h : Holds mem ll l) (hsz : ll.size = l.length) (mem2 : Mem) (ll2 : LinkedList)
    (hp : push mem ll (some a) = Except.ok (mem2, ll2)) :
    ∀ b, l.getLast? ≠ some b → next_at mem2 b = next_at mem b := by
  intro b hb
  unfold push at hp
  cases l with
  | nil =>
    have h0 : ll.size = 0 := by simpa using hsz
    rw [if_pos h0] at hp
    simp only [pure_ok_iff, Prod.mk.injEq] at hp
    rw [← hp.1]
  | cons x r =>
    have hsz0 : ll.size ≠ 0 := by
      rw [hsz]; simp only [List.length_cons]; push_cast; omega
    rw [if_neg hsz0] at hp
    by_cases h1 : ll.size = 1
    · rw [if_pos h1] at hp
      have hr : r = [] := by
        rw [hsz] at h1
        simp only [List.length_cons] at h1
        have : r.length = 0 := by omega
        exact List.length_eq_zero.mp this
      subst hr
      simp only [bind_ok_iff, pure_ok_iff, Prod.mk.injEq] at hp
      obtain ⟨m, hm, rfl, -⟩ := hp
      obtain ⟨t, nd, ht, -, rfl⟩ := set_next_ok _ _ _ _ hm
      rw [h.1] at ht
      simp only [List.head?_cons, Option.some.injEq] at ht
      subst ht
      apply next_at_set_ne
      intro e
      apply hb
      rw [e]
      rfl
    · rw [if_neg h1] at hp
      simp only [bind_ok_iff, pure_ok_iff, Prod.mk.injEq] at hp
      obtain ⟨m, hm, rfl, -⟩ := hp
      obtain ⟨t, nd, ht, -, rfl⟩ := set_next_ok _ _ _ _ hm
      rw [h.2.1] at ht
      apply next_at_set_ne
      intro e
      apply hb
      rw [e]
      exact ht

theorem get_append_lt (mem : Mem) (nd : Node) (b : Nat) (h : b < mem.length) :
    (mem ++ [nd]).get? b = mem.get? b := by
  simp only [List.get?_eq_getElem?]
  exact List.getElem?_append_left h

theorem get_append_new (mem : Mem) (nd : Node) : (mem ++ [nd]).get? mem.length = some nd := by
  simp only [List.get?_eq_getElem?]
  simp

theorem next_at_append (mem : Mem) (nd : Node) (b : Nat) (h : b < mem.length) :
    next_at (mem ++ [nd]) b = next_at mem b := by
  unfold next_at
  rw [get_append_lt mem nd b h]

theorem grid_at_append (mem : Mem) (nd : Node) (b : Nat) (h : b < mem.length) :
    grid_at (mem ++ [nd]) b = grid_at mem b := by
  unfold grid_at
  rw [get_append_lt mem nd b h]

theorem set_parent_score_ok (mem mem2 : Mem) (tmp : Option Nat) (par : BoardPtr) (sc : Int)
    (h : set_parent_score mem tmp par sc = Except.ok mem2) :
    mem2.length = mem.length ∧ (∀ b, next_at mem2 b = next_at mem b) ∧
      ∀ b, grid_at mem2 b = grid_at mem b := by
  unfold set_parent_score at h
  simp only [bind_ok_iff] at h
  obtain ⟨nd, hrd, h⟩ := h
  obtain ⟨t, rfl, hnd⟩ := (rd_ok _ _ _).mp hrd
  simp only [pure_ok_iff] at h
  subst h
  have hlt : t < mem.length := by
    by_contra hc
    rw [List.get?_eq_none.mpr (by omega)] at hnd
    cases hnd
  refine ⟨List.length_set _ _ _, ?_, ?_⟩
  · intro b
    by_cases hb : b = t
    · subst hb
      rw [next_at_eq _ b _ (get_set_eq mem b _ hlt), next_at_eq mem b nd hnd]
    · exact next_at_set_ne mem t b _ hb
  · intro b
    by_cases hb : b = t
    · subst hb
      rw [grid_at_eq _ b _ (get_set_eq mem b _ hlt), grid_at_eq mem b nd hnd]
    · unfold grid_at
      rw [get_set_ne mem t b _ hb]

theorem in_list_zero (mem : Mem) (ll : LinkedList) (l : List Nat) (h : Holds mem ll l)
    (a : Nat) (nd : Node) (hn : mem.get? a = some nd)
    (hin : in_list mem ll (some a) = Except.ok 0) :
    ∃ b ∈ l, grid_at mem b = nd.board.board := by
  cases l with
  | nil =>
    rw [in_list_empty mem ll h.1] at hin
    cases hin
  | cons x r =>
    rw [in_list_eq mem ll x r h a nd hn] at hin
    cases hb : (x :: r).any
        (fun b => decide (compare_boards (grid_at mem b) nd.board.board = 0)) with
    | true =>
      rw [List.any_eq_true] at hb
      obtain ⟨b, hb1, hb2⟩ := hb
      exact ⟨b, hb1, (compare_boards_eq _ _).mp (of_decide_eq_true hb2)⟩
    | false =>
      rw [hb] at hin
      simp only [Bool.false_eq_true, if_false] at hin
      cases hin

theorem tailOK_frame (mem mem2 : Mem) (lo lc : List Nat) (h : TailOK mem lo lc)
    (hf : ∀ t, lo.getLast? = some t → next_at mem2 t = next_at mem t) : TailOK mem2 lo lc := by
  intro t ht
  rw [hf t ht]
  exact h t ht

theorem layout_frame (s : State) (lo lc : List Nat) (m2 : Mem) (h : Layout s lo lc)
    (hlen : s.mem.length ≤ m2.length)
    (hf : ∀ b, b < s.mem.length → next_at m2 b = next_at s.mem b) :
    Layout { s with mem := m2 } lo lc := by
  have hlo := linked_lt s.mem lo h.ho.2.2.1
  have hlc := linked_lt s.mem lc h.hc.2.2.1
  refine ⟨holds_frame s.mem m2 _ lo hlen h.ho ?_, h.so, holds_frame s.mem m2 _ lc hlen h.hc ?_,
    h.sc, h.disj, tailOK_frame s.mem m2 lo lc h.tail ?_⟩
  · intro a ha
    exact hf a (hlo a (List.mem_of_mem_dropLast ha))
  · intro a ha
    exact hf a (hlc a (List.mem_of_mem_dropLast ha))
  · intro t ht
    exact hf t (hlo t (List.mem_of_getLast?_eq_some ht))

theorem merge_one_layout (s s2 : State) (c : Board) (lo lc : List Nat)
    (hL : Layout s lo lc) (h : merge_one s c = Except.ok s2) :
    ∃ lo2, Layout s2 lo2 lc ∧ (∀ b ∈ lo, b ∈ lo2) ∧ s.mem.length ≤ s2.mem.length ∧
      (∀ b, b < s.mem.length → grid_at s2.mem b = grid_at s.mem b) ∧
      ∃ x ∈ lo2 ++ lc, grid_at s2.mem x = c.board := by
  let nodeX : Node := { board := copy_board c make_empty_board, next := none }
  have hnew : (s.mem ++ [nodeX]).get? s.mem.length = some nodeX := get_append_new s.mem nodeX
  have hlen1 : s.mem.length ≤ (s.mem ++ [nodeX]).length := by simp
  have hL1 : Layout { s with mem := s.mem ++ [nodeX] } lo lc :=
    layout_frame s lo lc _ hL hlen1 (fun b hb => next_at_append s.mem nodeX b hb)
  have hg1 : ∀ b, b < s.mem.length → grid_at (s.mem ++ [nodeX]) b = grid_at s.mem b :=
    fun b hb => grid_at_append s.mem nodeX b hb
  have hlo := linked_lt s.mem lo hL.ho.2.2.1
  have hlc := linked_lt s.mem lc hL.hc.2.2.1
  unfold merge_one at h
  simp only [bind_ok_iff] at h
  obtain ⟨r1, hin1, h⟩ := h
  have hin1b : in_list (s.mem ++ [nodeX]) s.closed_list (some s.mem.length) = Except.ok r1 := hin1
  split at h
  · rename_i hr1
    simp only [pure_ok_iff] at h
    subst h
    rw [hr1] at hin1b
    obtain ⟨b, hb1, hb2⟩ := in_list_zero _ _ lc hL1.hc _ nodeX hnew hin1b
    exact ⟨lo, hL1, fun b hb => hb, hlen1, hg1, b, List.mem_append_right _ hb1, hb2⟩
  · simp only [bind_ok_iff] at h
    obtain ⟨r2, hin2, h⟩ := h
    have hin2b : in_list (s.mem ++ [nodeX]) s.open_list (some s.mem.length) = Except.ok r2 := hin2
    split at h
    · rename_i hr2
      rw [hr2] at hin2b
      obtain ⟨b, hb1, hb2⟩ := in_list_zero _ _ lo hL1.ho _ nodeX hnew hin2b
      simp only [bind_ok_iff] at h
      obtain ⟨tmp, -, t, -, h⟩ := h
      split at h
      · simp only [bind_ok_iff, pure_ok_iff] at h
        obtain ⟨m, h3, h4⟩ := h
        subst h4
        obtain ⟨e1, e2, e3⟩ := set_parent_score_ok _ _ _ _ _ h3
        have e1b : m.length = (s.mem ++ [nodeX]).length := e1
        have hL2 := layout_frame { s with mem := s.mem ++ [nodeX] } lo lc m hL1
          (by rw [e1b]) (fun b _ => e2 b)
        refine ⟨lo, hL2, fun b hb => hb, by rw [e1b]; exact hlen1, ?_, b,
          List.mem_append_left _ hb1, ?_⟩
        · intro b hb
          exact (e3 b).trans (hg1 b hb)
        · exact (e3 b).trans hb2
      · simp only [pure_ok_iff] at h
        subst h
        exact ⟨lo, hL1, fun b hb => hb, hlen1, hg1, b, List.mem_append_left _ hb1, hb2⟩
    · simp only [bind_ok_iff, pure_ok_iff] at h
      obtain ⟨⟨m, ol⟩, hp, h2⟩ := h
      subst h2
      have hp2 : push (s.mem ++ [nodeX]) s.open_list (some s.mem.length) = Except.ok (m, ol) := hp
      have hfresh_o : s.mem.length ∉ lo := fun hm => Nat.lt_irrefl _ (hlo _ hm)
      have hfresh_c : s.mem.length ∉ lc := fun hm => Nat.lt_irrefl _ (hlc _ hm)
      obtain ⟨m2, ol2, hp3, hH, hS, hG, -, hLen⟩ := push_holds (s.mem ++ [nodeX]) s.open_list lo
        s.mem.length hL1.ho hL1.so (by simp) hfresh_o
      rw [hp2] at hp3
      simp only [Except.ok.injEq, Prod.mk.injEq] at hp3
      obtain ⟨rfl, rfl⟩ := hp3
      have hF := push_frame (s.mem ++ [nodeX]) s.open_list lo s.mem.length hL1.ho hL1.so m ol hp2
      refine ⟨lo ++ [s.mem.length], ⟨hH, hS, ?_, hL.sc, ?_, ?_⟩,
        fun b hb => List.mem_append_left _ hb, by rw [hLen]; exact hlen1, ?_,
        s.mem.length, by simp, ?_⟩
      · apply holds_frame (s.mem ++ [nodeX]) m _ lc (by rw [hLen]) hL1.hc
        intro a ha
        apply hF
        intro e
        exact hL.disj a (List.mem_of_getLast?_eq_some e) (List.mem_of_mem_dropLast ha)
      · intro a ha
        rcases List.mem_append.mp ha with ha | ha
        · exact hL.disj a ha
        · rw [List.mem_singleton] at ha
          rw [ha]; exact hfresh_c
      · intro t ht
        rw [List.getLast?_concat] at ht
        cases ht
        left
        rw [hF s.mem.length (fun e => hfresh_o (List.mem_of_getLast?_eq_some e)),
          next_at_eq _ _ _ hnew]
      · intro b hb
        exact (hG b).trans (hg1 b hb)
      · rw [hG, grid_at_eq _ _ _ hnew]
        rfl

theorem scan_min_mem (mem : Mem) (l : List Nat) (min : Int) (a : Nat)
    (h : (scan_min mem l min none).2 = some a) : a ∈ l := by
  rcases scan_min_spec mem l min none with ⟨-, h2⟩ | ⟨pre, a2, post, h1, h2, -⟩
  · rw [h2] at h; cases h
  · rw [h2] at h
    simp only [Option.some.injEq] at h
    subst h
    rw [h1]
    simp

theorem linked_succ (mem : Mem) : ∀ (l : List Nat) (x : Nat), Linked mem l → x ∈ l →
    l.getLast? ≠ some x → ∃ y ∈ l, next_at mem x = some (some y)
  | [], x, _, hx, _ => by simp at hx
  | [a], x, _, hx, hne => by
    simp only [List.mem_singleton] at hx
    subst hx
    exact absurd rfl hne
  | a :: b :: r, x, hl, hx, hne => by
    rcases List.mem_cons.mp hx with rfl | hx
    · exact ⟨b, by simp, hl.1⟩
    · rw [List.getLast?_cons_cons] at hne
      obtain ⟨y, hy, hxy⟩ := linked_succ mem (b :: r) x hl.2 hx hne
      exact ⟨y, List.mem_cons_of_mem _ hy, hxy⟩

theorem merge_fold_layout (lc : List Nat) : ∀ (cs : List Board) (s s2 : State) (lo : List Nat),
    Layout s lo lc → cs.foldlM merge_one s = Except.ok s2 →
    ∃ lo2, Layout s2 lo2 lc ∧ (∀ b ∈ lo, b ∈ lo2) ∧ s.mem.length ≤ s2.mem.length ∧
      (∀ b, b < s.mem.length → grid_at s2.mem b = grid_at s.mem b) ∧
      (∀ c ∈ cs, ∃ x ∈ lo2 ++ lc, grid_at s2.mem x = c.board) ∧ s2.iters = s.iters ∧
      s2.closed_list = s.closed_list
  | [], s, s2, lo, hL, h => by
    simp only [List.foldlM_nil, pure_ok_iff] at h
    subst h
    exact ⟨lo, hL, fun b hb => hb, le_refl _, fun _ _ => rfl, by simp, rfl, rfl⟩
  | c :: cs, s, s2, lo, hL, h => by
    simp only [List.foldlM_cons, bind_ok_iff] at h
    obtain ⟨s1, h1, h2⟩ := h
    obtain ⟨lo1, hL1, hsub1, hlen1, hg1, x, hx1, hx2⟩ := merge_one_layout s s1 c lo lc hL h1
    obtain ⟨lo2, hL2, hsub2, hlen2, hg2, hall, hit, hcl⟩ :=
      merge_fold_layout lc cs s1 s2 lo1 hL1 h2
    have hit1 : s1.iters = s.iters ∧ s1.closed_list = s.closed_list := by
      unfold merge_one at h1
      simp only [bind_ok_iff] at h1
      obtain ⟨r1, -, h1⟩ := h1
      split at h1
      · simp only [pure_ok_iff] at h1
        subst h1; exact ⟨rfl, rfl⟩
      · simp only [bind_ok_iff] at h1
        obtain ⟨r2, -, h1⟩ := h1
        split at h1
        · simp only [bind_ok_iff] at h1
          obtain ⟨tmp, -, t, -, h1⟩ := h1
          split at h1
          · simp only [bind_ok_iff, pure_ok_iff] at h1
            obtain ⟨m, -, h4⟩ := h1
            subst h4; exact ⟨rfl, rfl⟩
          · simp only [pure_ok_iff] at h1
            subst h1; exact ⟨rfl, rfl⟩
        · simp only [bind_ok_iff, pure_ok_iff] at h1
          obtain ⟨⟨m, ol⟩, -, h4⟩ := h1
          subst h4; exact ⟨rfl, rfl⟩
    refine ⟨lo2, hL2, fun b hb => hsub2 b (hsub1 b hb), le_trans hlen1 hlen2, ?_, ?_,
      hit.trans hit1.1, hcl.trans hit1.2⟩
    · intro b hb
      exact (hg2 b (lt_of_lt_of_le hb hlen1)).trans (hg1 b hb)
    · intro c2 hc2
      rcases List.mem_cons.mp hc2 with rfl | hc2
      · have hxlt : x < s1.mem.length := by
          rcases List.mem_append.mp hx1 with hm | hm
          · exact linked_lt s1.mem lo1 hL1.ho.2.2.1 x hm
          · exact linked_lt s1.mem lc hL1.hc.2.2.1 x hm
        refine ⟨x, ?_, (hg2 x hxlt).trans hx2⟩
        rcases List.mem_append.mp hx1 with hm | hm
        · exact List.mem_append_left _ (hsub2 x hm)
        · exact List.mem_append_right _ hm
      · exact hall c2 hc2

theorem iteration_layout (goal : Board) (s s2 : State) (lo lc : List Nat)
    (hL : Layout s lo lc) (hne : lo ≠ []) (h : iteration goal s = Except.ok (Sum.inl s2)) :
    ∃ a lo2 bd out, a ∈ lo ∧ Layout s2 lo2 (lc ++ [a]) ∧ (∀ b ∈ lo, b ≠ a → b ∈ lo2) ∧
      s.mem.length ≤ s2.mem.length ∧
      (∀ b, b < s.mem.length → grid_at s2.mem b = grid_at s.mem b) ∧
      compare_boards (grid_at s.mem a) goal.board ≠ 0 ∧
      bd.board = grid_at s.mem a ∧ expand bd = some out ∧
      ∀ c ∈ out, ∃ x ∈ lo2 ++ (lc ++ [a]), grid_at s2.mem x = c.board := by
  unfold iteration at h
  simp only [bind_ok_iff] at h
  obtain ⟨remove, h1, nd, h2, ⟨m1, cl⟩, h3, ⟨m2, ol⟩, h4, out, h5, h⟩ := h
  obtain ⟨a, rfl, hnd⟩ := (rd_ok _ _ _).mp h2
  have hlo := linked_lt s.mem lo hL.ho.2.2.1
  have hlc := linked_lt s.mem lc hL.hc.2.2.1
  -- the extracted node is a node of the open list
  have ha : a ∈ lo := by
    cases lo with
    | nil => exact absurd rfl hne
    | cons x r =>
      rw [find_min_h_eq s.mem s.open_list x r hL.ho] at h1
      simp only [Except.ok.injEq] at h1
      exact scan_min_mem s.mem _ _ a h1
  have halt : a < s.mem.length := hlo a ha
  have hac : a ∉ lc := hL.disj a ha
  -- push on the closed list
  obtain ⟨m1b, clb, hp, hHc, hSc, hG1, -, hLen1⟩ :=
    push_holds s.mem s.closed_list lc a hL.hc hL.sc halt hac
  rw [h3] at hp
  simp only [Except.ok.injEq, Prod.mk.injEq] at hp
  obtain ⟨rfl, rfl⟩ := hp
  have hF1 := push_frame s.mem s.closed_list lc a hL.hc hL.sc m1 cl h3
  have hF1o : ∀ b ∈ lo, next_at m1 b = next_at s.mem b := by
    intro b hb
    apply hF1
    intro e
    exact hL.disj b hb (List.mem_of_getLast?_eq_some e)
  have hHo1 : Holds m1 s.open_list lo :=
    holds_frame s.mem m1 _ lo (by rw [hLen1]) hL.ho
      (fun b hb => hF1o b (List.mem_of_mem_dropLast hb))
  -- removal from the open list
  have hcond : lo.getLast? = some a → 3 ≤ lo.length → next_at m1 a = some none ∨
      ∃ S : List Nat, (∀ x ∈ lo, x ∈ S) ∧ ∀ x ∈ S, ∃ y ∈ S, next_at m1 x = some (some y) := by
    intro hlast _
    rcases hL.tail a hlast with hcl | ⟨r, hr, hst⟩
    · left
      rw [hF1o a ha]; exact hcl
    · right
      have hst1 : next_at m1 a = some (some r) := by rw [hF1o a ha]; exact hst
      refine ⟨lo ++ (lc ++ [a]), fun x hx => List.mem_append_left _ hx, ?_⟩
      intro x hx
      by_cases hxa : x = a
      · subst hxa
        exact ⟨r, by simp [hr], hst1⟩
      · rcases List.mem_append.mp hx with hm | hm
        · obtain ⟨y, hy, hxy⟩ := linked_succ m1 lo x hHo1.2.2.1 hm
            (by rw [hlast]; simpa using fun e => hxa e.symm)
          exact ⟨y, List.mem_append_left _ hy, hxy⟩
        · obtain ⟨y, hy, hxy⟩ := linked_succ m1 (lc ++ [a]) x hHc.2.2.1 hm
            (by rw [List.getLast?_concat]; simpa using fun e => hxa e.symm)
          exact ⟨y, List.mem_append_right _ hy, hxy⟩
  obtain ⟨hHo2, hSo2, hLen2, hG2, hF2, hT2⟩ :=
    remove_holds m1 s.open_list lo a hHo1 hL.so ha hcond m2 ol h4
  have hnd_lo : lo.Nodup := hL.ho.2.2.2
  have hHc2 : Holds m2 cl (lc ++ [a]) := by
    apply holds_frame m1 m2 _ _ (by rw [hLen2]) hHc
    intro b hb
    rw [List.dropLast_concat] at hb
    exact hF2 b (fun hm => hL.disj b hm hb)
  have hdisj2 : ∀ x ∈ lo.erase a, x ∉ lc ++ [a] := by
    intro x hx hm
    have hx1 : x ∈ lo := List.mem_of_mem_erase hx
    rcases List.mem_append.mp hm with hm | hm
    · exact hL.disj x hx1 hm
    · rw [List.mem_singleton] at hm
      subst hm
      exact (List.Nodup.mem_erase_iff hnd_lo).mp hx |>.1 rfl
  have hTail2 : TailOK m2 (lo.erase a) (lc ++ [a]) := by
    intro t ht
    rw [hT2 t ht]
    obtain ⟨s0, t0, hst⟩ := List.append_of_mem ha
    have hs0 : a ∉ s0 := by
      rw [hst] at hnd_lo
      exact fun hm => (List.nodup_append.mp hnd_lo).2.2 hm (List.mem_cons_self _ _)
    rw [hst, erase_mid s0 t0 a hs0] at ht
    cases t0 with
    | nil =>
      rw [List.append_nil] at ht
      obtain ⟨s1, hs1⟩ := List.getLast?_eq_some_iff.mp ht
      right
      refine ⟨a, by simp, ?_⟩
      have hl1 : Linked m1 (s1 ++ t :: a :: []) := by
        have := hHo1.2.2.1
        rw [hst, hs1] at this
        simpa using this
      exact linked_next m1 t a s1 [] hl1
    | cons z t1 =>
      have hlast : lo.getLast? = some t := by
        rw [hst, getLast_mid]
        rw [List.getLast?_append_of_ne_nil _ (by simp)] at ht
        exact ht
      have hmt : t ∈ lo := List.mem_of_getLast?_eq_some hlast
      rcases hL.tail t hlast with hcl | ⟨r, hr, hst2⟩
      · left; rw [hF1o t hmt]; exact hcl
      · right
        exact ⟨r, List.mem_append_left _ hr, by rw [hF1o t hmt]; exact hst2⟩
  have hLmid : Layout { mem := m2, closed_list := cl, open_list := ol, iters := s.iters }
      (lo.erase a) (lc ++ [a]) := ⟨hHo2, hSo2, hHc2, hSc, hdisj2, hTail2⟩
  have hgrid : grid_at s.mem a = nd.board.board := grid_at_eq s.mem a nd hnd
  split at h
  · simp only [pure_ok_iff] at h
    cases h
  · rename_i hcmp
    simp only [bind_ok_iff, pure_ok_iff] at h
    obtain ⟨s3, h6, h7⟩ := h
    simp only [Sum.inl.injEq] at h7
    subst h7
    obtain ⟨lo3, hL3, hsub3, hlen3, hg3, hall, -, -⟩ :=
      merge_fold_layout (lc ++ [a]) out _ s3 (lo.erase a) hLmid h6
    refine ⟨a, lo3, copy_board nd.board make_empty_board, out, ha,
      ⟨hL3.ho, hL3.so, hL3.hc, hL3.sc, hL3.disj, hL3.tail⟩, ?_, ?_, ?_, ?_, ?_,
      (orFault_ok _ _).mp h5, hall⟩
    · intro b hb hba
      exact hsub3 b ((List.Nodup.mem_erase_iff hnd_lo).mpr ⟨hba, hb⟩)
    · have : s.mem.length ≤ m2.length := by rw [hLen2, hLen1]
      exact le_trans this hlen3
    · intro b hb
      have hb2 : b < m2.length := by rw [hLen2, hLen1]; exact hb
      exact (hg3 b hb2).trans ((hG2 b).trans (hG1 b))
    · rw [hgrid]
      exact hcmp
    · rw [hgrid]
      rfl

theorem cell_moves_dir (g : Grid) (i j : Fin 4) (m : Action) (h : m ∈ cell_moves g i j) :
    m.direction.isSome = true := by
  unfold cell_moves at h
  simp only [List.mem_append] at h
  rcases h with ((h | h) | h) | h <;> split at h <;> simp [make_action] at h <;> simp [h]

theorem foldr_append_mem {α β : Type} (f : α → List β) (m : β) :
    ∀ cs : List α, m ∈ cs.foldr (fun c acc => f c ++ acc) [] → ∃ c ∈ cs, m ∈ f c
  | [], h => by simp at h
  | c :: cs, h => by
    simp only [List.foldr_cons, List.mem_append] at h
    rcases h with h | h
    · exact ⟨c, List.mem_cons_self _ _, h⟩
    · obtain ⟨c2, hc2, hm⟩ := foldr_append_mem f m cs h
      exact ⟨c2, List.mem_cons_of_mem _ hc2, hm⟩

theorem all_moves_dir (g : Grid) (m : Action) (h : m ∈ all_moves g) :
    m.direction.isSome = true := by
  have h2 : m ∈ cells.foldr
      (fun c acc => (fun c : Fin 4 × Fin 4 => cell_moves g c.1 c.2) c ++ acc) [] := h
  have h3 := foldr_append_mem (fun c : Fin 4 × Fin 4 => cell_moves g c.1 c.2) m cells h2
  obtain ⟨c, -, hm⟩ := h3
  exact cell_moves_dir g c.1 c.2 m hm

theorem expand_loop_complete (bd : Board) (n : Nat) : ∀ (l : List Action) (out : List Board),
    expand_loop bd (l ++ List.replicate n null_action) = some out →
    (∀ m ∈ l, m.direction.isSome = true) → ∀ m ∈ l, ∀ r, result m bd = some r → r ∈ out
  | [], _, _, _, m, hm, _, _ => by simp at hm
  | a :: l, out, h, hd, m, hm, r, hr => by
    have hda := hd a (List.mem_cons_self _ _)
    simp only [List.cons_append, expand_loop] at h
    cases hdir : a.direction with
    | none => rw [hdir] at hda; simp at hda
    | some d =>
      rw [hdir] at h
      simp only [bind, Option.bind_eq_some, pure, Option.some.injEq] at h
      obtain ⟨tmp, h1, more, h2, h3⟩ := h
      subst h3
      rcases List.mem_cons.mp hm with rfl | hm
      · rw [hr] at h1
        cases h1
        exact List.mem_cons_self _ _
      · exact List.mem_cons_of_mem _
          (expand_loop_complete bd n l more h2 (fun x hx => hd x (List.mem_cons_of_mem _ hx))
            m hm r hr)

theorem expand_complete (bd : Board) (out : List Board) (h : expand bd = some out)
    (acts : List Action) (hp : possible_actions bd = some acts) (m : Action)
    (hm : m ∈ moves_of acts) (r : Board) (hr : result m bd = some r) : r ∈ out := by
  unfold expand at h
  rw [hp] at h
  simp only [bind, Option.some_bind] at h
  rw [possible_actions_eq] at hp
  split at hp
  · rename_i hlen
    simp only [Option.some.injEq] at hp
    subst hp
    have htake : (all_moves bd.board ++
        List.replicate (4 - (all_moves bd.board).length) null_action).take 4 =
        all_moves bd.board ++ List.replicate (4 - (all_moves bd.board).length) null_action := by
      apply List.take_of_length_le
      simp only [List.length_append, List.length_replicate]
      omega
    rw [htake] at h
    rw [moves_of_pad _ _ (all_moves_dir bd.board)] at hm
    exact expand_loop_complete bd _ _ out h (all_moves_dir bd.board) m hm r hr
  · cases hp

theorem apply_one (m : Action) (b r : Board) (h : apply_moves [m] b = some r) :
    ∃ acts, possible_actions b = some acts ∧ m ∈ moves_of acts ∧ result m b = some r := by
  unfold apply_moves at h
  cases hp : possible_actions b with
  | none => rw [hp] at h; simp at h
  | some acts =>
    rw [hp] at h
    simp only [Option.some_bind] at h
    by_cases hmem : m ∈ moves_of acts
    · rw [if_pos hmem] at h
      cases hr : result m b with
      | none => rw [hr] at h; simp at h
      | some r1 =>
        rw [hr] at h
        simp only [Option.some_bind, apply_moves, Option.some.injEq] at h
        subst h
        exact ⟨acts, rfl, hmem, rfl⟩
    · rw [if_neg hmem] at h; simp at h

theorem apply_one_of (m : Action) (b r : Board) (acts : List Action)
    (hp : possible_actions b = some acts) (hm : m ∈ moves_of acts) (hr : result m b = some r) :
    apply_moves [m] b = some r := by
  unfold apply_moves
  rw [hp]
  simp only [Option.some_bind]
  rw [if_pos hm, hr]
  rfl

theorem apply_cons (m : Action) (ms : List Action) (b r : Board)
    (h : apply_moves (m :: ms) b = some r) :
    ∃ r1, apply_moves [m] b = some r1 ∧ apply_moves ms r1 = some r := by
  have e := apply_moves_append [m] ms b
  simp only [List.singleton_append] at e
  rw [e] at h
  cases h1 : apply_moves [m] b with
  | none => rw [h1] at h; simp at h
  | some r1 =>
    rw [h1] at h
    exact ⟨r1, rfl, h⟩

theorem apply_one_congr (m : Action) (b1 b2 r1 : Board) (hb : b1.board = b2.board)
    (h : apply_moves [m] b1 = some r1) :
    ∃ r2, apply_moves [m] b2 = some r2 ∧ r2.board = r1.board := by
  obtain ⟨acts, hp, hm, hr⟩ := apply_one m b1 r1 h
  obtain ⟨r2, hr2, hb2⟩ := result_congr m b1 b2 r1 hb hr
  rw [possible_actions_congr b1 b2 hb] at hp
  exact ⟨r2, apply_one_of m b2 r2 acts hp hm hr2, hb2⟩

theorem explored_closed (start goal : Board) (mem : Mem) (lc : List Nat)
    (hE : Explored start goal mem [] lc) : ∀ (ms : List Action) (b r : Board),
    (∃ a ∈ lc, grid_at mem a = b.board) → apply_moves ms b = some r →
    ∃ a ∈ lc, grid_at mem a = r.board
  | [], b, r, ha, h => by
    simp only [apply_moves, Option.some.injEq] at h
    subst h
    exact ha
  | m :: ms, b, r, ha, h => by
    obtain ⟨r1, h1, h2⟩ := apply_cons m ms b r h
    obtain ⟨a, ha1, ha2⟩ := ha
    obtain ⟨r2, hr2, hb2⟩ := apply_one_congr m b (grid_board (grid_at mem a)) r1
      (by rw [ha2]; rfl) h1
    obtain ⟨c, hc1, hc2⟩ := hE.succ_in a ha1 m r2 hr2
    simp only [List.nil_append] at hc1
    exact explored_closed start goal mem lc hE ms r1 r ⟨c, hc1, hc2.trans hb2⟩ h2

theorem explored_unreachable (start goal : Board) (mem : Mem) (lc : List Nat)
    (hE : Explored start goal mem [] lc) : ¬ Reachable start goal.board := by
  rintro ⟨ms, r, h1, h2⟩
  obtain ⟨a0, ha0, hg0⟩ := hE.start_in
  simp only [List.nil_append] at ha0
  obtain ⟨a, ha1, ha2⟩ := explored_closed start goal mem lc hE ms start r ⟨a0, ha0, hg0⟩ h1
  apply hE.no_goal a ha1
  rw [ha2]
  exact h2

theorem iteration_explored (start goal : Board) (s s2 : State) (lo lc : List Nat)
    (hL : Layout s lo lc) (hE : Explored start goal s.mem lo lc) (hne : lo ≠ [])
    (h : iteration goal s = Except.ok (Sum.inl s2)) :
    ∃ lo2 lc2, Layout s2 lo2 lc2 ∧ Explored start goal s2.mem lo2 lc2 := by
  obtain ⟨a, lo2, bd, out, ha, hL2, hsub, hlen, hg, hcmp, hbd, hexp, hall⟩ :=
    iteration_layout goal s s2 lo lc hL hne h
  have hlo := linked_lt s.mem lo hL.ho.2.2.1
  have hlc := linked_lt s.mem lc hL.hc.2.2.1
  have hmove : ∀ x ∈ lo ++ lc, x ∈ lo2 ++ (lc ++ [a]) ∧ grid_at s2.mem x = grid_at s.mem x := by
    intro x hx
    rcases List.mem_append.mp hx with hm | hm
    · refine ⟨?_, hg x (hlo x hm)⟩
      by_cases hxa : x = a
      · subst hxa; simp
      · exact List.mem_append_left _ (hsub x hm hxa)
    · exact ⟨by simp [hm], hg x (hlc x hm)⟩
  refine ⟨lo2, lc ++ [a], hL2, ?_, ?_, ?_⟩
  · obtain ⟨x, hx1, hx2⟩ := hE.start_in
    exact ⟨x, (hmove x hx1).1, (hmove x hx1).2.trans hx2⟩
  · intro b hb m r hr
    rcases List.mem_append.mp hb with hm | hm
    · rw [hg b (hlc b hm)] at hr
      obtain ⟨c, hc1, hc2⟩ := hE.succ_in b hm m r hr
      exact ⟨c, (hmove c hc1).1, (hmove c hc1).2.trans hc2⟩
    · rw [List.mem_singleton] at hm
      subst hm
      rw [hg b (hlo b ha)] at hr
      obtain ⟨r2, hr2, hb2⟩ := apply_one_congr m (grid_board (grid_at s.mem b)) bd r
        (by rw [hbd]; rfl) hr
      obtain ⟨acts, hp, hmm, hres⟩ := apply_one m bd r2 hr2
      have := expand_complete bd out hexp acts hp m hmm r2 hres
      obtain ⟨x, hx1, hx2⟩ := hall r2 this
      exact ⟨x, hx1, hx2.trans hb2⟩
  · intro b hb
    rcases List.mem_append.mp hb with hm | hm
    · rw [hg b (hlc b hm)]
      exact hE.no_goal b hm
    · rw [List.mem_singleton] at hm
      subst hm
      rw [hg b (hlo b ha)]
      exact hcmp

theorem iteration_inr (goal : Board) (s : State) (o : Outcome)
    (h : iteration goal s = Except.ok (Sum.inr o)) : ∃ b, o = Outcome.found s.iters b := by
  unfold iteration at h
  simp only [bind_ok_iff] at h
  obtain ⟨remove, -, nd, -, ⟨m1, cl⟩, -, ⟨m2, ol⟩, -, out, -, h⟩ := h
  split at h
  · simp only [pure_ok_iff, Sum.inr.injEq] at h
    exact ⟨_, h.symm⟩
  · simp only [bind_ok_iff, pure_ok_iff] at h
    obtain ⟨s3, -, h7⟩ := h
    cases h7

theorem layout_empty (s : State) (lo lc : List Nat) (hL : Layout s lo lc)
    (h : s.open_list.size = 0) : lo = [] := by
  have := hL.so
  rw [h] at this
  have h2 : lo.length = 0 := by exact_mod_cast this.symm
  exact List.length_eq_zero.mp h2

theorem search_loop_explored (start goal : Board) : ∀ (n : Nat) (s : State) (lo lc : List Nat)
    (it : Int), Layout s lo lc → Explored start goal s.mem lo lc →
    search_loop goal n s = Except.ok (some (Outcome.not_found it)) →
    ¬ Reachable start goal.board
  | 0, s, lo, lc, it, hL, hE, h => by
    unfold search_loop at h
    split at h
    · simp only [pure_ok_iff] at h
      cases h
    · rename_i hsz
      have hlo := layout_empty s lo lc hL (by simpa using hsz)
      subst hlo
      exact explored_unreachable start goal s.mem lc hE
  | n + 1, s, lo, lc, it, hL, hE, h => by
    unfold search_loop at h
    split at h
    · rename_i hsz
      have hne : lo ≠ [] := by
        intro e
        subst e
        apply hsz
        have := hL.so
        simpa using this
      simp only [bind_ok_iff] at h
      obtain ⟨r, hr, h⟩ := h
      cases r with
      | inl s2 =>
        obtain ⟨lo2, lc2, hL2, hE2⟩ := iteration_explored start goal s s2 lo lc hL hE hne hr
        exact search_loop_explored start goal n s2 lo2 lc2 it hL2 hE2 h
      | inr o =>
        obtain ⟨b, hb⟩ := iteration_inr goal s o hr
        subst hb
        simp only [pure_ok_iff, Option.some.injEq] at h
        cases h
    · rename_i hsz
      have hlo := layout_empty s lo lc hL (by simpa using hsz)
      subst hlo
      exact explored_unreachable start goal s.mem lc hE

/-- C2: whenever the sequential `a_star_search` returns with the open list
exhausted (return value -1), whatever the start and goal boards and the number
of iterations it took, the goal grid is not reached from the start board by
any sequence of legal moves; so if the goal is reachable the search does not
end in that way. -/
theorem exhausted_only_if_unreachable (start goal : Board) (n : Nat) (it : Int)
    (h : a_star_search start goal n = Except.ok (some (Outcome.not_found it))) :
    (Outcome.not_found it).code = -1 ∧ ¬ Reachable start goal.board := by
  refine ⟨rfl, ?_⟩
  unfold a_star_search at h
  rw [init_state_ok] at h
  simp only [bind_ok_iff] at h
  obtain ⟨s, hs, h⟩ := h
  simp only [Except.ok.injEq] at hs
  subst hs
  split at h
  · simp only [pure_ok_iff, Option.some.injEq] at h
    cases h
  · refine search_loop_explored start goal n _ [0] [] it ?_ ?_ h
    · refine ⟨⟨rfl, rfl, ?_, by simp⟩, rfl, ⟨rfl, rfl, trivial, List.nodup_nil⟩, rfl, ?_, ?_⟩
      · show 0 < 1
        decide
      · intro a _ hm
        simp at hm
      · intro t ht
        simp only [List.getLast?_singleton, Option.some.injEq] at ht
        subst ht
        left
        rfl
    · refine ⟨⟨0, by simp, rfl⟩, ?_, ?_⟩
      · intro a ha
        simp at ha
      · intro a ha
        simp at ha

set_option maxRecDepth 1000000 in
theorem corner_run : exhausted (a_star_search cornerBoard GOAL 16) = some 16 := by
  decide

theorem exhausted_eq (r : Except Fail (Option Outcome)) (it : Int) (h : exhausted r = some it) :
    r = Except.ok (some (Outcome.not_found it)) := by
  cases r with
  | error e => simp [exhausted] at h
  | ok o =>
    cases o with
    | none => simp [exhausted] at h
    | some oc =>
      cases oc with
      | initial => simp [exhausted] at h
      | found it2 b => simp [exhausted] at h
      | not_found it2 =>
        simp only [exhausted, Option.some.injEq] at h
        rw [h]

theorem exhausted_only_if_unreachable_witness :
    OneBlank cornerBoard.board ∧ OneBlank GOAL.board ∧
    a_star_search cornerBoard GOAL 16 = Except.ok (some (Outcome.not_found 16)) ∧
    (Outcome.not_found 16).code = -1 ∧ ¬ Reachable cornerBoard GOAL.board :=
  ⟨by decide, by decide, exhausted_eq _ 16 corner_run,
   exhausted_only_if_unreachable cornerBoard GOAL 16 16 (exhausted_eq _ 16 corner_run)⟩

theorem isPerm_cell (g : Grid) (h : IsPerm g) (i j : Fin 4) : ∃ v : Fin 16, g i j = (v.val : Int) := by
  choose f hf using h
  have hinj : Function.Injective f := by
    intro v w hvw
    have h1 := (hf v).1
    have h2 := (hf w).1
    rw [hvw, h2] at h1
    apply Fin.ext
    exact_mod_cast h1.symm
  have hbij : Function.Bijective f := by
    rw [Fintype.bijective_iff_injective_and_card]
    exact ⟨hinj, by simp⟩
  obtain ⟨v, hv⟩ := hbij.2 (i, j)
  refine ⟨v, ?_⟩
  have := (hf v).1
  rw [hv] at this
  exact this

theorem tile_distance_le (i j : Fin 4) (v : Fin 16) : tile_distance i j (v.val : Int) ≤ 6 := by
  revert i j v
  decide

theorem tile_distance_zero_iff (i j : Fin 4) (v : Fin 16) (hv : v.val ≠ 0)
    (h : tile_distance i j (v.val : Int) = 0) : (v.val : Int) = 4 * (i.val : Int) + (j.val : Int) := by
  revert i j v
  decide

theorem isPerm_sum_le (g : Grid) (h : IsPerm g) : manhattan_sum g ≤ 96 := by
  unfold manhattan_sum
  have : ∀ i j : Fin 4, tile_distance i j (g i j) ≤ 6 := by
    intro i j
    obtain ⟨v, hv⟩ := isPerm_cell g h i j
    rw [hv]
    exact tile_distance_le i j v
  calc ∑ i : Fin 4, ∑ j : Fin 4, tile_distance i j (g i j)
      ≤ ∑ _i : Fin 4, ∑ _j : Fin 4, (6 : Int) :=
        Finset.sum_le_sum (fun i _ => Finset.sum_le_sum (fun j _ => this i j))
    _ = 96 := by simp

theorem zero_sum_is_goal (g : Grid) (hp : IsPerm g) (h0 : manhattan_sum g = 0) :
    g = GOAL.board := by
  have hcell : ∀ i j : Fin 4, tile_distance i j (g i j) = 0 := by
    intro i j
    unfold manhattan_sum at h0
    have h1 := (Finset.sum_eq_zero_iff_of_nonneg
      (fun i _ => Finset.sum_nonneg (fun j _ => tile_distance_nonneg i j (g i j)))).mp h0
      i (Finset.mem_univ _)
    exact (Finset.sum_eq_zero_iff_of_nonneg
      (fun j _ => tile_distance_nonneg i j (g i j))).mp h1 j (Finset.mem_univ _)
  have hval : ∀ i j : Fin 4, g i j = 0 ∨ g i j = 4 * (i.val : Int) + (j.val : Int) := by
    intro i j
    obtain ⟨v, hv⟩ := isPerm_cell g hp i j
    by_cases hz : v.val = 0
    · left; rw [hv, hz]; rfl
    · right
      have := hcell i j
      rw [hv] at this ⊢
      exact tile_distance_zero_iff i j v hz this
  have h00 : g 0 0 = 0 := by
    rcases hval 0 0 with h | h
    · exact h
    · simpa using h
  obtain ⟨p, -, hu⟩ := hp 0
  have hp00 : ((0 : Fin 4), (0 : Fin 4)) = p := hu (0, 0) (by simpa using h00)
  funext i j
  show g i j = 4 * (i.val : Int) + (j.val : Int)
  rcases hval i j with h | h
  · have := hu (i, j) (by simpa using h)
    rw [← hp00] at this
    simp only [Prod.mk.injEq] at this
    rw [this.1, this.2, h00]
    rfl
  · exact h

/-- C30: for every board whose cells are a permutation of `0..15`, a score
`manhattan_distance = 0` implies that the board is cell by cell the goal board
(`compare_boards` with `GOAL` returns 0); so two such boards of score 0 are
equal cell by cell, and a list in which no two nodes have equal grids and all
grids are permutations holds at most one node whose board has score 0. -/
theorem zero_score_is_goal (b : Board) (hp : IsPerm b.board) (h0 : manhattan_distance b = 0) :
    compare_boards b.board GOAL.board = 0 ∧
    (∀ b2 : Board, IsPerm b2.board → manhattan_distance b2 = 0 →
      compare_boards b.board b2.board = 0) ∧
    (∀ (mem : Mem) (l : List Nat),
      (l.Pairwise fun x y => compare_boards (grid_at mem x) (grid_at mem y) ≠ 0) →
      (∀ a ∈ l, IsPerm (grid_at mem a)) →
      (l.filter fun a => decide (manhattan_distance (grid_board (grid_at mem a)) = 0)).length
        ≤ 1) := by
  have key : ∀ c : Board, IsPerm c.board → manhattan_distance c = 0 → c.board = GOAL.board := by
    intro c hc h
    have hle := isPerm_sum_le c.board hc
    have hex := manhattan_distance_exact c (le_trans hle (by decide))
    rw [hex] at h
    exact zero_sum_is_goal c.board hc h
  refine ⟨(compare_boards_eq _ _).mpr (key b hp h0), ?_, ?_⟩
  · intro b2 hp2 h2
    rw [compare_boards_eq, key b hp h0, key b2 hp2 h2]
  · intro mem l hpw hperm
    have hpw2 := hpw.sublist (List.filter_sublist (l := l)
      (p := fun a => decide (manhattan_distance (grid_board (grid_at mem a)) = 0)))
    generalize hf : (l.filter fun a =>
      decide (manhattan_distance (grid_board (grid_at mem a)) = 0)) = fl at hpw2
    have hmem : ∀ a ∈ fl, grid_at mem a = GOAL.board := by
      intro a ha
      rw [← hf, List.mem_filter] at ha
      exact key (grid_board (grid_at mem a)) (hperm a ha.1) (of_decide_eq_true ha.2)
    match fl, hpw2, hmem with
    | [], _, _ => simp
    | [_], _, _ => simp
    | x :: y :: r, hpw3, hm =>
      exfalso
      have h1 := hm x (by simp)
      have h2 := hm y (by simp)
      have := (List.pairwise_cons.mp hpw3).1 y (by simp)
      apply this
      rw [h1, h2]
      exact (compare_boards_eq _ _).mpr rfl

theorem zero_score_is_goal_witness :
    IsPerm GOAL.board ∧ manhattan_distance GOAL = 0 ∧
    compare_boards GOAL.board GOAL.board = 0 ∧
    (∀ b2 : Board, IsPerm b2.board → manhattan_distance b2 = 0 →
      compare_boards GOAL.board b2.board = 0) ∧
    (∀ (mem : Mem) (l : List Nat),
      (l.Pairwise fun x y => compare_boards (grid_at mem x) (grid_at mem y) ≠ 0) →
      (∀ a ∈ l, IsPerm (grid_at mem a)) →
      (l.filter fun a => decide (manhattan_distance (grid_board (grid_at mem a)) = 0)).length
        ≤ 1) :=
  ⟨by unfold IsPerm; decide, by decide,
   zero_score_is_goal GOAL (by unfold IsPerm; decide) (by decide)⟩

theorem loop_state_link (goal : Board) : ∀ (n : Nat) (s s2 : State),
    loop_state goal n s = Except.ok (some s2) →
    ∀ m, search_loop goal (n + m) s = search_loop goal m s2
  | 0, s, s2, h, m => by
    simp only [loop_state, pure_ok_iff, Option.some.injEq] at h
    subst h
    simp
  | n + 1, s, s2, h, m => by
    unfold loop_state at h
    split at h
    · rename_i hsz
      simp only [bind_ok_iff] at h
      obtain ⟨r, hr, h⟩ := h
      cases r with
      | inl s1 =>
        have ih := loop_state_link goal n s1 s2 h m
        rw [show n + 1 + m = (n + m) + 1 by omega]
        conv_lhs => unfold search_loop
        rw [if_pos hsz, hr]
        exact ih
      | inr o =>
        simp only [pure_ok_iff] at h
        cases h
    · simp only [pure_ok_iff] at h
      cases h

theorem state_at_link (start goal : Board) (n : Nat) (s : State)
    (h : state_at start goal n = Except.ok (some s)) :
    ∀ m, a_star_search start goal (n + m) = search_loop goal m s := by
  intro m
  unfold state_at at h
  unfold a_star_search
  rw [init_state_ok] at h ⊢
  simp only [bind_ok_iff] at h
  obtain ⟨s0, hs0, h⟩ := h
  simp only [Except.ok.injEq] at hs0
  subst hs0
  split at h
  · simp only [pure_ok_iff] at h
    cases h
  · rename_i hc
    show (if compare_boards start.board goal.board = 0 then _ else _) = _
    rw [if_neg hc]
    exact loop_state_link goal n _ s h m

theorem par_loop_state_link (goal : Board) (rank nprocs : Int) :
    ∀ (fs : List Int) (s s2 : PState),
    par_loop_state goal rank nprocs fs s = Except.ok (some s2) →
    ∀ gs, par_search_loop goal rank nprocs (fs ++ gs) s = par_search_loop goal rank nprocs gs s2
  | [], s, s2, h, gs => by
    simp only [par_loop_state, pure_ok_iff, Option.some.injEq] at h
    subst h
    simp
  | f :: fs, s, s2, h, gs => by
    unfold par_loop_state at h
    split at h
    · rename_i hsz
      simp only [bind_ok_iff] at h
      obtain ⟨⟨s1, rc⟩, hr, h⟩ := h
      cases rc with
      | some c =>
        simp only [pure_ok_iff] at h
        cases h
      | none =>
        have ih := par_loop_state_link goal rank nprocs fs s1 s2 h gs
        simp only [List.cons_append]
        conv_lhs => unfold par_search_loop
        rw [if_pos hsz, hr]
        exact ih
    · simp only [pure_ok_iff] at h
      cases h

theorem loop_state_inv (goal : Board) (I : State → Prop)
    (hstep : ∀ s s2, I s → s.open_list.size ≠ 0 →
      iteration goal s = Except.ok (Sum.inl s2) → I s2) :
    ∀ (n : Nat) (s s2 : State), I s → loop_state goal n s = Except.ok (some s2) → I s2
  | 0, s, s2, hi, h => by
    simp only [loop_state, pure_ok_iff, Option.some.injEq] at h
    subst h
    exact hi
  | n + 1, s, s2, hi, h => by
    unfold loop_state at h
    split at h
    · rename_i hsz
      simp only [bind_ok_iff] at h
      obtain ⟨r, hr, h⟩ := h
      cases r with
      | inl s1 => exact loop_state_inv goal I hstep n s1 s2 (hstep s s1 hi hsz hr) h
      | inr o =>
        simp only [pure_ok_iff] at h
        cases h
    · simp only [pure_ok_iff] at h
      cases h

theorem par_loop_state_inv (goal : Board) (rank nprocs : Int) (K : Nat) (J : Nat → PState → Prop)
    (hstep : ∀ k f s s2, k < K → J k s → s.open_list.size ≠ 0 →
      par_iteration goal rank nprocs f s = Except.ok (s2, none) → J (k + 1) s2) :
    ∀ (fs : List Int) (k : Nat) (s s2 : PState), k + fs.length ≤ K → J k s →
      par_loop_state goal rank nprocs fs s = Except.ok (some s2) → J (k + fs.length) s2
  | [], k, s, s2, _, hi, h => by
    simp only [par_loop_state, pure_ok_iff, Option.some.injEq] at h
    subst h
    exact hi
  | f :: fs, k, s, s2, hk, hi, h => by
    unfold par_loop_state at h
    split at h
    · rename_i hsz
      simp only [bind_ok_iff] at h
      obtain ⟨⟨s1, rc⟩, hr, h⟩ := h
      cases rc with
      | some c =>
        simp only [pure_ok_iff] at h
        cases h
      | none =>
        simp only [List.length_cons] at hk ⊢
        have := par_loop_state_inv goal rank nprocs K J hstep fs (k + 1) s1 s2 (by omega)
          (hstep k f s s1 (by omega) hi hsz hr) h
        rw [show k + (fs.length + 1) = k + 1 + fs.length by omega]
        exact this
    · simp only [pure_ok_iff] at h
      cases h

theorem md_congr (b1 b2 : Board) (h : b1.board = b2.board) :
    manhattan_distance b1 = manhattan_distance b2 := by
  unfold manhattan_distance
  rw [h]

theorem board_at_eq (mem : Mem) (a : Nat) (nd : Node) (h : mem.get? a = some nd) :
    board_at mem a = some nd.board := by
  simp only [board_at, h, Option.map_some']

theorem board_at_some (mem : Mem) (a : Nat) (b : Board) (h : board_at mem a = some b) :
    ∃ nd, mem.get? a = some nd ∧ nd.board = b := by
  unfold board_at at h
  cases hq : mem.get? a with
  | none => rw [hq] at h; cases h
  | some nd =>
    rw [hq] at h
    simp only [Option.map_some', Option.some.injEq] at h
    exact ⟨nd, rfl, h⟩

theorem set_next_board (mem mem2 : Mem) (p nx : Option Nat)
    (h : set_next mem p nx = Except.ok mem2) :
    mem2.length = mem.length ∧ ∀ a, board_at mem2 a = board_at mem a := by
  obtain ⟨t, nd, -, hnd, rfl⟩ := set_next_ok mem mem2 p nx h
  have hlt : t < mem.length := by
    by_contra hc
    rw [List.get?_eq_none.mpr (by omega)] at hnd
    cases hnd
  refine ⟨List.length_set _ _ _, ?_⟩
  intro a
  by_cases ha : a = t
  · subst ha
    rw [board_at_eq _ a _ (get_set_eq mem a _ hlt), board_at_eq mem a nd hnd]
  · unfold board_at
    rw [get_set_ne mem t a _ ha]

theorem push_board (mem mem2 : Mem) (ll ll2 : LinkedList) (node : Option Nat)
    (h : push mem ll node = Except.ok (mem2, ll2)) :
    mem2.length = mem.length ∧ (∀ a, board_at mem2 a = board_at mem a) ∧
      ll2.size = ll.size + 1 := by
  unfold push at h
  split at h
  · simp only [pure_ok_iff, Prod.mk.injEq] at h
    obtain ⟨rfl, rfl⟩ := h
    exact ⟨rfl, fun _ => rfl, rfl⟩
  · split at h
    · simp only [bind_ok_iff, pure_ok_iff, Prod.mk.injEq] at h
      obtain ⟨m, h1, rfl, rfl⟩ := h
      exact ⟨(set_next_board mem m _ _ h1).1, (set_next_board mem m _ _ h1).2, rfl⟩
    · simp only [bind_ok_iff, pure_ok_iff, Prod.mk.injEq] at h
      obtain ⟨m, h1, rfl, rfl⟩ := h
      exact ⟨(set_next_board mem m _ _ h1).1, (set_next_board mem m _ _ h1).2, rfl⟩

theorem remove_node_body_board (mem mem2 : Mem) (ll ll2 : LinkedList) (node : Option Nat)
    (h : remove_node_body mem ll node = Except.ok (mem2, ll2)) :
    mem2.length = mem.length ∧ (∀ a, board_at mem2 a = board_at mem a) ∧
      ll2.size = ll.size - 1 := by
  unfold remove_node_body at h
  split at h
  · simp only [pure_ok_iff, Prod.mk.injEq] at h
    obtain ⟨rfl, rfl⟩ := h
    exact ⟨rfl, fun _ => rfl, rfl⟩
  · split at h
    · split at h <;>
      · simp only [pure_ok_iff, Prod.mk.injEq] at h
        obtain ⟨rfl, rfl⟩ := h
        exact ⟨rfl, fun _ => rfl, rfl⟩
    · split at h
      · simp only [bind_ok_iff, pure_ok_iff, Prod.mk.injEq] at h
        obtain ⟨_, _, rfl, rfl⟩ := h
        exact ⟨rfl, fun _ => rfl, rfl⟩
      · split at h
        · simp only [bind_ok_iff, pure_ok_iff, Prod.mk.injEq] at h
          obtain ⟨_, _, rfl, rfl⟩ := h
          exact ⟨rfl, fun _ => rfl, rfl⟩
        · simp only [bind_ok_iff, pure_ok_iff, Prod.mk.injEq] at h
          obtain ⟨prev, _, p, _, q, _, m, h1, rfl, rfl⟩ := h
          exact ⟨(set_next_board mem m _ _ h1).1, (set_next_board mem m _ _ h1).2, rfl⟩

theorem remove_node_board (mem mem2 : Mem) (ll ll2 : LinkedList) (node : Option Nat)
    (h : remove_node mem ll node = Except.ok (mem2, ll2)) :
    mem2.length = mem.length ∧ ∀ a, board_at mem2 a = board_at mem a := by
  unfold remove_node at h
  split at h
  · have := remove_node_body_board mem mem2 ll ll2 node h
    exact ⟨this.1, this.2.1⟩
  · simp only [pure_ok_iff, Prod.mk.injEq] at h
    obtain ⟨rfl, rfl⟩ := h
    exact ⟨rfl, fun _ => rfl⟩

theorem allScored_of_board (mem mem2 : Mem) (hlen : mem2.length = mem.length)
    (hb : ∀ a, board_at mem2 a = board_at mem a) (h : AllScored mem) : AllScored mem2 := by
  intro nd hnd
  obtain ⟨a, ha⟩ := List.get?_of_mem hnd
  have h1 := hb a
  rw [board_at_eq mem2 a nd ha] at h1
  obtain ⟨nd0, hnd0, hbd⟩ := board_at_some mem a _ h1.symm
  rw [← hbd]
  exact h nd0 (List.get?_mem hnd0)

theorem allScored_append (mem : Mem) (nd : Node) (h : AllScored mem)
    (hn : nd.board.h_score = manhattan_distance nd.board) : AllScored (mem ++ [nd]) := by
  intro x hx
  simp only [List.mem_append, List.mem_singleton] at hx
  rcases hx with h1 | h1
  · exact h x h1
  · subst h1; exact hn

theorem board_at_append (mem : Mem) (nd : Node) (a : Nat) (h : a < mem.length) :
    board_at (mem ++ [nd]) a = board_at mem a := by
  unfold board_at
  rw [get_append_lt mem nd a h]

theorem result_scored (m : Action) (b c : Board) (h : result m b = some c) :
    c.h_score = manhattan_distance c := by
  unfold result at h
  cases hd : m.direction with
  | none => rw [hd] at h; simp at h
  | some dir =>
    rw [hd, Option.some_bind] at h
    cases hg : moved_grid m dir (fun i j => b.board i j) with
    | none => rw [hg] at h; simp at h
    | some g =>
      rw [hg, Option.some_bind, Option.some.injEq] at h
      subst h
      rfl

theorem expand_scored (b : Board) (out : List Board) (h : expand b = some out) :
    ∀ c ∈ out, c.h_score = manhattan_distance c := by
  intro c hc
  obtain ⟨acts, m, -, -, hr⟩ := expand_mem b out h c hc
  exact result_scored m b c hr

theorem not_better_score (mem : Mem) (x : Board) (n : Nat) (p tmp : Option Nat) (t : Node)
    (hs : AllScored mem) (hx : x.h_score = manhattan_distance x)
    (h : find_match mem x.board n p = Except.ok tmp) (ht : rd mem tmp = Except.ok t) :
    ¬ t.board.h_score > x.h_score := by
  have hb := find_match_ok mem x.board n p tmp t h ht
  have := hs t (rd_mem mem tmp t ht)
  rw [this, hx, md_congr t.board x hb]
  exact lt_irrefl _

theorem merge_one_scored (s s2 : State) (c : Board) (h : merge_one s c = Except.ok s2)
    (hs : AllScored s.mem) (hc : c.h_score = manhattan_distance c) :
    AllScored s2.mem ∧ s.mem.length ≤ s2.mem.length ∧
      ∀ a, a < s.mem.length → board_at s2.mem a = board_at s.mem a := by
  have hx : AllScored (s.mem ++ [({ board := copy_board c make_empty_board, next := none } : Node)]) :=
    allScored_append s.mem _ hs hc
  have hfr : ∀ a, a < s.mem.length →
      board_at (s.mem ++ [({ board := copy_board c make_empty_board, next := none } : Node)]) a =
        board_at s.mem a := fun a ha => board_at_append s.mem _ a ha
  have hlen : s.mem.length ≤
      (s.mem ++ [({ board := copy_board c make_empty_board, next := none } : Node)]).length := by simp
  unfold merge_one at h
  simp only [bind_ok_iff] at h
  obtain ⟨r1, -, h⟩ := h
  split at h
  · simp only [pure_ok_iff] at h
    subst h; exact ⟨hx, hlen, hfr⟩
  · simp only [bind_ok_iff] at h
    obtain ⟨r2, -, h⟩ := h
    split at h
    · simp only [bind_ok_iff] at h
      obtain ⟨tmp, h1, t, h2, h⟩ := h
      split at h
      · rename_i hgt
        exact absurd hgt (not_better_score _ (copy_board c make_empty_board) _ _ tmp t hx hc h1 h2)
      · simp only [pure_ok_iff] at h
        subst h; exact ⟨hx, hlen, hfr⟩
    · simp only [bind_ok_iff, pure_ok_iff] at h
      obtain ⟨⟨m, ol⟩, h1, h2⟩ := h
      subst h2
      obtain ⟨e1, e2, -⟩ := push_board _ _ _ _ _ h1
      have e1b : m.length =
          (s.mem ++ [({ board := copy_board c make_empty_board, next := none } : Node)]).length := e1
      refine ⟨allScored_of_board _ m e1 e2 hx, by rw [e1b]; exact hlen, ?_⟩
      intro a ha
      exact (e2 a).trans (hfr a ha)

theorem reached_eq {σ : Type} (r : Except Fail (Option σ)) (s : σ) (h : reached r = some s) :
    r = Except.ok (some s) := by
  cases r with
  | error e => simp [reached] at h
  | ok o =>
    cases o with
    | none => simp [reached] at h
    | some s0 =>
      simp only [reached, Option.some.injEq] at h
      rw [h]

theorem seqState_eq : state_at oneAway GOAL 1 = Except.ok (some seqState) :=
  reached_eq _ _ (Option.some_get _).symm

theorem parState_eq : par_state_at oneAway GOAL 0 2 [0] = Except.ok (some parState) :=
  reached_eq _ _ (Option.some_get _).symm

theorem parAfterHit_eq :
    par_state_at oneAway GOAL 0 2 [0, 0] = Except.ok (some parAfterHit) :=
  reached_eq _ _ (Option.some_get _).symm

theorem set_parent_score_scored (mem mem2 : Mem) (tmp : Option Nat) (par : BoardPtr) (sc : Int)
    (t : Node) (ht : rd mem tmp = Except.ok t)
    (h : set_parent_score mem tmp par sc = Except.ok mem2) (hs : AllScored mem)
    (hsc : sc = manhattan_distance t.board) : AllScored mem2 := by
  unfold set_parent_score at h
  simp only [bind_ok_iff] at h
  obtain ⟨nd, h1, h2⟩ := h
  rw [ht] at h1
  cases h1
  cases tmp with
  | none => simp at h2
  | some a =>
    simp only [pure_ok_iff] at h2
    subst h2
    intro x hx
    rcases List.mem_or_eq_of_mem_set hx with h3 | h3
    · exact hs x h3
    · subst h3
      exact hsc

theorem par_merge_one_scored (s s2 : PState) (c : Board) (h : par_merge_one s c = Except.ok s2)
    (hs : AllScored s.mem) (hc : c.h_score = manhattan_distance c) : AllScored s2.mem := by
  have hx : AllScored
      (s.mem ++ [({ board := copy_board c make_empty_board, next := none } : Node)]) :=
    allScored_append s.mem _ hs hc
  unfold par_merge_one at h
  simp only [bind_ok_iff] at h
  obtain ⟨r1, -, h⟩ := h
  split at h
  · simp only [pure_ok_iff] at h
    subst h; exact hx
  · simp only [bind_ok_iff] at h
    obtain ⟨r2, -, h⟩ := h
    split at h
    · simp only [bind_ok_iff] at h
      obtain ⟨tmp, h1, t, h2, h⟩ := h
      split at h
      · simp only [bind_ok_iff, pure_ok_iff] at h
        obtain ⟨m, h3, h4⟩ := h
        subst h4
        have hb := find_match_ok _ _ _ _ tmp t h1 h2
        refine set_parent_score_scored _ m tmp _ _ t h2 h3 hx ?_
        show c.h_score = _
        rw [hc]
        exact md_congr c t.board hb.symm
      · simp only [pure_ok_iff] at h
        subst h; exact hx
    · simp only [bind_ok_iff, pure_ok_iff] at h
      obtain ⟨⟨m, ol⟩, h1, h2⟩ := h
      subst h2
      obtain ⟨e1, e2, -⟩ := push_board _ _ _ _ _ h1
      exact allScored_of_board _ m e1 e2 hx

theorem rd_scored (mem : Mem) (p : Option Nat) (nd : Node) (h : rd mem p = Except.ok nd)
    (hs : AllScored mem) :
    (copy_board nd.board make_empty_board).h_score =
      manhattan_distance (copy_board nd.board make_empty_board) :=
  hs nd (rd_mem mem p nd h)

theorem iteration_scored (goal : Board) (s s2 : State)
    (h : iteration goal s = Except.ok (Sum.inl s2)) (hs : AllScored s.mem) :
    AllScored s2.mem ∧ ∀ a, a < s.mem.length → board_at s2.mem a = board_at s.mem a := by
  unfold iteration at h
  simp only [bind_ok_iff] at h
  obtain ⟨remove, -, nd, h2, ⟨m1, cl⟩, h3, ⟨m2, ol⟩, h4, out, h5, h⟩ := h
  obtain ⟨e1, e2, -⟩ := push_board _ _ _ _ _ h3
  obtain ⟨e3, e4⟩ := remove_node_board _ _ _ _ _ h4
  have hs2 : AllScored m2 := allScored_of_board m1 m2 e3 e4 (allScored_of_board s.mem m1 e1 e2 hs)
  have hexp := expand_scored _ out ((orFault_ok _ _).mp h5)
  split at h
  · simp only [pure_ok_iff] at h
    cases h
  · simp only [bind_ok_iff, pure_ok_iff, Sum.inl.injEq] at h
    obtain ⟨s3, h6, h7⟩ := h
    subst h7
    have := foldlM_inv merge_one
      (fun st => AllScored st.mem ∧ m2.length ≤ st.mem.length ∧
        ∀ a, a < m2.length → board_at st.mem a = board_at m2 a)
      (fun c => c.h_score = manhattan_distance c)
      (fun st c st2 hm hi hq => by
        obtain ⟨k1, k2, k3⟩ := merge_one_scored st st2 c hm hi.1 hq
        exact ⟨k1, le_trans hi.2.1 k2, fun a ha =>
          (k3 a (lt_of_lt_of_le ha hi.2.1)).trans (hi.2.2 a ha)⟩)
      out _ s3 h6 ⟨hs2, le_refl _, fun _ _ => rfl⟩ hexp
    refine ⟨this.1, ?_⟩
    intro a ha
    have ha2 : a < m2.length := by rw [e3, e1]; exact ha
    exact (this.2.2 a ha2).trans ((e4 a).trans (e2 a))

theorem par_iteration_inv (goal : Board) (rank nprocs flag : Int) (s s2 : PState)
    (rc : Option Int) (h : par_iteration goal rank nprocs flag s = Except.ok (s2, rc)) :
    ∃ remove nd m1 cl m2 ol out own pr,
      extract_min s.mem s.open_list rank nprocs = Except.ok remove ∧
      rd s.mem remove = Except.ok nd ∧
      push s.mem s.closed_list remove = Except.ok (m1, cl) ∧
      remove_node_body m1 s.open_list remove = Except.ok (m2, ol) ∧
      expand (if compare_boards nd.board.board goal.board = 0
        then board_after_print (copy_board nd.board make_empty_board)
        else copy_board nd.board make_empty_board) = some out ∧
      own = (if compare_boards nd.board.board goal.board = 0 then 1 else s.solution_found) ∧
      pr = (if compare_boards nd.board.board goal.board = 0
        then copy_board nd.board make_empty_board :: s.printed else s.printed) ∧
      ((bcast rank own flag = 1 ∧ rc = some 0 ∧
          s2 = { mem := m2, closed_list := cl, open_list := ol, iters := s.iters,
                 solution_found := bcast rank own flag, printed := pr }) ∨
       (bcast rank own flag ≠ 1 ∧ rc = none ∧
          ∃ s3, out.foldlM par_merge_one
              ({ mem := m2, closed_list := cl, open_list := ol, iters := s.iters,
                 solution_found := bcast rank own flag, printed := pr } : PState) =
              Except.ok s3 ∧
            s2 = { s3 with iters := s3.iters + 1 })) := by
  unfold par_iteration at h
  simp only [bind_ok_iff] at h
  obtain ⟨remove, h1, nd, h2, ⟨m1, cl⟩, h3, ⟨m2, ol⟩, h4, out, h5, h⟩ := h
  have fin : ∀ (pr : List Board) (own : Int),
      (if bcast rank own flag = 1 then
        (pure (({ mem := m2, closed_list := cl, open_list := ol, iters := s.iters,
                  solution_found := bcast rank own flag, printed := pr } : PState), some 0)
          : Except Fail (PState × Option Int))
       else do
        let s2 ← List.foldlM par_merge_one
          ({ mem := m2, closed_list := cl, open_list := ol, iters := s.iters,
             solution_found := bcast rank own flag, printed := pr } : PState) out
        pure ({ s2 with iters := s2.iters + 1 }, none)) = Except.ok (s2, rc) →
      ((bcast rank own flag = 1 ∧ rc = some 0 ∧
          s2 = { mem := m2, closed_list := cl, open_list := ol, iters := s.iters,
                 solution_found := bcast rank own flag, printed := pr }) ∨
       (bcast rank own flag ≠ 1 ∧ rc = none ∧
          ∃ s3, out.foldlM par_merge_one
              ({ mem := m2, closed_list := cl, open_list := ol, iters := s.iters,
                 solution_found := bcast rank own flag, printed := pr } : PState) =
              Except.ok s3 ∧
            s2 = { s3 with iters := s3.iters + 1 })) := by
    intro pr own h
    by_cases hf : bcast rank own flag = 1
    · rw [if_pos hf] at h
      simp only [pure_ok_iff, Prod.mk.injEq] at h
      exact Or.inl ⟨hf, h.2.symm, h.1.symm⟩
    · rw [if_neg hf] at h
      simp only [bind_ok_iff, pure_ok_iff, Prod.mk.injEq] at h
      obtain ⟨s3, h6, h7, h8⟩ := h
      exact Or.inr ⟨hf, h8.symm, s3, h6, h7.symm⟩
  have hgrid : (copy_board nd.board make_empty_board).board = nd.board.board := rfl
  by_cases hc : compare_boards (copy_board nd.board make_empty_board).board goal.board = 0
  · simp only [hc, decide_True, if_true] at h h5
    have hc2 : compare_boards nd.board.board goal.board = 0 := hc
    exact ⟨remove, nd, m1, cl, m2, ol, out, 1, copy_board nd.board make_empty_board :: s.printed,
      h1, h2, h3, h4, by rw [if_pos hc2]; exact (orFault_ok _ _).mp h5, by rw [if_pos hc2],
      by rw [if_pos hc2], fin _ _ h⟩
  · simp only [hc, decide_False, if_false] at h h5
    have hc2 : ¬ compare_boards nd.board.board goal.board = 0 := hc
    exact ⟨remove, nd, m1, cl, m2, ol, out, s.solution_found, s.printed,
      h1, h2, h3, h4, by rw [if_neg hc2]; exact (orFault_ok _ _).mp h5, by rw [if_neg hc2],
      by rw [if_neg hc2], fin _ _ h⟩

theorem par_iteration_scored (goal : Board) (rank nprocs flag : Int) (s s2 : PState)
    (rc : Option Int) (h : par_iteration goal rank nprocs flag s = Except.ok (s2, rc))
    (hs : AllScored s.mem) : AllScored s2.mem := by
  obtain ⟨remove, nd, m1, cl, m2, ol, out, own, pr, -, h2, h3, h4, h5, -, -, h⟩ :=
    par_iteration_inv goal rank nprocs flag s s2 rc h
  obtain ⟨e1, e2, -⟩ := push_board _ _ _ _ _ h3
  obtain ⟨e3, e4, -⟩ := remove_node_body_board _ _ _ _ _ h4
  have hs2 : AllScored m2 := allScored_of_board m1 m2 e3 e4 (allScored_of_board s.mem m1 e1 e2 hs)
  have hexp := expand_scored _ out h5
  rcases h with ⟨-, -, rfl⟩ | ⟨-, -, s3, h6, rfl⟩
  · exact hs2
  · exact foldlM_inv par_merge_one (fun st => AllScored st.mem)
      (fun c => c.h_score = manhattan_distance c)
      (fun st c st2 hm hi hq => par_merge_one_scored st st2 c hm hi hq) out _ s3 h6 hs2 hexp

theorem init_scored (start : Board) :
    AllScored [({ board := { start with h_score := manhattan_distance start }, next := none }
      : Node)] := by
  intro nd hnd
  simp only [List.mem_singleton] at hnd
  subst hnd
  rfl

theorem state_at_scored (start goal : Board) (n : Nat) (s : State)
    (h : state_at start goal n = Except.ok (some s)) : AllScored s.mem := by
  unfold state_at at h
  rw [init_state_ok] at h
  simp only [bind_ok_iff] at h
  obtain ⟨s0, hs0, h⟩ := h
  simp only [Except.ok.injEq] at hs0
  subst hs0
  split at h
  · simp only [pure_ok_iff] at h
    cases h
  · exact loop_state_inv goal (fun st => AllScored st.mem)
      (fun st st2 hi _ hit => (iteration_scored goal st st2 hit hi).1) n _ s
      (init_scored start) h

theorem par_state_at_scored (start goal : Board) (rank nprocs : Int) (flags : List Int)
    (s : PState) (h : par_state_at start goal rank nprocs flags = Except.ok (some s)) :
    AllScored s.mem := by
  unfold par_state_at at h
  rw [par_init_state_ok] at h
  simp only [bind_ok_iff] at h
  obtain ⟨s0, hs0, h⟩ := h
  simp only [Except.ok.injEq] at hs0
  subst hs0
  split at h
  · simp only [pure_ok_iff] at h
    cases h
  · exact par_loop_state_inv goal rank nprocs flags.length (fun _ st => AllScored st.mem)
      (fun k f st st2 _ hi _ hit => par_iteration_scored goal rank nprocs f st st2 none hit hi)
      flags 0 _ s (by omega) (init_scored start) h

theorem scored_equal (mem : Mem) (hs : AllScored mem) (a b : Nat) (nd1 nd2 : Node)
    (h1 : mem.get? a = some nd1) (h2 : mem.get? b = some nd2)
    (hc : compare_boards nd1.board.board nd2.board.board = 0) :
    nd1.board.h_score = nd2.board.h_score := by
  rw [hs nd1 (List.get?_mem h1), hs nd2 (List.get?_mem h2)]
  exact md_congr _ _ ((compare_boards_eq _ _).mp hc)

/-- C29: in every state in which the sequential driver tests its loop
condition, and in every state in which a worker of the parallel driver does,
every node in memory (so every node of the open and of the closed list) holds
a board whose `h_score` is the `manhattan_distance` of that board, and two
nodes whose grids `compare_boards` finds equal have the same `h_score`; in
the sequential driver an iteration therefore leaves the board record (grid,
score and parent) of every node as it was: the overwrite guarded by
`tmp->board->h_score > copy->board->h_score` is never executed. -/
theorem cached_score_invariant (start goal : Board) (n : Nat) (s : State)
    (rank nprocs : Int) (flags : List Int) (ps : PState)
    (h : state_at start goal n = Except.ok (some s))
    (hp : par_state_at start goal rank nprocs flags = Except.ok (some ps)) :
    (∀ a nd, s.mem.get? a = some nd → nd.board.h_score = manhattan_distance nd.board) ∧
    (∀ a b nd1 nd2, s.mem.get? a = some nd1 → s.mem.get? b = some nd2 →
      compare_boards nd1.board.board nd2.board.board = 0 →
      nd1.board.h_score = nd2.board.h_score) ∧
    (∀ s2, iteration goal s = Except.ok (Sum.inl s2) →
      ∀ a nd, s.mem.get? a = some nd → ∃ nd2, s2.mem.get? a = some nd2 ∧ nd2.board = nd.board) ∧
    (∀ a nd, ps.mem.get? a = some nd → nd.board.h_score = manhattan_distance nd.board) ∧
    (∀ a b nd1 nd2, ps.mem.get? a = some nd1 → ps.mem.get? b = some nd2 →
      compare_boards nd1.board.board nd2.board.board = 0 →
      nd1.board.h_score = nd2.board.h_score) := by
  have hs := state_at_scored start goal n s h
  have hps := par_state_at_scored start goal rank nprocs flags ps hp
  refine ⟨fun a nd ha => hs nd (List.get?_mem ha), scored_equal s.mem hs, ?_,
    fun a nd ha => hps nd (List.get?_mem ha), scored_equal ps.mem hps⟩
  intro s2 hit a nd ha
  have halt : a < s.mem.length := by
    by_contra hc
    rw [List.get?_eq_none.mpr (by omega)] at ha
    cases ha
  have := (iteration_scored goal s s2 hit hs).2 a halt
  rw [board_at_eq s.mem a nd ha] at this
  exact board_at_some s2.mem a nd.board this

set_option maxRecDepth 100000 in
theorem cached_score_invariant_witness :
    state_at oneAway GOAL 1 = Except.ok (some seqState) ∧
    par_state_at oneAway GOAL 0 2 [0] = Except.ok (some parState) ∧
    ((∀ a nd, seqState.mem.get? a = some nd → nd.board.h_score = manhattan_distance nd.board) ∧
    (∀ a b nd1 nd2, seqState.mem.get? a = some nd1 → seqState.mem.get? b = some nd2 →
      compare_boards nd1.board.board nd2.board.board = 0 →
      nd1.board.h_score = nd2.board.h_score) ∧
    (∀ s2, iteration GOAL seqState = Except.ok (Sum.inl s2) →
      ∀ a nd, seqState.mem.get? a = some nd →
        ∃ nd2, s2.mem.get? a = some nd2 ∧ nd2.board = nd.board) ∧
    (∀ a nd, parState.mem.get? a = some nd → nd.board.h_score = manhattan_distance nd.board) ∧
    (∀ a b nd1 nd2, parState.mem.get? a = some nd1 → parState.mem.get? b = some nd2 →
      compare_boards nd1.board.board nd2.board.board = 0 →
      nd1.board.h_score = nd2.board.h_score)) ∧
    par_state_at oneAway GOAL 0 2 [0, 0] = Except.ok (some parAfterHit) ∧
    parAfterHit.printed.length = 1 ∧ parAfterHit.mem.length = 7 ∧
    (∀ a nd, parAfterHit.mem.get? a = some nd →
      nd.board.h_score = manhattan_distance nd.board) :=
  ⟨seqState_eq, parState_eq,
   cached_score_invariant oneAway GOAL 1 seqState 0 2 [0] parState seqState_eq parState_eq,
   parAfterHit_eq, by decide, by decide,
   (cached_score_invariant oneAway GOAL 1 seqState 0 2 [0, 0] parAfterHit seqState_eq
     parAfterHit_eq).2.2.2.1⟩

theorem toOption_eq {α : Type} (r : Except Fail α) (a : α) (h : r.toOption = some a) :
    r = Except.ok a := by
  cases r with
  | error e => simp [Except.toOption] at h
  | ok b =>
    simp only [Except.toOption, Option.some.injEq] at h
    rw [h]

set_option maxRecDepth 100000 in
theorem parNext_eq : par_iteration GOAL 0 2 0 parState = Except.ok (parNext.1, parNext.2) := by
  have h : par_iteration GOAL 0 2 0 parState = Except.ok parNext :=
    toOption_eq _ parNext (Option.some_get _).symm
  exact h

theorem par_merge_one_fields (s s2 : PState) (c : Board)
    (h : par_merge_one s c = Except.ok s2) :
    s2.closed_list = s.closed_list ∧ s2.iters = s.iters ∧
      s2.solution_found = s.solution_found ∧ s2.printed = s.printed := by
  unfold par_merge_one at h
  simp only [bind_ok_iff] at h
  obtain ⟨r1, -, h⟩ := h
  split at h
  · simp only [pure_ok_iff] at h
    subst h; exact ⟨rfl, rfl, rfl, rfl⟩
  · simp only [bind_ok_iff] at h
    obtain ⟨r2, -, h⟩ := h
    split at h
    · simp only [bind_ok_iff] at h
      obtain ⟨tmp, -, t, -, h⟩ := h
      split at h
      · simp only [bind_ok_iff, pure_ok_iff] at h
        obtain ⟨m, -, h4⟩ := h
        subst h4; exact ⟨rfl, rfl, rfl, rfl⟩
      · simp only [pure_ok_iff] at h
        subst h; exact ⟨rfl, rfl, rfl, rfl⟩
    · simp only [bind_ok_iff, pure_ok_iff] at h
      obtain ⟨⟨m, ol⟩, -, h4⟩ := h
      subst h4; exact ⟨rfl, rfl, rfl, rfl⟩

theorem par_fold_fields (cs : List Board) (s s3 : PState)
    (h : cs.foldlM par_merge_one s = Except.ok s3) :
    s3.closed_list = s.closed_list ∧ s3.iters = s.iters ∧
      s3.solution_found = s.solution_found ∧ s3.printed = s.printed :=
  foldlM_inv par_merge_one
    (fun st => st.closed_list = s.closed_list ∧ st.iters = s.iters ∧
      st.solution_found = s.solution_found ∧ st.printed = s.printed)
    (fun _ => True)
    (fun st c st2 hm hi _ => by
      obtain ⟨k1, k2, k3, k4⟩ := par_merge_one_fields st st2 c hm
      exact ⟨k1.trans hi.1, k2.trans hi.2.1, k3.trans hi.2.2.1, k4.trans hi.2.2.2⟩)
    cs s s3 h ⟨rfl, rfl, rfl, rfl⟩ (fun _ _ => trivial)

theorem par_iteration_count (goal : Board) (rank nprocs flag : Int) (s s2 : PState)
    (rc : Option Int) (h : par_iteration goal rank nprocs flag s = Except.ok (s2, rc))
    (hi : s.iters = s.closed_list.size + 1) :
    (∃ remove m1 cl, push s.mem s.closed_list remove = Except.ok (m1, cl) ∧
      cl = s2.closed_list ∧ s.iters = cl.size) ∧
    (rc = some 0 → s2.iters = s2.closed_list.size) ∧
    (rc = none → s2.iters = s2.closed_list.size + 1) := by
  obtain ⟨remove, nd, m1, cl, m2, ol, out, own, pr, -, -, h3, -, -, -, -, h⟩ :=
    par_iteration_inv goal rank nprocs flag s s2 rc h
  obtain ⟨-, -, e3⟩ := push_board _ _ _ _ _ h3
  have hcl : s.iters = cl.size := by rw [hi, e3]
  rcases h with ⟨-, hrc, rfl⟩ | ⟨-, hrc, s3, h6, rfl⟩
  · refine ⟨⟨remove, m1, cl, h3, rfl, hcl⟩, fun _ => hcl, ?_⟩
    intro hn
    rw [hrc] at hn
    cases hn
  · obtain ⟨k1, k2, -, -⟩ := par_fold_fields out _ s3 h6
    refine ⟨⟨remove, m1, cl, h3, k1.symm, hcl⟩, ?_, ?_⟩
    · intro hn
      rw [hrc] at hn
      cases hn
    · intro _
      show s3.iters + 1 = s3.closed_list.size + 1
      rw [k1, k2]
      show s.iters + 1 = cl.size + 1
      rw [hcl]

theorem par_state_at_count (start goal : Board) (rank nprocs : Int) (flags : List Int)
    (s : PState) (h : par_state_at start goal rank nprocs flags = Except.ok (some s)) :
    s.iters = s.closed_list.size + 1 := by
  unfold par_state_at at h
  rw [par_init_state_ok] at h
  simp only [bind_ok_iff] at h
  obtain ⟨s0, hs0, h⟩ := h
  simp only [Except.ok.injEq] at hs0
  subst hs0
  split at h
  · simp only [pure_ok_iff] at h
    cases h
  · exact par_loop_state_inv goal rank nprocs flags.length
      (fun _ st => st.iters = st.closed_list.size + 1)
      (fun k f st st2 _ hi _ hit =>
        (par_iteration_count goal rank nprocs f st st2 none hit hi).2.2 rfl)
      flags 0 _ s (by omega) rfl h

/-- C28: in the parallel driver, in every state `ps` in which a worker tests
its loop condition `iters` is one more than the size of the closed list, and in
the iteration that follows, `push(closed_list, remove)` makes the two equal:
at the goal test `iters` (not yet incremented) equals the size of the closed
list, which is not changed in the rest of the iteration; so when the worker
returns 0 in that iteration the two numbers of its final state are equal. -/
theorem iters_is_explored (start goal : Board) (rank nprocs : Int) (flags : List Int)
    (ps : PState) (hp : par_state_at start goal rank nprocs flags = Except.ok (some ps)) :
    ps.iters = ps.closed_list.size + 1 ∧
    ∀ f s2 rc, par_iteration goal rank nprocs f ps = Except.ok (s2, rc) →
      (∃ remove m1 cl, push ps.mem ps.closed_list remove = Except.ok (m1, cl) ∧
        cl = s2.closed_list ∧ ps.iters = cl.size) ∧
      (rc = some 0 → s2.iters = s2.closed_list.size) := by
  have hi := par_state_at_count start goal rank nprocs flags ps hp
  refine ⟨hi, ?_⟩
  intro f s2 rc h
  have := par_iteration_count goal rank nprocs f ps s2 rc h hi
  exact ⟨this.1, this.2.1⟩

set_option maxRecDepth 100000 in
theorem iters_is_explored_witness :
    par_state_at oneAway GOAL 0 2 [0] = Except.ok (some parState) ∧
    par_iteration GOAL 0 2 0 parState = Except.ok (parNext.1, parNext.2) ∧
    parState.iters = 2 ∧
    (parState.iters = parState.closed_list.size + 1 ∧
    ∀ f s2 rc, par_iteration GOAL 0 2 f parState = Except.ok (s2, rc) →
      (∃ remove m1 cl, push parState.mem parState.closed_list remove = Except.ok (m1, cl) ∧
        cl = s2.closed_list ∧ parState.iters = cl.size) ∧
      (rc = some 0 → s2.iters = s2.closed_list.size)) ∧
    par_state_at oneAway GOAL 0 2 [0, 0] = Except.ok (some parAfterHit) ∧
    parAfterHit.printed.length = 1 ∧ parAfterHit.iters = 3 ∧
    parAfterHit.closed_list.size = 2 ∧ parAfterHit.mem.length = 7 :=
  ⟨parState_eq, parNext_eq, by decide,
   iters_is_explored oneAway GOAL 0 2 [0] parState parState_eq,
   parAfterHit_eq, by decide, by decide, by decide, by decide⟩

/-- C27: with the broadcast modelled by `bcast` (rank `first_proc_finished`
keeps its own flag, every other rank receives the root's), in every iteration
of the parallel driver that returns control the flag after the broadcast is
`bcast rank own flag`, where `own` is 1 if the extracted node held the goal
board and the previous flag otherwise; the worker returns 0 in this iteration
exactly when that flag is 1 and goes on exactly when it is not.  For a rank
other than `first_proc_finished` the flag is the root's, whatever the worker
extracted: when the root's flag is 0 and the worker extracted the goal, it has
handed the node to `print_parents` and keeps searching. -/
theorem return_iff_flag (goal : Board) (rank nprocs flag : Int) (s s2 : PState)
    (rc : Option Int) (h : par_iteration goal rank nprocs flag s = Except.ok (s2, rc)) :
    ∃ remove nd, extract_min s.mem s.open_list rank nprocs = Except.ok remove ∧
      rd s.mem remove = Except.ok nd ∧
      s2.solution_found = bcast rank
        (if compare_boards nd.board.board goal.board = 0 then 1 else s.solution_found) flag ∧
      (rc = some 0 ↔ s2.solution_found = 1) ∧
      (rc = none ↔ s2.solution_found ≠ 1) ∧
      (rank ≠ first_proc_finished → s2.solution_found = flag) ∧
      (rank ≠ first_proc_finished → flag = 0 →
        compare_boards nd.board.board goal.board = 0 →
        rc = none ∧ s2.printed = copy_board nd.board make_empty_board :: s.printed) := by
  obtain ⟨remove, nd, m1, cl, m2, ol, out, own, pr, h1, h2, -, -, -, hown, hpr, h⟩ :=
    par_iteration_inv goal rank nprocs flag s s2 rc h
  have hb : ∀ x : Int, rank ≠ first_proc_finished → bcast rank x flag = flag := by
    intro x hr
    unfold bcast
    rw [if_neg hr]
  subst hown
  rcases h with ⟨hf, hrc, rfl⟩ | ⟨hf, hrc, s3, h6, rfl⟩
  · refine ⟨remove, nd, h1, h2, rfl, ⟨fun _ => hf, fun _ => hrc⟩, ?_, fun hr => hb _ hr, ?_⟩
    · constructor
      · intro hn; rw [hrc] at hn; cases hn
      · intro hn; exact absurd hf hn
    · intro hr h0 _
      rw [hb _ hr, h0] at hf
      cases hf
  · obtain ⟨-, -, k3, k4⟩ := par_fold_fields out _ s3 h6
    have hsf := k3
    have hpr3 : s3.printed = pr := k4
    refine ⟨remove, nd, h1, h2, hsf, ?_, ?_, fun hr => hsf.trans (hb _ hr), ?_⟩
    · constructor
      · intro hn; rw [hrc] at hn; cases hn
      · intro hn
        exact absurd (hsf.symm.trans hn) hf
    · constructor
      · intro _ hn
        exact hf (hsf.symm.trans hn)
      · intro _; exact hrc
    · intro _ _ hc
      refine ⟨hrc, ?_⟩
      show s3.printed = _
      rw [hpr3, hpr, if_pos hc]

set_option maxRecDepth 100000 in
theorem return_iff_flag_witness :
    par_iteration GOAL 0 2 0 parState = Except.ok (parNext.1, parNext.2) ∧
    parNext.2 = none ∧ parNext.1.printed.length = 1 ∧ parNext.1.solution_found = 0 ∧
    parNext.1.mem.length = 7 ∧ contents parNext.1.mem parNext.1.open_list = [2, 3] ∧
    ∃ remove nd, extract_min parState.mem parState.open_list 0 2 = Except.ok remove ∧
      rd parState.mem remove = Except.ok nd ∧
      parNext.1.solution_found = bcast 0
        (if compare_boards nd.board.board GOAL.board = 0 then 1
         else parState.solution_found) 0 ∧
      (parNext.2 = some 0 ↔ parNext.1.solution_found = 1) ∧
      (parNext.2 = none ↔ parNext.1.solution_found ≠ 1) ∧
      ((0 : Int) ≠ first_proc_finished → parNext.1.solution_found = 0) ∧
      ((0 : Int) ≠ first_proc_finished → (0 : Int) = 0 →
        compare_boards nd.board.board GOAL.board = 0 →
        parNext.2 = none ∧
          parNext.1.printed = copy_board nd.board make_empty_board :: parState.printed) :=
  ⟨parNext_eq, by decide, by decide, by decide, by decide, by decide,
   return_iff_flag GOAL 0 2 0 parState parNext.1 parNext.2 parNext_eq⟩

theorem in_list_hit (mem : Mem) (ll : LinkedList) (l : List Nat) (h : Holds mem ll l)
    (a : Nat) (nd : Node) (hn : mem.get? a = some nd)
    (hhit : ∃ b ∈ l, compare_boards (grid_at mem b) nd.board.board = 0) :
    in_list mem ll (some a) = Except.ok 0 := by
  obtain ⟨b, hb, hc⟩ := hhit
  cases l with
  | nil => simp at hb
  | cons x r =>
    rw [in_list_eq mem ll x r h a nd hn]
    have : (x :: r).any
        (fun b => decide (compare_boards (grid_at mem b) nd.board.board = 0)) = true :=
      List.any_eq_true.mpr ⟨b, hb, decide_eq_true hc⟩
    rw [this]
    rfl

theorem in_list_miss (mem : Mem) (ll : LinkedList) (l : List Nat) (h : Holds mem ll l)
    (a : Nat) (nd : Node) (hn : mem.get? a = some nd)
    (hmiss : ∀ b ∈ l, compare_boards (grid_at mem b) nd.board.board ≠ 0) :
    in_list mem ll (some a) = Except.ok (-1) := by
  cases l with
  | nil => exact in_list_empty mem ll h.1 _
  | cons x r =>
    rw [in_list_eq mem ll x r h a nd hn]
    have : (x :: r).any
        (fun b => decide (compare_boards (grid_at mem b) nd.board.board = 0)) = false := by
      rw [List.any_eq_false]
      intro b hb
      simpa using hmiss b hb
    rw [this]
    rfl

theorem find_match_first (mem : Mem) (g : Grid) (e : Nat) (post : List Nat)
    (he : grid_at mem e = g) :
    ∀ (pre : List Nat) (x : Nat) (rest : List Nat), x :: rest = pre ++ e :: post →
      Linked mem (x :: rest) → (∀ b ∈ pre, grid_at mem b ≠ g) → ∀ fuel, pre.length < fuel →
      find_match mem g fuel (some x) = Except.ok (some e)
  | [], x, rest, hx, hl, _, fuel, hf => by
    simp only [List.nil_append, List.cons.injEq] at hx
    obtain ⟨rfl, rfl⟩ := hx
    obtain ⟨n, rfl⟩ : ∃ n, fuel = n + 1 := ⟨fuel - 1, by simp at hf; omega⟩
    obtain ⟨nd, hnd⟩ := get_of_lt mem x (linked_lt mem _ hl x (List.mem_cons_self _ _))
    unfold find_match
    simp only [bind_ok_iff]
    refine ⟨nd, rd_some mem x nd hnd, ?_⟩
    rw [← grid_at_eq mem x nd hnd, he, if_pos ((compare_boards_eq _ _).mpr rfl)]
    rfl
  | y :: pre, x, rest, hx, hl, hne, fuel, hf => by
    simp only [List.cons_append, List.cons.injEq] at hx
    obtain ⟨rfl, rfl⟩ := hx
    obtain ⟨z, rest2, hz⟩ : ∃ z rest2, pre ++ e :: post = z :: rest2 := by
      cases pre with
      | nil => exact ⟨e, post, rfl⟩
      | cons c d => exact ⟨c, d ++ e :: post, rfl⟩
    rw [hz] at hl
    have hf2 : pre.length + 1 < fuel := by simpa using hf
    obtain ⟨n, rfl⟩ : ∃ n, fuel = n + 1 := ⟨fuel - 1, by omega⟩
    obtain ⟨nd, hnd, hnx⟩ := next_at_some mem x _ hl.1
    unfold find_match
    simp only [bind_ok_iff]
    refine ⟨nd, rd_some mem x nd hnd, ?_⟩
    have hgx : grid_at mem x ≠ g := hne x (List.mem_cons_self _ _)
    rw [grid_at_eq mem x nd hnd] at hgx
    rw [if_neg (fun hc => hgx ((compare_boards_eq _ _).mp hc)), hnx]
    exact find_match_first mem g e post he pre z rest2 hz.symm hl.2
      (fun b hb => hne b (List.mem_cons_of_mem _ hb)) n (by omega)

theorem merge_one_closed_hit (s : State) (c : Board) (lc : List Nat)
    (hc : Holds s.mem s.closed_list lc)
    (hhit : ∃ b ∈ lc, compare_boards (grid_at s.mem b) c.board = 0) :
    merge_one s c = Except.ok
      { s with mem := s.mem ++ [node_of (copy_board c make_empty_board) none] } := by
  have hnew : (s.mem ++ [node_of (copy_board c make_empty_board) none]).get? s.mem.length =
      some (node_of (copy_board c make_empty_board) none) := get_append_new s.mem _
  have hlc := linked_lt s.mem lc hc.2.2.1
  have hc1 : Holds (s.mem ++ [node_of (copy_board c make_empty_board) none]) s.closed_list lc :=
    holds_frame s.mem _ _ lc (by simp) hc
      (fun b hb => next_at_append s.mem _ b (hlc b (List.mem_of_mem_dropLast hb)))
  have hin := in_list_hit _ _ lc hc1 s.mem.length _ hnew (by
    obtain ⟨b, hb, hcb⟩ := hhit
    exact ⟨b, hb, by rw [grid_at_append s.mem _ b (hlc b hb)]; exact hcb⟩)
  unfold merge_one
  simp only [make_node]
  have hin2 : in_list (s.mem ++ [node_of (copy_board c make_empty_board) none])
      s.closed_list (some s.mem.length) = Except.ok 0 := hin
  rw [hin2]
  rfl

theorem par_merge_one_closed_hit (s : PState) (c : Board) (lc : List Nat)
    (hc : Holds s.mem s.closed_list lc)
    (hhit : ∃ b ∈ lc, compare_boards (grid_at s.mem b) c.board = 0) :
    par_merge_one s c = Except.ok
      { s with mem := s.mem ++ [node_of (copy_board c make_empty_board) none] } := by
  have hnew : (s.mem ++ [node_of (copy_board c make_empty_board) none]).get? s.mem.length =
      some (node_of (copy_board c make_empty_board) none) := get_append_new s.mem _
  have hlc := linked_lt s.mem lc hc.2.2.1
  have hc1 : Holds (s.mem ++ [node_of (copy_board c make_empty_board) none]) s.closed_list lc :=
    holds_frame s.mem _ _ lc (by simp) hc
      (fun b hb => next_at_append s.mem _ b (hlc b (List.mem_of_mem_dropLast hb)))
  have hin := in_list_hit _ _ lc hc1 s.mem.length _ hnew (by
    obtain ⟨b, hb, hcb⟩ := hhit
    exact ⟨b, hb, by rw [grid_at_append s.mem _ b (hlc b hb)]; exact hcb⟩)
  unfold par_merge_one
  simp only [make_node]
  have hin2 : in_list (s.mem ++ [node_of (copy_board c make_empty_board) none])
      s.closed_list (some s.mem.length) = Except.ok 0 := hin
  rw [hin2]
  rfl

theorem ok_bind {α β : Type} (a : α) (f : α → Except Fail β) :
    (Except.ok a >>= f) = f a := rfl

theorem set_parent_score_some (mem : Mem) (e : Nat) (te : Node) (par : BoardPtr) (sc : Int)
    (h : mem.get? e = some te) :
    set_parent_score mem (some e) par sc = Except.ok
      (mem.set e { te with board := { te.board with parent := par, h_score := sc } }) := by
  unfold set_parent_score
  rw [rd_some mem e te h]
  rfl

/-- The facts about the memory after `make_node` that the two drivers use when
a successor is met again in the open list. -/
theorem open_hit_facts (mem : Mem) (cl ol : LinkedList) (c : Board) (lo lc pre post : List Nat)
    (e : Nat) (te : Node)
    (hc : Holds mem cl lc) (ho : Holds mem ol lo)
    (hmiss : ∀ b ∈ lc, compare_boards (grid_at mem b) c.board ≠ 0)
    (hlo : lo = pre ++ e :: post) (he : compare_boards (grid_at mem e) c.board = 0)
    (hpre : ∀ b ∈ pre, compare_boards (grid_at mem b) c.board ≠ 0)
    (hte : mem.get? e = some te) :
    in_list (mem ++ [node_of (copy_board c make_empty_board) none])
      cl (some mem.length) = Except.ok (-1) ∧
    in_list (mem ++ [node_of (copy_board c make_empty_board) none])
      ol (some mem.length) = Except.ok 0 ∧
    find_match (mem ++ [node_of (copy_board c make_empty_board) none])
      (copy_board c make_empty_board).board
      ((mem ++ [node_of (copy_board c make_empty_board) none]).length + 1)
      ol.head = Except.ok (some e) ∧
    rd (mem ++ [node_of (copy_board c make_empty_board) none]) (some e) =
      Except.ok te := by
  have hnew := get_append_new mem
    (node_of (copy_board c make_empty_board) none)
  have hlc := linked_lt mem lc hc.2.2.1
  have hll := linked_lt mem lo ho.2.2.1
  have hc1 := holds_frame mem (mem ++ [node_of (copy_board c make_empty_board) none]) cl lc
      (by simp) hc
      (fun b hb => next_at_append mem _ b (hlc b (List.mem_of_mem_dropLast hb)))
  have ho1 := holds_frame mem (mem ++ [node_of (copy_board c make_empty_board) none]) ol lo
      (by simp) ho
      (fun b hb => next_at_append mem _ b (hll b (List.mem_of_mem_dropLast hb)))
  have hemem : e ∈ lo := by rw [hlo]; simp
  have helt := hll e hemem
  refine ⟨?_, ?_, ?_, ?_⟩
  · apply in_list_miss _ _ lc hc1 mem.length _ hnew
    intro b hb
    rw [grid_at_append mem _ b (hlc b hb)]
    exact hmiss b hb
  · apply in_list_hit _ _ lo ho1 mem.length _ hnew
    exact ⟨e, hemem, by rw [grid_at_append mem _ e helt]; exact he⟩
  · obtain ⟨x, rest, hx⟩ : ∃ x rest, lo = x :: rest := by
      rw [hlo]
      cases pre with
      | nil => exact ⟨e, post, rfl⟩
      | cons a b => exact ⟨a, b ++ e :: post, rfl⟩
    have hhead : ol.head = some x := by rw [ho.1, hx]; rfl
    rw [hhead]
    apply find_match_first _ _ e post _ pre x rest (by rw [← hx, hlo])
      (by rw [← hx]; exact ho1.2.2.1)
    · intro b hb
      have hbl : b ∈ lo := by rw [hlo]; simp [hb]
      rw [grid_at_append mem _ b (hll b hbl)]
      intro hg
      exact hpre b hb ((compare_boards_eq _ _).mpr hg)
    · have := holds_length mem ol lo ho
      have hpl : pre.length < lo.length := by rw [hlo]; simp
      simp only [List.length_append, List.length_singleton]
      omega
    · rw [grid_at_append mem _ e helt]
      exact (compare_boards_eq _ _).mp he
  · apply rd_some
    rw [get_append_lt mem _ e helt]
    exact hte

theorem merge_one_open_hit (s : State) (c : Board) (lo lc pre post : List Nat) (e : Nat)
    (te : Node) (hc : Holds s.mem s.closed_list lc) (ho : Holds s.mem s.open_list lo)
    (hmiss : ∀ b ∈ lc, compare_boards (grid_at s.mem b) c.board ≠ 0)
    (hlo : lo = pre ++ e :: post) (he : compare_boards (grid_at s.mem e) c.board = 0)
    (hpre : ∀ b ∈ pre, compare_boards (grid_at s.mem b) c.board ≠ 0)
    (hte : s.mem.get? e = some te) :
    merge_one s c = Except.ok
      { s with mem :=
          if te.board.h_score > c.h_score then
            (s.mem ++ [node_of (copy_board c make_empty_board) none]).set e (overwrite te c)
          else s.mem ++ [node_of (copy_board c make_empty_board) none] } := by
  obtain ⟨h1, h2, h3, h4⟩ := open_hit_facts s.mem s.closed_list s.open_list c lo lc pre post e te
    hc ho hmiss hlo he hpre hte
  have hget : (s.mem ++ [node_of (copy_board c make_empty_board) none]).get? e
      = some te := by
    obtain ⟨a, ha, hnd⟩ := (rd_ok _ _ _).mp h4
    cases ha
    exact hnd
  unfold merge_one
  simp only [make_node]
  rw [h1]
  simp only [ok_bind]
  rw [if_neg (by decide), h2]
  simp only [ok_bind]
  rw [if_pos trivial, h3]
  simp only [ok_bind]
  rw [h4]
  simp only [ok_bind]
  have hsc : (copy_board c make_empty_board).h_score = c.h_score := rfl
  have hpa : (copy_board c make_empty_board).parent = c.parent := rfl
  rw [hsc, hpa]
  by_cases hgt : te.board.h_score > c.h_score
  · rw [if_pos hgt, if_pos hgt, set_parent_score_some _ e te _ _ hget]
    rfl
  · rw [if_neg hgt, if_neg hgt]
    rfl

theorem par_merge_one_open_hit (s : PState) (c : Board) (lo lc pre post : List Nat) (e : Nat)
    (te : Node) (hc : Holds s.mem s.closed_list lc) (ho : Holds s.mem s.open_list lo)
    (hmiss : ∀ b ∈ lc, compare_boards (grid_at s.mem b) c.board ≠ 0)
    (hlo : lo = pre ++ e :: post) (he : compare_boards (grid_at s.mem e) c.board = 0)
    (hpre : ∀ b ∈ pre, compare_boards (grid_at s.mem b) c.board ≠ 0)
    (hte : s.mem.get? e = some te) :
    par_merge_one s c = Except.ok
      { s with mem :=
          if find_parents c < find_parents te.board then
            (s.mem ++ [node_of (copy_board c make_empty_board) none]).set e (overwrite te c)
          else s.mem ++ [node_of (copy_board c make_empty_board) none] } := by
  obtain ⟨h1, h2, h3, h4⟩ := open_hit_facts s.mem s.closed_list s.open_list c lo lc pre post e te
    hc ho hmiss hlo he hpre hte
  have hget : (s.mem ++ [node_of (copy_board c make_empty_board) none]).get? e
      = some te := by
    obtain ⟨a, ha, hnd⟩ := (rd_ok _ _ _).mp h4
    cases ha
    exact hnd
  unfold par_merge_one
  simp only [make_node]
  rw [h1]
  simp only [ok_bind]
  rw [if_neg (by decide), h2]
  simp only [ok_bind]
  rw [if_pos trivial, h3]
  simp only [ok_bind]
  rw [h4]
  simp only [ok_bind]
  have hfp : find_parents (copy_board c make_empty_board) = find_parents c := rfl
  have hsc : (copy_board c make_empty_board).h_score = c.h_score := rfl
  have hpa : (copy_board c make_empty_board).parent = c.parent := rfl
  rw [hfp, hsc, hpa]
  by_cases hgt : find_parents c < find_parents te.board
  · rw [if_pos hgt, if_pos hgt, set_parent_score_some _ e te _ _ hget]
    rfl
  · rw [if_neg hgt, if_neg hgt]
    rfl

set_option maxRecDepth 100000 in
theorem seqState_closed : Holds seqState.mem seqState.closed_list [0] :=
  ⟨by decide, by decide, by unfold Linked; decide, by decide⟩

set_option maxRecDepth 100000 in
theorem seqState_open : Holds seqState.mem seqState.open_list [1, 2, 3] :=
  ⟨by decide, by decide, ⟨by decide, by decide, by unfold Linked; decide⟩, by decide⟩

set_option maxRecDepth 100000 in
theorem parState_closed : Holds parState.mem parState.closed_list [0] :=
  ⟨by decide, by decide, by unfold Linked; decide, by decide⟩

set_option maxRecDepth 100000 in
theorem parState_open : Holds parState.mem parState.open_list [1, 2, 3] :=
  ⟨by decide, by decide, ⟨by decide, by decide, by unfold Linked; decide⟩, by decide⟩

/-- C22: when the board of a successor `c` is equal, cell by cell, to the
board of a node of the closed list, the loop body of either driver returns
with both list records as they were and with the memory extended by the one
node `make_node` allocated for the copy of `c`: every node that existed keeps
its board, score, parent and `next`, so both lists hold the same nodes in the
same order, and the successor is not pushed on the open list. -/
theorem explored_hit_discards (s : State) (ps : PState) (c : Board) (lc plc : List Nat)
    (hc : Holds s.mem s.closed_list lc)
    (hhit : ∃ b ∈ lc, compare_boards (grid_at s.mem b) c.board = 0)
    (hpc : Holds ps.mem ps.closed_list plc)
    (hphit : ∃ b ∈ plc, compare_boards (grid_at ps.mem b) c.board = 0) :
    merge_one s c = Except.ok
      { s with mem := s.mem ++ [node_of (copy_board c make_empty_board) none] } ∧
    par_merge_one ps c = Except.ok
      { ps with mem := ps.mem ++ [node_of (copy_board c make_empty_board) none] } :=
  ⟨merge_one_closed_hit s c lc hc hhit, par_merge_one_closed_hit ps c plc hpc hphit⟩

set_option maxRecDepth 100000 in
theorem explored_hit_discards_witness :
    Holds seqState.mem seqState.closed_list [0] ∧
    (∃ b ∈ [0], compare_boards (grid_at seqState.mem b) oneAway.board = 0) ∧
    Holds parState.mem parState.closed_list [0] ∧
    (∃ b ∈ [0], compare_boards (grid_at parState.mem b) oneAway.board = 0) ∧
    merge_one seqState oneAway = Except.ok
      { seqState with
        mem := seqState.mem ++ [node_of (copy_board oneAway make_empty_board) none] } ∧
    par_merge_one parState oneAway = Except.ok
      { parState with
        mem := parState.mem ++ [node_of (copy_board oneAway make_empty_board) none] } :=
  ⟨seqState_closed, ⟨0, by simp, by decide⟩, parState_closed, ⟨0, by simp, by decide⟩,
   explored_hit_discards seqState parState oneAway [0] [0] seqState_closed
     ⟨0, by simp, by decide⟩ parState_closed ⟨0, by simp, by decide⟩⟩

/-- C23: in the parallel driver, when the board of a successor `c` is equal to
no board of the closed list and `e` is the first node of the open list whose
board is equal to it, the loop body returns with both list records as they
were (the successor is not pushed; the open list keeps its nodes, their order
and its size) and with the memory extended by the node allocated for the copy
of `c`; the parent and the score of `e` are overwritten with those of `c`
exactly when `find_parents c < find_parents` of the board of `e`, and
otherwise `e` is as it was. -/
theorem frontier_hit_parallel (s : PState) (c : Board) (lo lc pre post : List Nat) (e : Nat)
    (te : Node) (hc : Holds s.mem s.closed_list lc) (ho : Holds s.mem s.open_list lo)
    (hmiss : ∀ b ∈ lc, compare_boards (grid_at s.mem b) c.board ≠ 0)
    (hlo : lo = pre ++ e :: post) (he : compare_boards (grid_at s.mem e) c.board = 0)
    (hpre : ∀ b ∈ pre, compare_boards (grid_at s.mem b) c.board ≠ 0)
    (hte : s.mem.get? e = some te) :
    par_merge_one s c = Except.ok
      { s with mem :=
          if find_parents c < find_parents te.board then
            (s.mem ++ [node_of (copy_board c make_empty_board) none]).set e (overwrite te c)
          else s.mem ++ [node_of (copy_board c make_empty_board) none] } :=
  par_merge_one_open_hit s c lo lc pre post e te hc ho hmiss hlo he hpre hte

set_option maxRecDepth 100000 in
theorem frontier_hit_parallel_witness :
    Holds parState.mem parState.closed_list [0] ∧ Holds parState.mem parState.open_list [1, 2, 3] ∧
    compare_boards (grid_at parState.mem 1) GOAL.board = 0 ∧
    parState.mem.get? 1 = some parNode ∧
    find_parents GOAL = 0 ∧ find_parents parNode.board = 1 ∧
    par_merge_one parState GOAL = Except.ok
      { parState with mem :=
          if find_parents GOAL < find_parents parNode.board then
            (parState.mem ++ [node_of GOAL none]).set 1 (overwrite parNode GOAL)
          else parState.mem ++ [node_of GOAL none] } :=
  ⟨parState_closed, parState_open, by decide, (Option.some_get _).symm, by decide, by decide,
   frontier_hit_parallel parState GOAL [1, 2, 3] [0] [] [2, 3] 1 parNode parState_closed
     parState_open (by decide) rfl (by decide) (by simp) (Option.some_get _).symm⟩

/-- C24 (amended): in the sequential driver, when the board of a successor `c`
is equal to no board of the closed list and `e` is the first node of the open
list whose board is equal to it, the loop body returns with both list records
as they were and with the memory extended by the node allocated for the copy
of `c`; the parent and the score of `e` are overwritten with those of `c`
exactly when the cached `h_score` of `e` is strictly greater than that of
`c`.  The lengths of the ancestor chains are not compared. -/
theorem frontier_hit_sequential (s : State) (c : Board) (lo lc pre post : List Nat) (e : Nat)
    (te : Node) (hc : Holds s.mem s.closed_list lc) (ho : Holds s.mem s.open_list lo)
    (hmiss : ∀ b ∈ lc, compare_boards (grid_at s.mem b) c.board ≠ 0)
    (hlo : lo = pre ++ e :: post) (he : compare_boards (grid_at s.mem e) c.board = 0)
    (hpre : ∀ b ∈ pre, compare_boards (grid_at s.mem b) c.board ≠ 0)
    (hte : s.mem.get? e = some te) :
    merge_one s c = Except.ok
      { s with mem :=
          if te.board.h_score > c.h_score then
            (s.mem ++ [node_of (copy_board c make_empty_board) none]).set e (overwrite te c)
          else s.mem ++ [node_of (copy_board c make_empty_board) none] } :=
  merge_one_open_hit s c lo lc pre post e te hc ho hmiss hlo he hpre hte

set_option maxRecDepth 100000 in
theorem frontier_hit_sequential_witness :
    Holds seqState.mem seqState.closed_list [0] ∧ Holds seqState.mem seqState.open_list [1, 2, 3] ∧
    compare_boards (grid_at seqState.mem 1) GOAL.board = 0 ∧
    seqState.mem.get? 1 = some seqNode ∧
    find_parents GOAL = 0 ∧ find_parents seqNode.board = 1 ∧
    seqNode.board.h_score = 0 ∧ GOAL.h_score = 0 ∧
    merge_one seqState GOAL = Except.ok
      { seqState with mem :=
          if seqNode.board.h_score > GOAL.h_score then
            (seqState.mem ++ [node_of GOAL none]).set 1 (overwrite seqNode GOAL)
          else seqState.mem ++ [node_of GOAL none] } :=
  ⟨seqState_closed, seqState_open, by decide, (Option.some_get _).symm, by decide, by decide,
   by decide, by decide,
   frontier_hit_sequential seqState GOAL [1, 2, 3] [0] [] [2, 3] 1 seqNode seqState_closed
     seqState_open (by decide) rfl (by decide) (by simp) (Option.some_get _).symm⟩

set_option maxRecDepth 1000000 in
/-- C24 (as stated) fails: from the start board `rediscoverBoard` the
sequential driver has, after 14 iterations, the node at address 35 in its open
list, with an ancestor chain of 10 links.  The first successor generated in
the fifteenth iteration (the node at address 45, the first one allocated in
that iteration) has the same board, is in neither list, and its ancestor chain
has 4 links, strictly fewer; both scores are 11.  After the iteration the node
at address 35 is still in the open list with its chain of 10 links and the
successor's node is in no list: the existing node was not overwritten. -/
theorem shorter_chain_discarded :
    (reached (state_at rediscoverBoard GOAL 14)).map (fun s =>
      (s.mem.length, decide (35 ∈ contents s.mem s.open_list), links_at s.mem 35)) =
      some (45, true, some 10) ∧
    (reached (state_at rediscoverBoard GOAL 15)).map (fun s =>
      (decide (35 ∈ contents s.mem s.open_list), links_at s.mem 35, links_at s.mem 45,
       compare_boards (grid_at s.mem 35) (grid_at s.mem 45))) =
      some (true, some 10, some 4, 0) ∧
    (reached (state_at rediscoverBoard GOAL 15)).map (fun s =>
      (decide (45 ∈ contents s.mem s.open_list ++ contents s.mem s.closed_list),
       (contents s.mem s.closed_list).all
         (fun b => decide (compare_boards (grid_at s.mem b) (grid_at s.mem 45) ≠ 0)),
       score_at s.mem 35, score_at s.mem 45)) =
      some (false, true, 11, 11) := by
  refine ⟨by decide, by decide, by decide⟩

theorem extract_min_range (mem : Mem) (list : LinkedList) (rank nprocs : Int) :
    extract_min mem list rank nprocs =
      (scan_range rank nprocs list.size >>= fun r =>
        find_min_h mem list >>= fun _ =>
          if list.size < wrap32 (nprocs * 2) then find_min_h mem list
          else find_min_h_parallel mem list r.1 r.2) := by
  unfold extract_min scan_range
  cases c_div (wrap32 (rank * list.size)) nprocs with
  | error e => rfl
  | ok first =>
    cases c_div (wrap32 (wrap32 (rank + 1) * list.size)) nprocs with
    | error e => rfl
    | ok stop => rfl

theorem c_div_pos (a b : Int) (ha : 0 ≤ a) (ha2 : a ≤ INT_MAX) (hb : 0 < b) :
    c_div a b = Except.ok (a / b) := by
  unfold c_div
  rw [if_neg (by omega)]
  have h1 : Int.tdiv a b = a / b := Int.tdiv_eq_ediv ha (le_of_lt hb)
  have h2 : 0 ≤ a / b := Int.ediv_nonneg ha (le_of_lt hb)
  have h3 : a / b ≤ a := Int.ediv_le_self b ha
  rw [h1, wrap32_of_range _ h2 (le_trans h3 ha2)]
  rfl

theorem scan_range_exact (rank nprocs size : Int) (hP : 1 ≤ nprocs) (hr0 : 0 ≤ rank)
    (hr : rank < nprocs) (hs : 0 ≤ size) (hov : (rank + 1) * size ≤ INT_MAX)
    (h2P : nprocs * 2 ≤ INT_MAX) :
    scan_range rank nprocs size =
      Except.ok (rank * size / nprocs, (rank + 1) * size / nprocs) := by
  have h1 : 0 ≤ rank * size := mul_nonneg hr0 hs
  have h2 : rank * size ≤ (rank + 1) * size := by nlinarith
  have h3 : 0 ≤ (rank + 1) * size := le_trans h1 h2
  have hr1 : rank + 1 ≤ INT_MAX := by omega
  unfold scan_range
  rw [wrap32_of_range _ h1 (le_trans h2 hov), wrap32_of_range (rank + 1) (by omega) hr1,
    wrap32_of_range _ h3 hov, c_div_pos _ _ h1 (le_trans h2 hov) (by omega),
    c_div_pos _ _ h3 hov (by omega)]
  rfl

theorem range_facts (rank nprocs size : Int) (hP : 1 ≤ nprocs) (hr0 : 0 ≤ rank)
    (hr : rank < nprocs) (h2 : nprocs * 2 ≤ size) :
    0 ≤ rank * size / nprocs ∧ rank * size / nprocs + 2 ≤ (rank + 1) * size / nprocs ∧
      (rank + 1) * size / nprocs ≤ size := by
  have hs : 0 ≤ size := by omega
  have hp : 0 < nprocs := by omega
  refine ⟨Int.ediv_nonneg (mul_nonneg hr0 hs) (le_of_lt hp), ?_, ?_⟩
  · have e : rank * size / nprocs + 2 = (rank * size + 2 * nprocs) / nprocs := by
      rw [Int.add_mul_ediv_right _ _ (by omega)]
    rw [e]
    apply Int.ediv_le_ediv hp
    nlinarith
  · have e : size = size * nprocs / nprocs := by
      rw [Int.mul_ediv_cancel _ (by omega)]
    conv_rhs => rw [e]
    apply Int.ediv_le_ediv hp
    nlinarith

theorem linked_front (mem : Mem) : ∀ (l1 l2 : List Nat), Linked mem (l1 ++ l2) → Linked mem l1
  | [], _, _ => trivial
  | [a], l2, h => linked_lt mem _ h a (by simp)
  | a :: b :: r, l2, h => by
    have h2 : Linked mem (a :: b :: (r ++ l2)) := h
    exact ⟨h2.1, linked_front mem (b :: r) l2 h2.2⟩

theorem linked_suffix (mem : Mem) : ∀ (l1 l2 : List Nat), Linked mem (l1 ++ l2) → Linked mem l2
  | [], _, h => h
  | [a], l2, h => by
    cases l2 with
    | nil => trivial
    | cons b r => exact h.2
  | a :: b :: r, l2, h => by
    have h2 : Linked mem (a :: b :: (r ++ l2)) := h
    exact linked_suffix mem (b :: r) l2 h2.2

theorem skip_loop_spec (mem : Mem) (x : Nat) (rest : List Nat) :
    ∀ (pre : List Nat) (k : Int) (fuel : Nat), Linked mem (pre ++ x :: rest) →
      pre.length < fuel → 0 ≤ k → k + pre.length ≤ INT_MAX →
      skip_loop mem (k + pre.length) fuel (pre ++ x :: rest).head? k =
        Except.ok (some x, k + pre.length)
  | [], k, fuel, _, hf, _, _ => by
    obtain ⟨n, rfl⟩ : ∃ n, fuel = n + 1 := ⟨fuel - 1, by simp at hf; omega⟩
    unfold skip_loop
    simp only [List.length_nil, Nat.cast_zero, add_zero, List.nil_append, List.head?_cons]
    rw [if_neg (by simp)]
    rfl
  | y :: pre, k, fuel, hl, hf, hk, hb => by
    simp only [List.length_cons] at hf hb
    obtain ⟨n, rfl⟩ : ∃ n, fuel = n + 1 := ⟨fuel - 1, by omega⟩
    obtain ⟨z, rest2, hz⟩ : ∃ z rest2, pre ++ x :: rest = z :: rest2 := by
      cases pre with
      | nil => exact ⟨x, rest, rfl⟩
      | cons a b => exact ⟨a, b ++ x :: rest, rfl⟩
    have hl2 : Linked mem (y :: z :: rest2) := by
      rw [← hz]; exact hl
    obtain ⟨nd, hnd, hnx⟩ := next_at_some mem y _ hl2.1
    have ih := skip_loop_spec mem x rest pre (k + 1) n (linked_suffix mem [y] _ hl)
      (by omega) (by omega) (by push_cast at hb ⊢; omega)
    unfold skip_loop
    simp only [List.cons_append, List.head?_cons, List.length_cons]
    rw [if_pos ⟨by simp, by push_cast; omega⟩, rd_some mem y nd hnd]
    simp only [ok_bind]
    rw [hnx, wrap32_of_range (k + 1) (by omega) (by push_cast at hb; omega)]
    rw [hz] at ih
    simp only [List.head?_cons] at ih
    have e : k + 1 + (pre.length : Int) = k + ((pre.length + 1 : Nat) : Int) := by
      push_cast; ring
    rw [e] at ih
    exact ih

theorem scan_loop_spec (mem : Mem) : ∀ (mid : List Nat) (k : Int) (min : Int)
    (res : Option Nat) (fuel : Nat), Linked mem mid → mid ≠ [] → mid.length < fuel →
      0 ≤ k → k + mid.length ≤ INT_MAX →
      scan_loop mem (k + mid.length) fuel mid.head? k min res =
        Except.ok (scan_min mem mid min res).2
  | [], _, _, _, _, _, hne, _, _, _ => absurd rfl hne
  | [x], k, min, res, fuel, hl, _, hf, hk, hb => by
    simp only [List.length_singleton] at hf hb
    obtain ⟨n, rfl⟩ : ∃ n, fuel = n + 1 := ⟨fuel - 1, by omega⟩
    obtain ⟨n2, rfl⟩ : ∃ n2, n = n2 + 1 := ⟨n - 1, by omega⟩
    obtain ⟨nd, hnd⟩ := get_of_lt mem x hl
    unfold scan_loop
    simp only [List.head?_cons, List.length_singleton, Nat.cast_one]
    rw [if_pos ⟨by simp, by omega⟩, rd_some mem x nd hnd]
    simp only [ok_bind]
    rw [wrap32_of_range (k + 1) (by omega) (by push_cast at hb; omega)]
    simp only [scan_min, score_at_eq mem x nd hnd]
    split
    · unfold scan_loop
      rw [if_neg (by simp)]
      rfl
    · unfold scan_loop
      rw [if_neg (by simp)]
      rfl
  | x :: y :: r, k, min, res, fuel, hl, _, hf, hk, hb => by
    simp only [List.length_cons] at hf hb
    obtain ⟨n, rfl⟩ : ∃ n, fuel = n + 1 := ⟨fuel - 1, by omega⟩
    obtain ⟨nd, hnd, hnx⟩ := next_at_some mem x _ hl.1
    have ih := fun m rs => scan_loop_spec mem (y :: r) (k + 1) m rs n hl.2 (by simp)
      (by simp only [List.length_cons]; omega) (by omega)
      (by simp only [List.length_cons]; push_cast at hb ⊢; omega)
    have e : k + 1 + ((y :: r).length : Int) = k + ((x :: y :: r).length : Int) := by
      simp only [List.length_cons]; push_cast; ring
    rw [e] at ih
    simp only [List.head?_cons] at ih
    conv_lhs => unfold scan_loop
    simp only [List.head?_cons]
    rw [if_pos ⟨by simp, by simp only [List.length_cons]; push_cast; omega⟩,
      rd_some mem x nd hnd]
    simp only [ok_bind]
    rw [wrap32_of_range (k + 1) (by omega) (by push_cast at hb; omega), hnx]
    conv_rhs => unfold scan_min
    rw [score_at_eq mem x nd hnd]
    split
    · exact ih _ _
    · exact ih _ _
theorem find_min_h_parallel_spec (mem : Mem) (ll : LinkedList) (pre mid post : List Nat)
    (h : Holds mem ll (pre ++ mid ++ post)) (hm : mid ≠ [])
    (hb : ((pre ++ mid).length : Int) ≤ INT_MAX) :
    find_min_h_parallel mem ll pre.length ((pre ++ mid).length) =
      Except.ok (scan_min mem mid INT_MAX none).2 := by
  obtain ⟨hh, -, hl, -⟩ := h
  obtain ⟨x, m, rfl⟩ : ∃ x m, mid = x :: m := by
    cases mid with
    | nil => exact absurd rfl hm
    | cons x m => exact ⟨x, m, rfl⟩
  have hb2 : (pre.length : Int) + ((x :: m).length : Int) ≤ 2147483647 := by
    unfold INT_MAX at hb
    simp only [List.length_append] at hb
    push_cast at hb ⊢
    exact hb
  have hl1 : Linked mem (pre ++ x :: (m ++ post)) := by
    have e : pre ++ x :: (m ++ post) = pre ++ (x :: m) ++ post := by simp
    rw [e]; exact hl
  have hs := skip_loop_spec mem x (m ++ post) pre 0 4294967297 hl1
    (by simp only [List.length_cons] at hb2; omega) (le_refl 0)
    (by unfold INT_MAX; simp only [List.length_cons] at hb2; omega)
  have hl2 : Linked mem (x :: m) :=
    linked_front mem (x :: m) post (linked_suffix mem pre ((x :: m) ++ post) (by
      have e : pre ++ ((x :: m) ++ post) = pre ++ (x :: m) ++ post := by simp
      rw [e]; exact hl))
  have hc := scan_loop_spec mem (x :: m) pre.length INT_MAX none 4294967297 hl2 (by simp)
    (by simp only [List.length_cons] at hb2 ⊢; omega) (by omega)
    (by unfold INT_MAX; exact hb2)
  have e1 : pre ++ x :: (m ++ post) = pre ++ (x :: m) ++ post := by simp
  rw [e1, ← hh] at hs
  simp only [zero_add] at hs
  have e2 : (((pre ++ (x :: m)).length : Nat) : Int) = (pre.length : Int) + ((x :: m).length : Int) := by
    simp only [List.length_append]; push_cast; rfl
  unfold find_min_h_parallel
  rw [hs]
  simp only [ok_bind]
  rw [e2]
  simp only [List.head?_cons] at hc
  exact hc

theorem index_range_split (l : List Nat) (first stop : Int) (h0 : 0 ≤ first)
    (h1 : first ≤ stop) (h2 : stop ≤ l.length) :
    l = l.take first.toNat ++ index_range l first stop ++ l.drop stop.toNat ∧
      ((l.take first.toNat).length : Int) = first ∧
      (((l.take first.toNat) ++ index_range l first stop).length : Int) = stop := by
  have e : l.take first.toNat = (l.take stop.toNat).take first.toNat := by
    rw [List.take_take, min_eq_left (by omega)]
  unfold index_range
  refine ⟨?_, ?_, ?_⟩
  · rw [e, List.take_append_drop, List.take_append_drop]
  · rw [List.length_take]; omega
  · rw [e, List.take_append_drop, List.length_take]; omega

theorem index_range_length (l : List Nat) (first stop : Int) (h0 : 0 ≤ first)
    (h1 : first ≤ stop) (h2 : stop ≤ l.length) :
    ((index_range l first stop).length : Int) = stop - first := by
  unfold index_range
  rw [List.length_drop, List.length_take]; omega

theorem extract_min_small (mem : Mem) (ll : LinkedList) (lo : List Nat) (rank nprocs : Int)
    (h : Holds mem ll lo) (hsz : ll.size = lo.length) (hne : lo ≠ []) (hP : 1 ≤ nprocs)
    (hr0 : 0 ≤ rank) (hr : rank < nprocs) (hov : (rank + 1) * lo.length ≤ INT_MAX)
    (h2P : nprocs * 2 ≤ INT_MAX) (hlt : ll.size < nprocs * 2) :
    extract_min mem ll rank nprocs = find_min_h mem ll := by
  obtain ⟨x, r, rfl⟩ : ∃ x r, lo = x :: r := by
    cases lo with
    | nil => exact absurd rfl hne
    | cons x r => exact ⟨x, r, rfl⟩
  rw [extract_min_range, scan_range_exact rank nprocs ll.size hP hr0 hr (by omega)
    (by rw [hsz]; exact hov) h2P, find_min_h_eq mem ll x r h]
  simp only [ok_bind]
  rw [wrap32_of_range _ (by omega) h2P, if_pos hlt]

theorem extract_min_large (mem : Mem) (ll : LinkedList) (lo : List Nat) (rank nprocs : Int)
    (h : Holds mem ll lo) (hsz : ll.size = lo.length) (hP : 1 ≤ nprocs)
    (hr0 : 0 ≤ rank) (hr : rank < nprocs) (hov : (rank + 1) * lo.length ≤ INT_MAX)
    (h2P : nprocs * 2 ≤ INT_MAX) (hge : nprocs * 2 ≤ ll.size) :
    extract_min mem ll rank nprocs =
      Except.ok (scan_min mem (index_range lo (rank * lo.length / nprocs)
        ((rank + 1) * lo.length / nprocs)) INT_MAX none).2 := by
  obtain ⟨x, r, rfl⟩ : ∃ x r, lo = x :: r := by
    cases lo with
    | nil => simp only [List.length_nil, Nat.cast_zero] at hsz; omega
    | cons x r => exact ⟨x, r, rfl⟩
  obtain ⟨f0, f1, f2⟩ := range_facts rank nprocs ll.size hP hr0 hr hge
  rw [hsz] at f0 f1 f2
  obtain ⟨s1, s2, s3⟩ := index_range_split (x :: r) _ _ f0 (by omega) f2
  have hlen := index_range_length (x :: r) _ _ f0 (by omega) f2
  have hmid : index_range (x :: r) (rank * ((x :: r).length : Int) / nprocs)
      ((rank + 1) * ((x :: r).length : Int) / nprocs) ≠ [] := by
    intro hnil
    rw [hnil] at hlen
    simp only [List.length_nil, Nat.cast_zero] at hlen
    omega
  have hb : ((((x :: r).take (rank * ((x :: r).length : Int) / nprocs).toNat) ++
      index_range (x :: r) (rank * ((x :: r).length : Int) / nprocs)
        ((rank + 1) * ((x :: r).length : Int) / nprocs)).length : Int) ≤ INT_MAX := by
    rw [s3]
    have : (1 : Int) * ((x :: r).length : Int) ≤ (rank + 1) * ((x :: r).length : Int) :=
      mul_le_mul_of_nonneg_right (by omega) (by omega)
    omega
  have hp := find_min_h_parallel_spec mem ll _ _ _ (by rw [← s1]; exact h) hmid hb
  rw [s2, s3] at hp
  rw [extract_min_range, scan_range_exact rank nprocs ll.size hP hr0 hr (by omega)
    (by rw [hsz]; exact hov) h2P, find_min_h_eq mem ll x r h]
  simp only [ok_bind]
  rw [wrap32_of_range _ (by omega) h2P, if_neg (by omega), hsz]
  exact hp
theorem chainMem_length (n : Nat) : (chainMem n).length = n := by
  simp only [chainMem, List.length_map, List.length_range]

theorem chainMem_get (n i : Nat) (h : i < n) :
    (chainMem n).get? i = some (node_of GOAL (if i + 1 < n then some (i + 1) else none)) := by
  simp only [chainMem, List.get?_eq_getElem?, List.getElem?_map, List.getElem?_range h,
    Option.map_some']

theorem chainMem_linked (n : Nat) : ∀ (m k : Nat), k + m = n → Linked (chainMem n) (List.range' k m)
  | 0, _, _ => trivial
  | 1, k, h => by
    show k < (chainMem n).length
    rw [chainMem_length]; omega
  | m + 2, k, h => by
    have hk : k + 1 < n := by omega
    refine ⟨?_, chainMem_linked n (m + 1) (k + 1) (by omega)⟩
    rw [chainMem_get n k (by omega), if_pos hk]
    rfl

theorem chainMem_holds (n : Nat) (h : 0 < n) :
    Holds (chainMem n) (chainList n) (List.range n) := by
  refine ⟨?_, ?_, ?_, List.nodup_range n⟩
  · rw [List.head?_range, if_neg (by omega)]; rfl
  · rw [List.getLast?_range, if_neg (by omega)]; rfl
  · rw [List.range_eq_range']
    exact chainMem_linked n n 0 (by omega)

theorem skip_loop_off_end (mem : Mem) (start : Int) (hneg : start < 0) :
    ∀ (l : List Nat) (k : Int) (fuel : Nat), Linked mem l →
      (∀ t, l.getLast? = some t → next_at mem t = some none) →
      l.length < fuel → 0 ≤ k → k + l.length ≤ INT_MAX →
      skip_loop mem start fuel l.head? k = Except.ok (none, k + l.length)
  | [], k, fuel, _, _, hf, _, _ => by
    obtain ⟨n, rfl⟩ : ∃ n, fuel = n + 1 := ⟨fuel - 1, by simp at hf; omega⟩
    unfold skip_loop
    simp only [List.head?_nil, List.length_nil, Nat.cast_zero, add_zero]
    rw [if_neg (by simp)]
    rfl
  | x :: r, k, fuel, hl, hlast, hf, hk, hb => by
    simp only [List.length_cons] at hf hb
    obtain ⟨n, rfl⟩ : ∃ n, fuel = n + 1 := ⟨fuel - 1, by omega⟩
    have hnx : next_at mem x = some r.head? := by
      cases r with
      | nil => exact hlast x rfl
      | cons y r2 => exact hl.1
    obtain ⟨nd, hnd, hnn⟩ := next_at_some mem x _ hnx
    have hlast2 : ∀ t, r.getLast? = some t → next_at mem t = some none := by
      intro t ht
      apply hlast t
      cases r with
      | nil => cases ht
      | cons y r2 => rw [List.getLast?_cons_cons]; exact ht
    have ih := skip_loop_off_end mem start hneg r (k + 1) n (linked_suffix mem [x] r hl) hlast2
      (by omega) (by omega) (by push_cast at hb ⊢; omega)
    unfold skip_loop
    simp only [List.head?_cons, List.length_cons]
    rw [if_pos ⟨by simp, by omega⟩, rd_some mem x nd hnd]
    simp only [ok_bind]
    rw [hnn, wrap32_of_range (k + 1) (by omega) (by push_cast at hb; omega), ih]
    congr 2
    push_cast
    ring

theorem chain_overflow (n : Nat) (rank nprocs : Int) (hn : 0 < n) (hb : (n : Int) ≤ INT_MAX)
    (hsr : scan_range rank nprocs n = Except.ok (-2, 0))
    (hge : ¬ ((n : Int) < wrap32 (nprocs * 2))) :
    extract_min (chainMem n) (chainList n) rank nprocs = Except.ok none := by
  have hh := chainMem_holds n hn
  obtain ⟨x, r, hxr⟩ : ∃ x r, List.range n = x :: r := by
    cases hq : List.range n with
    | nil => rw [List.range_eq_nil] at hq; omega
    | cons x r => exact ⟨x, r, rfl⟩
  have hlast : ∀ t, (List.range n).getLast? = some t → next_at (chainMem n) t = some none := by
    intro t ht
    rw [List.getLast?_range, if_neg (by omega)] at ht
    simp only [Option.some.injEq] at ht
    subst ht
    unfold next_at
    rw [chainMem_get n (n - 1) (by omega), if_neg (by omega)]
    rfl
  have hs := skip_loop_off_end (chainMem n) (-2) (by decide) (List.range n) 0 4294967297 hh.2.2.1
    hlast (by rw [List.length_range]; unfold INT_MAX at hb; omega) (le_refl 0)
    (by rw [List.length_range]; omega)
  rw [← hh.1] at hs
  rw [hxr] at hh
  rw [extract_min_range]
  have e : (chainList n).size = (n : Int) := rfl
  rw [e, hsr, find_min_h_eq _ _ x r hh]
  simp only [ok_bind]
  rw [if_neg hge]
  unfold find_min_h_parallel
  rw [hs]
  rfl

theorem holds_four : Holds fourChain fourList [0, 1, 2, 3] :=
  ⟨rfl, rfl, ⟨rfl, rfl, rfl, by unfold Linked; decide⟩, by decide⟩

theorem search_loop_empty (goal : Board) (n : Nat) (s : State) (h : s.open_list.size = 0) :
    search_loop goal n s = Except.ok (some (Outcome.not_found s.iters)) := by
  cases n with
  | zero => unfold search_loop; rw [if_neg (by simp [h])]; rfl
  | succ n => unfold search_loop; rw [if_neg (by simp [h])]; rfl

theorem par_search_loop_empty (goal : Board) (rank nprocs : Int) (flags : List Int)
    (s : PState) (h : s.open_list.size = 0) :
    par_search_loop goal rank nprocs flags s = Except.ok (s, some (-1)) := by
  cases flags with
  | nil => unfold par_search_loop; rw [if_neg (by simp [h])]; rfl
  | cons f fs => unfold par_search_loop; rw [if_neg (by simp [h])]; rfl

theorem chain_scan_off (n : Nat) (hn : 0 < n) (hb : (n : Int) ≤ INT_MAX) :
    find_min_h_parallel (chainMem n) (chainList n) (-2) 0 = Except.ok none := by
  have hh := chainMem_holds n hn
  have hlast : ∀ t, (List.range n).getLast? = some t → next_at (chainMem n) t = some none := by
    intro t ht
    rw [List.getLast?_range, if_neg (by omega)] at ht
    simp only [Option.some.injEq] at ht
    subst ht
    unfold next_at
    rw [chainMem_get n (n - 1) (by omega), if_neg (by omega)]
    rfl
  have hs := skip_loop_off_end (chainMem n) (-2) (by decide) (List.range n) 0 4294967297 hh.2.2.1
    hlast (by rw [List.length_range]; unfold INT_MAX at hb; omega) (le_refl 0)
    (by rw [List.length_range]; omega)
  rw [← hh.1] at hs
  unfold find_min_h_parallel
  rw [hs]
  rfl

theorem extract_min_mem (mem : Mem) (ll : LinkedList) (lo : List Nat) (rank nprocs : Int)
    (h : Holds mem ll lo) (hsz : ll.size = lo.length) (hne : lo ≠ [])
    (hP : 1 ≤ nprocs) (hr0 : 0 ≤ rank) (hr : rank < nprocs)
    (hov : (rank + 1) * lo.length ≤ INT_MAX) (h2P : nprocs * 2 ≤ INT_MAX)
    (a : Option Nat) (ha : extract_min mem ll rank nprocs = Except.ok a) :
    a = none ∨ ∃ x ∈ lo, a = some x := by
  by_cases hlt : ll.size < nprocs * 2
  · rw [extract_min_small mem ll lo rank nprocs h hsz hne hP hr0 hr hov h2P hlt] at ha
    obtain ⟨x, r, rfl⟩ : ∃ x r, lo = x :: r := by
      cases lo with
      | nil => exact absurd rfl hne
      | cons x r => exact ⟨x, r, rfl⟩
    rw [find_min_h_eq mem ll x r h] at ha
    cases ha
    cases hq : (scan_min mem (x :: r) INT_MAX none).2 with
    | none => exact Or.inl rfl
    | some y => exact Or.inr ⟨y, scan_min_mem mem _ _ y hq, rfl⟩
  · have hge : nprocs * 2 ≤ ll.size := by omega
    rw [extract_min_large mem ll lo rank nprocs h hsz hP hr0 hr hov h2P hge] at ha
    cases ha
    obtain ⟨f0, f1, f2⟩ := range_facts rank nprocs ll.size hP hr0 hr hge
    rw [hsz] at f0 f1 f2
    obtain ⟨s1, -, -⟩ := index_range_split lo _ _ f0 (by omega) f2
    cases hq : (scan_min mem (index_range lo (rank * (lo.length : Int) / nprocs)
        ((rank + 1) * (lo.length : Int) / nprocs)) INT_MAX none).2 with
    | none => exact Or.inl rfl
    | some y =>
      refine Or.inr ⟨y, ?_, rfl⟩
      have := scan_min_mem mem _ _ y hq
      rw [s1]
      simp only [List.mem_append]
      exact Or.inl (Or.inr this)

theorem find_min_h_some (mem : Mem) (ll : LinkedList) (l : List Nat)
    (hne : l ≠ []) (h : Holds mem ll l) (hs : ∀ a ∈ l, score_at mem a < INT_MAX) :
    ∃ a ∈ l, find_min_h mem ll = Except.ok (some a) := by
  cases l with
  | nil => exact absurd rfl hne
  | cons x r =>
    rw [find_min_h_eq mem ll x r h]
    rcases scan_min_spec mem (x :: r) INT_MAX none with ⟨h1, -⟩ | ⟨pre, a, post, h1, h2, -⟩
    · have := h1 x (List.mem_cons_self x r)
      have := hs x (List.mem_cons_self x r)
      omega
    · exact ⟨a, by rw [h1]; simp, by rw [h2]⟩

theorem in_list_ne_zero (mem : Mem) (ll : LinkedList) (l : List Nat) (h : Holds mem ll l)
    (a : Nat) (nd : Node) (hn : mem.get? a = some nd) (r : Int)
    (hin : in_list mem ll (some a) = Except.ok r) (hr : r ≠ 0) :
    ∀ b ∈ l, compare_boards (grid_at mem b) nd.board.board ≠ 0 := by
  intro b hb hc
  rw [in_list_hit mem ll l h a nd hn ⟨b, hb, hc⟩] at hin
  simp only [Except.ok.injEq] at hin
  exact hr hin.symm

theorem distinct_frame (mem mem2 : Mem) (l : List Nat)
    (hg : ∀ b ∈ l, grid_at mem2 b = grid_at mem b) (h : Distinct mem l) : Distinct mem2 l := by
  unfold Distinct at h ⊢
  refine List.Pairwise.imp_of_mem ?_ h
  intro x y hx hy hxy
  rw [hg x hx, hg y hy]
  exact hxy

theorem compare_boards_symm (x y : Grid) (h : compare_boards x y ≠ 0) :
    compare_boards y x ≠ 0 := by
  intro hc
  exact h ((compare_boards_eq x y).mpr ((compare_boards_eq y x).mp hc).symm)

theorem merge_step_layout (s : State) (c : Board) (lo lc : List Nat) (mem2 : Mem)
    (ol2 : LinkedList) (hL : Layout s lo lc) (hD : Distinct s.mem (lo ++ lc))
    (h : MergeStep s.mem s.closed_list s.open_list c mem2 ol2) :
    ∃ lo2, Layout { s with mem := mem2, open_list := ol2 } lo2 lc ∧
      Distinct mem2 (lo2 ++ lc) ∧ mem2.length = s.mem.length + 1 := by
  have hnew : (s.mem ++ [node_of (copy_board c make_empty_board) none]).get? s.mem.length =
      some (node_of (copy_board c make_empty_board) none) := get_append_new s.mem _
  have hlen1 : s.mem.length ≤ (s.mem ++ [node_of (copy_board c make_empty_board) none]).length := by
    simp
  have hL1 : Layout { s with mem := s.mem ++ [node_of (copy_board c make_empty_board) none] }
      lo lc :=
    layout_frame s lo lc _ hL hlen1 (fun b hb => next_at_append s.mem _ b hb)
  have hg1 : ∀ b, b < s.mem.length →
      grid_at (s.mem ++ [node_of (copy_board c make_empty_board) none]) b = grid_at s.mem b :=
    fun b hb => grid_at_append s.mem _ b hb
  have hlo := linked_lt s.mem lo hL.ho.2.2.1
  have hlc := linked_lt s.mem lc hL.hc.2.2.1
  have hall : ∀ b ∈ lo ++ lc, b < s.mem.length := by
    intro b hb
    rcases List.mem_append.mp hb with hb | hb
    · exact hlo b hb
    · exact hlc b hb
  have hD1 : Distinct (s.mem ++ [node_of (copy_board c make_empty_board) none]) (lo ++ lc) :=
    distinct_frame _ _ _ (fun b hb => hg1 b (hall b hb)) hD
  rcases h with ⟨rfl, rfl⟩ | ⟨rfl, tmp, par, sc, h3⟩ | ⟨r1, r2, hr1, hr2, hin1, hin2, hp⟩
  · exact ⟨lo, hL1, hD1, by simp⟩
  · obtain ⟨e1, e2, e3⟩ := set_parent_score_ok _ _ _ _ _ h3
    have hL2 := layout_frame
      { s with mem := s.mem ++ [node_of (copy_board c make_empty_board) none] } lo lc mem2 hL1
      (by rw [e1]) (fun b _ => e2 b)
    exact ⟨lo, hL2, distinct_frame _ _ _ (fun b _ => e3 b) hD1, by rw [e1]; simp⟩
  · have hfresh_o : s.mem.length ∉ lo := fun hm => Nat.lt_irrefl _ (hlo _ hm)
    have hfresh_c : s.mem.length ∉ lc := fun hm => Nat.lt_irrefl _ (hlc _ hm)
    obtain ⟨m2, ol3, hp3, hH, hS, hG, -, hLen⟩ := push_holds
      (s.mem ++ [node_of (copy_board c make_empty_board) none]) s.open_list lo
      s.mem.length hL1.ho hL1.so (by simp) hfresh_o
    rw [hp] at hp3
    simp only [Except.ok.injEq, Prod.mk.injEq] at hp3
    obtain ⟨rfl, rfl⟩ := hp3
    have hF := push_frame (s.mem ++ [node_of (copy_board c make_empty_board) none])
      s.open_list lo s.mem.length hL1.ho hL1.so mem2 ol2 hp
    have hmo := in_list_ne_zero _ _ lo hL1.ho _ _ hnew r2 hin2 hr2
    have hmc := in_list_ne_zero _ _ lc hL1.hc _ _ hnew r1 hin1 hr1
    refine ⟨lo ++ [s.mem.length], ⟨hH, hS, ?_, hL.sc, ?_, ?_⟩, ?_, by rw [hLen]; simp⟩
    · apply holds_frame (s.mem ++ [node_of (copy_board c make_empty_board) none]) mem2 _ lc
        (by rw [hLen]) hL1.hc
      intro a ha
      apply hF
      intro e
      exact hL.disj a (List.mem_of_getLast?_eq_some e) (List.mem_of_mem_dropLast ha)
    · intro a ha
      rcases List.mem_append.mp ha with ha | ha
      · exact hL.disj a ha
      · rw [List.mem_singleton] at ha
        rw [ha]; exact hfresh_c
    · intro t ht
      rw [List.getLast?_concat] at ht
      cases ht
      left
      rw [hF s.mem.length (fun e => hfresh_o (List.mem_of_getLast?_eq_some e)),
        next_at_eq _ _ _ hnew]
    · have hD2 : Distinct mem2 (lo ++ lc) := distinct_frame _ _ _ (fun b _ => hG b) hD1
      have hgn : grid_at mem2 s.mem.length = (copy_board c make_empty_board).board := by
        rw [hG, grid_at_eq _ _ _ hnew]
      unfold Distinct at hD2 ⊢
      rw [List.pairwise_append] at hD2 ⊢
      obtain ⟨d1, d2, d3⟩ := hD2
      refine ⟨?_, d2, ?_⟩
      · rw [List.pairwise_append]
        refine ⟨d1, List.pairwise_singleton _ _, ?_⟩
        intro x hx y hy
        rw [List.mem_singleton] at hy
        subst hy
        rw [hgn, hG]
        exact hmo x hx
      · intro x hx y hy
        rcases List.mem_append.mp hx with hx | hx
        · exact d3 x hx y hy
        · rw [List.mem_singleton] at hx
          subst hx
          rw [hgn, hG]
          exact compare_boards_symm _ _ (hmc y hy)
theorem merge_one_step (s s2 : State) (c : Board) (h : merge_one s c = Except.ok s2) :
    s2 = { s with mem := s2.mem, open_list := s2.open_list } ∧
      MergeStep s.mem s.closed_list s.open_list c s2.mem s2.open_list := by
  unfold merge_one at h
  simp only [bind_ok_iff] at h
  obtain ⟨r1, hin1, h⟩ := h
  split at h
  · simp only [pure_ok_iff] at h
    subst h
    exact ⟨rfl, Or.inl ⟨rfl, rfl⟩⟩
  · rename_i hr1
    simp only [bind_ok_iff] at h
    obtain ⟨r2, hin2, h⟩ := h
    split at h
    · simp only [bind_ok_iff] at h
      obtain ⟨tmp, -, t, -, h⟩ := h
      split at h
      · simp only [bind_ok_iff, pure_ok_iff] at h
        obtain ⟨m, h3, h4⟩ := h
        subst h4
        exact ⟨rfl, Or.inr (Or.inl ⟨rfl, _, _, _, h3⟩)⟩
      · simp only [pure_ok_iff] at h
        subst h
        exact ⟨rfl, Or.inl ⟨rfl, rfl⟩⟩
    · rename_i hr2
      simp only [bind_ok_iff, pure_ok_iff] at h
      obtain ⟨⟨m, ol⟩, hp, h2⟩ := h
      subst h2
      exact ⟨rfl, Or.inr (Or.inr ⟨r1, r2, hr1, hr2, hin1, hin2, hp⟩)⟩

theorem par_merge_one_step (s s2 : PState) (c : Board) (h : par_merge_one s c = Except.ok s2) :
    s2 = { s with mem := s2.mem, open_list := s2.open_list } ∧
      MergeStep s.mem s.closed_list s.open_list c s2.mem s2.open_list := by
  unfold par_merge_one at h
  simp only [bind_ok_iff] at h
  obtain ⟨r1, hin1, h⟩ := h
  split at h
  · simp only [pure_ok_iff] at h
    subst h
    exact ⟨rfl, Or.inl ⟨rfl, rfl⟩⟩
  · rename_i hr1
    simp only [bind_ok_iff] at h
    obtain ⟨r2, hin2, h⟩ := h
    split at h
    · simp only [bind_ok_iff] at h
      obtain ⟨tmp, -, t, -, h⟩ := h
      split at h
      · simp only [bind_ok_iff, pure_ok_iff] at h
        obtain ⟨m, h3, h4⟩ := h
        subst h4
        exact ⟨rfl, Or.inr (Or.inl ⟨rfl, _, _, _, h3⟩)⟩
      · simp only [pure_ok_iff] at h
        subst h
        exact ⟨rfl, Or.inl ⟨rfl, rfl⟩⟩
    · rename_i hr2
      simp only [bind_ok_iff, pure_ok_iff] at h
      obtain ⟨⟨m, ol⟩, hp, h2⟩ := h
      subst h2
      exact ⟨rfl, Or.inr (Or.inr ⟨r1, r2, hr1, hr2, hin1, hin2, hp⟩)⟩

theorem merge_fold_distinct (lc : List Nat) : ∀ (cs : List Board) (s s2 : State),
    (∃ lo, Layout s lo lc ∧ Distinct s.mem (lo ++ lc)) → cs.foldlM merge_one s = Except.ok s2 →
    (∃ lo2, Layout s2 lo2 lc ∧ Distinct s2.mem (lo2 ++ lc)) ∧
      s2.mem.length = s.mem.length + cs.length ∧ s2.iters = s.iters
  | [], s, s2, hi, h => by
    simp only [List.foldlM_nil, pure_ok_iff] at h
    subst h
    exact ⟨hi, rfl, rfl⟩
  | c :: cs, s, s2, ⟨lo, hL, hD⟩, h => by
    simp only [List.foldlM_cons, bind_ok_iff] at h
    obtain ⟨s1, h1, h2⟩ := h
    obtain ⟨e, hm⟩ := merge_one_step s s1 c h1
    obtain ⟨lo1, hL1, hD1, hlen1⟩ := merge_step_layout s c lo lc s1.mem s1.open_list hL hD hm
    rw [← e] at hL1
    obtain ⟨hi2, hlen2, hit2⟩ := merge_fold_distinct lc cs s1 s2 ⟨lo1, hL1, hD1⟩ h2
    refine ⟨hi2, ?_, ?_⟩
    · rw [hlen2, hlen1, List.length_cons]; omega
    · rw [hit2, e]

theorem par_merge_fold_distinct (lc : List Nat) : ∀ (cs : List Board) (s s2 : PState),
    (∃ lo, Layout s.core lo lc ∧ Distinct s.mem (lo ++ lc)) →
    cs.foldlM par_merge_one s = Except.ok s2 →
    (∃ lo2, Layout s2.core lo2 lc ∧ Distinct s2.mem (lo2 ++ lc)) ∧
      s2.mem.length = s.mem.length + cs.length
  | [], s, s2, hi, h => by
    simp only [List.foldlM_nil, pure_ok_iff] at h
    subst h
    exact ⟨hi, rfl⟩
  | c :: cs, s, s2, ⟨lo, hL, hD⟩, h => by
    simp only [List.foldlM_cons, bind_ok_iff] at h
    obtain ⟨s1, h1, h2⟩ := h
    obtain ⟨e, hm⟩ := par_merge_one_step s s1 c h1
    obtain ⟨lo1, hL1, hD1, hlen1⟩ :=
      merge_step_layout s.core c lo lc s1.mem s1.open_list hL hD hm
    have e2 : ({ s.core with mem := s1.mem, open_list := s1.open_list } : State) = s1.core := by
      rw [e]; rfl
    rw [e2] at hL1
    obtain ⟨hi2, hlen2⟩ := par_merge_fold_distinct lc cs s1 s2 ⟨lo1, hL1, hD1⟩ h2
    refine ⟨hi2, ?_⟩
    have hlen1b : s1.mem.length = s.mem.length + 1 := hlen1
    rw [hlen2, hlen1b, List.length_cons]; omega
theorem move_layout (s : State) (lo lc : List Nat) (a : Nat) (m1 m2 : Mem)
    (cl ol : LinkedList) (hL : Layout s lo lc) (ha : a ∈ lo)
    (h3 : push s.mem s.closed_list (some a) = Except.ok (m1, cl))
    (h4 : remove_node m1 s.open_list (some a) = Except.ok (m2, ol)) :
    Layout { mem := m2, closed_list := cl, open_list := ol, iters := s.iters }
      (lo.erase a) (lc ++ [a]) ∧ m2.length = s.mem.length ∧
      ∀ b, grid_at m2 b = grid_at s.mem b := by
  have hlo := linked_lt s.mem lo hL.ho.2.2.1
  have hlc := linked_lt s.mem lc hL.hc.2.2.1
  have halt : a < s.mem.length := hlo a ha
  have hac : a ∉ lc := hL.disj a ha
  obtain ⟨m1b, clb, hp, hHc, hSc, hG1, -, hLen1⟩ :=
    push_holds s.mem s.closed_list lc a hL.hc hL.sc halt hac
  rw [h3] at hp
  simp only [Except.ok.injEq, Prod.mk.injEq] at hp
  obtain ⟨rfl, rfl⟩ := hp
  have hF1 := push_frame s.mem s.closed_list lc a hL.hc hL.sc m1 cl h3
  have hF1o : ∀ b ∈ lo, next_at m1 b = next_at s.mem b := by
    intro b hb
    apply hF1
    intro e
    exact hL.disj b hb (List.mem_of_getLast?_eq_some e)
  have hHo1 : Holds m1 s.open_list lo :=
    holds_frame s.mem m1 _ lo (by rw [hLen1]) hL.ho
      (fun b hb => hF1o b (List.mem_of_mem_dropLast hb))
  have hcond : lo.getLast? = some a → 3 ≤ lo.length → next_at m1 a = some none ∨
      ∃ S : List Nat, (∀ x ∈ lo, x ∈ S) ∧ ∀ x ∈ S, ∃ y ∈ S, next_at m1 x = some (some y) := by
    intro hlast _
    rcases hL.tail a hlast with hcl | ⟨r, hr, hst⟩
    · left
      rw [hF1o a ha]; exact hcl
    · right
      have hst1 : next_at m1 a = some (some r) := by rw [hF1o a ha]; exact hst
      refine ⟨lo ++ (lc ++ [a]), fun x hx => List.mem_append_left _ hx, ?_⟩
      intro x hx
      by_cases hxa : x = a
      · subst hxa
        exact ⟨r, by simp [hr], hst1⟩
      · rcases List.mem_append.mp hx with hm | hm
        · obtain ⟨y, hy, hxy⟩ := linked_succ m1 lo x hHo1.2.2.1 hm
            (by rw [hlast]; simpa using fun e => hxa e.symm)
          exact ⟨y, List.mem_append_left _ hy, hxy⟩
        · obtain ⟨y, hy, hxy⟩ := linked_succ m1 (lc ++ [a]) x hHc.2.2.1 hm
            (by rw [List.getLast?_concat]; simpa using fun e => hxa e.symm)
          exact ⟨y, List.mem_append_right _ hy, hxy⟩
  obtain ⟨hHo2, hSo2, hLen2, hG2, hF2, hT2⟩ :=
    remove_holds m1 s.open_list lo a hHo1 hL.so ha hcond m2 ol h4
  have hnd_lo : lo.Nodup := hL.ho.2.2.2
  have hHc2 : Holds m2 cl (lc ++ [a]) := by
    apply holds_frame m1 m2 _ _ (by rw [hLen2]) hHc
    intro b hb
    rw [List.dropLast_concat] at hb
    exact hF2 b (fun hm => hL.disj b hm hb)
  have hdisj2 : ∀ x ∈ lo.erase a, x ∉ lc ++ [a] := by
    intro x hx hm
    have hx1 : x ∈ lo := List.mem_of_mem_erase hx
    rcases List.mem_append.mp hm with hm | hm
    · exact hL.disj x hx1 hm
    · rw [List.mem_singleton] at hm
      subst hm
      exact (List.Nodup.mem_erase_iff hnd_lo).mp hx |>.1 rfl
  have hTail2 : TailOK m2 (lo.erase a) (lc ++ [a]) := by
    intro t ht
    rw [hT2 t ht]
    obtain ⟨s0, t0, hst⟩ := List.append_of_mem ha
    have hs0 : a ∉ s0 := by
      rw [hst] at hnd_lo
      exact fun hm => (List.nodup_append.mp hnd_lo).2.2 hm (List.mem_cons_self _ _)
    rw [hst, erase_mid s0 t0 a hs0] at ht
    cases t0 with
    | nil =>
      rw [List.append_nil] at ht
      obtain ⟨s1, hs1⟩ := List.getLast?_eq_some_iff.mp ht
      right
      refine ⟨a, by simp, ?_⟩
      have hl1 : Linked m1 (s1 ++ t :: a :: []) := by
        have := hHo1.2.2.1
        rw [hst, hs1] at this
        simpa using this
      exact linked_next m1 t a s1 [] hl1
    | cons z t1 =>
      have hlast : lo.getLast? = some t := by
        rw [hst, getLast_mid]
        rw [List.getLast?_append_of_ne_nil _ (by simp)] at ht
        exact ht
      have hmt : t ∈ lo := List.mem_of_getLast?_eq_some hlast
      rcases hL.tail t hlast with hcl | ⟨r, hr, hst2⟩
      · left; rw [hF1o t hmt]; exact hcl
      · right
        exact ⟨r, List.mem_append_left _ hr, by rw [hF1o t hmt]; exact hst2⟩
  refine ⟨⟨hHo2, hSo2, hHc2, hSc, hdisj2, hTail2⟩, by rw [hLen2, hLen1], ?_⟩
  intro b
  exact (hG2 b).trans (hG1 b)

theorem distinct_move (mem : Mem) (lo lc : List Nat) (a : Nat) (ha : a ∈ lo)
    (hnd : lo.Nodup) (h : Distinct mem (lo ++ lc)) :
    Distinct mem (lo.erase a ++ (lc ++ [a])) := by
  obtain ⟨s0, t0, hst⟩ := List.append_of_mem ha
  have hs0 : a ∉ s0 := by
    rw [hst] at hnd
    exact fun hm => (List.nodup_append.mp hnd).2.2 hm (List.mem_cons_self _ _)
  rw [hst, erase_mid s0 t0 a hs0]
  rw [hst] at h
  unfold Distinct at h ⊢
  have hperm : List.Perm (s0 ++ a :: t0 ++ lc) (s0 ++ t0 ++ (lc ++ [a])) := by
    have e1 : s0 ++ a :: t0 ++ lc = s0 ++ (a :: (t0 ++ lc)) := by simp
    have e2 : s0 ++ t0 ++ (lc ++ [a]) = s0 ++ ((t0 ++ lc) ++ [a]) := by simp
    rw [e1, e2]
    exact List.Perm.append_left s0 (List.perm_append_singleton a (t0 ++ lc)).symm
  exact (List.Perm.pairwise_iff (fun {x y} hxy => compare_boards_symm _ _ hxy) hperm).mp h
theorem expand_loop_length (brd : Board) : ∀ (l : List Action) (out : List Board),
    expand_loop brd l = some out → out.length ≤ l.length
  | [], out, h => by
    simp only [expand_loop, Option.some.injEq] at h
    subst h
    simp
  | act :: rest, out, h => by
    unfold expand_loop at h
    split at h
    · simp only [Option.some.injEq] at h
      subst h
      simp
    · simp only [Option.bind_eq_bind, Option.bind_eq_some, Option.pure_def,
        Option.some.injEq] at h
      obtain ⟨tmp, -, more, hm, rfl⟩ := h
      have := expand_loop_length brd rest more hm
      simp only [List.length_cons]
      omega

theorem expand_length (brd : Board) (out : List Board) (h : expand brd = some out) :
    out.length ≤ 4 := by
  unfold expand at h
  simp only [Option.bind_eq_bind, Option.bind_eq_some] at h
  obtain ⟨acts, -, h2⟩ := h
  have := expand_loop_length brd _ out h2
  rw [List.length_take] at this
  omega

theorem iteration_distinct (goal : Board) (s s2 : State) (lo lc : List Nat)
    (hL : Layout s lo lc) (hD : Distinct s.mem (lo ++ lc)) (hne : s.open_list.size ≠ 0)
    (h : iteration goal s = Except.ok (Sum.inl s2)) :
    ∃ lo2 lc2, Layout s2 lo2 lc2 ∧ Distinct s2.mem (lo2 ++ lc2) := by
  unfold iteration at h
  simp only [bind_ok_iff] at h
  obtain ⟨remove, h1, nd, h2, ⟨m1, cl⟩, h3, ⟨m2, ol⟩, h4, out, h5, h⟩ := h
  obtain ⟨a, rfl, hnd⟩ := (rd_ok _ _ _).mp h2
  have ha : a ∈ lo := by
    cases lo with
    | nil =>
      have := hL.so
      simp only [List.length_nil, Nat.cast_zero] at this
      exact absurd this hne
    | cons x r =>
      rw [find_min_h_eq s.mem s.open_list x r hL.ho] at h1
      simp only [Except.ok.injEq] at h1
      exact scan_min_mem s.mem _ _ a h1
  obtain ⟨hLmid, -, hG⟩ := move_layout s lo lc a m1 m2 cl ol hL ha h3 h4
  have hDmid : Distinct m2 (lo.erase a ++ (lc ++ [a])) :=
    distinct_frame s.mem m2 _ (fun b _ => hG b) (distinct_move s.mem lo lc a ha hL.ho.2.2.2 hD)
  split at h
  · simp only [pure_ok_iff] at h
    cases h
  · simp only [bind_ok_iff, pure_ok_iff] at h
    obtain ⟨s3, h6, h7⟩ := h
    simp only [Sum.inl.injEq] at h7
    subst h7
    obtain ⟨⟨lo3, hL3, hD3⟩, -, -⟩ :=
      merge_fold_distinct (lc ++ [a]) out _ s3 ⟨lo.erase a, hLmid, hDmid⟩ h6
    exact ⟨lo3, lc ++ [a], ⟨hL3.ho, hL3.so, hL3.hc, hL3.sc, hL3.disj, hL3.tail⟩, hD3⟩

theorem par_iteration_distinct (goal : Board) (rank nprocs flag : Int) (s s2 : PState)
    (lo lc : List Nat) (hL : Layout s.core lo lc) (hD : Distinct s.mem (lo ++ lc))
    (hne : s.open_list.size ≠ 0) (hP : 1 ≤ nprocs) (hr0 : 0 ≤ rank) (hr : rank < nprocs)
    (hfit : RangeFits rank nprocs s.open_list.size)
    (h : par_iteration goal rank nprocs flag s = Except.ok (s2, none)) :
    (∃ lo2 lc2, Layout s2.core lo2 lc2 ∧ Distinct s2.mem (lo2 ++ lc2)) ∧
      s2.mem.length ≤ s.mem.length + 4 := by
  obtain ⟨remove, nd, m1, cl, m2, ol, out, own, pr, h1, h2, h3, h4, h5, -, -, h⟩ :=
    par_iteration_inv goal rank nprocs flag s s2 none h
  obtain ⟨a, rfl, hnd⟩ := (rd_ok _ _ _).mp h2
  have hso : s.open_list.size = (lo.length : Int) := hL.so
  have hho : Holds s.mem s.open_list lo := hL.ho
  have hlo_ne : lo ≠ [] := by
    intro hnil
    rw [hnil] at hso
    exact hne hso
  have hov2 : (rank + 1) * (lo.length : Int) ≤ INT_MAX := by
    rw [← hso]; exact hfit.1
  have h2P : nprocs * 2 ≤ INT_MAX := hfit.2
  have ha : a ∈ lo := by
    rcases extract_min_mem s.mem s.open_list lo rank nprocs hho hso hlo_ne hP hr0 hr hov2 h2P
      (some a) h1 with hn | ⟨x, hx, hxa⟩
    · cases hn
    · simp only [Option.some.injEq] at hxa
      rw [hxa]; exact hx
  have h4b : remove_node m1 s.core.open_list (some a) = Except.ok (m2, ol) := by
    unfold remove_node
    rw [if_pos (by simp)]
    exact h4
  obtain ⟨hLmid, hlen2, hG⟩ := move_layout s.core lo lc a m1 m2 cl ol hL ha h3 h4b
  have hDmid : Distinct m2 (lo.erase a ++ (lc ++ [a])) :=
    distinct_frame s.mem m2 _ (fun b _ => hG b) (distinct_move s.mem lo lc a ha hho.2.2.2 hD)
  rcases h with ⟨-, hrc, -⟩ | ⟨-, -, s3, h6, rfl⟩
  · cases hrc
  · obtain ⟨⟨lo3, hL3, hD3⟩, hlen3⟩ :=
      par_merge_fold_distinct (lc ++ [a]) out
        (PState.mk m2 cl ol s.iters (bcast rank own flag) pr) s3 ⟨lo.erase a, hLmid, hDmid⟩ h6
    refine ⟨⟨lo3, lc ++ [a], ⟨hL3.ho, hL3.so, hL3.hc, hL3.sc, hL3.disj, hL3.tail⟩, hD3⟩, ?_⟩
    have := expand_length _ out h5
    have hlen3b : s3.mem.length = m2.length + out.length := hlen3
    have hlen2b : m2.length = s.mem.length := hlen2
    show s3.mem.length ≤ s.mem.length + 4
    omega
theorem traverse_eq (mem : Mem) : ∀ (l : List Nat) (x : Nat), Linked mem (x :: l) →
    (x :: l).Nodup → ∀ fuel, l.length < fuel →
    traverse mem (x :: l).getLast? fuel (some x) = x :: l
  | [], x, _, _, fuel, hf => by
    obtain ⟨n, rfl⟩ : ∃ n, fuel = n + 1 := ⟨fuel - 1, by simp at hf; omega⟩
    simp [traverse]
  | y :: r, x, hl, hd, fuel, hf => by
    simp only [List.length_cons] at hf
    obtain ⟨n, rfl⟩ : ∃ n, fuel = n + 1 := ⟨fuel - 1, by omega⟩
    obtain ⟨nd, hx, hnx⟩ := linked_head mem x y r hl
    have hne := head_ne_last x y r hd
    have ih := traverse_eq mem r y hl.2 (List.nodup_cons.mp hd).2 n (by omega)
    have e1 : (x :: y :: r).getLast? = (y :: r).getLast? := by simp [List.getLast?_cons_cons]
    rw [e1]
    show (if (some x : Option Nat) = (y :: r).getLast? then [x]
      else x :: traverse mem (y :: r).getLast? n ((mem.get? x).bind fun nd => nd.next)) = _
    rw [if_neg hne, hx]
    simp only [Option.some_bind, hnx]
    rw [ih]

theorem contents_holds (mem : Mem) (ll : LinkedList) (l : List Nat) (h : Holds mem ll l) :
    contents mem ll = l := by
  obtain ⟨hh, ht, hl, hd⟩ := h
  have hlen := holds_length mem ll l ⟨hh, ht, hl, hd⟩
  cases l with
  | nil =>
    unfold contents
    rw [if_pos (show ll.head = none from hh)]
  | cons x r =>
    unfold contents
    rw [if_neg (by rw [hh]; simp), hh, ht]
    exact traverse_eq mem r x hl hd _ (by simp only [List.length_cons] at hlen; omega)

theorem init_layout (start : Board) (it : Int) :
    Layout { mem := [({ board := { start with h_score := manhattan_distance start },
                        next := none } : Node)],
             closed_list := make_list,
             open_list := { size := 1, head := some 0, tail := some 0 },
             iters := it } [0] [] ∧
    Distinct [({ board := { start with h_score := manhattan_distance start },
                 next := none } : Node)] ([0] ++ []) := by
  refine ⟨⟨⟨rfl, rfl, ?_, by simp⟩, rfl, ⟨rfl, rfl, trivial, by simp⟩, rfl, ?_, ?_⟩, ?_⟩
  · show 0 < 1
    omega
  · intro a _ hc
    simp at hc
  · intro t ht
    simp only [List.getLast?_singleton, Option.some.injEq] at ht
    subst ht
    left
    rfl
  · unfold Distinct
    simp

theorem state_at_distinct (start goal : Board) (n : Nat) (s : State)
    (h : state_at start goal n = Except.ok (some s)) :
    ∃ lo lc, Layout s lo lc ∧ Distinct s.mem (lo ++ lc) := by
  unfold state_at at h
  rw [init_state_ok] at h
  simp only [bind_ok_iff] at h
  obtain ⟨s0, hs0, h⟩ := h
  simp only [Except.ok.injEq] at hs0
  subst hs0
  split at h
  · simp only [pure_ok_iff] at h
    cases h
  · exact loop_state_inv goal (fun st => ∃ lo lc, Layout st lo lc ∧ Distinct st.mem (lo ++ lc))
      (fun st st2 hi hsz hit => by
        obtain ⟨lo, lc, hL, hD⟩ := hi
        exact iteration_distinct goal st st2 lo lc hL hD hsz hit) n _ s
      ⟨[0], [], (init_layout start 0).1, (init_layout start 0).2⟩ h

theorem par_state_at_distinct (start goal : Board) (rank nprocs : Int) (flags : List Int)
    (s : PState) (hP : 1 ≤ nprocs) (hr0 : 0 ≤ rank) (hr : rank < nprocs)
    (hov : nprocs * (4 * (flags.length : Int) + 1) ≤ INT_MAX)
    (h : par_state_at start goal rank nprocs flags = Except.ok (some s)) :
    ∃ lo lc, Layout s.core lo lc ∧ Distinct s.mem (lo ++ lc) := by
  unfold par_state_at at h
  rw [par_init_state_ok] at h
  simp only [bind_ok_iff] at h
  obtain ⟨s0, hs0, h⟩ := h
  simp only [Except.ok.injEq] at hs0
  subst hs0
  split at h
  · simp only [pure_ok_iff] at h
    cases h
  · have key := par_loop_state_inv goal rank nprocs flags.length
      (fun k st => (∃ lo lc, Layout st.core lo lc ∧ Distinct st.mem (lo ++ lc)) ∧
        st.mem.length ≤ 4 * k + 1)
      (fun k f st st2 hk hi hsz hit => by
        obtain ⟨⟨lo, lc, hL, hD⟩, hm⟩ := hi
        have hK : (4 * (k : Int) + 1) + 4 ≤ 4 * (flags.length : Int) + 1 := by omega
        have hb1 : nprocs * (st.mem.length : Int) ≤ nprocs * (4 * (flags.length : Int) + 1) :=
          mul_le_mul_of_nonneg_left (by omega) (by omega)
        have hb2 : nprocs * 2 ≤ nprocs * (4 * (flags.length : Int) + 1) :=
          mul_le_mul_of_nonneg_left (by omega) (by omega)
        have hlen : lo.length ≤ st.mem.length := holds_length st.mem st.open_list lo hL.ho
        have hso : st.open_list.size = (lo.length : Int) := hL.so
        have hb3 : (rank + 1) * st.open_list.size ≤ nprocs * (st.mem.length : Int) := by
          rw [hso]
          exact mul_le_mul (by omega) (by exact_mod_cast hlen) (by omega) (by omega)
        obtain ⟨h1, h2⟩ := par_iteration_distinct goal rank nprocs f st st2 lo lc hL hD hsz
          hP hr0 hr ⟨le_trans hb3 (le_trans hb1 hov), le_trans hb2 hov⟩ hit
        exact ⟨h1, by omega⟩)
      flags 0 (PState.mk [node_of { start with h_score := manhattan_distance start } none]
        make_list (LinkedList.mk 1 (some 0) (some 0)) 1 0 []) s (by omega)
      ⟨⟨[0], [], (init_layout start 1).1, (init_layout start 1).2⟩, by simp⟩ h
    exact key.1

theorem par_loop_state_fits (goal : Board) (rank nprocs : Int) (I : PState → Prop)
    (hstep : ∀ f s s2, I s → RangeFits rank nprocs s.open_list.size → s.open_list.size ≠ 0 →
      par_iteration goal rank nprocs f s = Except.ok (s2, none) → I s2) :
    ∀ (fs : List Int) (s s2 : PState), I s →
      (∀ j sj, j < fs.length → par_loop_state goal rank nprocs (fs.take j) s =
        Except.ok (some sj) → RangeFits rank nprocs sj.open_list.size) →
      par_loop_state goal rank nprocs fs s = Except.ok (some s2) → I s2
  | [], s, s2, hi, _, h => by
    simp only [par_loop_state, pure_ok_iff, Option.some.injEq] at h
    subst h
    exact hi
  | f :: fs, s, s2, hi, hfit, h => by
    have hfit0 : RangeFits rank nprocs s.open_list.size :=
      hfit 0 s (by simp) rfl
    unfold par_loop_state at h
    split at h
    · rename_i hsz
      simp only [bind_ok_iff] at h
      obtain ⟨⟨s1, rc⟩, hr, h⟩ := h
      cases rc with
      | some c =>
        simp only [pure_ok_iff] at h
        cases h
      | none =>
        have h2 : par_loop_state goal rank nprocs fs s1 = Except.ok (some s2) := h
        refine par_loop_state_fits goal rank nprocs I hstep fs s1 s2
          (hstep f s s1 hi hfit0 hsz hr) ?_ h2
        intro j sj hj hsj
        apply hfit (j + 1) sj (by simp only [List.length_cons]; omega)
        rw [List.take_succ_cons]
        conv_lhs => unfold par_loop_state
        rw [if_pos hsz, hr]
        exact hsj
    · simp only [pure_ok_iff] at h
      cases h

theorem par_state_at_fits (start goal : Board) (rank nprocs : Int) (flags : List Int)
    (s : PState) (hP : 1 ≤ nprocs) (hr0 : 0 ≤ rank) (hr : rank < nprocs)
    (hfit : ∀ j sj, j < flags.length →
      par_state_at start goal rank nprocs (flags.take j) = Except.ok (some sj) →
      RangeFits rank nprocs sj.open_list.size)
    (h : par_state_at start goal rank nprocs flags = Except.ok (some s)) :
    ∃ lo lc, Layout s.core lo lc ∧ Distinct s.mem (lo ++ lc) := by
  have hcmp : ¬ compare_boards start.board goal.board = 0 := by
    intro hc
    unfold par_state_at at h
    rw [par_init_state_ok] at h
    simp only [bind_ok_iff] at h
    obtain ⟨s0, -, h⟩ := h
    rw [if_pos hc] at h
    cases h
  have hpar : ∀ fs, par_state_at start goal rank nprocs fs =
      par_loop_state goal rank nprocs fs
        (PState.mk [node_of { start with h_score := manhattan_distance start } none]
          make_list (LinkedList.mk 1 (some 0) (some 0)) 1 0 []) := by
    intro fs
    unfold par_state_at
    rw [par_init_state_ok]
    simp only [ok_bind]
    rw [if_neg hcmp]
  rw [hpar] at h
  exact par_loop_state_fits goal rank nprocs
    (fun st => ∃ lo lc, Layout st.core lo lc ∧ Distinct st.mem (lo ++ lc))
    (fun f st st2 hi hf hsz hit => by
      obtain ⟨lo, lc, hL, hD⟩ := hi
      exact (par_iteration_distinct goal rank nprocs f st st2 lo lc hL hD hsz hP hr0 hr hf hit).1)
    flags (PState.mk [node_of { start with h_score := manhattan_distance start } none]
      make_list (LinkedList.mk 1 (some 0) (some 0)) 1 0 []) s
    ⟨[0], [], (init_layout start 1).1, (init_layout start 1).2⟩
    (fun j sj hj hsj => hfit j sj hj (by rw [hpar]; exact hsj)) h
theorem unique_of_layout (s : State) (lo lc : List Nat) (hL : Layout s lo lc)
    (hD : Distinct s.mem (lo ++ lc)) : UniqueBoards s.mem s.open_list s.closed_list := by
  unfold UniqueBoards
  rw [contents_holds s.mem s.open_list lo hL.ho, contents_holds s.mem s.closed_list lc hL.hc]
  unfold Distinct at hD ⊢
  rw [List.pairwise_append] at hD
  exact ⟨hL.ho, hL.hc, hD.1, hD.2.1, hD.2.2⟩

theorem par_state_at_nil (start goal : Board) (rank nprocs : Int)
    (h : compare_boards start.board goal.board ≠ 0) :
    par_state_at start goal rank nprocs [] = Except.ok (some
      (PState.mk [node_of { start with h_score := manhattan_distance start } none]
        make_list (LinkedList.mk 1 (some 0) (some 0)) 1 0 [])) := by
  unfold par_state_at
  rw [par_init_state_ok]
  simp only [ok_bind]
  rw [if_neg h]
  rfl

theorem range_member_iff (r P s i : Int) (hP : 0 < P) :
    (r * s / P ≤ i ∧ i < (r + 1) * s / P) ↔ (r * s < (i + 1) * P ∧ (i + 1) * P ≤ (r + 1) * s) := by
  constructor
  · rintro ⟨h1, h2⟩
    refine ⟨?_, ?_⟩
    · exact (Int.ediv_lt_iff_lt_mul hP).mp (by omega)
    · exact (Int.le_ediv_iff_mul_le hP).mp (by omega)
  · rintro ⟨h1, h2⟩
    have a1 := (Int.ediv_lt_iff_lt_mul hP).mpr h1
    have a2 := (Int.le_ediv_iff_mul_le hP).mpr h2
    omega

theorem range_owner (P s i : Int) (hP : 1 ≤ P) (hi0 : 0 ≤ i) (hi : i < s) :
    ∃ r, 0 ≤ r ∧ r < P ∧ (r * s / P ≤ i ∧ i < (r + 1) * s / P) ∧
      ∀ r2, 0 ≤ r2 → r2 < P → (r2 * s / P ≤ i ∧ i < (r2 + 1) * s / P) → r2 = r := by
  have hs : 0 < s := by omega
  have hp : 0 < P := by omega
  have hx : 0 ≤ (i + 1) * P - 1 := by nlinarith
  have e1 : ((i + 1) * P - 1) / s * s ≤ (i + 1) * P - 1 := Int.ediv_mul_le _ (by omega)
  have e2 : (i + 1) * P - 1 < (((i + 1) * P - 1) / s + 1) * s :=
    Int.lt_ediv_add_one_mul_self _ hs
  refine ⟨((i + 1) * P - 1) / s, Int.ediv_nonneg hx (by omega), ?_, ?_, ?_⟩
  · apply Int.ediv_lt_of_lt_mul hs
    nlinarith
  · rw [range_member_iff _ P s i hp]
    constructor <;> omega
  · intro r2 _ _ h2
    rw [range_member_iff _ P s i hp] at h2
    obtain ⟨a1, a2⟩ := h2
    by_contra hne
    rcases lt_or_gt_of_ne hne with hlt | hgt
    · have : (r2 + 1) * s ≤ ((i + 1) * P - 1) / s * s :=
        mul_le_mul_of_nonneg_right (by omega) (by omega)
      omega
    · have : (((i + 1) * P - 1) / s + 1) * s ≤ r2 * s :=
        mul_le_mul_of_nonneg_right (by omega) (by omega)
      omega

theorem range_tiles (P s : Int) (hP : 1 ≤ P) (hs : 0 ≤ s) :
    0 * s / P = 0 ∧ ((P - 1) + 1) * s / P = s ∧
      ∀ r, 0 ≤ r → r * s / P ≤ (r + 1) * s / P := by
  refine ⟨by simp, ?_, ?_⟩
  · rw [sub_add_cancel, Int.mul_ediv_cancel_left _ (by omega)]
  · intro r hr
    apply Int.ediv_le_ediv (by omega)
    nlinarith
theorem mem_index_range (l : List Nat) (i : Nat) (a : Nat) (hi : l.get? i = some a)
    (first stop : Int) (h0 : 0 ≤ first) (h1 : first ≤ i) (h2 : (i : Int) < stop) :
    a ∈ index_range l first stop := by
  unfold index_range
  rw [List.mem_iff_get?]
  refine ⟨i - first.toNat, ?_⟩
  rw [List.get?_drop, List.get?_take (by omega)]
  have e : first.toNat + (i - first.toNat) = i := by omega
  rw [e]
  exact hi

theorem all_ranks_cover (mem : Mem) (ll : LinkedList) (lo : List Nat) (nprocs : Int)
    (h : Holds mem ll lo) (hsz : ll.size = lo.length) (hne : lo ≠ []) (hP : 1 ≤ nprocs)
    (hov : nprocs * ll.size ≤ INT_MAX) (h2P : nprocs * 2 ≤ INT_MAX)
    (hs : ∀ a ∈ lo, score_at mem a < INT_MAX) :
    ∃ r, 0 ≤ r ∧ r < nprocs ∧ ∃ a ∈ lo, extract_min mem ll r nprocs = Except.ok (some a) ∧
      ∀ b ∈ lo, score_at mem a ≤ score_at mem b := by
  have hlen0 : (0 : Int) ≤ lo.length := by omega
  have hovr : ∀ r, 0 ≤ r → r < nprocs → (r + 1) * (lo.length : Int) ≤ INT_MAX := by
    intro r _ hr
    have : (r + 1) * (lo.length : Int) ≤ nprocs * (lo.length : Int) :=
      mul_le_mul_of_nonneg_right (by omega) hlen0
    rw [hsz] at hov
    omega
  obtain ⟨x, r0, hxr⟩ : ∃ x r0, lo = x :: r0 := by
    cases lo with
    | nil => exact absurd rfl hne
    | cons x r0 => exact ⟨x, r0, rfl⟩
  -- the node of least score of the whole list
  have hfm := find_min_h_eq mem ll x r0 (by rw [← hxr]; exact h)
  rw [← hxr] at hfm
  rcases scan_min_spec mem lo INT_MAX none with ⟨g1, -⟩ | ⟨pre, m, post, g1, g2, -, g4, g5⟩
  · exfalso
    have := g1 x (by rw [hxr]; simp)
    have := hs x (by rw [hxr]; simp)
    omega
  have hm : m ∈ lo := by rw [g1]; simp
  have hmin : ∀ b ∈ lo, score_at mem m ≤ score_at mem b := by
    intro b hb
    rw [g1] at hb
    rcases List.mem_append.mp hb with hb | hb
    · exact le_of_lt (g4 b hb)
    · rcases List.mem_cons.mp hb with rfl | hb
      · exact le_refl _
      · exact g5 b hb
  by_cases hlt : ll.size < nprocs * 2
  · refine ⟨0, le_refl 0, by omega, m, hm, ?_, hmin⟩
    rw [extract_min_small mem ll lo 0 nprocs h hsz hne hP (le_refl 0) (by omega)
      (hovr 0 (le_refl 0) (by omega)) h2P hlt, hfm, g2]
  · have hge : nprocs * 2 ≤ ll.size := by omega
    obtain ⟨i, hi⟩ := List.mem_iff_get?.mp hm
    have hil : i < lo.length := by
      by_contra hc
      rw [List.get?_eq_none.mpr (by omega)] at hi
      cases hi
    obtain ⟨r, hr0, hr, ⟨hin1, hin2⟩, -⟩ :=
      range_owner nprocs (lo.length : Int) (i : Int) hP (by omega) (by exact_mod_cast hil)
    obtain ⟨f0, f1, f2⟩ := range_facts r nprocs ll.size hP hr0 hr hge
    rw [hsz] at f0 f1 f2
    obtain ⟨s1, -, -⟩ := index_range_split lo _ _ f0 (by omega) f2
    have hmr := mem_index_range lo i m hi _ _ f0 hin1 hin2
    have hx := extract_min_large mem ll lo r nprocs h hsz hP hr0 hr (hovr r hr0 hr) h2P hge
    rcases scan_min_spec mem (index_range lo (r * (lo.length : Int) / nprocs)
        ((r + 1) * (lo.length : Int) / nprocs)) INT_MAX none with
      ⟨q1, -⟩ | ⟨pre2, a, post2, q1, q2, -, q4, q5⟩
    · exfalso
      have := q1 m hmr
      have := hs m hm
      omega
    · have ha : a ∈ lo := by
        rw [s1, q1]; simp
      refine ⟨r, hr0, hr, a, ha, by rw [hx, q2], ?_⟩
      have ham : score_at mem a ≤ score_at mem m := by
        rw [q1] at hmr
        rcases List.mem_append.mp hmr with hb | hb
        · exact le_of_lt (q4 m hb)
        · rcases List.mem_cons.mp hb with hb | hb
          · rw [hb]
          · exact q5 m hb
      intro b hb
      exact le_trans ham (hmin b hb)
theorem extract_min_some (mem : Mem) (ll : LinkedList) (lo : List Nat) (rank nprocs : Int)
    (h : Holds mem ll lo) (hsz : ll.size = lo.length) (hne : lo ≠ [])
    (hP : 1 ≤ nprocs) (hr0 : 0 ≤ rank) (hr : rank < nprocs)
    (hov : (rank + 1) * lo.length ≤ INT_MAX) (h2P : nprocs * 2 ≤ INT_MAX)
    (hs : ∀ a ∈ lo, score_at mem a < INT_MAX) :
    ∃ a ∈ lo, extract_min mem ll rank nprocs = Except.ok (some a) := by
  by_cases hlt : ll.size < nprocs * 2
  · obtain ⟨a, ha, h2⟩ := find_min_h_some mem ll lo hne h hs
    exact ⟨a, ha, by
      rw [extract_min_small mem ll lo rank nprocs h hsz hne hP hr0 hr hov h2P hlt]
      exact h2⟩
  · have hge : nprocs * 2 ≤ ll.size := by omega
    have hx := extract_min_large mem ll lo rank nprocs h hsz hP hr0 hr hov h2P hge
    obtain ⟨f0, f1, f2⟩ := range_facts rank nprocs ll.size hP hr0 hr hge
    rw [hsz] at f0 f1 f2
    obtain ⟨s1, -, -⟩ := index_range_split lo _ _ f0 (by omega) f2
    have hlen := index_range_length lo _ _ f0 (by omega) f2
    rcases scan_min_spec mem (index_range lo (rank * (lo.length : Int) / nprocs)
        ((rank + 1) * (lo.length : Int) / nprocs)) INT_MAX none with
      ⟨g1, -⟩ | ⟨pre2, b, post2, g1, g2, -, -, -⟩
    · exfalso
      cases hq : index_range lo (rank * (lo.length : Int) / nprocs)
          ((rank + 1) * (lo.length : Int) / nprocs) with
      | nil =>
        rw [hq] at hlen
        simp only [List.length_nil, Nat.cast_zero] at hlen
        omega
      | cons y ys =>
        have hy : y ∈ lo := by
          rw [s1, hq]; simp
        have := g1 y (by rw [hq]; simp)
        have := hs y hy
        omega
    · refine ⟨b, ?_, by rw [hx, g2]⟩
      rw [s1, g1]
      simp

end AStar
